import Mathlib

/-!
# P14_8 Class Management System: grade calculator and input validators

A shallow embedding of `P14_8-CMS.c`.

* A C string is the list of its characters before the terminating NUL. Each
  `Char` stands for one byte of text read in the C locale. A NUL byte typed
  into the input cuts the string that `fgets` leaves in its buffer.
* Standard input is the list of characters still to be read. A function that
  reads from it takes the stream and returns the stream that is left.
  Reading at end of input leaves the C program without a defined result (an
  unfilled buffer, or a `getchar` loop that never sees its newline), which is
  `none` here.
* Every validator writes at most one message on `stderr`; the message is the
  `Diag` component of its outcome.
* `float` and `double` values are the rationals they denote. Conversions and
  arithmetic round to nearest, ties to even, to 24 and 53 significant bits
  (IEEE 754 binary32 and binary64, every operation rounded to its C type).
  The exponent range is left unbounded: a marks buffer of six characters
  denotes 0 or a value between 0.00001 and 999999, far from overflow and
  underflow.
-/

namespace CMS

/-! ## Constants -/

/-- The constant `MAX_ID_LEN`. -/
def MAX_ID_LEN : Nat := 7

/-- The constant `MAX_NAME_LEN`. -/
def MAX_NAME_LEN : Nat := 30

/-- The constant `MAX_PROGRAMME_LEN`. -/
def MAX_PROGRAMME_LEN : Nat := 50

/-! ## Characters and C strings -/

/-- A C string: the characters before the terminating NUL. -/
abbrev CString := List Char

/-- The NUL character that ends a C string. -/
def NUL : Char := Char.ofNat 0

/-- Standard input: the characters not yet read. -/
abbrev Stdin := List Char

/-- The `isspace` of `<ctype.h>`: space, `\t`, `\n`, `\v`, `\f`, `\r`. -/
def isspace (c : Char) : Bool := c.toNat == 32 || (9 ≤ c.toNat && c.toNat ≤ 13)

/-- The `isdigit` of `<ctype.h>`. -/
def isdigit (c : Char) : Bool := 48 ≤ c.toNat && c.toNat ≤ 57

/-- The `isupper` of `<ctype.h>`. -/
def isupper (c : Char) : Bool := 65 ≤ c.toNat && c.toNat ≤ 90

/-- The `islower` of `<ctype.h>`. -/
def islower (c : Char) : Bool := 97 ≤ c.toNat && c.toNat ≤ 122

/-- The `isalpha` of `<ctype.h>`. -/
def isalpha (c : Char) : Bool := isupper c || islower c

/-- The `tolower` of `<ctype.h>`. -/
def tolower (c : Char) : Char := if isupper c then Char.ofNat (c.toNat + 32) else c

/-- The `strlen` of `<string.h>`. -/
def strlen (s : CString) : Nat := s.length

/-- The `strcasecmp` of `<strings.h>`, whose result is specified up to its
sign: zero exactly when the two strings are equal up to letter case, else
the difference of the first two characters that differ, both lowered, a
missing character counting as smaller than any other. -/
def strcasecmp : CString → CString → Int
  | [], [] => 0
  | [], _ :: _ => -1
  | _ :: _, [] => 1
  | c :: s, d :: t =>
    if tolower c = tolower d then strcasecmp s t
    else ((tolower c).toNat : Int) - ((tolower d).toNat : Int)

/-- The `strspn` of `<string.h>`: length of the longest prefix made of
characters of `accept`. -/
def strspn (s accept : CString) : Nat := (s.takeWhile (fun c => accept.contains c)).length

/-- The `strcspn` of `<string.h>`: length of the longest prefix free of
characters of `reject`. -/
def strcspn (s reject : CString) : Nat := (s.takeWhile (fun c => !reject.contains c)).length

/-- The `strncpy` of `<string.h>`, as the string found in `dest` afterwards.
A source shorter than `n` is copied with its terminator; otherwise `n`
characters are copied without one and the bytes of `dest` from `n` on stay. -/
def strncpy (dest src : CString) (n : Nat) : CString :=
  if src.length < n then src else src.take n ++ dest.drop n

/-- Value of a decimal digit character. -/
def digit_value (c : Char) : Nat := c.toNat - 48

/-- Reads decimal digits from the front of a string, continuing from `acc`. -/
def read_digits : CString → Nat → Nat
  | [], acc => acc
  | c :: s, acc => if isdigit c then read_digits s (10 * acc + digit_value c) else acc

/-- The `atoi` of `<stdlib.h>` on values that fit an `int`: leading white
space, an optional sign, then the decimal digits up to the first other
character. -/
def atoi (s : CString) : Int :=
  match s.dropWhile isspace with
  | '-' :: t => -((read_digits t 0 : Nat) : Int)
  | '+' :: t => ((read_digits t 0 : Nat) : Int)
  | t => ((read_digits t 0 : Nat) : Int)

/-! ## Floating point -/

/-- Nearest integer, ties to the even one: `f` is the floor of `q` and
`r / q.den` its fractional part. -/
def round_even (q : ℚ) : ℤ :=
  let f := q.num / (q.den : ℤ)
  let r := q.num % (q.den : ℤ)
  if 2 * r < q.den then f
  else if (q.den : ℤ) < 2 * r then f + 1
  else if f % 2 = 0 then f else f + 1

/-- Smallest `k`, from `k` on, with `n < 2 ^ 2 ^ k`. -/
def log2_width : Nat → Nat → Nat → Nat
  | 0, _, k => k
  | fuel + 1, n, k => if n < 2 ^ 2 ^ k then k else log2_width fuel n (k + 1)

/-- Position of the top bit of `n`, for `0 < n < 2 ^ 2 ^ k`, by bisection. -/
def log2_search : Nat → Nat → Nat
  | 0, _ => 0
  | k + 1, n => if 2 ^ 2 ^ k ≤ n then 2 ^ k + log2_search k (n / 2 ^ 2 ^ k) else log2_search k n

/-- Largest `k` with `2 ^ k ≤ n`, for `n > 0`. -/
def floor_log2 (n : Nat) : Nat := log2_search (log2_width n n 0) n

/-- The binary exponent of a non-zero rational: the `e` with
`2 ^ e ≤ |q| < 2 ^ (e + 1)`, which is the difference of the bit lengths of
numerator and denominator or one less. -/
def binade (q : ℚ) : ℤ :=
  let la := floor_log2 q.num.natAbs
  let lb := floor_log2 q.den
  if lb ≤ la then
    if 2 ^ (la - lb) * q.den ≤ q.num.natAbs then ((la - lb : ℕ) : ℤ)
    else ((la - lb : ℕ) : ℤ) - 1
  else
    if q.den ≤ 2 ^ (lb - la) * q.num.natAbs then -((lb - la : ℕ) : ℤ)
    else -((lb - la : ℕ) : ℤ) - 1

/-- Nearest value with a significand of `p` bits, ties to even. -/
def round_to_bits (p : ℕ) (q : ℚ) : ℚ :=
  if q = 0 then 0
  else
    let ulp : ℚ := (2 : ℚ) ^ (binade q - ((p : ℤ) - 1))
    (round_even (q / ulp) : ℚ) * ulp

/-- Conversion to `float` (binary32). -/
def to_float (q : ℚ) : ℚ := round_to_bits 24 q

/-- Conversion to `double` (binary64). -/
def to_double (q : ℚ) : ℚ := round_to_bits 53 q

/-- The `round` of `<math.h>`: nearest integer, ties away from zero. -/
def c_round (x : ℚ) : ℤ := if 0 ≤ x then ⌊x + 1 / 2⌋ else -⌊-x + 1 / 2⌋

/-- The number a decimal numeral `digits [. digits]` at the front of a string
denotes; 0 when there is no digit. -/
def decimal_value (s : CString) : ℚ :=
  let fraction : CString :=
    match s.dropWhile isdigit with
    | '.' :: t => t.takeWhile isdigit
    | _ => []
  (read_digits s 0 : ℚ) + (read_digits fraction 0 : ℚ) / (10 : ℚ) ^ fraction.length

/-- The `atof` of `<stdlib.h>` on a string of digits and dots: the `double`
nearest to the decimal numeral at the front of the string. -/
def atof (s : CString) : ℚ := to_double (decimal_value s)

/-! ## Reading a line -/

/-- Reads at most `k` characters, stopping after a newline. -/
def fgets_read : Nat → Stdin → CString × Stdin
  | 0, stdin => ([], stdin)
  | _ + 1, [] => ([], [])
  | k + 1, c :: stdin =>
    if c = '\n' then ([c], stdin)
    else ((c :: (fgets_read k stdin).1), (fgets_read k stdin).2)

/-- The call `fgets(buffer, size, stdin)`: the string found in the buffer
afterwards and the input left. The string ends at the first NUL, so a NUL
byte in the input hides what was read after it. At end of input nothing is
stored and the buffer, a local array that was never written, has no defined
content. -/
def fgets (size : Nat) (stdin : Stdin) : Option (CString × Stdin) :=
  match stdin with
  | [] => none
  | _ :: _ =>
    some ((fgets_read (size - 1) stdin).1.takeWhile (fun c => c != NUL),
      (fgets_read (size - 1) stdin).2)

/-- The loop `while ((ch = getchar()) != '\n');`. It does not end when the
input has no newline left. -/
def discard_line : Stdin → Option Stdin
  | [] => none
  | c :: stdin => if c = '\n' then some stdin else discard_line stdin

/-- The trailing-space loop of `clean_fgets`, on the reversed string: `end`
moves left over white space but stops at `start`. -/
def trim_end_rev : CString → CString
  | c :: d :: s => if isspace c then trim_end_rev (d :: s) else c :: d :: s
  | s => s

/-- The function `clean_fgets`: the cleaned buffer and the input left. -/
def clean_fgets (input : CString) (stdin : Stdin) : Option (CString × Stdin) :=
  let has_overflow : Bool := decide (strlen input > 0) && (input.getLast? != some '\n')
  let start := input.dropWhile isspace
  if start = [] then some ([], stdin)
  else
    let trimmed := (trim_end_rev start.reverse).reverse
    if has_overflow then
      match discard_line stdin with
      | none => none
      | some stdin1 => some (trimmed, stdin1)
    else some (trimmed.take (strcspn trimmed ['\n']), stdin)

/-- The function `remove_extra_spaces`, main loop: `rest` is `str[i..]` and
`out` is `str[0..j)`. -/
def remove_extra_spaces_loop : CString → CString → CString
  | [], out => out
  | c :: rest, out =>
    if !isspace c then remove_extra_spaces_loop rest (out ++ [c])
    else if out.getLast?.any (fun d => !isspace d) then remove_extra_spaces_loop rest (out ++ [' '])
    else remove_extra_spaces_loop rest out

/-- The function `remove_extra_spaces`. -/
def remove_extra_spaces (str : CString) : CString :=
  let out := remove_extra_spaces_loop (str.dropWhile isspace) []
  if out.getLast? = some ' ' then out.dropLast else out

/-! ## Validators -/

/-- The messages the validators write on `stderr`. -/
inductive Diag where
  | id_leading_zero
  | id_empty
  | id_format
  | name_too_long
  | name_empty
  | name_bad_char
  | programme_too_long
  | programme_empty
  | programme_bad_char (c : Char)
  | marks_empty
  | marks_multiple_dots
  | marks_format
  | marks_range
  | choice_invalid
  deriving DecidableEq, Repr

/-- What a validator call leaves behind: the returned status, the value of
the variable behind its pointer argument, the message written on `stderr`
and the input left. -/
structure Outcome (α : Type) where
  status : Int
  value : α
  diag : Option Diag
  stdin : Stdin
  deriving DecidableEq, Repr

/-- The function `get_id`; `id` is the value of `*id` before the call. -/
def get_id (id : Int) (stdin : Stdin) : Option (Outcome Int) :=
  match fgets (MAX_ID_LEN + 2) stdin with
  | none => none
  | some (buffer, stdin1) =>
    match clean_fgets buffer stdin1 with
    | none => none
    | some (id_input, stdin2) =>
      if id_input.head? = some '0' then some ⟨0, id, some Diag.id_leading_zero, stdin2⟩
      else if strcasecmp id_input ['Q'] = 0 then some ⟨-1, id, none, stdin2⟩
      else if strlen id_input = 0 then some ⟨0, id, some Diag.id_empty, stdin2⟩
      else if ¬(strlen id_input = MAX_ID_LEN ∧ strspn id_input "0123456789".toList = MAX_ID_LEN) then
        some ⟨0, id, some Diag.id_format, stdin2⟩
      else some ⟨1, atoi id_input, none, stdin2⟩

/-- The function `get_name`; `name` is the caller's buffer before the call. -/
def get_name (name : CString) (stdin : Stdin) : Option (Outcome CString) :=
  match fgets (MAX_NAME_LEN + 2) stdin with
  | none => none
  | some (buffer, stdin1) =>
    if strlen buffer > MAX_NAME_LEN then
      match clean_fgets buffer stdin1 with
      | none => none
      | some (_, stdin2) => some ⟨0, name, some Diag.name_too_long, stdin2⟩
    else
      match clean_fgets buffer stdin1 with
      | none => none
      | some (name_input, stdin2) =>
        if strcasecmp name_input ['Q'] = 0 then some ⟨-1, name, none, stdin2⟩
        else if strlen name_input = 0 then some ⟨0, name, some Diag.name_empty, stdin2⟩
        else
          match name_input.find? (fun c => !isalpha c && !isspace c) with
          | some _ => some ⟨0, name, some Diag.name_bad_char, stdin2⟩
          | none =>
            some ⟨1, strncpy name (remove_extra_spaces name_input) MAX_NAME_LEN, none, stdin2⟩

/-- The characters `get_programme` lets through. -/
def programme_char_ok (c : Char) : Bool :=
  isalpha c || isspace c || c == '-' || c == '&' || c == '.' || c == '(' || c == ')'

/-- The function `get_programme`; `programme` is the caller's buffer before
the call. -/
def get_programme (programme : CString) (stdin : Stdin) : Option (Outcome CString) :=
  match fgets (MAX_PROGRAMME_LEN + 2) stdin with
  | none => none
  | some (buffer, stdin1) =>
    if strlen buffer > MAX_PROGRAMME_LEN then
      match clean_fgets buffer stdin1 with
      | none => none
      | some (_, stdin2) => some ⟨0, programme, some Diag.programme_too_long, stdin2⟩
    else
      match clean_fgets buffer stdin1 with
      | none => none
      | some (programme_input, stdin2) =>
        if strcasecmp programme_input ['Q'] = 0 then some ⟨-1, programme, none, stdin2⟩
        else if strlen programme_input = 0 then
          some ⟨0, programme, some Diag.programme_empty, stdin2⟩
        else
          match programme_input.find? (fun c => !programme_char_ok c) with
          | some c => some ⟨0, programme, some (Diag.programme_bad_char c), stdin2⟩
          | none =>
            some ⟨1, strncpy programme (remove_extra_spaces programme_input) MAX_PROGRAMME_LEN,
              none, stdin2⟩

/-- The character loop of `get_marks`: the message of the first offending
character, if there is one. -/
def marks_scan : CString → Nat → Option Diag
  | [], _ => none
  | c :: s, dot_count =>
    if isdigit c then marks_scan s dot_count
    else if c = '.' then
      if dot_count = 1 then some Diag.marks_multiple_dots else marks_scan s (dot_count + 1)
    else some Diag.marks_format

/-- The function `get_marks`; `marks` is the value of `*marks` before the
call. -/
def get_marks (marks : ℚ) (stdin : Stdin) : Option (Outcome ℚ) :=
  match fgets 7 stdin with
  | none => none
  | some (buffer, stdin1) =>
    match clean_fgets buffer stdin1 with
    | none => none
    | some (marks_input, stdin2) =>
      if strcasecmp marks_input ['Q'] = 0 then some ⟨-1, marks, none, stdin2⟩
      else if strlen marks_input = 0 then some ⟨0, marks, some Diag.marks_empty, stdin2⟩
      else
        match marks_scan marks_input 0 with
        | some d => some ⟨0, marks, some d, stdin2⟩
        | none =>
          let temp_marks : ℚ := to_float (atof marks_input)
          if temp_marks < 0 ∨ temp_marks > 100 then
            some ⟨0, marks, some Diag.marks_range, stdin2⟩
          else
            some ⟨1, to_float (to_double ((c_round (to_float (temp_marks * 10)) : ℚ) / 10)),
              none, stdin2⟩

/-! ## Grade calculator -/

/-- The function `calculate_grade`. Control runs off the end of the function
when no comparison holds; the caller then gets no defined string (`none`). -/
def calculate_grade (marks : ℚ) : Option CString :=
  if marks ≥ 85 then some "A+".toList
  else if marks ≥ 80 then some "A".toList
  else if marks ≥ 75 then some "A-".toList
  else if marks ≥ 70 then some "B+".toList
  else if marks ≥ 65 then some "B".toList
  else if marks ≥ 60 then some "B-".toList
  else if marks ≥ 55 then some "C+".toList
  else if marks ≥ 50 then some "C".toList
  else if marks ≥ 45 then some "D+".toList
  else if marks ≥ 40 then some "D".toList
  else if marks ≥ 0 then some "F".toList
  else none

/-! ## Vocabulary of the specification -/

/-- Rank of a grade label in the order F < D < D+ < C < C+ < B- < B < B+ <
A- < A < A+; a missing grade ranks below all. -/
def grade_rank (g : Option CString) : Nat :=
  if g = some "F".toList then 1
  else if g = some "D".toList then 2
  else if g = some "D+".toList then 3
  else if g = some "C".toList then 4
  else if g = some "C+".toList then 5
  else if g = some "B-".toList then 6
  else if g = some "B".toList then 7
  else if g = some "B+".toList then 8
  else if g = some "A-".toList then 9
  else if g = some "A".toList then 10
  else if g = some "A+".toList then 11
  else 0

/-- The eleven grade labels. -/
def grade_labels : List CString :=
  ["A+", "A", "A-", "B+", "B", "B-", "C+", "C", "D+", "D", "F"].map String.toList

/-- A line of input without its leading and trailing white space. -/
def strip (line : CString) : CString :=
  ((line.dropWhile isspace).reverse.dropWhile isspace).reverse

/-- The input stream that starts with the line `line`, ended by a newline,
and goes on with `rest`. -/
def feed (line : CString) (rest : Stdin) : Stdin := line ++ '\n' :: rest

/-- The whitespace-collapsed form of a text: its words, the maximal runs of
characters other than white space, joined by single spaces. -/
def collapse_whitespace (line : CString) : CString :=
  [' '].intercalate ((line.splitOnP isspace).filter (fun w => !w.isEmpty))

/-- A text whose only white space is the space character, with no space at
its start and no two spaces in a row. -/
def Collapsed (l : CString) : Prop :=
  (∀ c ∈ l, isspace c = true → c = ' ') ∧ l.head? ≠ some ' ' ∧
    List.Chain' (fun a b => ¬(a = ' ' ∧ b = ' ')) l

/-! ## The record store and the operations on it -/

/-- The function `get_choice`. Its buffer holds two characters and the
terminator. -/
def get_choice (stdin : Stdin) : Option (Outcome Unit) :=
  match fgets 3 stdin with
  | none => none
  | some (buffer, stdin1) =>
    match clean_fgets buffer stdin1 with
    | none => none
    | some (choice_input, stdin2) =>
      if strcasecmp choice_input ['Y'] = 0 then some ⟨1, (), none, stdin2⟩
      else if strcasecmp choice_input ['N'] = 0 then some ⟨0, (), none, stdin2⟩
      else some ⟨-1, (), some Diag.choice_invalid, stdin2⟩

/-- A student record: a `STUDENT_NODE` without its link. -/
structure Record where
  id : Int
  name : CString
  programme : CString
  marks : ℚ
  grade : CString
  deriving DecidableEq

/-- The global variables of the program. `records` is the linked list that
starts at `head`; `tail` points at its last node in every state the program
builds (`open_db`, `insert_record` and `delete_record` keep it so), so that
linking a node behind `tail` is appending to the list. The counters are C
`int`s, taken without their upper bound. -/
structure Store where
  records : List Record
  node_count : Int
  is_file_open : Int
  is_changes_made : Int
  deriving DecidableEq

/-- The messages an operation prints, by kind. Prompts, the display of the
record an operation is about and the lines `Invalid name input` and `Invalid
programme input` of `update_record` are left out. `found l` is the table of
the records `l` that a query prints, in the order of its rows, and `shown l`
the table that `show_all_records` prints. -/
inductive Notice where
  | error (d : Diag)
  | empty_store
  | duplicate (id : Int)
  | not_found (id : Int)
  | cancelled
  | invalid_option
  | inserted
  | deleted (id : Int)
  | name_updated
  | programme_updated
  | marks_updated
  | all_updated
  | query_empty
  | query_invalid
  | no_match
  | found (l : List Record)
  | query_left
  | file_not_found
  | malformed_line
  | opened
  | saved
  | closed
  | shown (l : List Record)
  | help
  | goodbye
  | invalid_command
  deriving DecidableEq

/-- The message of a validator call, as a list of notices. -/
def diag_out (d : Option Diag) : List Notice :=
  match d with
  | some m => [Notice.error m]
  | none => []

/-- One pass through the body of a `while (1)` loop: either the loop goes
round again, with the new values `s` of its variables, or it is left (by
`break` or `return`) with the result `r`. Both carry the notices printed
during the pass and the input left after it. -/
inductive Step (α ρ : Type) where
  | again (s : α) (out : List Notice) (stdin : Stdin)
  | done (r : ρ) (out : List Notice) (stdin : Stdin)
  deriving DecidableEq

/-- The outcome of a loop or of an operation: its result, the notices it
printed, in order, and the input left. -/
structure Ran (ρ : Type) where
  result : ρ
  out : List Notice
  stdin : Stdin
  deriving DecidableEq

/-- The loop `while (1) { body }`, run for at most `fuel` passes. The value
is `none` when a read meets the end of the input, or when the passes are
used up. -/
def while_true_fuel {α ρ : Type} (body : α → Stdin → Option (Step α ρ)) :
    Nat → α → Stdin → Option (Ran ρ)
  | 0, _, _ => none
  | fuel + 1, s, stdin =>
    match body s stdin with
    | none => none
    | some (Step.done r out stdin1) => some ⟨r, out, stdin1⟩
    | some (Step.again s1 out stdin1) =>
      match while_true_fuel body fuel s1 stdin1 with
      | none => none
      | some ran => some ⟨ran.result, out ++ ran.out, ran.stdin⟩

/-- The loop `while (1) { body }`. Every pass of the loops of this program
reads at least one character, so one pass more than there are characters
is never used up. -/
def while_true {α ρ : Type} (body : α → Stdin → Option (Step α ρ)) (s : α)
    (stdin : Stdin) : Option (Ran ρ) :=
  while_true_fuel body (stdin.length + 1) s stdin

/-- The body of the loops of `insert_record` that prompt for one field:
`status = get(x); if (status == 1) break; else if (status == 0) continue;
else { ...; return; }`. The result is the status and the value of `x`. -/
def prompt_body {α : Type} (get : α → Stdin → Option (Outcome α)) (x : α)
    (stdin : Stdin) : Option (Step α (Int × α)) :=
  match get x stdin with
  | none => none
  | some r =>
    if r.status = 1 then some (Step.done (1, r.value) (diag_out r.diag) r.stdin)
    else if r.status = 0 then some (Step.again r.value (diag_out r.diag) r.stdin)
    else some (Step.done (r.status, r.value) (diag_out r.diag) r.stdin)

/-- The body of the loops of `update_record` that prompt for one field:
`status = get(x); if (status == -1) { ...; break; } if (status == 0)
continue; ...`. The result is the status and the value of `x`. -/
def update_prompt_body {α : Type} (get : α → Stdin → Option (Outcome α)) (x : α)
    (stdin : Stdin) : Option (Step α (Int × α)) :=
  match get x stdin with
  | none => none
  | some r =>
    if r.status = -1 then some (Step.done (-1, r.value) (diag_out r.diag) r.stdin)
    else if r.status = 0 then some (Step.again r.value (diag_out r.diag) r.stdin)
    else some (Step.done (r.status, r.value) (diag_out r.diag) r.stdin)

/-- The body of the confirmation loops: `choice = get_choice(); if (choice
== 1) ...; if (choice == 0) ...;`, going round again on any other status.
The result is the status. -/
def confirm_body (_ : Unit) (stdin : Stdin) : Option (Step Unit Int) :=
  match get_choice stdin with
  | none => none
  | some r =>
    if r.status = 1 then some (Step.done 1 (diag_out r.diag) r.stdin)
    else if r.status = 0 then some (Step.done 0 (diag_out r.diag) r.stdin)
    else some (Step.again () (diag_out r.diag) r.stdin)

/-- The scan `while (current) { if (current->id == id) ...; current =
current->next; }`: the position of the first record with that id. -/
def find_index (id : Int) : List Record → Option Nat
  | [] => none
  | r :: rest =>
    if r.id = id then some 0
    else
      match find_index id rest with
      | none => none
      | some k => some (k + 1)

/-- The list with the record at position `k` replaced by its image. -/
def modify_at (f : Record → Record) : Nat → List Record → List Record
  | _, [] => []
  | 0, r :: rest => f r :: rest
  | k + 1, r :: rest => r :: modify_at f k rest

/-- The list without the record at position `k`: the unlinking done by
`delete_record`. -/
def unlink_at : Nat → List Record → List Record
  | _, [] => []
  | 0, _ :: rest => rest
  | k + 1, r :: rest => r :: unlink_at k rest

/-- The body of the first loop of `insert_record`, which prompts for the
id and scans the list for a record that has it. The loop is left by `break`
with the id, or by `return` with nothing. -/
def insert_id_body (records : List Record) (id : Int) (stdin : Stdin) :
    Option (Step Int (Option Int)) :=
  match get_id id stdin with
  | none => none
  | some r =>
    if r.status = 1 then
      match find_index r.value records with
      | some _ => some (Step.again r.value [Notice.duplicate r.value] r.stdin)
      | none => some (Step.done (some r.value) [] r.stdin)
    else if r.status = 0 then some (Step.again r.value (diag_out r.diag) r.stdin)
    else some (Step.done none [] r.stdin)

/-- The end of `insert_record`, after the confirmation: the new node is
filled and linked behind the last one. `malloc` is taken to succeed, and
the bytes of the fresh node to be zero. The value is `none` when
`calculate_grade` returns nothing to copy. -/
def insert_node (st : Store) (id : Int) (name programme : CString) (marks : ℚ) :
    Option Store :=
  match calculate_grade marks with
  | none => none
  | some grade =>
    some { records := st.records ++
             [⟨id, strncpy [] name MAX_NAME_LEN,
               strncpy [] programme MAX_PROGRAMME_LEN, marks, grade⟩],
           node_count := st.node_count + 1,
           is_file_open := st.is_file_open,
           is_changes_made := 1 }

/-- The function `insert_record`. The local variables start empty; none is
read before a validator has written it. -/
def insert_record (st : Store) (stdin : Stdin) : Option (Ran Store) :=
  match while_true (insert_id_body st.records) 0 stdin with
  | none => none
  | some a =>
    match a.result with
    | none => some ⟨st, a.out ++ [Notice.cancelled], a.stdin⟩
    | some id =>
    match while_true (prompt_body get_name) [] a.stdin with
    | none => none
    | some b =>
      if b.result.1 ≠ 1 then
        some ⟨st, a.out ++ b.out ++ [Notice.cancelled], b.stdin⟩
      else
      match while_true (prompt_body get_programme) [] b.stdin with
      | none => none
      | some c =>
        if c.result.1 ≠ 1 then
          some ⟨st, a.out ++ b.out ++ c.out ++ [Notice.cancelled], c.stdin⟩
        else
        match while_true (prompt_body get_marks) 0 c.stdin with
        | none => none
        | some d =>
          if d.result.1 ≠ 1 then
            some ⟨st, a.out ++ b.out ++ c.out ++ d.out ++ [Notice.cancelled], d.stdin⟩
          else
          match while_true confirm_body () d.stdin with
          | none => none
          | some e =>
            if e.result ≠ 1 then
              some ⟨st, a.out ++ b.out ++ c.out ++ d.out ++ e.out ++ [Notice.cancelled],
                e.stdin⟩
            else
            match insert_node st id b.result.2 c.result.2 d.result.2 with
            | none => none
            | some st1 =>
              some ⟨st1, a.out ++ b.out ++ c.out ++ d.out ++ e.out ++ [Notice.inserted],
                e.stdin⟩

/-- The end of `delete_record`, after the confirmation: the node at
position `k` is unlinked and freed. -/
def delete_node (st : Store) (k : Nat) : Store :=
  { records := unlink_at k st.records,
    node_count := st.node_count - 1,
    is_file_open := st.is_file_open,
    is_changes_made := 1 }

/-- The body of the loop of `delete_record`. -/
def delete_body (st : Store) (id : Int) (stdin : Stdin) : Option (Step Int Store) :=
  match get_id id stdin with
  | none => none
  | some r =>
    if r.status = -1 then some (Step.done st [Notice.cancelled] r.stdin)
    else if r.status = 0 then some (Step.again r.value (diag_out r.diag) r.stdin)
    else
      match find_index r.value st.records with
      | none => some (Step.again r.value [Notice.not_found r.value] r.stdin)
      | some k =>
        match while_true confirm_body () r.stdin with
        | none => none
        | some c =>
          if c.result = 1 then
            some (Step.done (delete_node st k) (c.out ++ [Notice.deleted r.value]) c.stdin)
          else some (Step.done st (c.out ++ [Notice.cancelled]) c.stdin)

/-- The function `delete_record`. -/
def delete_record (st : Store) (stdin : Stdin) : Option (Ran Store) :=
  if st.records = [] then some ⟨st, [Notice.empty_store], stdin⟩
  else while_true (delete_body st) 0 stdin

/-- The local variables `name`, `programme` and `marks` of `update_record`. -/
structure Locals where
  name : CString
  programme : CString
  marks : ℚ
  deriving DecidableEq

/-- The assignment `strncpy(current->name, name, MAX_NAME_LEN)`. -/
def set_name (name : CString) (r : Record) : Record :=
  { r with name := strncpy r.name name MAX_NAME_LEN }

/-- The assignment `strncpy(current->programme, programme,
MAX_PROGRAMME_LEN)`. -/
def set_programme (programme : CString) (r : Record) : Record :=
  { r with programme := strncpy r.programme programme MAX_PROGRAMME_LEN }

/-- The assignments `current->marks = marks; strcpy(current->grade,
calculate_grade(marks))`, for the label `grade` that `calculate_grade`
returned. -/
def set_marks (marks : ℚ) (grade : CString) (r : Record) : Record :=
  { r with marks := marks, grade := grade }

/-- The store after the record at position `k` went through `f` and
`is_changes_made` was set. -/
def commit_at (st : Store) (k : Nat) (f : Record → Record) : Store :=
  { records := modify_at f k st.records,
    node_count := st.node_count,
    is_file_open := st.is_file_open,
    is_changes_made := 1 }

/-- Option 1 of the update menu, for the record at position `k`. -/
def update_name (k : Nat) (st : Store) (l : Locals) (stdin : Stdin) :
    Option (Step (Store × Locals) Store) :=
  match while_true (update_prompt_body get_name) l.name stdin with
  | none => none
  | some p =>
    if p.result.1 = -1 then
      some (Step.again (st, { l with name := p.result.2 }) (p.out ++ [Notice.cancelled])
        p.stdin)
    else
      match while_true confirm_body () p.stdin with
      | none => none
      | some c =>
        if c.result = 1 then
          some (Step.again (commit_at st k (set_name p.result.2),
            { l with name := p.result.2 }) (p.out ++ c.out ++ [Notice.name_updated]) c.stdin)
        else
          some (Step.again (st, { l with name := p.result.2 })
            (p.out ++ c.out ++ [Notice.cancelled]) c.stdin)

/-- Option 2 of the update menu, for the record at position `k`. -/
def update_programme (k : Nat) (st : Store) (l : Locals) (stdin : Stdin) :
    Option (Step (Store × Locals) Store) :=
  match while_true (update_prompt_body get_programme) l.programme stdin with
  | none => none
  | some p =>
    if p.result.1 = -1 then
      some (Step.again (st, { l with programme := p.result.2 })
        (p.out ++ [Notice.cancelled]) p.stdin)
    else
      match while_true confirm_body () p.stdin with
      | none => none
      | some c =>
        if c.result = 1 then
          some (Step.again (commit_at st k (set_programme p.result.2),
            { l with programme := p.result.2 })
            (p.out ++ c.out ++ [Notice.programme_updated]) c.stdin)
        else
          some (Step.again (st, { l with programme := p.result.2 })
            (p.out ++ c.out ++ [Notice.cancelled]) c.stdin)

/-- Option 3 of the update menu, for the record at position `k`. The value
is `none` also when `calculate_grade` returns nothing to copy. -/
def update_marks (k : Nat) (st : Store) (l : Locals) (stdin : Stdin) :
    Option (Step (Store × Locals) Store) :=
  match while_true (update_prompt_body get_marks) l.marks stdin with
  | none => none
  | some p =>
    if p.result.1 = -1 then
      some (Step.again (st, { l with marks := p.result.2 }) (p.out ++ [Notice.cancelled])
        p.stdin)
    else
      match while_true confirm_body () p.stdin with
      | none => none
      | some c =>
        if c.result = 1 then
          match calculate_grade p.result.2 with
          | none => none
          | some grade =>
            some (Step.again (commit_at st k (set_marks p.result.2 grade),
              { l with marks := p.result.2 })
              (p.out ++ c.out ++ [Notice.marks_updated]) c.stdin)
        else
          some (Step.again (st, { l with marks := p.result.2 })
            (p.out ++ c.out ++ [Notice.cancelled]) c.stdin)

/-- Option 4 of the update menu, for the record at position `k`. The value
is `none` also when `calculate_grade` returns nothing to copy. -/
def update_all (k : Nat) (st : Store) (l : Locals) (stdin : Stdin) :
    Option (Step (Store × Locals) Store) :=
  match while_true (update_prompt_body get_name) l.name stdin with
  | none => none
  | some a =>
    if a.result.1 = -1 then
      some (Step.again (st, { l with name := a.result.2 }) (a.out ++ [Notice.cancelled])
        a.stdin)
    else
    match while_true (update_prompt_body get_programme) l.programme a.stdin with
    | none => none
    | some b =>
      if b.result.1 = -1 then
        some (Step.again (st, { l with name := a.result.2, programme := b.result.2 })
          (a.out ++ b.out ++ [Notice.cancelled]) b.stdin)
      else
      match while_true (update_prompt_body get_marks) l.marks b.stdin with
      | none => none
      | some c =>
        if c.result.1 = -1 then
          some (Step.again (st, ⟨a.result.2, b.result.2, c.result.2⟩)
            (a.out ++ b.out ++ c.out ++ [Notice.cancelled]) c.stdin)
        else
        match while_true confirm_body () c.stdin with
        | none => none
        | some e =>
          if e.result = 1 then
            match calculate_grade c.result.2 with
            | none => none
            | some grade =>
              some (Step.done
                (commit_at st k (fun r =>
                  set_marks c.result.2 grade
                    (set_programme b.result.2 (set_name a.result.2 r))))
                (a.out ++ b.out ++ c.out ++ e.out ++ [Notice.all_updated]) e.stdin)
          else
            some (Step.again (st, ⟨a.result.2, b.result.2, c.result.2⟩)
              (a.out ++ b.out ++ c.out ++ e.out ++ [Notice.cancelled]) e.stdin)

/-- The body of the menu loop of `update_record`, entered with `current`
at position `k`. The loop variables are the store and the local
variables. -/
def update_menu_body (k : Nat) (s : Store × Locals) (stdin : Stdin) :
    Option (Step (Store × Locals) Store) :=
  match fgets 3 stdin with
  | none => none
  | some (buffer, stdin1) =>
    match clean_fgets buffer stdin1 with
    | none => none
    | some (option, stdin2) =>
      if option = ['1'] then update_name k s.1 s.2 stdin2
      else if option = ['2'] then update_programme k s.1 s.2 stdin2
      else if option = ['3'] then update_marks k s.1 s.2 stdin2
      else if option = ['4'] then update_all k s.1 s.2 stdin2
      else if strcasecmp option ['q'] = 0 then some (Step.done s.1 [Notice.cancelled] stdin2)
      else some (Step.again s [Notice.invalid_option] stdin2)

/-- The body of the outer loop of `update_record`. The menu loop is only
left by `return`, so that the scan never goes past the first record with
the id. -/
def update_body (st : Store) (id : Int) (stdin : Stdin) : Option (Step Int Store) :=
  match get_id id stdin with
  | none => none
  | some r =>
    if r.status = -1 then some (Step.done st [Notice.cancelled] r.stdin)
    else if r.status = 0 then some (Step.again r.value (diag_out r.diag) r.stdin)
    else
      match find_index r.value st.records with
      | none => some (Step.again r.value [Notice.not_found r.value] r.stdin)
      | some k =>
        match while_true (update_menu_body k) (st, ⟨[], [], 0⟩) r.stdin with
        | none => none
        | some m => some (Step.done m.result m.out m.stdin)

/-- The function `update_record`. -/
def update_record (st : Store) (stdin : Stdin) : Option (Ran Store) :=
  if st.records = [] then some ⟨st, [Notice.empty_store], stdin⟩
  else while_true (update_body st) 0 stdin

/-- The store a pass through the update menu leaves. -/
def Step.store : Step (Store × Locals) Store → Store
  | Step.again s _ _ => s.1
  | Step.done r _ _ => r

/-- The notices a pass through a loop body printed. -/
def Step.notices {α ρ : Type} : Step α ρ → List Notice
  | Step.again _ out _ => out
  | Step.done _ out _ => out

/-- The input left after a pass through a loop body. -/
def Step.input {α ρ : Type} : Step α ρ → Stdin
  | Step.again _ _ stdin => stdin
  | Step.done _ _ stdin => stdin

/-- A value that some call of the validator `get` accepted: the call
returned status 1 and left the value in its argument. -/
def Accepted {α : Type} (get : α → Stdin → Option (Outcome α)) (v : α) : Prop :=
  ∃ x stdin r, get x stdin = some r ∧ r.status = 1 ∧ r.value = v

/-- Notices that are all messages of validator calls. -/
def only_errors (out : List Notice) : Prop := ∀ n ∈ out, ∃ d, n = Notice.error d

/-- Two records, for examples. -/
def sample_ada : Record :=
  ⟨2301234, "Ada Lim".toList, "Computer Science".toList, 85, "A+".toList⟩

def sample_bob : Record :=
  ⟨2301235, "Bob Tan".toList, "Data Science".toList, 40, "D".toList⟩

/-- A store of two records, for examples. -/
def sample_store : Store := ⟨[sample_ada, sample_bob], 2, 1, 0⟩

/-- The test `strstr(haystack, needle) != NULL`. -/
def strstr : CString → CString → Bool
  | [], needle => needle.isEmpty
  | c :: rest, needle => needle.isPrefixOf (c :: rest) || strstr rest needle

/-- The text `snprintf(id_str, sizeof(id_str), "%d", id)` writes. -/
def decimal_text (id : Int) : CString :=
  if id < 0 then '-' :: Nat.toDigits 10 id.natAbs else Nat.toDigits 10 id.toNat

/-- The row of a display that `display_press_enter` waits behind: the text
typed up to the next newline is read and dropped. -/
def display_press_enter (stdin : Stdin) : Option Stdin := discard_line stdin

/-- The end of the loop of each query option: without a matching record the
loop goes round again; otherwise the table is printed, `display_press_enter`
is called and the loop is left. -/
def query_report (matching : List Record) (stdin : Stdin) : Option (Step Unit Unit) :=
  if matching = [] then some (Step.again () [Notice.no_match] stdin)
  else
    match display_press_enter stdin with
    | none => none
    | some stdin1 => some (Step.done () [Notice.found matching] stdin1)

/-- The body of the loop of option 1 of `query_record`, the query by
student id. -/
def query_id_body (records : List Record) (_ : Unit) (stdin : Stdin) :
    Option (Step Unit Unit) :=
  match fgets 10 stdin with
  | none => none
  | some (buffer, stdin1) =>
    match clean_fgets buffer stdin1 with
    | none => none
    | some (id_input, stdin2) =>
      if strcasecmp id_input ['q'] = 0 then some (Step.done () [Notice.cancelled] stdin2)
      else if strlen id_input = 0 then some (Step.again () [Notice.query_empty] stdin2)
      else if strlen id_input > 7 ∨ ¬ id_input.all isdigit then
        some (Step.again () [Notice.query_invalid] stdin2)
      else
        query_report (records.filter (fun r => strstr (decimal_text r.id) id_input)) stdin2

/-- The body of the loops of options 2 and 3 of `query_record`, the queries
by name and by programme, which differ in the field looked at and in the
length allowed for the search term. -/
def query_text_body (limit : Nat) (field : Record → CString) (records : List Record)
    (_ : Unit) (stdin : Stdin) : Option (Step Unit Unit) :=
  match fgets 100 stdin with
  | none => none
  | some (buffer, stdin1) =>
    match clean_fgets buffer stdin1 with
    | none => none
    | some (text, stdin2) =>
      if strcasecmp text ['q'] = 0 then some (Step.done () [Notice.cancelled] stdin2)
      else if strlen text = 0 then some (Step.again () [Notice.query_empty] stdin2)
      else if strlen text > limit ∨ ¬ text.all (fun c => isalpha c || c == ' ') then
        some (Step.again () [Notice.query_invalid] stdin2)
      else
        query_report
          (records.filter (fun r => strstr ((field r).map tolower) (text.map tolower))) stdin2

/-- The test of the grade query on the grade `current` of a record, for the
search term `grade`. -/
def grade_query_match (grade current : CString) : Bool :=
  strcasecmp current grade = 0 ||
  ((strcasecmp grade ['A'] = 0 &&
      (strcasecmp current ['A', '+'] = 0 || strcasecmp current ['A', '-'] = 0 ||
        strcasecmp current ['A'] = 0)) ||
    (strcasecmp grade ['B'] = 0 &&
      (strcasecmp current ['B', '+'] = 0 || strcasecmp current ['B', '-'] = 0 ||
        strcasecmp current ['B'] = 0)) ||
    (strcasecmp grade ['C'] = 0 &&
      (strcasecmp current ['C', '+'] = 0 || strcasecmp current ['C'] = 0)) ||
    (strcasecmp grade ['D'] = 0 &&
      (strcasecmp current ['D', '+'] = 0 || strcasecmp current ['D'] = 0)) ||
    (strcasecmp grade ['F'] = 0 && strcasecmp current ['F'] = 0))

/-- The body of the loop of option 4 of `query_record`, the query by
grade. -/
def query_grade_body (records : List Record) (_ : Unit) (stdin : Stdin) :
    Option (Step Unit Unit) :=
  match fgets 5 stdin with
  | none => none
  | some (buffer, stdin1) =>
    match clean_fgets buffer stdin1 with
    | none => none
    | some (grade, stdin2) =>
      if strcasecmp grade ['q'] = 0 then some (Step.done () [Notice.cancelled] stdin2)
      else if strlen grade = 0 then some (Step.again () [Notice.query_empty] stdin2)
      else if ¬ grade_labels.any (fun l => strcasecmp grade l = 0) then
        some (Step.again () [Notice.query_invalid] stdin2)
      else
        query_report (records.filter (fun r => grade_query_match grade r.grade)) stdin2

/-- A loop of a query option, run from the menu of `query_record`: when it
is left the menu is shown again. -/
def query_option (body : Unit → Stdin → Option (Step Unit Unit)) (stdin : Stdin) :
    Option (Step Unit Unit) :=
  match while_true body () stdin with
  | none => none
  | some ran => some (Step.again () ran.out ran.stdin)

/-- The body of the menu loop of `query_record`. -/
def query_menu_body (records : List Record) (_ : Unit) (stdin : Stdin) :
    Option (Step Unit Unit) :=
  match fgets 3 stdin with
  | none => none
  | some (buffer, stdin1) =>
    match clean_fgets buffer stdin1 with
    | none => none
    | some (option, stdin2) =>
      if option = ['1'] then query_option (query_id_body records) stdin2
      else if option = ['2'] then
        query_option (query_text_body 30 (fun r => r.name) records) stdin2
      else if option = ['3'] then
        query_option (query_text_body 50 (fun r => r.programme) records) stdin2
      else if option = ['4'] then query_option (query_grade_body records) stdin2
      else if strcasecmp option ['q'] = 0 then some (Step.done () [Notice.query_left] stdin2)
      else some (Step.again () [Notice.invalid_option] stdin2)

/-- The function `query_record`. It reads the list and assigns to no global
variable: the store it leaves is the one it was given. -/
def query_record (st : Store) (stdin : Stdin) : Option (Ran Store) :=
  if st.records = [] then some ⟨st, [Notice.empty_store], stdin⟩
  else
    match while_true (query_menu_body st.records) () stdin with
    | none => none
    | some ran => some ⟨st, ran.out, ran.stdin⟩

/-! ## The backing file -/

/-- The characters of a file that are still to be read. -/
abbrev File := List Char

/-- The function `skip_header_lines`, for `n` lines still to skip: each call
of `fgets` takes up to 127 characters of a line, and the loop is left at the
end of the file. -/
def skip_header_lines : Nat → File → File
  | 0, file => file
  | _ + 1, [] => []
  | n + 1, c :: file => skip_header_lines n (fgets_read 127 (c :: file)).2

/-- One conversion of `fscanf`: the value stored and the characters left,
or, when nothing matched, the characters left. -/
inductive Scan (α : Type) where
  | ok (value : α) (rest : File)
  | fail (rest : File)

/-- The conversion `%7d` on a file that starts with no white space: an
optional sign and decimal digits, seven characters at most. -/
def scan_int (file : File) : Scan Int :=
  match file with
  | '-' :: t =>
    if (t.take 6).takeWhile isdigit = [] then Scan.fail t
    else Scan.ok (-((read_digits ((t.take 6).takeWhile isdigit) 0 : Nat) : Int))
      (t.drop ((t.take 6).takeWhile isdigit).length)
  | '+' :: t =>
    if (t.take 6).takeWhile isdigit = [] then Scan.fail t
    else Scan.ok ((read_digits ((t.take 6).takeWhile isdigit) 0 : Nat) : Int)
      (t.drop ((t.take 6).takeWhile isdigit).length)
  | t =>
    if (t.take 7).takeWhile isdigit = [] then Scan.fail t
    else Scan.ok ((read_digits ((t.take 7).takeWhile isdigit) 0 : Nat) : Int)
      (t.drop ((t.take 7).takeWhile isdigit).length)

/-- The conversions `%30[^,]` and `%50[^,]`: at least one and at most `n`
characters other than a comma. The string stored ends at the first NUL. -/
def scan_set (n : Nat) (file : File) : Scan CString :=
  if (file.take n).takeWhile (fun c => c != ',') = [] then Scan.fail file
  else Scan.ok (((file.take n).takeWhile (fun c => c != ',')).takeWhile (fun c => c != NUL))
    (file.drop ((file.take n).takeWhile (fun c => c != ',')).length)

/-- A file without the sign it starts with, if it starts with one. -/
def skip_sign (file : File) : File :=
  match file with
  | '-' :: t => t
  | '+' :: t => t
  | t => t

/-- The digits behind the point a file starts with, if it starts with
one. -/
def fraction_digits (file : File) : CString :=
  match file with
  | '.' :: t => t.takeWhile isdigit
  | _ => []

/-- A file without the point it starts with and the digits behind it, if it
starts with a point. -/
def skip_fraction (file : File) : File :=
  match file with
  | '.' :: t => t.drop (t.takeWhile isdigit).length
  | t => t

/-- The conversion `%f`: white space, an optional sign, and a decimal
numeral `digits [. digits]` or `. digits`, stored as the nearest `float`.
Numerals with an exponent or in hexadecimal and the words for infinity and
not-a-number are left out: the value is `none` where one could start. So is
the zero with a minus sign, which a rational does not tell from zero. -/
def scan_float (file : File) : Option (Scan ℚ) :=
  let start := file.dropWhile isspace
  let negative : Bool := start.head? == some '-'
  let unsigned : File := skip_sign start
  let whole := unsigned.takeWhile isdigit
  let after_whole := unsigned.drop whole.length
  let fraction : CString := fraction_digits after_whole
  let rest : File := skip_fraction after_whole
  if whole = [] ∧ fraction = [] then
    if unsigned.head?.any (fun c => c == 'i' || c == 'I' || c == 'n' || c == 'N') then none
    else some (Scan.fail rest)
  else if rest.head?.any (fun c => c == 'e' || c == 'E') then none
  else if whole = ['0'] ∧ after_whole.head?.any (fun c => c == 'x' || c == 'X') then none
  else
    let value : ℚ :=
      (read_digits whole 0 : ℚ) + (read_digits fraction 0 : ℚ) / (10 : ℚ) ^ fraction.length
    if negative = true ∧ value = 0 then none
    else some (Scan.ok (to_float (if negative then -value else value)) rest)

/-- The conversion `%s` into the array `grade` of three bytes: white space,
then the characters up to the next white space. The value is `none` when
they do not fit the array. -/
def scan_word (file : File) : Option (Scan CString) :=
  let start := file.dropWhile isspace
  let word := start.takeWhile (fun c => !isspace c)
  if word = [] then some (Scan.fail start)
  else if word.length > 2 then none
  else some (Scan.ok (word.takeWhile (fun c => c != NUL)) (start.drop word.length))

/-- What a call `fscanf(file_ptr, "%7d,%30[^,],%50[^,],%f,%s", ...)` of
`open_db` comes to: the end of the file before anything was converted, a
line that does not give five values, or a record. -/
inductive Scanned where
  | eof
  | malformed (rest : File)
  | record (r : Record) (rest : File)

/-- The call `fscanf(file_ptr, "%7d,%30[^,],%50[^,],%f,%s", ...)`. -/
def scan_record (file : File) : Option Scanned :=
  match file.dropWhile isspace with
  | [] => some Scanned.eof
  | c :: t =>
    match scan_int (c :: t) with
    | Scan.fail rest => some (Scanned.malformed rest)
    | Scan.ok id (',' :: f2) =>
      match scan_set MAX_NAME_LEN f2 with
      | Scan.fail rest => some (Scanned.malformed rest)
      | Scan.ok name (',' :: f4) =>
        match scan_set MAX_PROGRAMME_LEN f4 with
        | Scan.fail rest => some (Scanned.malformed rest)
        | Scan.ok programme (',' :: f6) =>
          match scan_float f6 with
          | none => none
          | some (Scan.fail rest) => some (Scanned.malformed rest)
          | some (Scan.ok marks (',' :: f8)) =>
            match scan_word f8 with
            | none => none
            | some (Scan.fail rest) => some (Scanned.malformed rest)
            | some (Scan.ok grade rest) =>
              some (Scanned.record ⟨id, name, programme, marks, grade⟩ rest)
          | some (Scan.ok _ rest) => some (Scanned.malformed rest)
        | Scan.ok _ rest => some (Scanned.malformed rest)
      | Scan.ok _ rest => some (Scanned.malformed rest)
    | Scan.ok _ rest => some (Scanned.malformed rest)

/-- The body of the loop of `open_db`, which reads the file left. `malloc`
is taken to succeed. After a malformed line `fgets` takes up to 255
characters of what is left of the line. -/
def open_body (st : Store) (file : File) : Option (Step Store Store) :=
  match scan_record file with
  | none => none
  | some Scanned.eof => some (Step.done st [] file)
  | some (Scanned.malformed rest) =>
    some (Step.again st [Notice.malformed_line] (fgets_read 255 rest).2)
  | some (Scanned.record r rest) =>
    some (Step.again ⟨st.records ++ [r], st.node_count + 1, st.is_file_open,
      st.is_changes_made⟩ [] rest)

/-- The function `open_db`, for the content `file` of the backing file, or
`none` when `fopen` fails: the store left and the notices printed. -/
def open_db (file : Option File) (st : Store) : Option (Store × List Notice) :=
  match file with
  | none => some (st, [Notice.file_not_found])
  | some content =>
    match while_true open_body st (skip_header_lines 5 content) with
    | none => none
    | some ran =>
      some (⟨ran.result.records, ran.result.node_count, 1, ran.result.is_changes_made⟩,
        ran.out ++ [Notice.opened])

/-- The function `save_db`, as far as the store goes; `writable` tells
whether `fopen` succeeds. -/
def save_db (writable : Bool) (st : Store) : Store × List Notice :=
  if writable then
    (⟨st.records, st.node_count, st.is_file_open, 0⟩, [Notice.saved])
  else (st, [Notice.file_not_found])

/-- The function `reset_list`. -/
def reset_list (st : Store) : Store :=
  ⟨[], 0, st.is_file_open, st.is_changes_made⟩

/-- The end of `close_db`, after the confirmation. -/
def close_store (st : Store) : Store :=
  ⟨(if st.records ≠ [] then reset_list st else st).records,
    (if st.records ≠ [] then reset_list st else st).node_count, 0, 0⟩

/-- The function `close_db`. -/
def close_db (st : Store) (stdin : Stdin) : Option (Ran Store) :=
  if st.is_changes_made = 1 then
    match while_true confirm_body () stdin with
    | none => none
    | some c =>
      if c.result = 1 then some ⟨close_store st, c.out ++ [Notice.closed], c.stdin⟩
      else some ⟨st, c.out ++ [Notice.cancelled], c.stdin⟩
  else some ⟨close_store st, [Notice.closed], stdin⟩

/-- The store the program starts with. -/
def initial_store : Store := ⟨[], 0, 0, 0⟩

/-- The stores the program can come to from the one it starts with by
calls of `open_db`, `insert_record`, `query_record`, `update_record`,
`delete_record`, `save_db` and `close_db`, in any order, on any input and
any content of the backing file. -/
inductive Reachable : Store → Prop where
  | initial : Reachable initial_store
  | open_db (st : Store) (file : Option File) (r : Store × List Notice) :
      Reachable st → open_db file st = some r → Reachable r.1
  | insert_record (st : Store) (stdin : Stdin) (r : Ran Store) :
      Reachable st → insert_record st stdin = some r → Reachable r.result
  | query_record (st : Store) (stdin : Stdin) (r : Ran Store) :
      Reachable st → query_record st stdin = some r → Reachable r.result
  | update_record (st : Store) (stdin : Stdin) (r : Ran Store) :
      Reachable st → update_record st stdin = some r → Reachable r.result
  | delete_record (st : Store) (stdin : Stdin) (r : Ran Store) :
      Reachable st → delete_record st stdin = some r → Reachable r.result
  | save_db (st : Store) (writable : Bool) :
      Reachable st → Reachable (save_db writable st).1
  | close_db (st : Store) (stdin : Stdin) (r : Ran Store) :
      Reachable st → close_db st stdin = some r → Reachable r.result

/-- A record whose grade is the one `calculate_grade` gives for its
marks. -/
def Consistent (r : Record) : Prop := calculate_grade r.marks = some r.grade

/-- A file of two data lines with the same id, for examples. -/
def sample_file : File :=
  ("==============================\nFile Name: P14_8-CMS.txt\n" ++
    "Database Name: StudentRecords\n==============================\n" ++
    "[ID],[Name],[Programme],[Marks],[Grade]\n" ++
    "2301234,Ada Lim,Computer Science,85.0,A+\n" ++
    "2301234,Bob Tan,Data Science,40.0,D\n").toList

/-! ## Saving, and the commands of the main menu -/

/-- The conversion `%.1f` of `printf`, for the value of a `float` (passed
as the `double` of the same value): the sign, the digits of the whole part
and one digit behind the point, the value being rounded to the nearest
tenth, a value half way between two tenths to the one with the even digit.
A zero prints without a sign. -/
def print_tenths (x : ℚ) : CString :=
  (if x < 0 then ['-'] else []) ++
    (Nat.toDigits 10 ((round_even (|x| * 10)).toNat / 10) ++
      '.' :: Nat.toDigits 10 ((round_even (|x| * 10)).toNat % 10))

/-- The line `save_db` writes for a record, with the format
`"%d,%s,%s,%.1f,%s\n"`. -/
def record_line (r : Record) : File :=
  decimal_text r.id ++ (',' :: (r.name ++ (',' :: (r.programme ++
    (',' :: (print_tenths r.marks ++ (',' :: (r.grade ++ ['\n']))))))))

/-- The five header lines `save_db` writes. -/
def file_header : File :=
  ("==============================\nFile Name: P14_8-CMS.txt\n" ++
    "Database Name: StudentRecords\n==============================\n" ++
    "[ID],[Name],[Programme],[Marks],[Grade]\n").toList

/-- The text `save_db` writes to the file: the header, then one line for
each record of the list, from `head` on. -/
def save_text (records : List Record) : File :=
  file_header ++ (records.map record_line).flatten

/-- The backing file after `save_db`, `disk` being the file before it, if
there is one: the text written when `fopen` succeeds, else what it was. -/
def saved_file (writable : Bool) (st : Store) (disk : Option File) : Option File :=
  if writable then some (save_text st.records) else disk

/-- The function `show_all_records`. -/
def show_all_records (st : Store) (stdin : Stdin) : Option (Ran Store) :=
  if st.records = [] then some ⟨st, [Notice.empty_store], stdin⟩
  else (display_press_enter stdin).map (fun s => ⟨st, [Notice.shown st.records], s⟩)

/-- How a command leaves the program: the main loop goes on with the store,
or `exit` has ended the program. -/
inductive Flow where
  | next (st : Store)
  | stop (st : Store)
  deriving DecidableEq

/-- The store a command leaves. -/
def Flow.store : Flow → Store
  | Flow.next st => st
  | Flow.stop st => st

/-- The outcome of a command that returns to the main loop. -/
def resume (r : Ran Store) : Ran Flow := ⟨Flow.next r.result, r.out, r.stdin⟩

/-- The function that runs a command of the main menu (`run_cmd` in the
source), for the command text `cmd`. `file` is the content of the backing
file, `none` when it cannot be opened for reading, and `writable` tells
whether it can be opened for writing. -/
def run_command (cmd : CString) (st : Store) (file : Option File) (writable : Bool)
    (stdin : Stdin) : Option (Ran Flow) :=
  if st.is_file_open ≠ 0 then
    if cmd = ['1'] ∨ strcasecmp cmd "SHOW ALL".toList = 0 then
      (show_all_records st stdin).map resume
    else if cmd = ['2'] ∨ strcasecmp cmd "INSERT".toList = 0 then
      (insert_record st stdin).map resume
    else if cmd = ['3'] ∨ strcasecmp cmd "QUERY".toList = 0 then
      (query_record st stdin).map resume
    else if cmd = ['4'] ∨ strcasecmp cmd "UPDATE".toList = 0 then
      (update_record st stdin).map resume
    else if cmd = ['5'] ∨ strcasecmp cmd "DELETE".toList = 0 then
      (delete_record st stdin).map resume
    else if cmd = ['6'] ∨ strcasecmp cmd "SAVE".toList = 0 then
      some ⟨Flow.next (save_db writable st).1, (save_db writable st).2, stdin⟩
    else if cmd = ['7'] ∨ strcasecmp cmd "CLOSE".toList = 0 then
      (close_db st stdin).map resume
    else if cmd = ['8'] ∨ strcasecmp cmd "EXIT".toList = 0 then
      some ⟨Flow.stop st, [Notice.goodbye], stdin⟩
    else if cmd = ['9'] ∨ strcasecmp cmd "HELP".toList = 0 then
      (display_press_enter stdin).map (fun s => ⟨Flow.next st, [Notice.help], s⟩)
    else some ⟨Flow.next st, [Notice.invalid_command], stdin⟩
  else
    if cmd = ['1'] ∨ strcasecmp cmd "OPEN".toList = 0 then
      (open_db file st).map (fun r => ⟨Flow.next r.1, r.2, stdin⟩)
    else if cmd = ['2'] ∨ strcasecmp cmd "EXIT".toList = 0 then
      some ⟨Flow.stop st, [Notice.goodbye], stdin⟩
    else if cmd = ['3'] ∨ strcasecmp cmd "HELP".toList = 0 then
      (display_press_enter stdin).map (fun s => ⟨Flow.next st, [Notice.help], s⟩)
    else some ⟨Flow.next st, [Notice.invalid_command], stdin⟩

/-- The body of the loop of `main`: a command is read into `cmd`, of 16
bytes, cleaned and run. -/
def main_body (file : Option File) (writable : Bool) (st : Store) (stdin : Stdin) :
    Option (Step Store Store) :=
  match fgets 16 stdin with
  | none => none
  | some (buffer, stdin1) =>
    match clean_fgets buffer stdin1 with
    | none => none
    | some (cmd, stdin2) =>
      match run_command cmd st file writable stdin2 with
      | none => none
      | some ⟨Flow.next st1, out, stdin3⟩ => some (Step.again st1 out stdin3)
      | some ⟨Flow.stop st1, out, stdin3⟩ => some (Step.done st1 out stdin3)

/-- The notices of a committed update. -/
def Updated (n : Notice) : Prop :=
  n = Notice.name_updated ∨ n = Notice.programme_updated ∨ n = Notice.marks_updated ∨
    n = Notice.all_updated

/-! ## Vocabulary of the specification: data lines -/

/-- Marks written with one decimal digit: the numeral of `k` tenths. -/
def tenths_text (k : Nat) : CString :=
  Nat.toDigits 10 (k / 10) ++ '.' :: Nat.toDigits 10 (k % 10)

/-- The fields of a data line: the id, the name, the programme, the marks
in tenths and the grade. -/
structure Row where
  id : Int
  name : CString
  programme : CString
  tenths : Nat
  grade : CString
  deriving DecidableEq

/-- The data line of a row, `id,name,programme,marks,grade`, with its
newline. -/
def Row.line (w : Row) : File :=
  decimal_text w.id ++ (',' :: (w.name ++ (',' :: (w.programme ++
    (',' :: (tenths_text w.tenths ++ (',' :: (w.grade ++ ['\n']))))))))

/-- The record a row stands for, its marks being stored in a `float`. -/
def Row.record (w : Row) : Record :=
  ⟨w.id, w.name, w.programme, to_float ((w.tenths : ℚ) / 10), w.grade⟩

/-- A row whose fields fit the record and the format of `open_db`: an id
of at most seven characters, a name of 1 to 30 and a programme of 1 to 50
characters, marks from 0.0 to 100.0, a grade of one or two characters
without white space, and neither a comma nor a NUL in a field. -/
def Row.Fits (w : Row) : Prop :=
  (-999999 ≤ w.id ∧ w.id ≤ 9999999) ∧
    (w.name ≠ [] ∧ w.name.length ≤ MAX_NAME_LEN ∧ ',' ∉ w.name ∧ NUL ∉ w.name) ∧
    (w.programme ≠ [] ∧ w.programme.length ≤ MAX_PROGRAMME_LEN ∧ ',' ∉ w.programme ∧
      NUL ∉ w.programme) ∧
    w.tenths ≤ 1000 ∧
    (w.grade ≠ [] ∧ w.grade.length ≤ 2 ∧ NUL ∉ w.grade ∧
      ∀ c ∈ w.grade, isspace c = false)

/-- A header line that one call of `fgets` in `skip_header_lines` takes
whole: at most 126 characters, then the newline. -/
def HeaderLine (l : CString) : Prop := l.length ≤ 126 ∧ '\n' ∉ l

/-! ## Vocabulary of the specification: what was entered in a run -/

/-- A prompt for one value, answered on this input. Starting with the input
`stdin` and the variable at `x`, every call of `get` that returns 0, or
returns 1 with a value that is not `good`, is followed by another call on
the input it left, until a call returns 1 with the good value `v` and leaves
the input `stdin1`. -/
inductive Prompted {α : Type} (get : α → Stdin → Option (Outcome α)) (good : α → Prop) :
    α → Stdin → α → Stdin → Prop where
  | accept (x : α) (stdin : Stdin) (o : Outcome α) :
      get x stdin = some o → o.status = 1 → good o.value →
      Prompted get good x stdin o.value o.stdin
  | retry (x : α) (stdin : Stdin) (o : Outcome α) (v : α) (stdin1 : Stdin) :
      get x stdin = some o → (o.status = 0 ∨ (o.status = 1 ∧ ¬ good o.value)) →
      Prompted get good o.value o.stdin v stdin1 → Prompted get good x stdin v stdin1

/-- A confirmation, answered on this input. Starting with the input
`stdin`, every call of `get_choice` that returns neither 1 nor 0 is followed
by another call on the input it left, until a call returns `answer`, 1 for
yes or 0 for no, and leaves the input `stdin1`. -/
inductive Answered : Stdin → Int → Stdin → Prop where
  | answer (stdin : Stdin) (o : Outcome Unit) :
      get_choice stdin = some o → (o.status = 1 ∨ o.status = 0) →
      Answered stdin o.status o.stdin
  | retry (stdin : Stdin) (o : Outcome Unit) (a : Int) (stdin1 : Stdin) :
      get_choice stdin = some o → ¬(o.status = 1 ∨ o.status = 0) →
      Answered o.stdin a stdin1 → Answered stdin a stdin1

/-- The option of the update menu read from this input: `fgets` into
`option`, of three bytes, and `clean_fgets` leave the text `option` and the
input `stdin2`. -/
def OptionRead (stdin : Stdin) (option : CString) (stdin2 : Stdin) : Prop :=
  ∃ buffer stdin1, fgets 3 stdin = some (buffer, stdin1) ∧
    clean_fgets buffer stdin1 = some (option, stdin2)

/-- An id that a record of the list has. -/
def Present (records : List Record) (id : Int) : Prop := find_index id records ≠ none

/-- The condition on a value that every value meets. -/
def Any {α : Type} (_ : α) : Prop := True

/-! ## Grade calculator: theorems -/

/-- Every marks value falls in exactly one band of `calculate_grade`. -/
theorem calculate_grade_cases (m : ℚ) :
    (85 ≤ m ∧ calculate_grade m = some "A+".toList) ∨
    (80 ≤ m ∧ m < 85 ∧ calculate_grade m = some "A".toList) ∨
    (75 ≤ m ∧ m < 80 ∧ calculate_grade m = some "A-".toList) ∨
    (70 ≤ m ∧ m < 75 ∧ calculate_grade m = some "B+".toList) ∨
    (65 ≤ m ∧ m < 70 ∧ calculate_grade m = some "B".toList) ∨
    (60 ≤ m ∧ m < 65 ∧ calculate_grade m = some "B-".toList) ∨
    (55 ≤ m ∧ m < 60 ∧ calculate_grade m = some "C+".toList) ∨
    (50 ≤ m ∧ m < 55 ∧ calculate_grade m = some "C".toList) ∨
    (45 ≤ m ∧ m < 50 ∧ calculate_grade m = some "D+".toList) ∨
    (40 ≤ m ∧ m < 45 ∧ calculate_grade m = some "D".toList) ∨
    (0 ≤ m ∧ m < 40 ∧ calculate_grade m = some "F".toList) ∨
    (m < 0 ∧ calculate_grade m = none) := by
  unfold calculate_grade
  by_cases h1 : m ≥ 85
  · left; exact ⟨h1, if_pos h1⟩
  rw [if_neg h1]; right; push_neg at h1
  by_cases h2 : m ≥ 80
  · left; exact ⟨h2, h1, if_pos h2⟩
  rw [if_neg h2]; right; push_neg at h2
  by_cases h3 : m ≥ 75
  · left; exact ⟨h3, h2, if_pos h3⟩
  rw [if_neg h3]; right; push_neg at h3
  by_cases h4 : m ≥ 70
  · left; exact ⟨h4, h3, if_pos h4⟩
  rw [if_neg h4]; right; push_neg at h4
  by_cases h5 : m ≥ 65
  · left; exact ⟨h5, h4, if_pos h5⟩
  rw [if_neg h5]; right; push_neg at h5
  by_cases h6 : m ≥ 60
  · left; exact ⟨h6, h5, if_pos h6⟩
  rw [if_neg h6]; right; push_neg at h6
  by_cases h7 : m ≥ 55
  · left; exact ⟨h7, h6, if_pos h7⟩
  rw [if_neg h7]; right; push_neg at h7
  by_cases h8 : m ≥ 50
  · left; exact ⟨h8, h7, if_pos h8⟩
  rw [if_neg h8]; right; push_neg at h8
  by_cases h9 : m ≥ 45
  · left; exact ⟨h9, h8, if_pos h9⟩
  rw [if_neg h9]; right; push_neg at h9
  by_cases h10 : m ≥ 40
  · left; exact ⟨h10, h9, if_pos h10⟩
  rw [if_neg h10]; right; push_neg at h10
  by_cases h11 : m ≥ 0
  · left; exact ⟨h11, h10, if_pos h11⟩
  rw [if_neg h11]; right; push_neg at h11
  exact ⟨h11, rfl⟩

/-- C1: for marks `m` with `0 ≤ m ≤ 100`, `calculate_grade m` is the label of
the highest threshold not exceeding `m` (A+ from 85, A from 80, A- from 75,
B+ from 70, B from 65, B- from 60, C+ from 55, C from 50, D+ from 45, D from
40, F below 40); it is one of the eleven labels, so control never runs off
the end of the function; and the grades of 85, 84.9 (exactly, and as the
nearest `float`) and 0 are A+, A and F. -/
theorem calculate_grade_thresholds (m : ℚ) (h0 : 0 ≤ m) (_h100 : m ≤ 100) :
    (85 ≤ m → calculate_grade m = some "A+".toList) ∧
    (80 ≤ m → m < 85 → calculate_grade m = some "A".toList) ∧
    (75 ≤ m → m < 80 → calculate_grade m = some "A-".toList) ∧
    (70 ≤ m → m < 75 → calculate_grade m = some "B+".toList) ∧
    (65 ≤ m → m < 70 → calculate_grade m = some "B".toList) ∧
    (60 ≤ m → m < 65 → calculate_grade m = some "B-".toList) ∧
    (55 ≤ m → m < 60 → calculate_grade m = some "C+".toList) ∧
    (50 ≤ m → m < 55 → calculate_grade m = some "C".toList) ∧
    (45 ≤ m → m < 50 → calculate_grade m = some "D+".toList) ∧
    (40 ≤ m → m < 45 → calculate_grade m = some "D".toList) ∧
    (m < 40 → calculate_grade m = some "F".toList) ∧
    (∃ g ∈ grade_labels, calculate_grade m = some g) ∧
    calculate_grade 85 = some "A+".toList ∧
    calculate_grade (849 / 10) = some "A".toList ∧
    calculate_grade (to_float (849 / 10)) = some "A".toList ∧
    calculate_grade 0 = some "F".toList := by
  have hc := calculate_grade_cases m
  refine ⟨?_, ?_, ?_, ?_, ?_, ?_, ?_, ?_, ?_, ?_, ?_, ?_, by decide!, by decide!, by decide!,
    by decide!⟩
  on_goal 12 =>
    rcases hc with ⟨_, g⟩ | ⟨_, _, g⟩ | ⟨_, _, g⟩ | ⟨_, _, g⟩ | ⟨_, _, g⟩ | ⟨_, _, g⟩ |
      ⟨_, _, g⟩ | ⟨_, _, g⟩ | ⟨_, _, g⟩ | ⟨_, _, g⟩ | ⟨_, _, g⟩ | ⟨_, g⟩
    all_goals first
      | exact ⟨_, by decide, g⟩
      | (exfalso; linarith)
  all_goals
    intros
    rcases hc with ⟨_, g⟩ | ⟨_, _, g⟩ | ⟨_, _, g⟩ | ⟨_, _, g⟩ | ⟨_, _, g⟩ | ⟨_, _, g⟩ |
      ⟨_, _, g⟩ | ⟨_, _, g⟩ | ⟨_, _, g⟩ | ⟨_, _, g⟩ | ⟨_, _, g⟩ | ⟨_, g⟩
    all_goals first
      | exact g
      | (exfalso; linarith)

/-- Witness for C1 at the marks value 50. -/
theorem calculate_grade_thresholds_witness :
    (50 : ℚ) ≤ 50 ∧ calculate_grade 50 = some "C".toList :=
  ⟨le_refl _,
    (calculate_grade_thresholds 50 (by norm_num) (by norm_num)).2.2.2.2.2.2.2.1
      (le_refl _) (by norm_num)⟩

/-- C2: `calculate_grade` is monotone on [0, 100] for the rank order
F < D < D+ < C < C+ < B- < B < B+ < A- < A < A+: lower marks never get a
higher-ranked grade. -/
theorem calculate_grade_monotone (m1 m2 : ℚ) (h0 : 0 ≤ m1) (h12 : m1 ≤ m2) (_h100 : m2 ≤ 100) :
    grade_rank (calculate_grade m1) ≤ grade_rank (calculate_grade m2) := by
  rcases calculate_grade_cases m1 with ⟨_, g1⟩ | ⟨_, _, g1⟩ | ⟨_, _, g1⟩ | ⟨_, _, g1⟩ |
    ⟨_, _, g1⟩ | ⟨_, _, g1⟩ | ⟨_, _, g1⟩ | ⟨_, _, g1⟩ | ⟨_, _, g1⟩ | ⟨_, _, g1⟩ | ⟨_, _, g1⟩ |
    ⟨_, g1⟩ <;>
  rcases calculate_grade_cases m2 with ⟨_, g2⟩ | ⟨_, _, g2⟩ | ⟨_, _, g2⟩ | ⟨_, _, g2⟩ |
    ⟨_, _, g2⟩ | ⟨_, _, g2⟩ | ⟨_, _, g2⟩ | ⟨_, _, g2⟩ | ⟨_, _, g2⟩ | ⟨_, _, g2⟩ | ⟨_, _, g2⟩ |
    ⟨_, g2⟩ <;>
  rw [g1, g2] <;>
  first
    | decide
    | (exfalso; linarith)

/-- Witness for C2 at the marks 39.9 and 40, graded F and D. -/
theorem calculate_grade_monotone_witness :
    grade_rank (calculate_grade (399 / 10)) = 1 ∧ grade_rank (calculate_grade 40) = 2 ∧
    grade_rank (calculate_grade (399 / 10)) ≤ grade_rank (calculate_grade 40) :=
  ⟨by decide!, by decide!,
    calculate_grade_monotone (399 / 10) 40 (by norm_num) (by norm_num) (by norm_num)⟩

/-! ## Characters: lemmas -/

theorem char_eq_of_toNat {c : Char} {n : Nat} (h : c.toNat = n) : c = Char.ofNat n := by
  rw [← h, Char.ofNat_toNat]

theorem isspace_newline : isspace '\n' = true := by decide

theorem isspace_space : isspace ' ' = true := by decide

theorem isdigit_not_isspace {c : Char} (h : isdigit c = true) : isspace c = false := by
  simp only [isdigit, isspace, Bool.and_eq_true, decide_eq_true_eq, Bool.or_eq_false_iff,
    beq_eq_false_iff_ne, Bool.and_eq_false_iff, decide_eq_false_iff_not] at *
  omega

theorem isdigit_iff_mem {c : Char} : isdigit c = true ↔ c ∈ "0123456789".toList := by
  constructor
  · intro h
    simp only [isdigit, Bool.and_eq_true, decide_eq_true_eq] at h
    obtain ⟨h1, h2⟩ := h
    have hc : c = Char.ofNat c.toNat := (Char.ofNat_toNat c).symm
    generalize c.toNat = n at hc h1 h2
    subst hc
    interval_cases n <;> decide
  · intro h
    have h' : c = '0' ∨ c = '1' ∨ c = '2' ∨ c = '3' ∨ c = '4' ∨ c = '5' ∨ c = '6' ∨ c = '7' ∨
        c = '8' ∨ c = '9' := by simpa using h
    rcases h' with h | h | h | h | h | h | h | h | h | h <;> (subst h; decide)

theorem tolower_eq_q {c : Char} : tolower c = 'q' ↔ c = 'Q' ∨ c = 'q' := by
  constructor
  · intro h
    unfold tolower at h
    split at h
    · rename_i hu
      simp only [isupper, Bool.and_eq_true, decide_eq_true_eq] at hu
      obtain ⟨h1, h2⟩ := hu
      have hc : c = Char.ofNat c.toNat := (Char.ofNat_toNat c).symm
      generalize c.toNat = n at hc h1 h2 h
      subst hc
      left
      interval_cases n <;> first | rfl | (exfalso; revert h; decide)
    · exact Or.inr h
  · rintro (h | h) <;> (subst h; decide)

/-- The test `strcasecmp(s, "Q") == 0` holds exactly for the strings `Q` and `q`. -/
theorem strcasecmp_Q {s : CString} : strcasecmp s ['Q'] = 0 ↔ s = ['Q'] ∨ s = ['q'] := by
  have hq : tolower 'Q' = 'q' := by decide
  constructor
  · intro h
    match s, h with
    | [], h => simp [strcasecmp] at h
    | [c], h =>
      by_cases hc : tolower c = 'q'
      · rcases tolower_eq_q.mp hc with h1 | h1 <;> simp [h1]
      · exfalso
        simp only [strcasecmp, hq, hc, if_false] at h
        have h2 : (tolower c).toNat = 'q'.toNat := by omega
        exact hc (by rw [char_eq_of_toNat h2]; rfl)
    | c :: d :: t, h =>
      exfalso
      by_cases hc : tolower c = 'q'
      · simp [strcasecmp, hq, hc] at h
      · simp only [strcasecmp, hq, hc, if_false] at h
        have h2 : (tolower c).toNat = 'q'.toNat := by omega
        exact hc (by rw [char_eq_of_toNat h2]; rfl)
  · rintro (h | h) <;> (subst h; decide)

/-! ## Reading a line: lemmas -/

theorem dropWhile_append_of_exists {p : Char → Bool} {l : List Char} (r : List Char)
    (h : ∃ c ∈ l, p c = false) : (l ++ r).dropWhile p = l.dropWhile p ++ r := by
  induction l with
  | nil => simp at h
  | cons a l ih =>
    by_cases ha : p a = true
    · have h' : ∃ c ∈ l, p c = false := by
        obtain ⟨c, hc, hp⟩ := h
        rcases List.mem_cons.mp hc with rfl | hc
        · rw [ha] at hp; cases hp
        · exact ⟨c, hc, hp⟩
      simp [List.dropWhile_cons, ha, ih h']
    · simp [List.dropWhile_cons, ha]

theorem dropWhile_eq_nil_of_all {p : Char → Bool} {l : List Char}
    (h : ∀ c ∈ l, p c = true) : l.dropWhile p = [] := by
  rw [List.dropWhile_eq_nil_iff]; exact h

theorem takeWhile_eq_self_of_all {p : Char → Bool} {l : List Char}
    (h : ∀ c ∈ l, p c = true) : l.takeWhile p = l := by
  rw [List.takeWhile_eq_self_iff]; exact h

/-- What `fgets_read` takes from a stream that starts with a line. -/
theorem fgets_read_feed (k : Nat) (line : CString) (rest : Stdin) (h : '\n' ∉ line) :
    fgets_read k (feed line rest) =
      if line.length < k then (line ++ ['\n'], rest)
      else (line.take k, feed (line.drop k) rest) := by
  induction k generalizing line with
  | zero => simp [fgets_read, feed]
  | succ k ih =>
    cases line with
    | nil => simp [fgets_read, feed]
    | cons c l =>
      have hc : c ≠ '\n' := fun e => h (by simp [e])
      have hl : '\n' ∉ l := fun e => h (List.mem_cons_of_mem _ e)
      have ih' := ih l hl
      unfold feed at ih' ⊢
      have hstep : fgets_read (k + 1) (c :: (l ++ '\n' :: rest)) =
          (c :: (fgets_read k (l ++ '\n' :: rest)).1, (fgets_read k (l ++ '\n' :: rest)).2) := by
        rw [fgets_read, if_neg hc]
      rw [List.cons_append, hstep, ih']
      simp only [List.length_cons, Nat.add_lt_add_iff_right]
      split <;> simp

/-- The string `fgets` stores from a line that fits its buffer, newline
included. -/
theorem fgets_feed_short (size : Nat) (line : CString) (rest : Stdin) (h : '\n' ∉ line)
    (hnul : NUL ∉ line) (hlen : line.length + 1 < size) :
    fgets size (feed line rest) = some (line ++ ['\n'], rest) := by
  have hne : feed line rest = (feed line rest).head (by simp [feed]) :: (feed line rest).tail := by
    simp
  rw [fgets.eq_def]
  rw [hne]
  simp only
  rw [← hne, fgets_read_feed _ _ _ h, if_pos (by omega)]
  simp only [Option.some.injEq, Prod.mk.injEq, and_true]
  apply takeWhile_eq_self_of_all
  intro c hc
  have : c ≠ NUL := by
    rcases List.mem_append.mp hc with hc | hc
    · exact fun e => hnul (e ▸ hc)
    · simp at hc; subst hc; decide
  simpa using this

/-- The string `fgets` stores from a line that does not fit its buffer. -/
theorem fgets_feed_long (size : Nat) (line : CString) (rest : Stdin) (h : '\n' ∉ line)
    (hnul : NUL ∉ line) (hlen : size ≤ line.length + 1) :
    fgets size (feed line rest) =
      some (line.take (size - 1), feed (line.drop (size - 1)) rest) := by
  have hne : feed line rest = (feed line rest).head (by simp [feed]) :: (feed line rest).tail := by
    simp
  rw [fgets.eq_def]
  rw [hne]
  simp only
  rw [← hne, fgets_read_feed _ _ _ h, if_neg (by omega)]
  simp only [Option.some.injEq, Prod.mk.injEq, and_true]
  apply takeWhile_eq_self_of_all
  intro c hc
  have : c ≠ NUL := fun e => hnul (e ▸ List.mem_of_mem_take hc)
  simpa using this

theorem discard_line_feed (line : CString) (rest : Stdin) (h : '\n' ∉ line) :
    discard_line (feed line rest) = some rest := by
  induction line with
  | nil => simp [feed, discard_line]
  | cons c l ih =>
    have hc : c ≠ '\n' := fun e => h (by simp [e])
    have hl : '\n' ∉ l := fun e => h (List.mem_cons_of_mem _ e)
    have := ih hl
    unfold feed at this ⊢
    simp [discard_line, hc, this]

theorem trim_end_rev_eq {s : CString} (h : ∃ c ∈ s, isspace c = false) :
    trim_end_rev s = s.dropWhile isspace := by
  induction s with
  | nil => simp at h
  | cons a s ih =>
    cases s with
    | nil =>
      obtain ⟨c, hc, hp⟩ := h
      simp only [List.mem_singleton] at hc
      subst hc
      simp [trim_end_rev, List.dropWhile_cons, hp]
    | cons b t =>
      by_cases ha : isspace a = true
      · have h' : ∃ c ∈ b :: t, isspace c = false := by
          obtain ⟨c, hc, hp⟩ := h
          rcases List.mem_cons.mp hc with rfl | hc
          · rw [ha] at hp; cases hp
          · exact ⟨c, hc, hp⟩
        rw [trim_end_rev, if_pos ha, ih h']
        conv_rhs => rw [List.dropWhile_cons, if_pos ha]
      · simp only [trim_end_rev, ha]
        rw [List.dropWhile_cons, if_neg ha]
        simp

/-! ### The stripped line -/

theorem strip_eq_nil_iff {l : CString} : strip l = [] ↔ ∀ c ∈ l, isspace c = true := by
  unfold strip
  rw [List.reverse_eq_nil_iff, List.dropWhile_eq_nil_iff]
  constructor
  · intro h
    by_contra hcon
    push_neg at hcon
    obtain ⟨c, hc, hp⟩ := hcon
    have hne : l.dropWhile isspace ≠ [] := by
      intro e
      rw [List.dropWhile_eq_nil_iff] at e
      exact hp (e c hc)
    obtain ⟨a, t, hat⟩ := List.exists_cons_of_ne_nil hne
    have ha : isspace a = false := by
      have := List.head_dropWhile_not isspace l hne
      simp only [hat, List.head_cons] at this
      simpa using this
    have := h a (by rw [hat]; simp)
    rw [ha] at this
    cases this
  · intro h c hc
    rw [dropWhile_eq_nil_of_all h] at hc
    simp at hc

/-- A line is its stripped form between two runs of white space. -/
theorem strip_decomp (l : CString) :
    ∃ pre post : CString, l = pre ++ strip l ++ post ∧
      (∀ c ∈ pre, isspace c = true) ∧ (∀ c ∈ post, isspace c = true) := by
  refine ⟨l.takeWhile isspace, ((l.dropWhile isspace).reverse.takeWhile isspace).reverse, ?_,
    ?_, ?_⟩
  · unfold strip
    rw [List.append_assoc, ← List.reverse_append, List.takeWhile_append_dropWhile,
      List.reverse_reverse, List.takeWhile_append_dropWhile]
  · intro c hc
    exact (List.mem_takeWhile_imp hc)
  · intro c hc
    exact (List.mem_takeWhile_imp (List.mem_reverse.mp hc))


/-! ### The function `clean_fgets` -/

/-- Cleaning a buffer that holds a whole line and its newline leaves the
stripped line and reads nothing more. -/
theorem clean_fgets_line (line : CString) (stdin : Stdin) (h : '\n' ∉ line) :
    clean_fgets (line ++ ['\n']) stdin = some (strip line, stdin) := by
  unfold clean_fgets
  have hov : (decide (strlen (line ++ ['\n']) > 0) && ((line ++ ['\n']).getLast? != some '\n'))
      = false := by simp
  simp only [hov]
  by_cases hall : ∀ c ∈ line, isspace c = true
  · have h1 : (line ++ ['\n']).dropWhile isspace = [] := by
      apply dropWhile_eq_nil_of_all
      intro c hc
      rcases List.mem_append.mp hc with hc | hc
      · exact hall c hc
      · simp at hc; subst hc; exact isspace_newline
    rw [h1, strip_eq_nil_iff.mpr hall]
    simp
  · push_neg at hall
    have hex : ∃ c ∈ line, isspace c = false := by
      obtain ⟨c, hc, hp⟩ := hall
      exact ⟨c, hc, by simpa using hp⟩
    have h1 : (line ++ ['\n']).dropWhile isspace = line.dropWhile isspace ++ ['\n'] :=
      dropWhile_append_of_exists _ hex
    have hne : line.dropWhile isspace ≠ [] := by
      intro e
      rw [List.dropWhile_eq_nil_iff] at e
      obtain ⟨c, hc, hp⟩ := hex
      rw [e c hc] at hp; cases hp
    have hex2 : ∃ c ∈ (line.dropWhile isspace ++ ['\n']).reverse, isspace c = false := by
      obtain ⟨a, t, hat⟩ := List.exists_cons_of_ne_nil hne
      refine ⟨a, by simp [hat], ?_⟩
      have := List.head_dropWhile_not isspace line hne
      simp only [hat, List.head_cons] at this
      simpa using this
    have htrim : (trim_end_rev (line.dropWhile isspace ++ ['\n']).reverse).reverse
        = strip line := by
      rw [trim_end_rev_eq hex2, List.reverse_append]
      simp [List.dropWhile_cons, isspace_newline, strip]
    rw [h1, htrim]
    have hne2 : line.dropWhile isspace ++ ['\n'] ≠ [] := by simp
    simp only [hne2, if_false, Bool.false_eq_true]
    have hnl : '\n' ∉ strip line := by
      intro hmem
      obtain ⟨pre, post, hd, -, -⟩ := strip_decomp line
      apply h
      rw [hd]
      simp [hmem]
    have hcs : strcspn (strip line) ['\n'] = (strip line).length := by
      unfold strcspn
      rw [takeWhile_eq_self_of_all]
      intro c hc
      have : c ≠ '\n' := fun e => hnl (e ▸ hc)
      simpa using this
    rw [hcs, List.take_length]

/-- Cleaning a buffer that `fgets` filled without reaching the newline: the
rest of the line is read and dropped, unless the buffer holds white space
only, in which case nothing more is read. -/
theorem clean_fgets_overflow (buffer : CString) (stdin : Stdin) (hne : buffer ≠ [])
    (h : '\n' ∉ buffer) :
    clean_fgets buffer stdin =
      if strip buffer = [] then some ([], stdin)
      else (discard_line stdin).map (fun s => (strip buffer, s)) := by
  unfold clean_fgets
  have hlast : buffer.getLast? ≠ some '\n' := by
    intro e
    exact h (List.mem_of_getLast?_eq_some e)
  have hov : (decide (strlen buffer > 0) && (buffer.getLast? != some '\n')) = true := by
    simp only [strlen, gt_iff_lt, Bool.and_eq_true, decide_eq_true_eq, bne_iff_ne, ne_eq]
    exact ⟨List.length_pos.mpr hne, hlast⟩
  simp only [hov]
  by_cases hall : ∀ c ∈ buffer, isspace c = true
  · rw [dropWhile_eq_nil_of_all hall, strip_eq_nil_iff.mpr hall]
    simp
  · have hs : strip buffer ≠ [] := fun e => hall (strip_eq_nil_iff.mp e)
    push_neg at hall
    have hne1 : buffer.dropWhile isspace ≠ [] := by
      intro e
      rw [List.dropWhile_eq_nil_iff] at e
      obtain ⟨c, hc, hp⟩ := hall
      exact hp (e c hc)
    have hex2 : ∃ c ∈ (buffer.dropWhile isspace).reverse, isspace c = false := by
      obtain ⟨a, t, hat⟩ := List.exists_cons_of_ne_nil hne1
      refine ⟨a, by simp [hat], ?_⟩
      have := List.head_dropWhile_not isspace buffer hne1
      simp only [hat, List.head_cons] at this
      simpa using this
    rw [trim_end_rev_eq hex2]
    simp only [hne1, hs, if_false, if_true]
    cases discard_line stdin <;> simp [strip]

/-- A line that fits the buffer of `fgets`, with or without its newline, is
read whole and cleaned to its stripped form. -/
theorem read_line_fits (size : Nat) (line : CString) (rest : Stdin) (hnl : '\n' ∉ line)
    (hnul : NUL ∉ line) (hlen : line.length + 1 ≤ size) :
    ∃ stdin2 buffer stdin1, fgets size (feed line rest) = some (buffer, stdin1) ∧
      clean_fgets buffer stdin1 = some (strip line, stdin2) := by
  by_cases hshort : line.length + 1 < size
  · exact ⟨rest, _, _, fgets_feed_short _ line rest hnl hnul hshort,
      clean_fgets_line line rest hnl⟩
  · have h8 : line.length = size - 1 := by omega
    have hf := fgets_feed_long size line rest hnl hnul (by omega)
    have ht : line.take (size - 1) = line := List.take_of_length_le (by omega)
    have hdr : line.drop (size - 1) = [] := List.drop_of_length_le (by omega)
    rw [ht, hdr] at hf
    by_cases hne : line = []
    · subst hne
      refine ⟨feed [] rest, _, _, hf, ?_⟩
      simp [clean_fgets, strip]
    · have hc := clean_fgets_overflow line (feed [] rest) hne hnl
      by_cases hs : strip line = []
      · rw [if_pos hs] at hc
        exact ⟨feed [] rest, _, _, hf, by rw [hc, hs]⟩
      · rw [if_neg hs, discard_line_feed [] rest (by simp)] at hc
        exact ⟨rest, _, _, hf, hc⟩

/-- A line that fits the buffer of `fgets`, with the input left behind: the
rest of the input, except that the newline stays unread behind a blank line
that fills the buffer. -/
theorem read_line_fits_rest (size : Nat) (line : CString) (rest : Stdin) (hnl : '\n' ∉ line)
    (hnul : NUL ∉ line) (hlen : line.length + 1 ≤ size) :
    ∃ buffer stdin1, fgets size (feed line rest) = some (buffer, stdin1) ∧
      clean_fgets buffer stdin1 = some (strip line,
        if strip line = [] ∧ line.length + 1 = size then '\n' :: rest else rest) := by
  by_cases hshort : line.length + 1 < size
  · have hcond : ¬(strip line = [] ∧ line.length + 1 = size) := by
      rintro ⟨-, e⟩; omega
    rw [if_neg hcond]
    exact ⟨_, _, fgets_feed_short _ line rest hnl hnul hshort, clean_fgets_line line rest hnl⟩
  · have h8 : line.length = size - 1 := by omega
    have hsz : line.length + 1 = size := by omega
    have hf := fgets_feed_long size line rest hnl hnul (by omega)
    have ht : line.take (size - 1) = line := List.take_of_length_le (by omega)
    have hdr : line.drop (size - 1) = [] := List.drop_of_length_le (by omega)
    rw [ht, hdr] at hf
    have hfeed : feed [] rest = '\n' :: rest := by simp [feed]
    by_cases hne : line = []
    · subst hne
      refine ⟨_, _, hf, ?_⟩
      have hs : strip ([] : CString) = [] := by simp [strip]
      rw [hs, if_pos ⟨rfl, hsz⟩, hfeed]
      simp [clean_fgets]
    · have hc := clean_fgets_overflow line (feed [] rest) hne hnl
      by_cases hs : strip line = []
      · rw [if_pos hs] at hc
        refine ⟨_, _, hf, ?_⟩
        rw [if_pos ⟨hs, hsz⟩, hc, hs, hfeed]
      · rw [if_neg hs, discard_line_feed [] rest (by simp)] at hc
        refine ⟨_, _, hf, ?_⟩
        rw [if_neg (fun h => hs h.1)]
        exact hc

theorem trim_end_rev_length (s : CString) : (trim_end_rev s).length ≤ s.length := by
  induction s with
  | nil => simp [trim_end_rev]
  | cons c s ih =>
    cases s with
    | nil => simp [trim_end_rev]
    | cons d t =>
      rw [trim_end_rev]
      split_ifs
      · exact le_trans ih (by simp)
      · exact le_refl _

/-- The cleaned text is no longer than the buffer. -/
theorem clean_fgets_text_length {input text : CString} {stdin stdin2 : Stdin}
    (h : clean_fgets input stdin = some (text, stdin2)) : text.length ≤ input.length := by
  have hd : (input.dropWhile isspace).length ≤ input.length :=
    (List.dropWhile_sublist _).length_le
  have ht : ((trim_end_rev (input.dropWhile isspace).reverse).reverse).length
      ≤ input.length := by
    rw [List.length_reverse]
    exact le_trans (trim_end_rev_length _) (by rw [List.length_reverse]; exact hd)
  unfold clean_fgets at h
  simp only at h
  split_ifs at h
  · cases h; simp
  · split at h
    · cases h
    · cases h; exact ht
  · cases h
    exact le_trans (List.take_sublist _ _).length_le ht

/-! ## Student ID: lemmas -/

theorem strspn_digits_eq_length {s : CString} :
    strspn s "0123456789".toList = s.length ↔ ∀ c ∈ s, isdigit c = true := by
  unfold strspn
  constructor
  · intro h c hc
    have hp : s.takeWhile (fun c => "0123456789".toList.contains c) = s :=
      List.IsPrefix.eq_of_length ( List.takeWhile_prefix _) h
    rw [List.takeWhile_eq_self_iff] at hp
    have := hp c hc
    rw [isdigit_iff_mem]
    simpa using this
  · intro h
    rw [takeWhile_eq_self_of_all]
    intro c hc
    have := isdigit_iff_mem.mp (h c hc)
    simpa using this

theorem digit_value_lt {c : Char} (h : isdigit c = true) : digit_value c < 10 := by
  simp only [isdigit, Bool.and_eq_true, decide_eq_true_eq] at h
  unfold digit_value
  omega

/-- On a string of digits `read_digits` computes the decimal value. -/
theorem read_digits_all (s : CString) (acc : Nat) (h : ∀ c ∈ s, isdigit c = true) :
    read_digits s acc = acc * 10 ^ s.length + Nat.ofDigits 10 (s.map digit_value).reverse := by
  induction s generalizing acc with
  | nil => simp [read_digits]
  | cons c t ih =>
    have hc : isdigit c = true := h c (by simp)
    have ht : ∀ c ∈ t, isdigit c = true := fun d hd => h d (List.mem_cons_of_mem _ hd)
    rw [read_digits, if_pos hc, ih _ ht]
    simp only [List.map_cons, List.reverse_cons, Nat.ofDigits_append, List.length_reverse,
      List.length_map, Nat.ofDigits_singleton, List.length_cons]
    ring

theorem ofDigits_digits_lt (s : CString) (h : ∀ c ∈ s, isdigit c = true) :
    Nat.ofDigits 10 (s.map digit_value).reverse < 10 ^ s.length := by
  have := Nat.ofDigits_lt_base_pow_length (b := 10) (l := (s.map digit_value).reverse)
    (by norm_num) (by
      intro x hx
      simp only [List.mem_reverse, List.mem_map] at hx
      obtain ⟨c, hc, rfl⟩ := hx
      exact digit_value_lt (h c hc))
  simpa using this

/-- On a string of digits `atoi` computes the decimal value. -/
theorem atoi_digits (s : CString) (h : ∀ c ∈ s, isdigit c = true) :
    atoi s = (Nat.ofDigits 10 (s.map digit_value).reverse : Nat) := by
  cases s with
  | nil => simp [atoi, read_digits]
  | cons c t =>
    have hc : isdigit c = true := h c (by simp)
    have hsp : isspace c = false := isdigit_not_isspace hc
    have h1 : c ≠ '-' := by rintro rfl; revert hc; decide
    have h2 : c ≠ '+' := by rintro rfl; revert hc; decide
    have hd : (c :: t).dropWhile isspace = c :: t := by simp [List.dropWhile_cons, hsp]
    unfold atoi
    rw [hd]
    split
    · rename_i heq; simp only [List.cons.injEq] at heq; exact absurd heq.1 h1
    · rename_i heq; simp only [List.cons.injEq] at heq; exact absurd heq.1 h2
    · rw [read_digits_all _ _ h]; simp

/-- What `get_id` does once the cleaned text `id_input` is known. -/
theorem get_id_of_read {id : Int} {stdin stdin1 stdin2 : Stdin} {buffer id_input : CString}
    (h1 : fgets (MAX_ID_LEN + 2) stdin = some (buffer, stdin1))
    (h2 : clean_fgets buffer stdin1 = some (id_input, stdin2)) :
    get_id id stdin =
      if id_input.head? = some '0' then some ⟨0, id, some Diag.id_leading_zero, stdin2⟩
      else if id_input = ['Q'] ∨ id_input = ['q'] then some ⟨-1, id, none, stdin2⟩
      else if id_input = [] then some ⟨0, id, some Diag.id_empty, stdin2⟩
      else if ¬(id_input.length = 7 ∧ ∀ c ∈ id_input, isdigit c = true) then
        some ⟨0, id, some Diag.id_format, stdin2⟩
      else some ⟨1, (Nat.ofDigits 10 (id_input.map digit_value).reverse : Nat), none, stdin2⟩ := by
  rw [get_id, h1]
  simp only [h2, strcasecmp_Q, strlen, List.length_eq_zero, MAX_ID_LEN]
  by_cases hlen : id_input.length = 7
  · by_cases hd : ∀ c ∈ id_input, isdigit c = true
    · have hsp : strspn id_input "0123456789".toList = 7 := by
        rw [← hlen]; exact strspn_digits_eq_length.mpr hd
      simp only [hlen, hsp, eq_true hd, atoi_digits _ hd, and_self, not_true_eq_false, if_false]
    · have hsp : ¬ strspn id_input "0123456789".toList = 7 := by
        rw [← hlen]; exact fun e => hd (strspn_digits_eq_length.mp e)
      simp only [hlen, hsp, eq_false hd, and_false, not_false_eq_true, if_true]
  · simp only [hlen, false_and, not_false_eq_true, if_true]

/-- Any result of `get_id` comes from some cleaned text. -/
theorem get_id_some {id : Int} {stdin : Stdin} {r : Outcome Int} (h : get_id id stdin = some r) :
    ∃ buffer stdin1 id_input stdin2, fgets (MAX_ID_LEN + 2) stdin = some (buffer, stdin1) ∧
      clean_fgets buffer stdin1 = some (id_input, stdin2) := by
  unfold get_id at h
  split at h
  · cases h
  · rename_i buffer stdin1 h1
    split at h
    · cases h
    · rename_i id_input stdin2 h2
      exact ⟨buffer, stdin1, id_input, stdin2, h1, h2⟩

/-! ## Student ID: theorems -/

/-- A string of seven digits that does not start with `0` denotes a number
of seven digits. -/
theorem seven_digits_range {s : CString} (hlen : s.length = 7)
    (hd : ∀ c ∈ s, isdigit c = true) (h0 : s.head? ≠ some '0') :
    1000000 ≤ Nat.ofDigits 10 (s.map digit_value).reverse ∧
      Nat.ofDigits 10 (s.map digit_value).reverse ≤ 9999999 := by
  cases s with
  | nil => simp at hlen
  | cons c t =>
    have hc : isdigit c = true := hd c (by simp)
    have ht : ∀ c ∈ t, isdigit c = true := fun d hd' => hd d (List.mem_cons_of_mem _ hd')
    have htl : t.length = 6 := by simpa using hlen
    have hc0 : c ≠ '0' := by simpa using h0
    have hv1 : 1 ≤ digit_value c := by
      have hne : c.toNat ≠ 48 := fun e => hc0 (char_eq_of_toNat e)
      simp only [isdigit, Bool.and_eq_true, decide_eq_true_eq] at hc
      unfold digit_value
      omega
    have hv9 := digit_value_lt hc
    have hlt := ofDigits_digits_lt t ht
    rw [htl] at hlt
    have hpow : (10 : ℕ) ^ 6 = 1000000 := by norm_num
    simp only [List.map_cons, List.reverse_cons, Nat.ofDigits_append, List.length_reverse,
      List.length_map, Nat.ofDigits_singleton, htl]
    rw [hpow] at hlt ⊢
    constructor <;> omega

/-- C3: whenever `get_id` returns 1, the integer it stores is the value of a
decimal numeral of exactly seven digits whose first digit is not `0`, so it
lies between 1000000 and 9999999. -/
theorem get_id_accepted_range (id : Int) (stdin : Stdin) (r : Outcome Int)
    (h : get_id id stdin = some r) (hs : r.status = 1) :
    ∃ numeral : CString, numeral.length = 7 ∧ (∀ c ∈ numeral, isdigit c = true) ∧
      numeral.head? ≠ some '0' ∧
      r.value = (Nat.ofDigits 10 (numeral.map digit_value).reverse : Nat) ∧
      1000000 ≤ r.value ∧ r.value ≤ 9999999 := by
  obtain ⟨buffer, stdin1, id_input, stdin2, h1, h2⟩ := get_id_some h
  rw [get_id_of_read h1 h2] at h
  by_cases c4 : id_input.length = 7 ∧ ∀ c ∈ id_input, isdigit c = true
  · by_cases c1 : id_input.head? = some '0'
    · rw [if_pos c1] at h; cases h; simp at hs
    · obtain ⟨hlen, hd⟩ := c4
      obtain ⟨hlo, hhi⟩ := seven_digits_range hlen hd c1
      refine ⟨id_input, hlen, hd, c1, ?_, ?_, ?_⟩
      all_goals
        split_ifs at h
        all_goals cases h
        all_goals first
          | (exfalso; revert hs; simp; done)
          | rfl
          | (simp only; exact_mod_cast hlo)
          | (simp only; exact_mod_cast hhi)
  · exfalso
    split_ifs at h
    all_goals cases h
    all_goals (revert hs; simp)

/-- Witness for C3: the line `2301234` is accepted with the id 2301234. -/
theorem get_id_accepted_range_witness :
    ∃ numeral : CString, numeral.length = 7 ∧ (∀ c ∈ numeral, isdigit c = true) ∧
      numeral.head? ≠ some '0' ∧
      (2301234 : Int) = (Nat.ofDigits 10 (numeral.map digit_value).reverse : Nat) ∧
      (1000000 : Int) ≤ 2301234 ∧ (2301234 : Int) ≤ 9999999 :=
  get_id_accepted_range 0 (feed "2301234".toList []) ⟨1, 2301234, none, []⟩ (by decide) rfl

/-- C4, as stated, fails: the line ` 1234567` has eight characters, one of
them a space, and the line `1234567 x` has nine, yet `get_id` accepts both
with the id 1234567. -/
theorem get_id_accepts_more_than_seven_digits :
    (get_id 0 (feed " 1234567".toList [])).map (fun r => (r.status, r.value))
        = some (1, 1234567) ∧
      " 1234567".toList.length = 8 ∧ isdigit ' ' = false ∧
    (get_id 0 (feed "1234567 x".toList [])).map (fun r => (r.status, r.value))
        = some (1, 1234567) ∧
      "1234567 x".toList.length = 9 ∧ isdigit 'x' = false := by
  decide

/-- C4, amended: for a line of at most eight characters `get_id` decides on
the text of the line without its leading and trailing white space, in this
order: a text that begins with `0` is rejected (before the cancel and empty
checks); otherwise the text `Q` or `q` is a cancel; otherwise the empty text
is rejected; otherwise the text is accepted exactly when it is seven decimal
digits, the id being its decimal value; and it is rejected in every other
case. The variable behind the pointer changes only on acceptance. -/
theorem get_id_decision (id : Int) (line : CString) (rest : Stdin) (hnl : '\n' ∉ line)
    (hnul : NUL ∉ line) (hlen : line.length ≤ 8) :
    (get_id id (feed line rest)).map (fun r => (r.status, r.value, r.diag)) =
      some (
        if (strip line).head? = some '0' then (0, id, some Diag.id_leading_zero)
        else if strip line = ['Q'] ∨ strip line = ['q'] then (-1, id, none)
        else if strip line = [] then (0, id, some Diag.id_empty)
        else if (strip line).length = 7 ∧ ∀ c ∈ strip line, isdigit c = true then
          (1, (Nat.ofDigits 10 ((strip line).map digit_value).reverse : Nat), none)
        else (0, id, some Diag.id_format)) := by
  obtain ⟨stdin2, buffer, stdin1, h1, h2⟩ :=
    read_line_fits (MAX_ID_LEN + 2) line rest hnl hnul (by simp [MAX_ID_LEN]; omega)
  rw [get_id_of_read h1 h2]
  split_ifs <;> simp_all

/-- Witness for C4, amended: the line `2301234`. -/
theorem get_id_decision_witness :
    (get_id 0 (feed "2301234".toList [])).map (fun r => (r.status, r.value, r.diag)) =
      some (
        if (strip "2301234".toList).head? = some '0' then
          ((0 : Int), (0 : Int), some Diag.id_leading_zero)
        else if strip "2301234".toList = ['Q'] ∨ strip "2301234".toList = ['q'] then
          (-1, 0, none)
        else if strip "2301234".toList = [] then (0, 0, some Diag.id_empty)
        else if (strip "2301234".toList).length = 7 ∧
            ∀ c ∈ strip "2301234".toList, isdigit c = true then
          (1, (Nat.ofDigits 10 ((strip "2301234".toList).map digit_value).reverse : Nat), none)
        else (0, 0, some Diag.id_format)) :=
  get_id_decision 0 "2301234".toList [] (by decide) (by decide) (by decide)

/-! ## The function `remove_extra_spaces`: lemmas -/

theorem ne_space_of_not_isspace {c : Char} (h : isspace c = false) : c ≠ ' ' := by
  rintro rfl; rw [isspace_space] at h; cases h

theorem collapsed_nil : Collapsed [] := by
  refine ⟨by simp, by simp, List.chain'_nil⟩

theorem collapsed_append_char {out : CString} {c : Char} (h : Collapsed out)
    (hc : isspace c = false) : Collapsed (out ++ [c]) := by
  obtain ⟨h1, h2, h3⟩ := h
  refine ⟨?_, ?_, ?_⟩
  · intro d hd hs
    rcases List.mem_append.mp hd with hd | hd
    · exact h1 d hd hs
    · simp only [List.mem_singleton] at hd; subst hd; rw [hc] at hs; cases hs
  · cases out with
    | nil => simpa using ne_space_of_not_isspace hc
    | cons a t => simpa using h2
  · refine List.Chain'.append h3 (List.chain'_singleton c) ?_
    intro x _ y hy
    simp only [List.head?_cons, Option.mem_def, Option.some.injEq] at hy
    subst hy
    exact fun hxy => ne_space_of_not_isspace hc hxy.2

theorem collapsed_append_space {out : CString} (h : Collapsed out)
    (hl : out.getLast?.any (fun d => !isspace d) = true) : Collapsed (out ++ [' ']) := by
  obtain ⟨h1, h2, h3⟩ := h
  refine ⟨?_, ?_, ?_⟩
  · intro d hd hs
    rcases List.mem_append.mp hd with hd | hd
    · exact h1 d hd hs
    · simpa using hd
  · cases out with
    | nil => simp at hl
    | cons a t => simpa using h2
  · refine List.Chain'.append h3 (List.chain'_singleton _) ?_
    intro x hx y _
    simp only [Option.mem_def] at hx
    rw [hx] at hl
    simp only [Option.any_some, Bool.not_eq_true'] at hl
    exact fun hxy => ne_space_of_not_isspace hl hxy.1

theorem loop_collapsed (rest out : CString) (h : Collapsed out) :
    Collapsed (remove_extra_spaces_loop rest out) := by
  induction rest generalizing out with
  | nil => simpa [remove_extra_spaces_loop] using h
  | cons c rest ih =>
    unfold remove_extra_spaces_loop
    split_ifs with h1 h2
    · exact ih _ (collapsed_append_char h (by simpa using h1))
    · exact ih _ (collapsed_append_space h h2)
    · exact ih _ h

theorem loop_mem (rest out : CString) (c : Char)
    (h : c ∈ remove_extra_spaces_loop rest out) : c ∈ out ∨ c = ' ' ∨ c ∈ rest := by
  induction rest generalizing out with
  | nil => left; simpa [remove_extra_spaces_loop] using h
  | cons d rest ih =>
    unfold remove_extra_spaces_loop at h
    split_ifs at h with h1 h2
    · rcases ih _ h with h | h | h
      · rcases List.mem_append.mp h with h | h
        · exact Or.inl h
        · simp only [List.mem_singleton] at h; subst h; simp
      · exact Or.inr (Or.inl h)
      · exact Or.inr (Or.inr (List.mem_cons_of_mem _ h))
    · rcases ih _ h with h | h | h
      · rcases List.mem_append.mp h with h | h
        · exact Or.inl h
        · simp only [List.mem_singleton] at h; exact Or.inr (Or.inl h)
      · exact Or.inr (Or.inl h)
      · exact Or.inr (Or.inr (List.mem_cons_of_mem _ h))
    · rcases ih _ h with h | h | h
      · exact Or.inl h
      · exact Or.inr (Or.inl h)
      · exact Or.inr (Or.inr (List.mem_cons_of_mem _ h))

theorem loop_filter (rest out : CString) :
    (remove_extra_spaces_loop rest out).filter (fun c => !isspace c) =
      out.filter (fun c => !isspace c) ++ rest.filter (fun c => !isspace c) := by
  induction rest generalizing out with
  | nil => simp [remove_extra_spaces_loop]
  | cons d rest ih =>
    unfold remove_extra_spaces_loop
    split_ifs with h1 h2
    · rw [ih]
      simp only [Bool.not_eq_true', Bool.not_eq_eq_eq_not, Bool.not_true] at h1
      simp [List.filter_cons, h1]
    · rw [ih]
      simp only [Bool.not_eq_true', Bool.not_eq_eq_eq_not, Bool.not_true, Bool.not_eq_false] at h1
      simp [List.filter_cons, h1, isspace_space]
    · rw [ih]
      simp only [Bool.not_eq_true', Bool.not_eq_eq_eq_not, Bool.not_true, Bool.not_eq_false] at h1
      simp [List.filter_cons, h1]

theorem loop_length (rest out : CString) :
    (remove_extra_spaces_loop rest out).length ≤ out.length + rest.length := by
  induction rest generalizing out with
  | nil => simp [remove_extra_spaces_loop]
  | cons d rest ih =>
    unfold remove_extra_spaces_loop
    split_ifs with h1 h2
    · have := ih (out ++ [d])
      simp only [List.length_append, List.length_cons, List.length_nil] at this ⊢
      omega
    · have := ih (out ++ [' '])
      simp only [List.length_append, List.length_cons, List.length_nil] at this ⊢
      omega
    · have := ih out; simp only [List.length_cons] at this ⊢; omega

theorem filter_dropWhile_isspace (s : CString) :
    (s.dropWhile isspace).filter (fun c => !isspace c) = s.filter (fun c => !isspace c) := by
  induction s with
  | nil => simp
  | cons a t ih =>
    by_cases ha : isspace a = true
    · simp [List.dropWhile_cons, List.filter_cons, ha, ih]
    · simp [List.dropWhile_cons, ha]

/-- What `remove_extra_spaces` returns: a collapsed text that does not end
in a space, made of spaces and characters of the argument, with the same
characters other than white space, and no longer than the argument. -/
theorem remove_extra_spaces_spec (s : CString) :
    Collapsed (remove_extra_spaces s) ∧ (remove_extra_spaces s).getLast? ≠ some ' ' ∧
      (∀ c ∈ remove_extra_spaces s, c = ' ' ∨ c ∈ s) ∧
      (remove_extra_spaces s).filter (fun c => !isspace c) = s.filter (fun c => !isspace c) ∧
      (remove_extra_spaces s).length ≤ s.length := by
  have hcol := loop_collapsed (s.dropWhile isspace) [] collapsed_nil
  have hmem := loop_mem (s.dropWhile isspace) []
  have hfil := loop_filter (s.dropWhile isspace) []
  have hlen := loop_length (s.dropWhile isspace) []
  rw [filter_dropWhile_isspace] at hfil
  simp only [List.filter_nil, List.nil_append] at hfil
  have hdl : (s.dropWhile isspace).length ≤ s.length :=
    (List.dropWhile_sublist _).length_le
  have hmem' : ∀ c ∈ remove_extra_spaces_loop (s.dropWhile isspace) [], c = ' ' ∨ c ∈ s := by
    intro c hc
    rcases hmem c hc with h | h | h
    · simp at h
    · exact Or.inl h
    · exact Or.inr ((List.dropWhile_sublist _).subset h)
  unfold remove_extra_spaces
  set out := remove_extra_spaces_loop (s.dropWhile isspace) [] with hout
  simp only
  split_ifs with hlast
  · obtain ⟨ys, hys⟩ := List.getLast?_eq_some_iff.mp hlast
    have hdrop : out.dropLast = ys := by rw [hys]; simp
    rw [hdrop]
    obtain ⟨h1, h2, h3⟩ := hcol
    rw [hys] at h1 h2 h3 hmem' hfil hlen
    refine ⟨⟨?_, ?_, ?_⟩, ?_, ?_, ?_, ?_⟩
    · exact fun c hc => h1 c (List.mem_append_left _ hc)
    · cases ys with
      | nil => simp
      | cons a t => simpa using h2
    · exact List.Chain'.prefix h3 (List.prefix_append _ _)
    · intro hl
      obtain ⟨zs, hzs⟩ := List.getLast?_eq_some_iff.mp hl
      rw [hzs, List.append_assoc] at h3
      have := List.Chain'.infix h3 (List.infix_append' zs [' ', ' '] [])
      simp only [List.singleton_append] at this
      rw [List.chain'_pair] at this
      exact this ⟨rfl, rfl⟩
    · exact fun c hc => hmem' c (List.mem_append_left _ hc)
    · rw [← hfil]; simp [isspace_space]
    · simp only [List.length_append, List.length_cons, List.length_nil] at hlen; omega
  · exact ⟨hcol, hlast, hmem', hfil, by simp only [List.length_nil] at hlen; omega⟩

theorem collapsed_no_double_space {l : CString} (h : Collapsed l) : ¬ ([' ', ' '] <:+: l) := by
  intro hin
  have := List.Chain'.infix h.2.2 hin
  rw [List.chain'_pair] at this
  exact this ⟨rfl, rfl⟩

/-! ## Name and programme: lemmas -/

theorem strip_length_le (l : CString) : (strip l).length ≤ l.length := by
  obtain ⟨pre, post, hd, -, -⟩ := strip_decomp l
  have := congrArg List.length hd
  simp only [List.length_append] at this
  omega

theorem filter_strip (l : CString) :
    (strip l).filter (fun c => !isspace c) = l.filter (fun c => !isspace c) := by
  obtain ⟨pre, post, hd, hpre, hpost⟩ := strip_decomp l
  have h1 : pre.filter (fun c => !isspace c) = [] := by
    rw [List.filter_eq_nil_iff]; intro c hc; simp [hpre c hc]
  have h2 : post.filter (fun c => !isspace c) = [] := by
    rw [List.filter_eq_nil_iff]; intro c hc; simp [hpost c hc]
  conv_rhs => rw [hd]
  simp [h1, h2]

/-- The first character of a line that a test `p` singles out is the first
such character of the stripped line, when `p` spares white space. -/
theorem find?_strip (p : Char → Bool) (hp : ∀ c, isspace c = true → p c = false)
    (l : CString) : (strip l).find? p = l.find? p := by
  obtain ⟨pre, post, hd, hpre, hpost⟩ := strip_decomp l
  have h1 : pre.find? p = none := by
    rw [List.find?_eq_none]; intro c hc; simp [hp c (hpre c hc)]
  have h2 : post.find? p = none := by
    rw [List.find?_eq_none]; intro c hc; simp [hp c (hpost c hc)]
  conv_rhs => rw [hd]
  simp [h1, h2]

/-- The two ways `fgets` can take a line. -/
theorem fgets_feed_cases (size : Nat) (line : CString) (rest : Stdin) (hnl : '\n' ∉ line)
    (hnul : NUL ∉ line) :
    (line.length + 1 < size ∧ fgets size (feed line rest) = some (line ++ ['\n'], rest)) ∨
    (size ≤ line.length + 1 ∧
      fgets size (feed line rest) = some (line.take (size - 1), feed (line.drop (size - 1)) rest))
    := by
  by_cases h : line.length + 1 < size
  · exact Or.inl ⟨h, fgets_feed_short size line rest hnl hnul h⟩
  · exact Or.inr ⟨by omega, fgets_feed_long size line rest hnl hnul (by omega)⟩

/-- Cleaning the buffer always succeeds while the newline of the line is
still to come or is in the buffer. -/
theorem clean_fgets_take_some (k : Nat) (line : CString) (rest : Stdin) (hnl : '\n' ∉ line)
    (hk : 0 < k) (hlen : k ≤ line.length) :
    ∃ text stdin2, clean_fgets (line.take k) (feed (line.drop k) rest) = some (text, stdin2) := by
  have hne : line.take k ≠ [] := by
    intro e
    have := congrArg List.length e
    simp only [List.length_take, List.length_nil] at this
    omega
  have hnl' : '\n' ∉ line.take k := fun h => hnl (List.mem_of_mem_take h)
  rw [clean_fgets_overflow _ _ hne hnl']
  split_ifs
  · exact ⟨_, _, rfl⟩
  · rw [discard_line_feed _ _ (fun h => hnl (List.mem_of_mem_drop h))]
    exact ⟨_, _, rfl⟩

/-- A line of 30 characters or more is rejected by `get_name` as too long. -/
theorem get_name_too_long (name line : CString) (rest : Stdin) (hnl : '\n' ∉ line)
    (hnul : NUL ∉ line) (hlen : MAX_NAME_LEN ≤ line.length) :
    ∃ stdin2, get_name name (feed line rest) = some ⟨0, name, some Diag.name_too_long, stdin2⟩ := by
  unfold get_name
  rcases fgets_feed_cases (MAX_NAME_LEN + 2) line rest hnl hnul with ⟨h1, hf⟩ | ⟨h1, hf⟩
  · rw [hf]
    have : strlen (line ++ ['\n']) > MAX_NAME_LEN := by simp [strlen]; omega
    simp only [this, if_true, clean_fgets_line line rest hnl]
    exact ⟨_, rfl⟩
  · rw [hf]
    have : strlen (line.take (MAX_NAME_LEN + 2 - 1)) > MAX_NAME_LEN := by
      simp only [strlen, List.length_take, MAX_NAME_LEN] at *; omega
    obtain ⟨text, stdin2, hc⟩ := clean_fgets_take_some (MAX_NAME_LEN + 2 - 1) line rest hnl
      (by simp [MAX_NAME_LEN]) (by omega)
    simp only [this, if_true, hc]
    exact ⟨_, rfl⟩

/-- What `get_name` does with a line of fewer than 30 characters. -/
theorem get_name_of_line (name line : CString) (rest : Stdin) (hnl : '\n' ∉ line)
    (hnul : NUL ∉ line) (hlen : line.length < MAX_NAME_LEN) :
    get_name name (feed line rest) =
      if strip line = ['Q'] ∨ strip line = ['q'] then some ⟨-1, name, none, rest⟩
      else if strip line = [] then some ⟨0, name, some Diag.name_empty, rest⟩
      else
        match (strip line).find? (fun c => !isalpha c && !isspace c) with
        | some _ => some ⟨0, name, some Diag.name_bad_char, rest⟩
        | none =>
          some ⟨1, strncpy name (remove_extra_spaces (strip line)) MAX_NAME_LEN, none, rest⟩ := by
  unfold get_name
  rw [fgets_feed_short _ line rest hnl hnul (by omega)]
  have : ¬ strlen (line ++ ['\n']) > MAX_NAME_LEN := by simp [strlen]; omega
  simp only
  rw [if_neg this]
  simp only [clean_fgets_line line rest hnl, strcasecmp_Q, strlen, List.length_eq_zero]

/-- A line of 50 characters or more is rejected by `get_programme` as too
long. -/
theorem get_programme_too_long (programme line : CString) (rest : Stdin) (hnl : '\n' ∉ line)
    (hnul : NUL ∉ line) (hlen : MAX_PROGRAMME_LEN ≤ line.length) :
    ∃ stdin2, get_programme programme (feed line rest) =
      some ⟨0, programme, some Diag.programme_too_long, stdin2⟩ := by
  unfold get_programme
  rcases fgets_feed_cases (MAX_PROGRAMME_LEN + 2) line rest hnl hnul with ⟨h1, hf⟩ | ⟨h1, hf⟩
  · rw [hf]
    have : strlen (line ++ ['\n']) > MAX_PROGRAMME_LEN := by simp [strlen]; omega
    simp only [this, if_true, clean_fgets_line line rest hnl]
    exact ⟨_, rfl⟩
  · rw [hf]
    have : strlen (line.take (MAX_PROGRAMME_LEN + 2 - 1)) > MAX_PROGRAMME_LEN := by
      simp only [strlen, List.length_take, MAX_PROGRAMME_LEN] at *; omega
    obtain ⟨text, stdin2, hc⟩ := clean_fgets_take_some (MAX_PROGRAMME_LEN + 2 - 1) line rest hnl
      (by simp [MAX_PROGRAMME_LEN]) (by omega)
    simp only [this, if_true, hc]
    exact ⟨_, rfl⟩

/-- What `get_programme` does with a line of fewer than 50 characters. -/
theorem get_programme_of_line (programme line : CString) (rest : Stdin) (hnl : '\n' ∉ line)
    (hnul : NUL ∉ line) (hlen : line.length < MAX_PROGRAMME_LEN) :
    get_programme programme (feed line rest) =
      if strip line = ['Q'] ∨ strip line = ['q'] then some ⟨-1, programme, none, rest⟩
      else if strip line = [] then some ⟨0, programme, some Diag.programme_empty, rest⟩
      else
        match (strip line).find? (fun c => !programme_char_ok c) with
        | some c => some ⟨0, programme, some (Diag.programme_bad_char c), rest⟩
        | none =>
          some ⟨1, strncpy programme (remove_extra_spaces (strip line)) MAX_PROGRAMME_LEN, none,
            rest⟩ := by
  unfold get_programme
  rw [fgets_feed_short _ line rest hnl hnul (by omega)]
  have : ¬ strlen (line ++ ['\n']) > MAX_PROGRAMME_LEN := by simp [strlen]; omega
  simp only
  rw [if_neg this]
  simp only [clean_fgets_line line rest hnl, strcasecmp_Q, strlen, List.length_eq_zero]

/-- The text `remove_extra_spaces` makes of a stripped line whose characters
all pass the test `ok`. -/
theorem collapsed_text_spec (ok : Char → Bool) (line : CString)
    (hne : strip line ≠ []) (hok : ∀ c ∈ strip line, ok c = true ∨ isspace c = true) :
    remove_extra_spaces (strip line) ≠ [] ∧
      (remove_extra_spaces (strip line)).length ≤ line.length ∧
      (∀ c ∈ remove_extra_spaces (strip line), ok c = true ∨ c = ' ') ∧
      (remove_extra_spaces (strip line)).head? ≠ some ' ' ∧
      (remove_extra_spaces (strip line)).getLast? ≠ some ' ' ∧
      ¬ ([' ', ' '] <:+: remove_extra_spaces (strip line)) ∧
      (remove_extra_spaces (strip line)).filter (fun c => !isspace c)
        = line.filter (fun c => !isspace c) := by
  obtain ⟨hcol, hlast, hmem, hfil, hlen⟩ := remove_extra_spaces_spec (strip line)
  rw [filter_strip] at hfil
  refine ⟨?_, le_trans hlen (strip_length_le line), ?_, hcol.2.1, hlast,
    collapsed_no_double_space hcol, hfil⟩
  · intro e
    rw [e] at hfil
    have hex : ∃ c ∈ line, isspace c = false := by
      by_contra hcon
      push_neg at hcon
      exact hne (strip_eq_nil_iff.mpr (fun c hc => by simpa using hcon c hc))
    obtain ⟨c, hc, hs⟩ := hex
    have : c ∈ line.filter (fun c => !isspace c) := by
      rw [List.mem_filter]; exact ⟨hc, by simp [hs]⟩
    rw [← hfil] at this
    simp at this
  · intro c hc
    rcases hmem c hc with h | h
    · exact Or.inr h
    · rcases hok c h with h' | h'
      · exact Or.inl h'
      · exact Or.inr (hcol.1 c hc h')
/-! ## The function `remove_extra_spaces` and the words of a text -/

theorem intercalate_cons (w : CString) (ws : List CString) :
    [' '].intercalate (w :: ws) = w ++ (if ws = [] then [] else ' ' :: [' '].intercalate ws) := by
  cases ws with
  | nil => simp [List.intercalate]
  | cons v vs => simp [List.intercalate, List.intersperse]

/-- A text with a character other than white space has a word. -/
theorem words_ne_nil {s : CString} (h : ∃ c ∈ s, isspace c = false) :
    (s.splitOnP isspace).filter (fun w => !w.isEmpty) ≠ [] := by
  induction s with
  | nil => obtain ⟨c, hc, -⟩ := h; simp at hc
  | cons a t ih =>
    rw [List.splitOnP_cons]
    by_cases ha : isspace a = true
    · rw [if_pos ha]
      have ht : ∃ c ∈ t, isspace c = false := by
        obtain ⟨c, hc, hs⟩ := h
        rcases List.mem_cons.mp hc with e | e
        · subst e; rw [ha] at hs; cases hs
        · exact ⟨c, e, hs⟩
      simpa [List.filter_cons] using ih ht
    · rw [if_neg ha]
      obtain ⟨h0, t0, e0⟩ := List.exists_cons_of_ne_nil (List.splitOnP_ne_nil isspace t)
      rw [e0, List.modifyHead_cons]
      simp [List.filter_cons]

/-- White space before a text adds no word. -/
theorem splitOnP_space_append (pre s : CString) (hpre : ∀ c ∈ pre, isspace c = true) :
    (pre ++ s).splitOnP isspace = List.replicate pre.length [] ++ s.splitOnP isspace := by
  induction pre with
  | nil => simp
  | cons a t ih =>
    have ha : isspace a = true := hpre a (List.mem_cons_self _ _)
    rw [List.cons_append, List.splitOnP_cons, if_pos ha,
      ih (fun c hc => hpre c (List.mem_cons_of_mem _ hc))]
    simp [List.replicate_succ]

/-- White space after a text adds no word. -/
theorem splitOnP_append_space (s post : CString) (hpost : ∀ c ∈ post, isspace c = true) :
    (s ++ post).splitOnP isspace = s.splitOnP isspace ++ List.replicate post.length [] := by
  induction s with
  | nil =>
    have := splitOnP_space_append post [] hpost
    rw [List.append_nil] at this
    rw [List.nil_append, this, List.splitOnP_nil]
    rw [← List.replicate_succ', List.replicate_succ]
    rfl
  | cons a t ih =>
    rw [List.cons_append, List.splitOnP_cons, List.splitOnP_cons, ih]
    by_cases ha : isspace a = true
    · rw [if_pos ha, if_pos ha]; simp
    · rw [if_neg ha, if_neg ha]
      obtain ⟨h0, t0, e0⟩ := List.exists_cons_of_ne_nil (List.splitOnP_ne_nil isspace t)
      rw [e0]
      simp [List.modifyHead_cons]

theorem filter_replicate_nil (n : Nat) :
    (List.replicate n ([] : CString)).filter (fun w => !w.isEmpty) = [] := by
  induction n with
  | zero => simp
  | succ n ih => simp [List.replicate_succ, List.filter_cons, ih]

/-- The collapsed form of a line is that of its stripped text. -/
theorem collapse_whitespace_strip (line : CString) :
    collapse_whitespace (strip line) = collapse_whitespace line := by
  obtain ⟨pre, post, hd, hpre, hpost⟩ := strip_decomp line
  unfold collapse_whitespace
  congr 1
  conv_rhs => rw [hd]
  rw [splitOnP_append_space _ _ hpost, splitOnP_space_append _ _ hpre]
  simp only [List.filter_append, filter_replicate_nil, List.nil_append, List.append_nil]

/-- The main loop of `remove_extra_spaces` on a text that does not end in
white space: after a space or at the start it appends the words left,
joined by single spaces; inside a word it appends the rest of the word,
then a space and the words left, if any. -/
theorem loop_words (rest : CString) :
    (∀ out : CString, out.getLast?.any (fun d => !isspace d) = false →
      (∀ c, rest.getLast? = some c → isspace c = false) → (out = [] ∨ rest ≠ []) →
      remove_extra_spaces_loop rest out
        = out ++ [' '].intercalate ((rest.splitOnP isspace).filter (fun w => !w.isEmpty))) ∧
    (∀ (out h : CString) (t : List CString), out.getLast?.any (fun d => !isspace d) = true →
      (∀ c, rest.getLast? = some c → isspace c = false) → rest.splitOnP isspace = h :: t →
      remove_extra_spaces_loop rest out
        = out ++ h ++ (if t.filter (fun w => !w.isEmpty) = [] then []
            else ' ' :: [' '].intercalate (t.filter (fun w => !w.isEmpty)))) := by
  induction rest with
  | nil =>
    constructor
    · intro out _ _ _
      simp [remove_extra_spaces_loop, List.intercalate]
    · intro out h t _ _ hs
      rw [List.splitOnP_nil] at hs
      simp only [List.cons.injEq] at hs
      obtain ⟨e1, e2⟩ := hs
      subst e1 e2
      simp [remove_extra_spaces_loop]
  | cons a s ih =>
    obtain ⟨ihA, ihB⟩ := ih
    have hEs : (∀ c, (a :: s).getLast? = some c → isspace c = false) →
        ∀ c, s.getLast? = some c → isspace c = false := by
      intro hE c hc
      cases s with
      | nil => simp at hc
      | cons b u => exact hE c (by rw [List.getLast?_cons_cons]; exact hc)
    have hsne : isspace a = true → (∀ c, (a :: s).getLast? = some c → isspace c = false) →
        s ≠ [] := by
      intro ha hE e
      subst e
      have := hE a (by simp)
      rw [ha] at this; cases this
    obtain ⟨h0, t0, e0⟩ := List.exists_cons_of_ne_nil (List.splitOnP_ne_nil isspace s)
    constructor
    · intro out hout hE _
      rw [List.splitOnP_cons]
      unfold remove_extra_spaces_loop
      by_cases ha : isspace a = true
      · have h1 : ¬ ((!isspace a) = true) := by simp [ha]
        rw [if_neg h1, if_neg (by rw [hout]; simp), if_pos ha]
        rw [ihA out hout (hEs hE) (Or.inr (hsne ha hE))]
        simp [List.filter_cons]
      · have h1 : (!isspace a) = true := by simpa using ha
        rw [if_pos h1, if_neg ha]
        rw [ihB (out ++ [a]) h0 t0 (by simpa using ha) (hEs hE) e0]
        rw [e0, List.modifyHead_cons]
        have hf : ((a :: h0) :: t0).filter (fun w => !w.isEmpty)
            = (a :: h0) :: t0.filter (fun w => !w.isEmpty) := by
          simp [List.filter_cons]
        rw [hf, intercalate_cons]
        simp
    · intro out h t hout hE hs
      rw [List.splitOnP_cons] at hs
      unfold remove_extra_spaces_loop
      by_cases ha : isspace a = true
      · have h1 : ¬ ((!isspace a) = true) := by simp [ha]
        rw [if_pos ha] at hs
        simp only [List.cons.injEq] at hs
        obtain ⟨e1, e2⟩ := hs
        subst e1 e2
        rw [if_neg h1, if_pos hout]
        have hne := hsne ha hE
        rw [ihA (out ++ [' ']) (by simp [isspace_space]) (hEs hE) (Or.inr hne)]
        have hw : (s.splitOnP isspace).filter (fun w => !w.isEmpty) ≠ [] := by
          apply words_ne_nil
          obtain ⟨c, hc⟩ : ∃ c, s.getLast? = some c := by
            cases hl : s.getLast? with
            | none => exact absurd (List.getLast?_eq_none_iff.mp hl) hne
            | some c => exact ⟨c, rfl⟩
          exact ⟨c, List.mem_of_getLast?_eq_some hc, hEs hE c hc⟩
        rw [if_neg hw]
        simp
      · have h1 : (!isspace a) = true := by simpa using ha
        rw [if_neg ha, e0, List.modifyHead_cons] at hs
        simp only [List.cons.injEq] at hs
        obtain ⟨e1, e2⟩ := hs
        subst e1 e2
        rw [if_pos h1]
        rw [ihB (out ++ [a]) h0 t0 (by simpa using ha) (hEs hE) e0]
        simp

/-- The main loop of `remove_extra_spaces` ends its output with the last
character of a text that does not end in white space. -/
theorem loop_getLast (rest out : CString) (hne : rest ≠ [])
    (hE : ∀ c, rest.getLast? = some c → isspace c = false) :
    (remove_extra_spaces_loop rest out).getLast? = rest.getLast? := by
  induction rest generalizing out with
  | nil => exact absurd rfl hne
  | cons a s ih =>
    cases s with
    | nil =>
      have ha : isspace a = false := hE a (by simp)
      simp [remove_extra_spaces_loop, ha]
    | cons b u =>
      have hE2 : ∀ c, (b :: u).getLast? = some c → isspace c = false := by
        intro c hc
        exact hE c (by rw [List.getLast?_cons_cons]; exact hc)
      rw [List.getLast?_cons_cons]
      rw [remove_extra_spaces_loop]
      split_ifs
      · exact ih _ (by simp) hE2
      · exact ih _ (by simp) hE2
      · exact ih _ (by simp) hE2

/-- The stripped form of a line does not end in white space. -/
theorem strip_getLast (line : CString) (c : Char) (h : (strip line).getLast? = some c) :
    isspace c = false := by
  unfold strip at h
  rw [List.getLast?_reverse] at h
  set d := (line.dropWhile isspace).reverse with hd
  cases hdw : d.dropWhile isspace with
  | nil => rw [hdw] at h; simp at h
  | cons x xs =>
    rw [hdw] at h
    simp only [List.head?_cons, Option.some.injEq] at h
    subst h
    have hne : d.dropWhile isspace ≠ [] := by rw [hdw]; simp
    have := List.head_dropWhile_not isspace d hne
    simp only [hdw, List.head_cons] at this
    simpa using this

/-- On a line that is not blank, `remove_extra_spaces` makes of the stripped
line the whitespace-collapsed form of the line. -/
theorem remove_extra_spaces_strip (line : CString) (hne : strip line ≠ []) :
    remove_extra_spaces (strip line) = collapse_whitespace line := by
  have hE := strip_getLast line
  obtain ⟨x, hx⟩ : ∃ c, (strip line).getLast? = some c := by
    cases hl : (strip line).getLast? with
    | none => exact absurd (List.getLast?_eq_none_iff.mp hl) hne
    | some c => exact ⟨c, rfl⟩
  have hxs : isspace x = false := hE x hx
  -- the text without its leading white space ends as the text does
  have hsplit : strip line = (strip line).takeWhile isspace ++ (strip line).dropWhile isspace :=
    (List.takeWhile_append_dropWhile _ _).symm
  have hdne : (strip line).dropWhile isspace ≠ [] := by
    intro e
    rw [List.dropWhile_eq_nil_iff] at e
    have := e x (List.mem_of_getLast?_eq_some hx)
    rw [hxs] at this; cases this
  have hlast : ((strip line).dropWhile isspace).getLast? = (strip line).getLast? := by
    conv_rhs => rw [hsplit]
    rw [List.getLast?_append_of_ne_nil _ hdne]
  have hE2 : ∀ c, ((strip line).dropWhile isspace).getLast? = some c → isspace c = false := by
    intro c hc
    rw [hlast] at hc
    exact hE c hc
  have hwords : (((strip line).dropWhile isspace).splitOnP isspace).filter (fun w => !w.isEmpty)
      = ((strip line).splitOnP isspace).filter (fun w => !w.isEmpty) := by
    conv_rhs => rw [hsplit]
    rw [splitOnP_space_append _ _ (fun c hc => List.mem_takeWhile_imp hc)]
    simp only [List.filter_append, filter_replicate_nil, List.nil_append]
  have hloop := (loop_words ((strip line).dropWhile isspace)).1 [] (by simp) hE2 (Or.inl rfl)
  have hl2 := loop_getLast ((strip line).dropWhile isspace) [] hdne hE2
  unfold remove_extra_spaces
  simp only
  have hnot : ¬ (remove_extra_spaces_loop ((strip line).dropWhile isspace) []).getLast?
      = some ' ' := by
    rw [hl2, hlast, hx]
    intro e
    simp only [Option.some.injEq] at e
    rw [e, isspace_space] at hxs
    cases hxs
  rw [if_neg hnot, hloop, hwords, List.nil_append, ← collapse_whitespace_strip]
  rfl

/-! ## Name and programme: theorems -/

/-- C5: `get_name` rejects the 30-character name
`Maximilian Alexander Rodriguez` as too long, although it accepts the same
name cut to 29 characters; `get_programme` rejects the 50-character
programme `Bachelor of Engineering (Hons) in Robotics Systems` as too long.
The length test counts the newline that `fgets` stores with the line. -/
theorem get_name_rejects_full_length_line :
    "Maximilian Alexander Rodriguez".toList.length = 30 ∧
    get_name [] (feed "Maximilian Alexander Rodriguez".toList [])
      = some ⟨0, [], some Diag.name_too_long, []⟩ ∧
    get_name [] (feed "Maximilian Alexander Rodrigue".toList [])
      = some ⟨1, "Maximilian Alexander Rodrigue".toList, none, []⟩ ∧
    "Bachelor of Engineering (Hons) in Robotics Systems".toList.length = 50 ∧
    get_programme [] (feed "Bachelor of Engineering (Hons) in Robotics Systems".toList [])
      = some ⟨0, [], some Diag.programme_too_long, []⟩ := by
  decide

/-- The text `get_name` returns on acceptance. -/
theorem get_name_accepted_text (name line : CString) (rest : Stdin) (r : Outcome CString)
    (hnl : '\n' ∉ line) (hnul : NUL ∉ line) (h : get_name name (feed line rest) = some r)
    (hs : r.status = 1) :
    strip line ≠ [] ∧ line.length < MAX_NAME_LEN ∧
      (∀ c ∈ strip line, isalpha c = true ∨ isspace c = true) ∧
      r.value = remove_extra_spaces (strip line) := by
  by_cases hlen : line.length < MAX_NAME_LEN
  · rw [get_name_of_line name line rest hnl hnul hlen] at h
    split_ifs at h with c1 c2
    · cases h; simp at hs
    · cases h; simp at hs
    · split at h
      · cases h; simp at hs
      · rename_i hfind
        rw [List.find?_eq_none] at hfind
        have hok : ∀ c ∈ strip line, isalpha c = true ∨ isspace c = true := by
          intro c hc
          have := hfind c hc
          simp only [Bool.and_eq_true, Bool.not_eq_true', not_and, Bool.not_eq_false] at this
          by_cases ha : isalpha c = true
          · exact Or.inl ha
          · exact Or.inr (this (by simpa using ha))
        have hl := (remove_extra_spaces_spec (strip line)).2.2.2.2
        have hl2 := strip_length_le line
        have hcopy : strncpy name (remove_extra_spaces (strip line)) MAX_NAME_LEN
            = remove_extra_spaces (strip line) := by
          unfold strncpy; rw [if_pos (by omega)]
        cases h
        exact ⟨c2, hlen, hok, hcopy⟩
  · obtain ⟨stdin2, hr⟩ := get_name_too_long name line rest hnl hnul (by omega)
    rw [hr] at h; cases h; simp at hs

/-- The text `get_programme` returns on acceptance. -/
theorem get_programme_accepted_text (programme line : CString) (rest : Stdin)
    (r : Outcome CString) (hnl : '\n' ∉ line) (hnul : NUL ∉ line)
    (h : get_programme programme (feed line rest) = some r) (hs : r.status = 1) :
    strip line ≠ [] ∧ line.length < MAX_PROGRAMME_LEN ∧
      (∀ c ∈ strip line, programme_char_ok c = true) ∧
      r.value = remove_extra_spaces (strip line) := by
  by_cases hlen : line.length < MAX_PROGRAMME_LEN
  · rw [get_programme_of_line programme line rest hnl hnul hlen] at h
    split_ifs at h with c1 c2
    · cases h; simp at hs
    · cases h; simp at hs
    · split at h
      · cases h; simp at hs
      · rename_i hfind
        rw [List.find?_eq_none] at hfind
        have hok : ∀ c ∈ strip line, programme_char_ok c = true := by
          intro c hc
          simpa using hfind c hc
        have hl := (remove_extra_spaces_spec (strip line)).2.2.2.2
        have hl2 := strip_length_le line
        have hcopy : strncpy programme (remove_extra_spaces (strip line)) MAX_PROGRAMME_LEN
            = remove_extra_spaces (strip line) := by
          unfold strncpy; rw [if_pos (by omega)]
        cases h
        exact ⟨c2, hlen, hok, hcopy⟩
  · obtain ⟨stdin2, hr⟩ := get_programme_too_long programme line rest hnl hnul (by omega)
    rw [hr] at h; cases h; simp at hs

theorem programme_char_ok_cases {c : Char} (h : programme_char_ok c = true) :
    (isalpha c = true ∨ c ∈ ['-', '&', '.', '(', ')']) ∨ isspace c = true := by
  simp only [programme_char_ok, Bool.or_eq_true, beq_iff_eq] at h
  simp only [List.mem_cons, List.mem_singleton, List.not_mem_nil, or_false]
  rcases h with (((((h | h) | h) | h) | h) | h) | h
  · exact Or.inl (Or.inl h)
  · exact Or.inr h
  · exact Or.inl (Or.inr (Or.inl h))
  · exact Or.inl (Or.inr (Or.inr (Or.inl h)))
  · exact Or.inl (Or.inr (Or.inr (Or.inr (Or.inl h))))
  · exact Or.inl (Or.inr (Or.inr (Or.inr (Or.inr (Or.inl h)))))
  · exact Or.inl (Or.inr (Or.inr (Or.inr (Or.inr (Or.inr h)))))

/-- C6: whenever `get_name` accepts a line, the text it returns is the
whitespace-collapsed form of the line: the words of the line, its maximal
runs of characters other than white space, joined by single spaces. It is
not empty, has at most 30 characters, all of them letters or spaces, has no
space at its start or end and no two spaces in a row, and its characters
other than white space are those of the line, in the same order. The same
holds for `get_programme` with at most 50 characters that are letters,
spaces or one of `- & . ( )`. -/
theorem accepted_text_collapsed :
    (∀ (name line : CString) (rest : Stdin) (r : Outcome CString),
      '\n' ∉ line → NUL ∉ line → get_name name (feed line rest) = some r → r.status = 1 →
      r.value = collapse_whitespace line ∧
      r.value ≠ [] ∧ r.value.length ≤ 30 ∧
      (∀ c ∈ r.value, isalpha c = true ∨ c = ' ') ∧
      r.value.head? ≠ some ' ' ∧ r.value.getLast? ≠ some ' ' ∧
      ¬ ([' ', ' '] <:+: r.value) ∧
      r.value.filter (fun c => !isspace c) = line.filter (fun c => !isspace c)) ∧
    (∀ (programme line : CString) (rest : Stdin) (r : Outcome CString),
      '\n' ∉ line → NUL ∉ line → get_programme programme (feed line rest) = some r →
      r.status = 1 →
      r.value = collapse_whitespace line ∧
      r.value ≠ [] ∧ r.value.length ≤ 50 ∧
      (∀ c ∈ r.value, isalpha c = true ∨ c = ' ' ∨ c ∈ ['-', '&', '.', '(', ')']) ∧
      r.value.head? ≠ some ' ' ∧ r.value.getLast? ≠ some ' ' ∧
      ¬ ([' ', ' '] <:+: r.value) ∧
      r.value.filter (fun c => !isspace c) = line.filter (fun c => !isspace c)) := by
  constructor
  · intro name line rest r hnl hnul h hs
    obtain ⟨hne, hlen, hok, hv⟩ := get_name_accepted_text name line rest r hnl hnul h hs
    obtain ⟨p1, p2, p3, p4, p5, p6, p7⟩ := collapsed_text_spec isalpha line hne hok
    have hc := remove_extra_spaces_strip line hne
    rw [hv]
    refine ⟨hc, p1, ?_, p3, p4, p5, p6, p7⟩
    simp only [MAX_NAME_LEN] at hlen; omega
  · intro programme line rest r hnl hnul h hs
    obtain ⟨hne, hlen, hok, hv⟩ :=
      get_programme_accepted_text programme line rest r hnl hnul h hs
    obtain ⟨p1, p2, p3, p4, p5, p6, p7⟩ := collapsed_text_spec
      (fun c => decide (isalpha c = true ∨ c ∈ ['-', '&', '.', '(', ')'])) line hne
      (fun c hc => by
        rcases programme_char_ok_cases (hok c hc) with h | h
        · exact Or.inl (decide_eq_true h)
        · exact Or.inr h)
    have hc := remove_extra_spaces_strip line hne
    rw [hv]
    refine ⟨hc, p1, ?_, ?_, p4, p5, p6, p7⟩
    · simp only [MAX_PROGRAMME_LEN] at hlen; omega
    · intro c hc
      rcases p3 c hc with h | h
      · rcases of_decide_eq_true h with h | h
        · exact Or.inl h
        · exact Or.inr (Or.inr h)
      · exact Or.inr (Or.inl h)

/-- Witness for C6: the line `  Ada \t Lovelace ` is accepted as
`Ada Lovelace`, its collapsed form. -/
theorem accepted_text_collapsed_witness :
    get_name [] (feed "  Ada \t Lovelace ".toList [])
      = some ⟨1, "Ada Lovelace".toList, none, []⟩ ∧
    "Ada Lovelace".toList = collapse_whitespace "  Ada \t Lovelace ".toList ∧
    "Ada Lovelace".toList.filter (fun c => !isspace c)
      = "  Ada \t Lovelace ".toList.filter (fun c => !isspace c) :=
  ⟨by decide!,
    (accepted_text_collapsed.1 [] "  Ada \t Lovelace ".toList []
      ⟨1, "Ada Lovelace".toList, none, []⟩ (by decide) (by decide) (by decide!) rfl).1,
    (accepted_text_collapsed.1 [] "  Ada \t Lovelace ".toList []
      ⟨1, "Ada Lovelace".toList, none, []⟩ (by decide) (by decide) (by decide!) rfl).2.2.2.2.2.2.2⟩

/-- For a line that passes the length test of `get_programme` (fewer than 50
characters before the newline), is not blank and is not the cancel letter,
`get_programme` returns 0 or 1, and returns 0 exactly when the line holds a
character that is neither a letter, nor white space, nor one of `- & . ( )`;
the character named in its message is then the leftmost such character of
the line. -/
theorem get_programme_first_bad_char (programme line : CString) (rest : Stdin)
    (hnl : '\n' ∉ line) (hnul : NUL ∉ line) (hlen : line.length < MAX_PROGRAMME_LEN)
    (hne : strip line ≠ []) (hq : strip line ≠ ['Q'] ∧ strip line ≠ ['q']) :
    ∃ r, get_programme programme (feed line rest) = some r ∧
      (r.status = 0 ∨ r.status = 1) ∧
      (r.status = 0 ↔ ∃ c ∈ line, programme_char_ok c = false) ∧
      (r.status = 0 → ∃ pre c post, line = pre ++ c :: post ∧
        (∀ x ∈ pre, programme_char_ok x = true) ∧ programme_char_ok c = false ∧
        r.diag = some (Diag.programme_bad_char c)) := by
  rw [get_programme_of_line programme line rest hnl hnul hlen]
  have hq' : ¬(strip line = ['Q'] ∨ strip line = ['q']) := by tauto
  rw [if_neg hq', if_neg hne]
  have hfs : (strip line).find? (fun c => !programme_char_ok c)
      = line.find? (fun c => !programme_char_ok c) := by
    apply find?_strip
    intro c hc
    simp [programme_char_ok, hc]
  rw [hfs]
  cases hfind : line.find? (fun c => !programme_char_ok c) with
  | none =>
    rw [List.find?_eq_none] at hfind
    refine ⟨_, rfl, Or.inr rfl, ?_, ?_⟩
    · constructor
      · intro h; simp at h
      · rintro ⟨c, hc, hbad⟩
        exact absurd (hfind c hc) (by simp [hbad])
    · intro h; simp at h
  | some c =>
    rw [List.find?_eq_some] at hfind
    obtain ⟨hbad, pre, post, hdec, hpre⟩ := hfind
    have hbad' : programme_char_ok c = false := by simpa using hbad
    refine ⟨_, rfl, Or.inl rfl, ?_, ?_⟩
    · constructor
      · intro _
        exact ⟨c, by rw [hdec]; simp, hbad'⟩
      · intro _; rfl
    · intro _
      refine ⟨pre, c, post, hdec, ?_, hbad', rfl⟩
      intro x hx
      simpa using hpre x hx

/-- Example: in `Comp. Sci #1 (B&C)!` the first character outside the allowed
set is `#`. -/
theorem get_programme_first_bad_char_example :
    ∃ r, get_programme [] (feed "Comp. Sci #1 (B&C)!".toList []) = some r ∧
      (r.status = 0 ∨ r.status = 1) ∧
      (r.status = 0 ↔ ∃ c ∈ "Comp. Sci #1 (B&C)!".toList, programme_char_ok c = false) ∧
      (r.status = 0 → ∃ pre c post, "Comp. Sci #1 (B&C)!".toList = pre ++ c :: post ∧
        (∀ x ∈ pre, programme_char_ok x = true) ∧ programme_char_ok c = false ∧
        r.diag = some (Diag.programme_bad_char c)) :=
  get_programme_first_bad_char [] "Comp. Sci #1 (B&C)!".toList [] (by decide)
    (by decide) (by decide) (by decide) (by decide)

/-- C7: the 50-character line
`Bachelor of Science (Honours) in Applied Computing` is within the limit of
50 characters, is neither blank nor the cancel letter, and holds no
character outside the letters, white space and `- & . ( )`; yet
`get_programme` rejects it, with the message that the programme exceeds 50
characters. The same line without its last character is accepted. The
length test counts the newline that `fgets` stores with the line. -/
theorem get_programme_rejects_allowed_line :
    "Bachelor of Science (Honours) in Applied Computing".toList.length = 50 ∧
    (∀ c ∈ "Bachelor of Science (Honours) in Applied Computing".toList,
      programme_char_ok c = true) ∧
    get_programme [] (feed "Bachelor of Science (Honours) in Applied Computing".toList [])
      = some ⟨0, [], some Diag.programme_too_long, []⟩ ∧
    get_programme [] (feed "Bachelor of Science (Honours) in Applied Computin".toList [])
      = some ⟨1, "Bachelor of Science (Honours) in Applied Computin".toList, none, []⟩ := by
  decide

/-! ## Floating point: lemmas -/

/-- The rounding `round_even` in terms of the floor and the fractional part. -/
theorem round_even_floor (q : ℚ) :
    round_even q =
      if q - ⌊q⌋ < 1 / 2 then ⌊q⌋
      else if 1 / 2 < q - ⌊q⌋ then ⌊q⌋ + 1
      else if ⌊q⌋ % 2 = 0 then ⌊q⌋ else ⌊q⌋ + 1 := by
  have hden : (0 : ℚ) < (q.den : ℚ) := by exact_mod_cast q.den_pos
  have hfl : ⌊q⌋ = q.num / (q.den : ℤ) := Rat.floor_def
  have hsplit : (q.den : ℤ) * (q.num / (q.den : ℤ)) + q.num % (q.den : ℤ) = q.num :=
    Int.ediv_add_emod q.num q.den
  have hfrac : q - ((q.num / (q.den : ℤ) : ℤ) : ℚ)
      = ((q.num % (q.den : ℤ) : ℤ) : ℚ) / (q.den : ℚ) := by
    have hq : q * (q.den : ℚ) = (q.num : ℚ) := Rat.mul_den_eq_num q
    have hs : ((q.den : ℤ) : ℚ) * ((q.num / (q.den : ℤ) : ℤ) : ℚ)
        + ((q.num % (q.den : ℤ) : ℤ) : ℚ) = (q.num : ℚ) := by exact_mod_cast hsplit
    rw [eq_div_iff (ne_of_gt hden)]
    have : ((q.den : ℤ) : ℚ) = (q.den : ℚ) := by norm_cast
    rw [this] at hs
    linarith
  have c1 : q - ((q.num / (q.den : ℤ) : ℤ) : ℚ) < 1 / 2 ↔ 2 * (q.num % (q.den : ℤ)) < q.den := by
    rw [hfrac, div_lt_iff₀ hden]
    constructor
    · intro h
      have : (2 : ℚ) * ((q.num % (q.den : ℤ) : ℤ) : ℚ) < ((q.den : ℤ) : ℚ) := by
        push_cast; linarith
      exact_mod_cast this
    · intro h
      have : (2 : ℚ) * ((q.num % (q.den : ℤ) : ℤ) : ℚ) < ((q.den : ℤ) : ℚ) := by
        exact_mod_cast h
      push_cast at this; linarith
  have c2 : 1 / 2 < q - ((q.num / (q.den : ℤ) : ℤ) : ℚ) ↔ (q.den : ℤ) < 2 * (q.num % (q.den : ℤ)) := by
    rw [hfrac, lt_div_iff₀ hden]
    constructor
    · intro h
      have : ((q.den : ℤ) : ℚ) < (2 : ℚ) * ((q.num % (q.den : ℤ) : ℤ) : ℚ) := by
        push_cast; linarith
      exact_mod_cast this
    · intro h
      have : ((q.den : ℤ) : ℚ) < (2 : ℚ) * ((q.num % (q.den : ℤ) : ℤ) : ℚ) := by
        exact_mod_cast h
      push_cast at this; linarith
  unfold round_even
  simp only [hfl, c1, c2]

theorem round_even_bounds (q : ℚ) : ⌊q⌋ ≤ round_even q ∧ round_even q ≤ ⌊q⌋ + 1 := by
  rw [round_even_floor]
  split_ifs <;> constructor <;> omega

theorem round_even_intCast (n : ℤ) : round_even (n : ℚ) = n := by
  rw [round_even_floor]
  simp

theorem round_even_mono {q1 q2 : ℚ} (h : q1 ≤ q2) : round_even q1 ≤ round_even q2 := by
  have hf : ⌊q1⌋ ≤ ⌊q2⌋ := Int.floor_mono h
  rcases lt_or_eq_of_le hf with hlt | heq
  · have h1 := (round_even_bounds q1).2
    have h2 := (round_even_bounds q2).1
    omega
  · rw [round_even_floor, round_even_floor]
    simp only [heq]
    have hq : q1 - (⌊q2⌋ : ℚ) ≤ q2 - (⌊q2⌋ : ℚ) := by linarith
    split_ifs <;> first | omega | (exfalso; linarith)

theorem round_even_le_of_le {q : ℚ} {n : ℤ} (h : q ≤ n) : round_even q ≤ n := by
  have := round_even_mono h
  rwa [round_even_intCast] at this

theorem le_round_even_of_le {q : ℚ} {n : ℤ} (h : (n : ℚ) ≤ q) : n ≤ round_even q := by
  have := round_even_mono h
  rwa [round_even_intCast] at this

theorem two_zpow_pos (e : ℤ) : (0 : ℚ) < (2 : ℚ) ^ e := zpow_pos (by norm_num) e

theorem log2_width_spec (fuel n k : Nat) (h : n ≤ k + fuel) :
    n < 2 ^ 2 ^ log2_width fuel n k := by
  induction fuel generalizing k with
  | zero =>
    simp only [log2_width]
    have h1 : k < 2 ^ k := Nat.lt_two_pow k
    have h2 : 2 ^ k ≤ 2 ^ 2 ^ k := Nat.pow_le_pow_right (by norm_num) h1.le
    omega
  | succ fuel ih =>
    unfold log2_width
    split_ifs with hlt
    · exact hlt
    · exact ih (k + 1) (by omega)

theorem log2_search_spec (k n : Nat) (hn : 0 < n) (h : n < 2 ^ 2 ^ k) :
    2 ^ log2_search k n ≤ n ∧ n < 2 ^ (log2_search k n + 1) := by
  induction k generalizing n with
  | zero =>
    simp only [pow_zero, pow_one] at h
    simp only [log2_search, pow_zero, zero_add, pow_one]
    omega
  | succ k ih =>
    unfold log2_search
    have hW : 0 < 2 ^ 2 ^ k := Nat.pow_pos (by norm_num)
    have hsq : 2 ^ 2 ^ (k + 1) = 2 ^ 2 ^ k * 2 ^ 2 ^ k := by
      rw [pow_succ, pow_mul, sq]
    split_ifs with hge
    · have hn' : 0 < n / 2 ^ 2 ^ k := Nat.div_pos hge hW
      have hlt' : n / 2 ^ 2 ^ k < 2 ^ 2 ^ k := by
        rw [Nat.div_lt_iff_lt_mul hW]; rw [hsq] at h; exact h
      obtain ⟨h1, h2⟩ := ih (n / 2 ^ 2 ^ k) hn' hlt'
      have e1 : 2 ^ (2 ^ k + log2_search k (n / 2 ^ 2 ^ k))
          = 2 ^ 2 ^ k * 2 ^ log2_search k (n / 2 ^ 2 ^ k) := by rw [pow_add]
      have e2 : 2 ^ (2 ^ k + log2_search k (n / 2 ^ 2 ^ k) + 1)
          = 2 ^ 2 ^ k * 2 ^ (log2_search k (n / 2 ^ 2 ^ k) + 1) := by
        rw [add_assoc, pow_add]
      rw [e1, e2]
      constructor
      · calc 2 ^ 2 ^ k * 2 ^ log2_search k (n / 2 ^ 2 ^ k)
            ≤ 2 ^ 2 ^ k * (n / 2 ^ 2 ^ k) := Nat.mul_le_mul_left _ h1
          _ ≤ n := Nat.mul_div_le n _
      · calc n < 2 ^ 2 ^ k * (n / 2 ^ 2 ^ k + 1) := Nat.lt_mul_div_succ n hW
          _ ≤ 2 ^ 2 ^ k * 2 ^ (log2_search k (n / 2 ^ 2 ^ k) + 1) :=
              Nat.mul_le_mul_left _ h2
    · exact ih n hn (by omega)

theorem floor_log2_spec (n : Nat) (hn : 0 < n) :
    2 ^ floor_log2 n ≤ n ∧ n < 2 ^ (floor_log2 n + 1) :=
  log2_search_spec _ n hn (log2_width_spec n n 0 (by omega))

/-- Where a positive fraction lies, from the bit lengths of its numerator
and denominator. -/
theorem bracket_of_bit_lengths (q : ℚ) (hq : 0 < q) (a b la lb : ℕ)
    (hqa : q * (b : ℚ) = (a : ℚ))
    (a1 : 2 ^ la ≤ a) (a2 : a < 2 ^ (la + 1)) (b1 : 2 ^ lb ≤ b) (b2 : b < 2 ^ (lb + 1)) :
    q < (2 : ℚ) ^ ((la : ℤ) - (lb : ℤ) + 1) ∧ (2 : ℚ) ^ ((la : ℤ) - (lb : ℤ) - 1) ≤ q := by
  have ha1 : (2 : ℚ) ^ (la : ℤ) ≤ (a : ℚ) := by
    rw [zpow_natCast]; exact_mod_cast a1
  have ha2 : (a : ℚ) < (2 : ℚ) ^ ((la : ℤ) + 1) := by
    have : ((la : ℤ) + 1) = ((la + 1 : ℕ) : ℤ) := by push_cast; ring
    rw [this, zpow_natCast]; exact_mod_cast a2
  have hb1 : (2 : ℚ) ^ (lb : ℤ) ≤ (b : ℚ) := by
    rw [zpow_natCast]; exact_mod_cast b1
  have hb2 : (b : ℚ) < (2 : ℚ) ^ ((lb : ℤ) + 1) := by
    have : ((lb : ℤ) + 1) = ((lb + 1 : ℕ) : ℤ) := by push_cast; ring
    rw [this, zpow_natCast]; exact_mod_cast b2
  have two_ne : (2 : ℚ) ≠ 0 := by norm_num
  constructor
  · have e : (2 : ℚ) ^ ((la : ℤ) - (lb : ℤ) + 1)
        = (2 : ℚ) ^ ((la : ℤ) + 1) / (2 : ℚ) ^ (lb : ℤ) := by
      rw [← zpow_sub₀ two_ne]; congr 1; ring
    rw [e, lt_div_iff₀ (two_zpow_pos _)]
    calc q * (2 : ℚ) ^ (lb : ℤ) ≤ q * (b : ℚ) := mul_le_mul_of_nonneg_left hb1 hq.le
      _ = (a : ℚ) := hqa
      _ < (2 : ℚ) ^ ((la : ℤ) + 1) := ha2
  · have e : (2 : ℚ) ^ ((la : ℤ) - (lb : ℤ) - 1)
        = (2 : ℚ) ^ (la : ℤ) / (2 : ℚ) ^ ((lb : ℤ) + 1) := by
      rw [← zpow_sub₀ two_ne]; congr 1; ring
    rw [e, div_le_iff₀ (two_zpow_pos _)]
    calc (2 : ℚ) ^ (la : ℤ) ≤ (a : ℚ) := ha1
      _ = q * (b : ℚ) := hqa.symm
      _ ≤ q * (2 : ℚ) ^ ((lb : ℤ) + 1) := mul_le_mul_of_nonneg_left hb2.le hq.le

/-- The binary exponent brackets a positive rational. -/
theorem binade_spec (q : ℚ) (hq : 0 < q) :
    (2 : ℚ) ^ binade q ≤ q ∧ q < (2 : ℚ) ^ (binade q + 1) := by
  have hnum : 0 < q.num := Rat.num_pos.mpr hq
  have hden : 0 < q.den := q.den_pos
  obtain ⟨a1, a2⟩ := floor_log2_spec q.num.natAbs (by omega)
  obtain ⟨b1, b2⟩ := floor_log2_spec q.den hden
  have hqa : q * (q.den : ℚ) = (q.num.natAbs : ℚ) := by
    rw [Nat.cast_natAbs, abs_of_pos hnum]
    exact Rat.mul_den_eq_num q
  have hdenq : (0 : ℚ) < (q.den : ℚ) := by exact_mod_cast hden
  obtain ⟨hup, hdown⟩ := bracket_of_bit_lengths q hq _ _ _ _ hqa a1 a2 b1 b2
  unfold binade
  simp only
  set la := floor_log2 q.num.natAbs with hla
  set lb := floor_log2 q.den with hlb
  set a := q.num.natAbs with ha
  have hqdiv : q = (a : ℚ) / (q.den : ℚ) := by
    rw [eq_div_iff (ne_of_gt hdenq)]; exact hqa
  split_ifs with h1 h2 h3
  · -- lb ≤ la and 2 ^ (la - lb) * den ≤ a
    have hd : ((la - lb : ℕ) : ℤ) = (la : ℤ) - (lb : ℤ) := by omega
    rw [hd]
    refine ⟨?_, hup⟩
    rw [← hd, zpow_natCast]
    rw [hqdiv, le_div_iff₀ hdenq]
    exact_mod_cast h2
  · have hd : ((la - lb : ℕ) : ℤ) = (la : ℤ) - (lb : ℤ) := by omega
    rw [hd]
    refine ⟨hdown, ?_⟩
    have e : (la : ℤ) - (lb : ℤ) - 1 + 1 = ((la - lb : ℕ) : ℤ) := by omega
    rw [e, zpow_natCast]
    rw [hqdiv, div_lt_iff₀ hdenq]
    push_neg at h2
    exact_mod_cast h2
  · -- la < lb and den ≤ 2 ^ (lb - la) * a
    have hd : -((lb - la : ℕ) : ℤ) = (la : ℤ) - (lb : ℤ) := by omega
    rw [hd]
    refine ⟨?_, hup⟩
    rw [← hd, zpow_neg, zpow_natCast]
    rw [hqdiv, inv_eq_one_div, div_le_div_iff₀ (by positivity) hdenq]
    have : ((q.den : ℕ) : ℚ) ≤ ((2 ^ (lb - la) * a : ℕ) : ℚ) := by exact_mod_cast h3
    push_cast at this
    linarith
  · have hd : -((lb - la : ℕ) : ℤ) = (la : ℤ) - (lb : ℤ) := by omega
    rw [hd]
    refine ⟨hdown, ?_⟩
    have e : (la : ℤ) - (lb : ℤ) - 1 + 1 = -((lb - la : ℕ) : ℤ) := by omega
    rw [e, zpow_neg, zpow_natCast]
    rw [hqdiv, inv_eq_one_div, div_lt_div_iff₀ hdenq (by positivity)]
    push_neg at h3
    have : ((2 ^ (lb - la) * a : ℕ) : ℚ) < ((q.den : ℕ) : ℚ) := by exact_mod_cast h3
    push_cast at this
    linarith

theorem binade_mono {q1 q2 : ℚ} (h0 : 0 < q1) (h : q1 ≤ q2) : binade q1 ≤ binade q2 := by
  have h1 := (binade_spec q1 h0).1
  have h2 := (binade_spec q2 (lt_of_lt_of_le h0 h)).2
  have h3 : (2 : ℚ) ^ binade q1 < (2 : ℚ) ^ (binade q2 + 1) :=
    lt_of_le_of_lt (le_trans h1 h) h2
  have := (zpow_lt_zpow_iff_right₀ (by norm_num : (1 : ℚ) < 2)).mp h3
  omega

/-- A positive value rounds into the closed binade it lies in. -/
theorem round_to_bits_binade (p : ℕ) (hp : 1 ≤ p) (q : ℚ) (hq : 0 < q) :
    (2 : ℚ) ^ binade q ≤ round_to_bits p q ∧
      round_to_bits p q ≤ (2 : ℚ) ^ (binade q + 1) := by
  unfold round_to_bits
  rw [if_neg (ne_of_gt hq)]
  simp only
  set e := binade q with he
  set ulp : ℚ := (2 : ℚ) ^ (e - ((p : ℤ) - 1)) with hulp
  have hulp_pos : 0 < ulp := two_zpow_pos _
  have hlo : (2 : ℚ) ^ e ≤ q := (binade_spec q hq).1
  have hhi : q < (2 : ℚ) ^ (e + 1) := (binade_spec q hq).2
  have e1 : (2 : ℚ) ^ e = ((2 : ℤ) ^ (p - 1) : ℤ) * ulp := by
    rw [hulp]
    push_cast
    rw [← zpow_natCast, ← zpow_add₀ (by norm_num : (2 : ℚ) ≠ 0)]
    congr 1
    have : ((p - 1 : ℕ) : ℤ) = (p : ℤ) - 1 := by omega
    rw [this]; ring
  have e2 : (2 : ℚ) ^ (e + 1) = ((2 : ℤ) ^ p : ℤ) * ulp := by
    rw [hulp]
    push_cast
    rw [← zpow_natCast, ← zpow_add₀ (by norm_num : (2 : ℚ) ≠ 0)]
    congr 1
    ring
  constructor
  · rw [e1]
    apply mul_le_mul_of_nonneg_right _ hulp_pos.le
    have : (((2 : ℤ) ^ (p - 1) : ℤ) : ℚ) ≤ q / ulp := by
      rw [le_div_iff₀ hulp_pos, ← e1]; exact hlo
    exact_mod_cast le_round_even_of_le this
  · rw [e2]
    apply mul_le_mul_of_nonneg_right _ hulp_pos.le
    have : q / ulp ≤ (((2 : ℤ) ^ p : ℤ) : ℚ) := by
      rw [div_le_iff₀ hulp_pos, ← e2]; exact hhi.le
    exact_mod_cast round_even_le_of_le this

theorem round_to_bits_zero (p : ℕ) : round_to_bits p 0 = 0 := by
  simp [round_to_bits]

theorem round_to_bits_nonneg (p : ℕ) (hp : 1 ≤ p) (q : ℚ) (hq : 0 ≤ q) :
    0 ≤ round_to_bits p q := by
  rcases eq_or_lt_of_le hq with h | h
  · rw [← h, round_to_bits_zero]
  · exact le_trans (two_zpow_pos _).le (round_to_bits_binade p hp q h).1

/-- Rounding to `p` bits is monotone on the non-negative rationals. -/
theorem round_to_bits_mono (p : ℕ) (hp : 1 ≤ p) {q1 q2 : ℚ} (h0 : 0 ≤ q1) (h : q1 ≤ q2) :
    round_to_bits p q1 ≤ round_to_bits p q2 := by
  rcases eq_or_lt_of_le h0 with hz | hpos
  · rw [← hz, round_to_bits_zero]
    exact round_to_bits_nonneg p hp q2 (le_trans h0 h)
  · have hpos2 : 0 < q2 := lt_of_lt_of_le hpos h
    have hlog : binade q1 ≤ binade q2 := binade_mono hpos h
    rcases lt_or_eq_of_le hlog with hlt | heq
    · have h1 := (round_to_bits_binade p hp q1 hpos).2
      have h2 := (round_to_bits_binade p hp q2 hpos2).1
      have h3 : (2 : ℚ) ^ (binade q1 + 1) ≤ (2 : ℚ) ^ binade q2 :=
        zpow_le_zpow_right₀ (by norm_num) (by omega)
      linarith
    · unfold round_to_bits
      rw [if_neg (ne_of_gt hpos), if_neg (ne_of_gt hpos2), heq]
      simp only
      have hulp_pos : (0 : ℚ) < (2 : ℚ) ^ (binade q2 - ((p : ℤ) - 1)) := two_zpow_pos _
      apply mul_le_mul_of_nonneg_right _ hulp_pos.le
      have : q1 / (2 : ℚ) ^ (binade q2 - ((p : ℤ) - 1))
          ≤ q2 / (2 : ℚ) ^ (binade q2 - ((p : ℤ) - 1)) :=
        div_le_div_of_nonneg_right h hulp_pos.le
      exact_mod_cast round_even_mono this

theorem to_float_mono {q1 q2 : ℚ} (h0 : 0 ≤ q1) (h : q1 ≤ q2) : to_float q1 ≤ to_float q2 :=
  round_to_bits_mono 24 (by norm_num) h0 h

theorem to_double_mono {q1 q2 : ℚ} (h0 : 0 ≤ q1) (h : q1 ≤ q2) : to_double q1 ≤ to_double q2 :=
  round_to_bits_mono 53 (by norm_num) h0 h

theorem to_float_nonneg {q : ℚ} (h : 0 ≤ q) : 0 ≤ to_float q :=
  round_to_bits_nonneg 24 (by norm_num) q h

theorem to_double_nonneg {q : ℚ} (h : 0 ≤ q) : 0 ≤ to_double q :=
  round_to_bits_nonneg 53 (by norm_num) q h

theorem to_float_100 : to_float 100 = 100 := by decide!

theorem to_float_1000 : to_float 1000 = 1000 := by decide!

theorem to_double_100 : to_double 100 = 100 := by decide!

theorem c_round_nonneg {x : ℚ} (h : 0 ≤ x) : 0 ≤ c_round x := by
  unfold c_round
  rw [if_pos h]
  exact Int.floor_nonneg.mpr (by linarith)

theorem c_round_le {x : ℚ} (h0 : 0 ≤ x) {n : ℤ} (h : x ≤ n) : c_round x ≤ n := by
  unfold c_round
  rw [if_pos h0]
  have : ⌊x + 1 / 2⌋ < n + 1 := by
    rw [Int.floor_lt]; push_cast; linarith
  omega

/-! ## Marks: rounding to a tenth in `float` arithmetic -/

theorem round_even_error (z : ℚ) : |(round_even z : ℚ) - z| ≤ 1 / 2 := by
  have h1 : (⌊z⌋ : ℚ) ≤ z := Int.floor_le z
  have h2 : z < (⌊z⌋ : ℚ) + 1 := Int.lt_floor_add_one z
  rw [round_even_floor, abs_le]
  split_ifs <;> push_cast <;> constructor <;> linarith

/-- Rounding to `p` bits moves a non-negative value by at most the fraction
`2 ^ (-p)` of it. -/
theorem round_to_bits_error (p : ℕ) (q : ℚ) (hq : 0 ≤ q) :
    |round_to_bits p q - q| ≤ q * (2 : ℚ) ^ (-(p : ℤ)) := by
  rcases eq_or_lt_of_le hq with hz | hpos
  · rw [← hz, round_to_bits_zero]; simp
  · have hlo := (binade_spec q hpos).1
    unfold round_to_bits
    rw [if_neg (ne_of_gt hpos)]
    simp only
    set ulp : ℚ := (2 : ℚ) ^ (binade q - ((p : ℤ) - 1)) with hulp
    have hulp_pos : 0 < ulp := two_zpow_pos _
    have herr := round_even_error (q / ulp)
    have hfac : (round_even (q / ulp) : ℚ) * ulp - q
        = ((round_even (q / ulp) : ℚ) - q / ulp) * ulp := by
      field_simp
    rw [hfac, abs_mul, abs_of_pos hulp_pos]
    have hhalf : 1 / 2 * ulp = (2 : ℚ) ^ binade q * (2 : ℚ) ^ (-(p : ℤ)) := by
      rw [hulp, ← zpow_add₀ (by norm_num : (2 : ℚ) ≠ 0)]
      have : binade q - ((p : ℤ) - 1) = (binade q + -(p : ℤ)) + 1 := by ring
      rw [this, zpow_add_one₀ (by norm_num : (2 : ℚ) ≠ 0)]
      ring
    calc |(round_even (q / ulp) : ℚ) - q / ulp| * ulp ≤ 1 / 2 * ulp :=
          mul_le_mul_of_nonneg_right herr hulp_pos.le
      _ = (2 : ℚ) ^ binade q * (2 : ℚ) ^ (-(p : ℤ)) := hhalf
      _ ≤ q * (2 : ℚ) ^ (-(p : ℤ)) :=
          mul_le_mul_of_nonneg_right hlo (two_zpow_pos _).le

/-- Rounding a non-negative value below `2 ^ (e + 1)` to `p` bits moves it by
at most `2 ^ (e - p)`. -/
theorem round_to_bits_abs_error (p : ℕ) (q : ℚ) (e : ℤ) (hq : 0 ≤ q)
    (hlt : q < (2 : ℚ) ^ (e + 1)) :
    |round_to_bits p q - q| ≤ (2 : ℚ) ^ (e - (p : ℤ)) := by
  rcases eq_or_lt_of_le hq with hz | hpos
  · rw [← hz, round_to_bits_zero]
    simpa using (two_zpow_pos (e - (p : ℤ))).le
  · have hlo := (binade_spec q hpos).1
    have hbin : binade q ≤ e := by
      have h3 : (2 : ℚ) ^ binade q < (2 : ℚ) ^ (e + 1) := lt_of_le_of_lt hlo hlt
      have := (zpow_lt_zpow_iff_right₀ (by norm_num : (1 : ℚ) < 2)).mp h3
      omega
    unfold round_to_bits
    rw [if_neg (ne_of_gt hpos)]
    simp only
    set ulp : ℚ := (2 : ℚ) ^ (binade q - ((p : ℤ) - 1)) with hulp
    have hulp_pos : 0 < ulp := two_zpow_pos _
    have herr := round_even_error (q / ulp)
    have hfac : (round_even (q / ulp) : ℚ) * ulp - q
        = ((round_even (q / ulp) : ℚ) - q / ulp) * ulp := by
      field_simp
    rw [hfac, abs_mul, abs_of_pos hulp_pos]
    have hhalf : 1 / 2 * ulp = (2 : ℚ) ^ (binade q - (p : ℤ)) := by
      rw [hulp]
      have : binade q - ((p : ℤ) - 1) = (binade q - (p : ℤ)) + 1 := by ring
      rw [this, zpow_add_one₀ (by norm_num : (2 : ℚ) ≠ 0)]
      ring
    calc |(round_even (q / ulp) : ℚ) - q / ulp| * ulp ≤ 1 / 2 * ulp :=
          mul_le_mul_of_nonneg_right herr hulp_pos.le
      _ = (2 : ℚ) ^ (binade q - (p : ℤ)) := hhalf
      _ ≤ (2 : ℚ) ^ (e - (p : ℤ)) := zpow_le_zpow_right₀ (by norm_num) (by omega)

theorem to_float_128 : to_float 128 = 128 := by decide!

theorem to_double_128 : to_double 128 = 128 := by decide!

/-- The tenth `get_marks` stores is a tenth nearest to the parsed decimal when
that decimal has at most five digits after the point. -/
theorem stored_tenth_nearest (p : ℚ) (hp : 0 ≤ p) (hle : to_float (to_double p) ≤ 100)
    (n : ℤ) (hn : p * 100000 = (n : ℚ)) :
    |(c_round (to_float (to_float (to_double p) * 10)) : ℚ) / 10 - p| ≤ 1 / 20 := by
  have ha0 : 0 ≤ to_double p := to_double_nonneg hp
  have ht0 : 0 ≤ to_float (to_double p) := to_float_nonneg ha0
  have hy0 : 0 ≤ to_float (to_float (to_double p) * 10) := to_float_nonneg (by linarith)
  have hd128 : to_double p < 128 := by
    by_contra hge
    push_neg at hge
    have := to_float_mono (by norm_num : (0 : ℚ) ≤ 128) hge
    rw [to_float_128] at this
    linarith
  have hp128 : p < 128 := by
    by_contra hge
    push_neg at hge
    have := to_double_mono (by norm_num : (0 : ℚ) ≤ 128) hge
    rw [to_double_128] at this
    linarith
  have ea := round_to_bits_abs_error 53 p 6 hp (by norm_num; exact hp128)
  have et := round_to_bits_abs_error 24 (to_double p) 6 ha0 (by norm_num; exact hd128)
  have ey := round_to_bits_abs_error 24 (to_float (to_double p) * 10) 9 (by linarith)
    (by norm_num; linarith)
  have e1 : (2 : ℚ) ^ ((6 : ℤ) - ((53 : ℕ) : ℤ)) = 1 / 140737488355328 := by
    norm_num [zpow_neg]
  have e2 : (2 : ℚ) ^ ((6 : ℤ) - ((24 : ℕ) : ℤ)) = 1 / 262144 := by norm_num [zpow_neg]
  have e3 : (2 : ℚ) ^ ((9 : ℤ) - ((24 : ℕ) : ℤ)) = 1 / 32768 := by norm_num [zpow_neg]
  rw [e1] at ea
  rw [e2] at et
  rw [e3] at ey
  rw [abs_le] at ea et ey
  change _ ≤ to_double p - p ∧ to_double p - p ≤ _ at ea
  change _ ≤ to_float (to_double p) - to_double p ∧
    to_float (to_double p) - to_double p ≤ _ at et
  change _ ≤ to_float (to_float (to_double p) * 10) - to_float (to_double p) * 10 ∧
    to_float (to_float (to_double p) * 10) - to_float (to_double p) * 10 ≤ _ at ey
  have hk1 : ((c_round (to_float (to_float (to_double p) * 10)) : ℤ) : ℚ)
      ≤ to_float (to_float (to_double p) * 10) + 1 / 2 := by
    unfold c_round; rw [if_pos hy0]; exact Int.floor_le _
  have hk2 : to_float (to_float (to_double p) * 10) + 1 / 2
      < ((c_round (to_float (to_float (to_double p) * 10)) : ℤ) : ℚ) + 1 := by
    unfold c_round; rw [if_pos hy0]; exact Int.lt_floor_add_one _
  obtain ⟨ea1, ea2⟩ := ea
  obtain ⟨et1, et2⟩ := et
  obtain ⟨ey1, ey2⟩ := ey
  set k : ℤ := c_round (to_float (to_float (to_double p) * 10)) with hk
  have hM : ((10000 * k - n : ℤ) : ℚ) = 10000 * (k : ℚ) - p * 100000 := by
    push_cast; rw [hn]
  have hup : ((10000 * k - n : ℤ) : ℚ) < 5001 := by rw [hM]; linarith
  have hdown : (-5001 : ℚ) < ((10000 * k - n : ℤ) : ℚ) := by rw [hM]; linarith
  have hup1 : 10000 * k - n < 5001 := by exact_mod_cast hup
  have hdown1 : -5001 < 10000 * k - n := by exact_mod_cast hdown
  have hup2 : ((10000 * k - n : ℤ) : ℚ) ≤ 5000 := by
    have : 10000 * k - n ≤ 5000 := by omega
    exact_mod_cast this
  have hdown2 : (-5000 : ℚ) ≤ ((10000 * k - n : ℤ) : ℚ) := by
    have : -5000 ≤ 10000 * k - n := by omega
    exact_mod_cast this
  rw [hM] at hup2 hdown2
  rw [abs_le]
  constructor <;> linarith

theorem fgets_read_fst_length (k : Nat) (stdin : Stdin) :
    (fgets_read k stdin).1.length ≤ k := by
  induction k generalizing stdin with
  | zero => simp [fgets_read]
  | succ k ih =>
    cases stdin with
    | nil => simp [fgets_read]
    | cons c t =>
      unfold fgets_read
      split_ifs
      · simp
      · simpa using ih t

theorem fgets_buffer_length {size : Nat} {stdin stdin1 : Stdin} {buffer : CString}
    (h : fgets size stdin = some (buffer, stdin1)) : buffer.length ≤ size - 1 := by
  unfold fgets at h
  cases stdin with
  | nil => cases h
  | cons c t =>
    simp only [Option.some.injEq, Prod.mk.injEq] at h
    rw [← h.1]
    exact le_trans (List.takeWhile_sublist _).length_le (fgets_read_fst_length _ _)

/-- A decimal numeral of at most six characters has at most five digits after
the point. -/
theorem decimal_value_scaled (s : CString) (hlen : s.length ≤ 6) :
    ∃ n : ℤ, decimal_value s * 100000 = (n : ℚ) := by
  unfold decimal_value
  simp only
  set fraction : CString :=
    match s.dropWhile isdigit with
    | '.' :: t => t.takeWhile isdigit
    | _ => [] with hf
  have hL : fraction.length ≤ 5 := by
    rw [hf]
    split
    · rename_i t ht
      have h1 : (s.dropWhile isdigit).length ≤ s.length := (List.dropWhile_sublist _).length_le
      rw [ht] at h1
      have h2 : (t.takeWhile isdigit).length ≤ t.length :=
        (List.takeWhile_sublist _).length_le
      simp only [List.length_cons] at h1
      omega
    · simp
  refine ⟨(read_digits s 0 : ℤ) * 100000
    + (read_digits fraction 0 : ℤ) * 10 ^ (5 - fraction.length), ?_⟩
  have hpow : (100000 : ℚ) = (10 : ℚ) ^ fraction.length * (10 : ℚ) ^ (5 - fraction.length) := by
    rw [← pow_add]
    have : fraction.length + (5 - fraction.length) = 5 := by omega
    rw [this]; norm_num
  push_cast
  have h10 : (10 : ℚ) ^ fraction.length ≠ 0 := by positivity
  rw [add_mul]
  congr 1
  rw [hpow]
  field_simp
  ring

/-! ## Marks: lemmas -/

/-- The character loop of `get_marks` lets a text through exactly when it is
made of digits and at most one dot. -/
theorem marks_scan_eq_none_iff (s : CString) (n : Nat) (hn : n ≤ 1) :
    marks_scan s n = none ↔
      (∀ c ∈ s, isdigit c = true ∨ c = '.') ∧ s.count '.' + n ≤ 1 := by
  induction s generalizing n with
  | nil => simp [marks_scan, hn]
  | cons c t ih =>
    unfold marks_scan
    by_cases hd : isdigit c = true
    · have hne : c ≠ '.' := by rintro rfl; revert hd; decide
      rw [if_pos hd, ih n hn]
      simp [hd, List.count_cons, hne]
    · rw [if_neg hd]
      by_cases hdot : c = '.'
      · subst hdot
        rw [if_pos rfl]
        by_cases h1 : n = 1
        · subst h1; simp
        · have h0 : n = 0 := by omega
          subst h0
          rw [if_neg (by norm_num), ih 1 (le_refl 1)]
          simp
      · rw [if_neg hdot]
        constructor
        · intro h; cases h
        · rintro ⟨h, -⟩
          rcases h c (by simp) with h | h
          · exact absurd h hd
          · exact absurd h hdot

/-- What `get_marks` does once the cleaned text `marks_input` is known. -/
theorem get_marks_of_read {marks : ℚ} {stdin stdin1 stdin2 : Stdin} {buffer marks_input : CString}
    (h1 : fgets 7 stdin = some (buffer, stdin1))
    (h2 : clean_fgets buffer stdin1 = some (marks_input, stdin2)) :
    get_marks marks stdin =
      if marks_input = ['Q'] ∨ marks_input = ['q'] then some ⟨-1, marks, none, stdin2⟩
      else if marks_input = [] then some ⟨0, marks, some Diag.marks_empty, stdin2⟩
      else
        match marks_scan marks_input 0 with
        | some d => some ⟨0, marks, some d, stdin2⟩
        | none =>
          if to_float (atof marks_input) < 0 ∨ to_float (atof marks_input) > 100 then
            some ⟨0, marks, some Diag.marks_range, stdin2⟩
          else
            some ⟨1, to_float (to_double
              ((c_round (to_float (to_float (atof marks_input) * 10)) : ℚ) / 10)), none, stdin2⟩
    := by
  rw [get_marks, h1]
  simp only [h2, strcasecmp_Q, strlen, List.length_eq_zero]

/-- Any result of `get_marks` comes from some cleaned text. -/
theorem get_marks_some {marks : ℚ} {stdin : Stdin} {r : Outcome ℚ}
    (h : get_marks marks stdin = some r) :
    ∃ buffer stdin1 marks_input stdin2, fgets 7 stdin = some (buffer, stdin1) ∧
      clean_fgets buffer stdin1 = some (marks_input, stdin2) := by
  unfold get_marks at h
  split at h
  · cases h
  · rename_i buffer stdin1 h1
    split at h
    · cases h
    · rename_i marks_input stdin2 h2
      exact ⟨buffer, stdin1, marks_input, stdin2, h1, h2⟩

/-- The value `get_marks` stores for a `float` between 0 and 100. -/
theorem stored_marks_range (t : ℚ) (h0 : 0 ≤ t) (h100 : t ≤ 100) :
    0 ≤ c_round (to_float (t * 10)) ∧ c_round (to_float (t * 10)) ≤ 1000 ∧
      0 ≤ to_float (to_double ((c_round (to_float (t * 10)) : ℚ) / 10)) ∧
      to_float (to_double ((c_round (to_float (t * 10)) : ℚ) / 10)) ≤ 100 := by
  have hy0 : 0 ≤ to_float (t * 10) := to_float_nonneg (by linarith)
  have hy1 : to_float (t * 10) ≤ 1000 := by
    have := @to_float_mono (t * 10) 1000 (by linarith) (by linarith)
    rwa [to_float_1000] at this
  have hk0 : 0 ≤ c_round (to_float (t * 10)) := c_round_nonneg hy0
  have hk1 : c_round (to_float (t * 10)) ≤ 1000 := c_round_le hy0 (by exact_mod_cast hy1)
  have hq0 : (0 : ℚ) ≤ (c_round (to_float (t * 10)) : ℚ) / 10 := by
    have : (0 : ℚ) ≤ (c_round (to_float (t * 10)) : ℚ) := by exact_mod_cast hk0
    linarith
  have hq1 : (c_round (to_float (t * 10)) : ℚ) / 10 ≤ 100 := by
    have : (c_round (to_float (t * 10)) : ℚ) ≤ 1000 := by exact_mod_cast hk1
    linarith
  refine ⟨hk0, hk1, to_float_nonneg (to_double_nonneg hq0), ?_⟩
  have h1 := to_double_mono hq0 hq1
  rw [to_double_100] at h1
  have h2 := to_float_mono (to_double_nonneg hq0) h1
  rwa [to_float_100] at h2

/-! ## Marks: theorems -/

/-- C8, as stated, fails: the line `0.1` is accepted and the `float` stored
is 13421773/134217728, ten times which is not an integer. -/
theorem get_marks_stores_binary_value :
    get_marks 0 (feed "0.1".toList []) = some ⟨1, 13421773 / 134217728, none, []⟩ ∧
      ¬ ∃ k : ℤ, (10 : ℚ) * (13421773 / 134217728) = (k : ℚ) := by
  refine ⟨by decide!, ?_⟩
  rintro ⟨k, hk⟩
  have h1 : (1 : ℚ) < (k : ℚ) := by rw [← hk]; norm_num
  have h2 : (k : ℚ) < 2 := by rw [← hk]; norm_num
  have h3 : (1 : ℤ) < k := by exact_mod_cast h1
  have h4 : k < (2 : ℤ) := by exact_mod_cast h2
  omega

theorem decimal_value_nonneg (s : CString) : 0 ≤ decimal_value s := by
  unfold decimal_value
  positivity

/-- C8, amended: whenever `get_marks` returns 1, the value `v` it stores
satisfies `0 ≤ v ≤ 100` and is a tenth as a `float`: there is an integer `k`
with `0 ≤ k ≤ 1000` such that `v` is the `float` nearest to the `double`
nearest to `k / 10`, and `k / 10` is a tenth nearest to the decimal numeral
read (it lies within 1/20 of it). Ten times `v` itself need not be an
integer. -/
theorem get_marks_accepted_value (marks : ℚ) (stdin : Stdin) (r : Outcome ℚ)
    (h : get_marks marks stdin = some r) (hs : r.status = 1) :
    0 ≤ r.value ∧ r.value ≤ 100 ∧
      ∃ buffer stdin1 text, fgets 7 stdin = some (buffer, stdin1) ∧
        clean_fgets buffer stdin1 = some (text, r.stdin) ∧
        ∃ k : ℤ, 0 ≤ k ∧ k ≤ 1000 ∧ r.value = to_float (to_double ((k : ℚ) / 10)) ∧
          |(k : ℚ) / 10 - decimal_value text| ≤ 1 / 20 := by
  obtain ⟨buffer, stdin1, marks_input, stdin2, h1, h2⟩ := get_marks_some h
  rw [get_marks_of_read h1 h2] at h
  by_cases c1 : marks_input = ['Q'] ∨ marks_input = ['q']
  · rw [if_pos c1] at h; cases h; simp at hs
  rw [if_neg c1] at h
  by_cases c2 : marks_input = []
  · rw [if_pos c2] at h; cases h; simp at hs
  rw [if_neg c2] at h
  cases hm : marks_scan marks_input 0 with
  | some d => rw [hm] at h; cases h; simp at hs
  | none =>
    rw [hm] at h
    simp only at h
    by_cases c3 : to_float (atof marks_input) < 0 ∨ to_float (atof marks_input) > 100
    · rw [if_pos c3] at h; cases h; simp at hs
    · rw [if_neg c3] at h
      push_neg at c3
      obtain ⟨p1, p2, p3, p4⟩ := stored_marks_range _ c3.1 c3.2
      have hlen : marks_input.length ≤ 6 :=
        le_trans (clean_fgets_text_length h2) (fgets_buffer_length h1)
      obtain ⟨n, hn⟩ := decimal_value_scaled marks_input hlen
      have hclose := stored_tenth_nearest (decimal_value marks_input)
        (decimal_value_nonneg marks_input) c3.2 n hn
      cases h
      exact ⟨p3, p4, buffer, stdin1, marks_input, h1, h2, _, p1, p2, rfl, hclose⟩

/-- Witness for C8, amended: the line `84.95` is accepted with the value 85. -/
theorem get_marks_accepted_value_witness :
    (0 : ℚ) ≤ 85 ∧ (85 : ℚ) ≤ 100 ∧
      ∃ buffer stdin1 text, fgets 7 (feed "84.95".toList []) = some (buffer, stdin1) ∧
        clean_fgets buffer stdin1 = some (text, []) ∧
        ∃ k : ℤ, 0 ≤ k ∧ k ≤ 1000 ∧ (85 : ℚ) = to_float (to_double ((k : ℚ) / 10)) ∧
          |(k : ℚ) / 10 - decimal_value text| ≤ 1 / 20 :=
  get_marks_accepted_value 0 (feed "84.95".toList []) ⟨1, 85, none, []⟩ (by decide!) rfl

/-- C9, as stated, fails: the line ` 50` holds a space and the line
`12.5  x` holds spaces and a letter, yet `get_marks` accepts them with the
values 50 and 12.5; the line `0.5000.1` holds two dots and is accepted with
the value 0.5. -/
theorem get_marks_accepts_other_characters :
    (get_marks 0 (feed " 50".toList [])).map (fun r => (r.status, r.value)) = some (1, 50) ∧
    (get_marks 0 (feed "12.5  x".toList [])).map (fun r => (r.status, r.value))
      = some (1, 25 / 2) ∧
    (get_marks 0 (feed "0.5000.1".toList [])).map (fun r => (r.status, r.value))
      = some (1, 1 / 2) ∧
    isdigit ' ' = false ∧ isdigit 'x' = false ∧ "0.5000.1".toList.count '.' = 2 := by
  decide!

/-- C9, amended: for a line of at most six characters, `get_marks` looks at
the text of the line without its leading and trailing white space; unless
that text is the cancel letter, it rejects the line when the text holds a
character other than a decimal digit or `.`, and when it holds more than one
`.`. The variable behind the pointer keeps its value. -/
theorem get_marks_rejects_bad_text (marks : ℚ) (line : CString) (rest : Stdin)
    (hnl : '\n' ∉ line) (hnul : NUL ∉ line) (hlen : line.length ≤ 6)
    (hq : strip line ≠ ['Q'] ∧ strip line ≠ ['q'])
    (hbad : (∃ c ∈ strip line, isdigit c = false ∧ c ≠ '.') ∨ 2 ≤ (strip line).count '.') :
    ∃ r, get_marks marks (feed line rest) = some r ∧ r.status = 0 ∧ r.value = marks ∧
      (r.diag = some Diag.marks_format ∨ r.diag = some Diag.marks_multiple_dots) := by
  obtain ⟨stdin2, buffer, stdin1, h1, h2⟩ := read_line_fits 7 line rest hnl hnul (by omega)
  rw [get_marks_of_read h1 h2]
  have hq' : ¬(strip line = ['Q'] ∨ strip line = ['q']) := by tauto
  have hne : strip line ≠ [] := by
    rintro e
    rw [e] at hbad
    simp at hbad
  rw [if_neg hq', if_neg hne]
  have hscan : marks_scan (strip line) 0 ≠ none := by
    intro e
    rw [marks_scan_eq_none_iff _ _ (by norm_num)] at e
    rcases hbad with ⟨c, hc, hd, hdot⟩ | hcount
    · rcases e.1 c hc with h | h
      · rw [hd] at h; cases h
      · exact hdot h
    · omega
  have hdiag : ∀ (s : CString) (n : Nat) (d : Diag), marks_scan s n = some d →
      d = Diag.marks_format ∨ d = Diag.marks_multiple_dots := by
    intro s
    induction s with
    | nil => intro n d h; simp [marks_scan] at h
    | cons c t ih =>
      intro n d h
      unfold marks_scan at h
      split_ifs at h
      · exact ih _ _ h
      · cases h; exact Or.inr rfl
      · exact ih _ _ h
      · cases h; exact Or.inl rfl
  cases hm : marks_scan (strip line) 0 with
  | none => exact absurd hm hscan
  | some d =>
    refine ⟨_, rfl, rfl, rfl, ?_⟩
    rcases hdiag _ _ _ hm with h | h <;> simp [h]

/-- Witness for C9, amended: the line `7a.5` is rejected. -/
theorem get_marks_rejects_bad_text_witness :
    ∃ r, get_marks 0 (feed "7a.5".toList []) = some r ∧ r.status = 0 ∧ r.value = 0 ∧
      (r.diag = some Diag.marks_format ∨ r.diag = some Diag.marks_multiple_dots) :=
  get_marks_rejects_bad_text 0 "7a.5".toList [] (by decide) (by decide) (by decide)
    (by decide) (Or.inl ⟨'a', by decide, by decide, by decide⟩)

/-- C10: `get_marks` accepts the lines `100` and `100.0` with the value 100,
but it also accepts the line `0000101`, which denotes 101, with the value
10, and the line `100.001`, which denotes a value above 100, with the value
100: only the first six characters of a line reach the range test. -/
theorem get_marks_accepts_value_above_100 :
    get_marks 0 (feed "100".toList []) = some ⟨1, 100, none, []⟩ ∧
    get_marks 0 (feed "100.0".toList []) = some ⟨1, 100, none, []⟩ ∧
    get_marks 0 (feed "0000101".toList []) = some ⟨1, 10, none, []⟩ ∧
    get_marks 0 (feed "100.001".toList []) = some ⟨1, 100, none, []⟩ ∧
    decimal_value "0000101".toList = 101 ∧ decimal_value "100.001".toList = 100001 / 1000 := by
  decide!

/-! ## Choices and cancellation: theorems -/

/-- The test `strcasecmp(s, d) == 0` against a one-letter string holds
exactly for the two cases of the letter. -/
theorem strcasecmp_single {s : CString} {d U l : Char} (hd : tolower d = l)
    (hl : ∀ c, tolower c = l ↔ c = U ∨ c = l) :
    strcasecmp s [d] = 0 ↔ s = [U] ∨ s = [l] := by
  constructor
  · intro h
    match s, h with
    | [], h => simp [strcasecmp] at h
    | [c], h =>
      by_cases hc : tolower c = l
      · rcases (hl c).mp hc with h1 | h1 <;> simp [h1]
      · exfalso
        simp only [strcasecmp, hd, hc, if_false] at h
        have h2 : (tolower c).toNat = l.toNat := by omega
        exact hc (by rw [char_eq_of_toNat h2, Char.ofNat_toNat])
    | c :: e :: t, h =>
      exfalso
      by_cases hc : tolower c = l
      · simp [strcasecmp, hd, hc] at h
      · simp only [strcasecmp, hd, hc, if_false] at h
        have h2 : (tolower c).toNat = l.toNat := by omega
        exact hc (by rw [char_eq_of_toNat h2, Char.ofNat_toNat])
  · rintro (h | h)
    · subst h
      have : tolower U = l := (hl U).mpr (Or.inl rfl)
      simp [strcasecmp, this, hd]
    · subst h
      have : tolower l = l := (hl l).mpr (Or.inr rfl)
      simp [strcasecmp, this, hd]

theorem tolower_eq_y {c : Char} : tolower c = 'y' ↔ c = 'Y' ∨ c = 'y' := by
  constructor
  · intro h
    unfold tolower at h
    split at h
    · rename_i hu
      simp only [isupper, Bool.and_eq_true, decide_eq_true_eq] at hu
      obtain ⟨h1, h2⟩ := hu
      have hc : c = Char.ofNat c.toNat := (Char.ofNat_toNat c).symm
      generalize c.toNat = n at hc h1 h2 h
      subst hc
      left
      interval_cases n <;> first | rfl | (exfalso; revert h; decide)
    · exact Or.inr h
  · rintro (h | h) <;> (subst h; decide)

theorem tolower_eq_n {c : Char} : tolower c = 'n' ↔ c = 'N' ∨ c = 'n' := by
  constructor
  · intro h
    unfold tolower at h
    split at h
    · rename_i hu
      simp only [isupper, Bool.and_eq_true, decide_eq_true_eq] at hu
      obtain ⟨h1, h2⟩ := hu
      have hc : c = Char.ofNat c.toNat := (Char.ofNat_toNat c).symm
      generalize c.toNat = n at hc h1 h2 h
      subst hc
      left
      interval_cases n <;> first | rfl | (exfalso; revert h; decide)
    · exact Or.inr h
  · rintro (h | h) <;> (subst h; decide)

/-- The test `strcasecmp(s, "Y") == 0` holds exactly for the strings `Y` and `y`. -/
theorem strcasecmp_Y {s : CString} : strcasecmp s ['Y'] = 0 ↔ s = ['Y'] ∨ s = ['y'] :=
  strcasecmp_single (by decide) (fun _ => tolower_eq_y)

/-- The test `strcasecmp(s, "N") == 0` holds exactly for the strings `N` and `n`. -/
theorem strcasecmp_N {s : CString} : strcasecmp s ['N'] = 0 ↔ s = ['N'] ∨ s = ['n'] :=
  strcasecmp_single (by decide) (fun _ => tolower_eq_n)

/-- The test `strcasecmp(s, "q") == 0` holds exactly for the strings `Q` and `q`. -/
theorem strcasecmp_q {s : CString} : strcasecmp s ['q'] = 0 ↔ s = ['Q'] ∨ s = ['q'] :=
  strcasecmp_single (by decide) (fun _ => tolower_eq_q)

/-- What `get_choice` does once the cleaned text `choice_input` is known. -/
theorem get_choice_of_read {stdin stdin1 stdin2 : Stdin} {buffer choice_input : CString}
    (h1 : fgets 3 stdin = some (buffer, stdin1))
    (h2 : clean_fgets buffer stdin1 = some (choice_input, stdin2)) :
    get_choice stdin =
      if choice_input = ['Y'] ∨ choice_input = ['y'] then some ⟨1, (), none, stdin2⟩
      else if choice_input = ['N'] ∨ choice_input = ['n'] then some ⟨0, (), none, stdin2⟩
      else some ⟨-1, (), some Diag.choice_invalid, stdin2⟩ := by
  rw [get_choice, h1]
  simp only [h2, strcasecmp_Y, strcasecmp_N]

/-- Any result of `get_choice` comes from some cleaned text. -/
theorem get_choice_some {stdin : Stdin} {r : Outcome Unit} (h : get_choice stdin = some r) :
    ∃ buffer stdin1 choice_input stdin2, fgets 3 stdin = some (buffer, stdin1) ∧
      clean_fgets buffer stdin1 = some (choice_input, stdin2) := by
  unfold get_choice at h
  split at h
  · cases h
  · rename_i buffer stdin1 h1
    split at h
    · cases h
    · rename_i choice_input stdin2 h2
      exact ⟨buffer, stdin1, choice_input, stdin2, h1, h2⟩

/-- The stripped line does not end in white space. -/
theorem strip_getLast_not_space {l : CString} {a : Char} (h : (strip l).getLast? = some a) :
    isspace a = false := by
  unfold strip at h
  rw [List.getLast?_reverse] at h
  have := List.head?_dropWhile_not isspace (l.dropWhile isspace).reverse
  rw [h] at this
  simpa using this

/-- The stripped line does not start with white space. -/
theorem strip_head_not_space {l : CString} {a : Char} (h : (strip l).head? = some a) :
    isspace a = false := by
  unfold strip at h
  rw [List.head?_reverse] at h
  have hsplit := List.takeWhile_append_dropWhile isspace (l.dropWhile isspace).reverse
  have hne : (l.dropWhile isspace).reverse.dropWhile isspace ≠ [] := by
    intro e; rw [e] at h; cases h
  have hlast : (l.dropWhile isspace).reverse.getLast? = some a := by
    rw [← hsplit, List.getLast?_append_of_ne_nil _ hne]; exact h
  rw [List.getLast?_reverse] at hlast
  have := List.head?_dropWhile_not isspace l
  rw [hlast] at this
  simpa using this

/-- A stripped line with a single character other than white space is that
character. -/
theorem strip_single {l : CString} {c : Char}
    (h : (strip l).filter (fun c => !isspace c) = [c]) : strip l = [c] := by
  match hs : strip l with
  | [] => rw [hs] at h; simp at h
  | [a] =>
    have ha : isspace a = false := strip_head_not_space (by rw [hs]; rfl)
    rw [hs] at h
    simp only [List.filter_cons, ha, Bool.not_false, if_true, List.filter_nil] at h
    exact h
  | a :: b :: t =>
    exfalso
    have ha : isspace a = false := strip_head_not_space (by rw [hs]; rfl)
    obtain ⟨z, hz⟩ : ∃ z, (b :: t).getLast? = some z :=
      ⟨(b :: t).getLast (by simp), List.getLast?_eq_getLast _ _⟩
    have hz2 : (strip l).getLast? = some z := by
      rw [hs, List.getLast?_cons_cons]; exact hz
    have hzs : isspace z = false := strip_getLast_not_space hz2
    have hzm : z ∈ (b :: t).filter (fun c => !isspace c) := by
      rw [List.mem_filter]
      exact ⟨List.mem_of_getLast?_eq_some hz, by simp [hzs]⟩
    rw [hs, List.filter_cons, if_pos (by simp [ha])] at h
    have : (b :: t).filter (fun c => !isspace c) = [] := (List.cons.inj h).2
    rw [this] at hzm
    simp at hzm

/-- Claim C11, counterexample: `get_choice` affirms lines other than `Y` and
`y`. The line ` y` is trimmed before the comparison, and of the line `y x`
only the first two characters are looked at; both are answered with status
1, and the line ` n` with status 0. -/
theorem get_choice_affirms_other_lines :
    get_choice (feed " y".toList []) = some ⟨1, (), none, []⟩ ∧
      get_choice (feed "y x".toList []) = some ⟨1, (), none, []⟩ ∧
      get_choice (feed " n".toList []) = some ⟨0, (), none, []⟩ := by
  decide

/-- Claim C11, amended: on a line of at most two characters `get_choice`
decides on the line without its leading and trailing white space: the
status is 1 exactly when that text is `Y` or `y`, 0 exactly when it is `N`
or `n`, and -1, with the message for an invalid choice, for anything else;
`Q` and `q` are among the invalid answers, and on status -1 a confirmation
loop goes round again. -/
theorem get_choice_decision (line : CString) (rest : Stdin) (hnl : '\n' ∉ line)
    (hnul : NUL ∉ line) (hlen : line.length ≤ 2) :
    ∃ r, get_choice (feed line rest) = some r ∧
      (r.status = 1 ↔ strip line = ['Y'] ∨ strip line = ['y']) ∧
      (r.status = 0 ↔ strip line = ['N'] ∨ strip line = ['n']) ∧
      (r.status = -1 ↔ ¬(strip line = ['Y'] ∨ strip line = ['y']) ∧
        ¬(strip line = ['N'] ∨ strip line = ['n'])) ∧
      (r.status = -1 → r.diag = some Diag.choice_invalid) ∧
      (strip line = ['Q'] ∨ strip line = ['q'] → r.status = -1) ∧
      (r.status = -1 → confirm_body () (feed line rest)
        = some (Step.again () [Notice.error Diag.choice_invalid] r.stdin)) := by
  obtain ⟨stdin2, buffer, stdin1, h1, h2⟩ := read_line_fits 3 line rest hnl hnul (by omega)
  unfold confirm_body
  rw [get_choice_of_read h1 h2]
  by_cases hy : strip line = ['Y'] ∨ strip line = ['y']
  · rw [if_pos hy]
    refine ⟨_, rfl, by simp [hy], ?_, by simp [hy], by simp, ?_, by simp⟩
    · rcases hy with h | h <;> simp [h]
    · rcases hy with h | h <;> simp [h]
  · rw [if_neg hy]
    by_cases hn : strip line = ['N'] ∨ strip line = ['n']
    · rw [if_pos hn]
      refine ⟨_, rfl, by simp [hy], by simp [hn], by simp [hn], by simp, ?_, by simp⟩
      rcases hn with h | h <;> simp [h]
    · rw [if_neg hn]
      exact ⟨_, rfl, by simp [hy], by simp [hn], by simp [hy, hn], by simp, by simp,
        fun _ => rfl⟩

theorem get_choice_decision_witness :
    ∃ r, get_choice (feed ['Q'] ['y', '\n']) = some r ∧
      (r.status = 1 ↔ strip ['Q'] = ['Y'] ∨ strip ['Q'] = ['y']) ∧
      (r.status = 0 ↔ strip ['Q'] = ['N'] ∨ strip ['Q'] = ['n']) ∧
      (r.status = -1 ↔ ¬(strip ['Q'] = ['Y'] ∨ strip ['Q'] = ['y']) ∧
        ¬(strip ['Q'] = ['N'] ∨ strip ['Q'] = ['n'])) ∧
      (r.status = -1 → r.diag = some Diag.choice_invalid) ∧
      (strip ['Q'] = ['Q'] ∨ strip ['Q'] = ['q'] → r.status = -1) ∧
      (r.status = -1 → confirm_body () (feed ['Q'] ['y', '\n'])
        = some (Step.again () [Notice.error Diag.choice_invalid] r.stdin)) :=
  get_choice_decision ['Q'] ['y', '\n'] (by decide) (by decide) (by decide)

/-- Claim C12, counterexample: a line other than `Q` and `q` that is within
the limit of every validator and is answered with the cancel status by each
of them: the letter `q` after a space. -/
theorem validators_cancel_on_padded_q :
    (get_id 0 (feed " q".toList [])).map (fun r => r.status) = some (-1) ∧
      (get_name [] (feed " q".toList [])).map (fun r => r.status) = some (-1) ∧
      (get_programme [] (feed " q".toList [])).map (fun r => r.status) = some (-1) ∧
      (get_marks 0 (feed " q".toList [])).map (fun r => r.status) = some (-1) := by
  decide

/-- The text `remove_extra_spaces` makes of a stripped line is a single
character other than white space only when the stripped line is. -/
theorem remove_extra_spaces_single {line : CString} {c : Char} (hc : isspace c = false)
    (h : remove_extra_spaces (strip line) = [c]) : strip line = [c] := by
  have hf := (remove_extra_spaces_spec (strip line)).2.2.2.1
  rw [h] at hf
  simp only [List.filter_cons, hc, Bool.not_false, if_true, List.filter_nil] at hf
  exact strip_single hf.symm

/-- Claim C12, amended: for each of `get_id`, `get_name`, `get_programme` and
`get_marks`, a line within the validator's limit is answered with the cancel
status -1 exactly when the line without its leading and trailing white
space is the single letter `Q` or `q`; and no name or programme that
`get_name` or `get_programme` accepts is `Q` or `q`. -/
theorem cancel_exactly_on_q (line : CString) (rest : Stdin) (hnl : '\n' ∉ line)
    (hnul : NUL ∉ line) :
    (line.length ≤ MAX_ID_LEN + 1 → ∀ id, ∃ r, get_id id (feed line rest) = some r ∧
      (r.status = -1 ↔ strip line = ['Q'] ∨ strip line = ['q'])) ∧
    (line.length < MAX_NAME_LEN → ∀ name, ∃ r, get_name name (feed line rest) = some r ∧
      (r.status = -1 ↔ strip line = ['Q'] ∨ strip line = ['q'])) ∧
    (line.length < MAX_PROGRAMME_LEN → ∀ programme,
      ∃ r, get_programme programme (feed line rest) = some r ∧
        (r.status = -1 ↔ strip line = ['Q'] ∨ strip line = ['q'])) ∧
    (line.length ≤ 6 → ∀ marks, ∃ r, get_marks marks (feed line rest) = some r ∧
      (r.status = -1 ↔ strip line = ['Q'] ∨ strip line = ['q'])) ∧
    (∀ name r, get_name name (feed line rest) = some r → r.status = 1 →
      r.value ≠ ['Q'] ∧ r.value ≠ ['q']) ∧
    (∀ programme r, get_programme programme (feed line rest) = some r → r.status = 1 →
      r.value ≠ ['Q'] ∧ r.value ≠ ['q']) := by
  refine ⟨?_, ?_, ?_, ?_, ?_, ?_⟩
  · intro hlen id
    obtain ⟨stdin2, buffer, stdin1, h1, h2⟩ :=
      read_line_fits (MAX_ID_LEN + 2) line rest hnl hnul (by omega)
    rw [get_id_of_read h1 h2]
    by_cases hq : strip line = ['Q'] ∨ strip line = ['q']
    · have h0 : ¬ (strip line).head? = some '0' := by
        rcases hq with h | h <;> (rw [h]; decide)
      rw [if_neg h0, if_pos hq]
      exact ⟨_, rfl, by simp [hq]⟩
    · rw [if_neg hq]
      split_ifs <;> exact ⟨_, rfl, by simp [hq]⟩
  · intro hlen name
    rw [get_name_of_line name line rest hnl hnul hlen]
    by_cases hq : strip line = ['Q'] ∨ strip line = ['q']
    · rw [if_pos hq]; exact ⟨_, rfl, by simp [hq]⟩
    · rw [if_neg hq]
      split_ifs
      · exact ⟨_, rfl, by simp [hq]⟩
      · split <;> exact ⟨_, rfl, by simp [hq]⟩
  · intro hlen programme
    rw [get_programme_of_line programme line rest hnl hnul hlen]
    by_cases hq : strip line = ['Q'] ∨ strip line = ['q']
    · rw [if_pos hq]; exact ⟨_, rfl, by simp [hq]⟩
    · rw [if_neg hq]
      split_ifs
      · exact ⟨_, rfl, by simp [hq]⟩
      · split <;> exact ⟨_, rfl, by simp [hq]⟩
  · intro hlen marks
    obtain ⟨stdin2, buffer, stdin1, h1, h2⟩ := read_line_fits 7 line rest hnl hnul (by omega)
    rw [get_marks_of_read h1 h2]
    by_cases hq : strip line = ['Q'] ∨ strip line = ['q']
    · rw [if_pos hq]; exact ⟨_, rfl, by simp [hq]⟩
    · rw [if_neg hq]
      by_cases he : strip line = []
      · rw [if_pos he]; exact ⟨_, rfl, by simp [hq]⟩
      · rw [if_neg he]
        cases marks_scan (strip line) 0 with
        | some d => exact ⟨_, rfl, by simp [hq]⟩
        | none =>
          simp only
          split_ifs <;> exact ⟨_, rfl, by simp [hq]⟩
  · intro name r h hs
    by_cases hlen : line.length < MAX_NAME_LEN
    · rw [get_name_of_line name line rest hnl hnul hlen] at h
      by_cases hq : strip line = ['Q'] ∨ strip line = ['q']
      · rw [if_pos hq] at h; cases h; simp at hs
      · rw [if_neg hq] at h
        split_ifs at h
        · cases h; simp at hs
        · split at h
          · cases h; simp at hs
          · have hl := (remove_extra_spaces_spec (strip line)).2.2.2.2
            have hl2 := strip_length_le line
            have hcopy : strncpy name (remove_extra_spaces (strip line)) MAX_NAME_LEN
                = remove_extra_spaces (strip line) := by
              unfold strncpy; rw [if_pos (by omega)]
            cases h
            simp only [hcopy]
            exact ⟨fun e => hq (Or.inl (remove_extra_spaces_single (by decide) e)),
              fun e => hq (Or.inr (remove_extra_spaces_single (by decide) e))⟩
    · obtain ⟨stdin2, hr⟩ := get_name_too_long name line rest hnl hnul (by omega)
      rw [hr] at h; cases h; simp at hs
  · intro programme r h hs
    by_cases hlen : line.length < MAX_PROGRAMME_LEN
    · rw [get_programme_of_line programme line rest hnl hnul hlen] at h
      by_cases hq : strip line = ['Q'] ∨ strip line = ['q']
      · rw [if_pos hq] at h; cases h; simp at hs
      · rw [if_neg hq] at h
        split_ifs at h
        · cases h; simp at hs
        · split at h
          · cases h; simp at hs
          · have hl := (remove_extra_spaces_spec (strip line)).2.2.2.2
            have hl2 := strip_length_le line
            have hcopy : strncpy programme (remove_extra_spaces (strip line))
                MAX_PROGRAMME_LEN = remove_extra_spaces (strip line) := by
              unfold strncpy; rw [if_pos (by omega)]
            cases h
            simp only [hcopy]
            exact ⟨fun e => hq (Or.inl (remove_extra_spaces_single (by decide) e)),
              fun e => hq (Or.inr (remove_extra_spaces_single (by decide) e))⟩
    · obtain ⟨stdin2, hr⟩ := get_programme_too_long programme line rest hnl hnul (by omega)
      rw [hr] at h; cases h; simp at hs

theorem cancel_exactly_on_q_witness :
    (['q'].length ≤ MAX_ID_LEN + 1 → ∀ id, ∃ r, get_id id (feed ['q'] []) = some r ∧
      (r.status = -1 ↔ strip ['q'] = ['Q'] ∨ strip ['q'] = ['q'])) ∧
    (['q'].length < MAX_NAME_LEN → ∀ name, ∃ r, get_name name (feed ['q'] []) = some r ∧
      (r.status = -1 ↔ strip ['q'] = ['Q'] ∨ strip ['q'] = ['q'])) ∧
    (['q'].length < MAX_PROGRAMME_LEN → ∀ programme,
      ∃ r, get_programme programme (feed ['q'] []) = some r ∧
        (r.status = -1 ↔ strip ['q'] = ['Q'] ∨ strip ['q'] = ['q'])) ∧
    (['q'].length ≤ 6 → ∀ marks, ∃ r, get_marks marks (feed ['q'] []) = some r ∧
      (r.status = -1 ↔ strip ['q'] = ['Q'] ∨ strip ['q'] = ['q'])) ∧
    (∀ name r, get_name name (feed ['q'] []) = some r → r.status = 1 →
      r.value ≠ ['Q'] ∧ r.value ≠ ['q']) ∧
    (∀ programme r, get_programme programme (feed ['q'] []) = some r → r.status = 1 →
      r.value ≠ ['Q'] ∧ r.value ≠ ['q']) :=
  cancel_exactly_on_q ['q'] [] (by decide) (by decide)

/-! ## Loops: theorems -/

/-- A property of the outcome of a loop that holds when the loop is left
and is carried back over every further pass holds of every outcome. -/
theorem while_true_fuel_rel {α ρ : Type} (body : α → Stdin → Option (Step α ρ))
    (R : α → Stdin → Ran ρ → Prop)
    (hdone : ∀ s stdin r out stdin1, body s stdin = some (Step.done r out stdin1) →
      R s stdin ⟨r, out, stdin1⟩)
    (hagain : ∀ s stdin s1 out stdin1 ran, body s stdin = some (Step.again s1 out stdin1) →
      R s1 stdin1 ran → R s stdin ⟨ran.result, out ++ ran.out, ran.stdin⟩) :
    ∀ (fuel : Nat) (s : α) (stdin : Stdin) (ran : Ran ρ),
      while_true_fuel body fuel s stdin = some ran → R s stdin ran := by
  intro fuel
  induction fuel with
  | zero => intro s stdin ran h; simp [while_true_fuel] at h
  | succ fuel ih =>
    intro s stdin ran h
    rw [while_true_fuel] at h
    cases hb : body s stdin with
    | none => rw [hb] at h; cases h
    | some step =>
      rw [hb] at h
      cases step with
      | done r out stdin1 =>
        simp only [Option.some.injEq] at h
        rw [← h]
        exact hdone s stdin r out stdin1 hb
      | again s1 out stdin1 =>
        simp only at h
        cases hw : while_true_fuel body fuel s1 stdin1 with
        | none => rw [hw] at h; cases h
        | some ran1 =>
          rw [hw] at h
          simp only [Option.some.injEq] at h
          rw [← h]
          exact hagain s stdin s1 out stdin1 ran1 hb (ih s1 stdin1 ran1 hw)

/-- The same for the loop run on the passes it is given by `while_true`. -/
theorem while_true_rel {α ρ : Type} (body : α → Stdin → Option (Step α ρ))
    (R : α → Stdin → Ran ρ → Prop)
    (hdone : ∀ s stdin r out stdin1, body s stdin = some (Step.done r out stdin1) →
      R s stdin ⟨r, out, stdin1⟩)
    (hagain : ∀ s stdin s1 out stdin1 ran, body s stdin = some (Step.again s1 out stdin1) →
      R s1 stdin1 ran → R s stdin ⟨ran.result, out ++ ran.out, ran.stdin⟩)
    {s : α} {stdin : Stdin} {ran : Ran ρ} (h : while_true body s stdin = some ran) :
    R s stdin ran :=
  while_true_fuel_rel body R hdone hagain _ s stdin ran h

/-- One pass of the loop. -/
theorem while_true_fuel_succ {α ρ : Type} (body : α → Stdin → Option (Step α ρ))
    (fuel : Nat) (s : α) (stdin : Stdin) :
    while_true_fuel body (fuel + 1) s stdin =
      match body s stdin with
      | none => none
      | some (Step.done r out stdin1) => some ⟨r, out, stdin1⟩
      | some (Step.again s1 out stdin1) =>
        match while_true_fuel body fuel s1 stdin1 with
        | none => none
        | some ran => some ⟨ran.result, out ++ ran.out, ran.stdin⟩ := by
  rw [while_true_fuel]

/-- When every pass that goes round again reads at least one character, a
pass more than there are characters left is never used: further passes do
not change the outcome. -/
theorem while_true_fuel_stable {α ρ : Type} (body : α → Stdin → Option (Step α ρ))
    (hread : ∀ s stdin s1 out stdin1, body s stdin = some (Step.again s1 out stdin1) →
      stdin1.length < stdin.length) :
    ∀ (fuel : Nat) (s : α) (stdin : Stdin), stdin.length < fuel →
      while_true_fuel body (fuel + 1) s stdin = while_true_fuel body fuel s stdin := by
  intro fuel
  induction fuel with
  | zero => intro s stdin h; omega
  | succ fuel ih =>
    intro s stdin h
    rw [while_true_fuel_succ body (fuel + 1), while_true_fuel_succ body fuel]
    cases hb : body s stdin with
    | none => rfl
    | some step =>
      cases step with
      | done r out stdin1 => rfl
      | again s1 out stdin1 =>
        simp only
        rw [ih s1 stdin1 (by have := hread s stdin s1 out stdin1 hb; omega)]

/-- With input-reading passes, any number of passes above the number of
characters left gives the outcome of `while_true`. -/
theorem while_true_fuel_enough {α ρ : Type} (body : α → Stdin → Option (Step α ρ))
    (hread : ∀ s stdin s1 out stdin1, body s stdin = some (Step.again s1 out stdin1) →
      stdin1.length < stdin.length)
    (fuel : Nat) (s : α) (stdin : Stdin) (h : stdin.length < fuel) :
    while_true_fuel body fuel s stdin = while_true body s stdin := by
  induction fuel with
  | zero => omega
  | succ fuel ih =>
    by_cases hlt : stdin.length < fuel
    · rw [while_true_fuel_stable body hread fuel s stdin hlt, ih hlt]
    · have : fuel = stdin.length := by omega
      rw [this, while_true]

/-- The loop `while (1) { body }`, unrolled once, when every pass that goes
round again reads at least one character. -/
theorem while_true_unroll {α ρ : Type} (body : α → Stdin → Option (Step α ρ))
    (hread : ∀ s stdin s1 out stdin1, body s stdin = some (Step.again s1 out stdin1) →
      stdin1.length < stdin.length) (s : α) (stdin : Stdin) :
    while_true body s stdin =
      match body s stdin with
      | none => none
      | some (Step.done r out stdin1) => some ⟨r, out, stdin1⟩
      | some (Step.again s1 out stdin1) =>
        match while_true body s1 stdin1 with
        | none => none
        | some ran => some ⟨ran.result, out ++ ran.out, ran.stdin⟩ := by
  rw [while_true, while_true_fuel_succ]
  cases hb : body s stdin with
  | none => rfl
  | some step =>
    cases step with
    | done r out stdin1 => rfl
    | again s1 out stdin1 =>
      simp only
      rw [while_true_fuel_enough body hread _ s1 stdin1 (hread s stdin s1 out stdin1 hb)]

/-! ### Every validator call reads input -/

theorem fgets_read_length (k : Nat) (stdin : Stdin) :
    (fgets_read k stdin).2.length ≤ stdin.length := by
  induction k generalizing stdin with
  | zero => simp [fgets_read]
  | succ k ih =>
    cases stdin with
    | nil => simp [fgets_read]
    | cons c stdin =>
      rw [fgets_read]
      split_ifs
      · simp
      · have := ih stdin
        simp only [List.length_cons]
        omega

/-- A call of `fgets` with room for a character reads at least one. -/
theorem fgets_consumes {size : Nat} {stdin stdin1 : Stdin} {buffer : CString}
    (h : fgets size stdin = some (buffer, stdin1)) (hsize : 2 ≤ size) :
    stdin1.length < stdin.length := by
  cases stdin with
  | nil => simp [fgets] at h
  | cons c stdin =>
    simp only [fgets, Option.some.injEq, Prod.mk.injEq] at h
    obtain ⟨k, hk⟩ : ∃ k, size - 1 = k + 1 := ⟨size - 2, by omega⟩
    rw [hk, fgets_read] at h
    rw [← h.2]
    split_ifs
    · simp
    · have := fgets_read_length k stdin
      simp only [List.length_cons]
      omega

theorem discard_line_length {stdin stdin1 : Stdin} (h : discard_line stdin = some stdin1) :
    stdin1.length ≤ stdin.length := by
  induction stdin with
  | nil => simp [discard_line] at h
  | cons c stdin ih =>
    rw [discard_line] at h
    split_ifs at h
    · cases h; simp
    · have := ih h
      simp only [List.length_cons]
      omega

/-- The function `clean_fgets` gives no input back. -/
theorem clean_fgets_length {input text : CString} {stdin stdin2 : Stdin}
    (h : clean_fgets input stdin = some (text, stdin2)) : stdin2.length ≤ stdin.length := by
  unfold clean_fgets at h
  simp only at h
  split_ifs at h
  · cases h; exact le_refl _
  · split at h
    · cases h
    · rename_i stdin1 hd
      cases h
      exact discard_line_length hd
  · cases h; exact le_refl _

/-- Reading and cleaning a line takes at least one character of input. -/
theorem read_consumes {size : Nat} {stdin stdin1 stdin2 : Stdin} {buffer text : CString}
    (h1 : fgets size stdin = some (buffer, stdin1))
    (h2 : clean_fgets buffer stdin1 = some (text, stdin2)) (hsize : 2 ≤ size) :
    stdin2.length < stdin.length :=
  lt_of_le_of_lt (clean_fgets_length h2) (fgets_consumes h1 hsize)

/-- A call of `get_id` reads at least one character, returns 1, 0 or -1, and
leaves `*id` as it was unless it returns 1. -/
theorem get_id_call {id : Int} {stdin : Stdin} {r : Outcome Int}
    (h : get_id id stdin = some r) :
    r.stdin.length < stdin.length ∧ (r.status = 1 ∨ r.status = 0 ∨ r.status = -1) ∧
      (r.status ≠ 1 → r.value = id) := by
  obtain ⟨buffer, stdin1, id_input, stdin2, h1, h2⟩ := get_id_some h
  have hc := read_consumes h1 h2 (by decide)
  rw [get_id_of_read h1 h2] at h
  split_ifs at h <;> cases h <;> exact ⟨hc, by simp, by simp⟩

/-- A call of `get_marks` reads at least one character, returns 1, 0 or -1,
and leaves `*marks` as it was unless it returns 1. -/
theorem get_marks_call {marks : ℚ} {stdin : Stdin} {r : Outcome ℚ}
    (h : get_marks marks stdin = some r) :
    r.stdin.length < stdin.length ∧ (r.status = 1 ∨ r.status = 0 ∨ r.status = -1) ∧
      (r.status ≠ 1 → r.value = marks) := by
  obtain ⟨buffer, stdin1, marks_input, stdin2, h1, h2⟩ := get_marks_some h
  have hc := read_consumes h1 h2 (by decide)
  rw [get_marks_of_read h1 h2] at h
  by_cases hq : marks_input = ['Q'] ∨ marks_input = ['q']
  · rw [if_pos hq] at h; cases h; exact ⟨hc, by simp, by simp⟩
  · rw [if_neg hq] at h
    by_cases he : marks_input = []
    · rw [if_pos he] at h; cases h; exact ⟨hc, by simp, by simp⟩
    · rw [if_neg he] at h
      cases hm : marks_scan marks_input 0 with
      | some d => rw [hm] at h; cases h; exact ⟨hc, by simp, by simp⟩
      | none =>
        rw [hm] at h
        simp only at h
        split_ifs at h <;> cases h <;> exact ⟨hc, by simp, by simp⟩

/-- A call of `get_name` reads at least one character, returns 1, 0 or -1,
and leaves the caller's buffer as it was unless it returns 1. -/
theorem get_name_call {name : CString} {stdin : Stdin} {r : Outcome CString}
    (h : get_name name stdin = some r) :
    r.stdin.length < stdin.length ∧ (r.status = 1 ∨ r.status = 0 ∨ r.status = -1) ∧
      (r.status ≠ 1 → r.value = name) := by
  unfold get_name at h
  split at h
  · cases h
  · rename_i buffer stdin1 h1
    split_ifs at h
    · split at h
      · cases h
      · rename_i t stdin2 h2
        cases h
        exact ⟨read_consumes h1 h2 (by decide), by simp, by simp⟩
    · split at h
      · cases h
      · rename_i t stdin2 h2
        have hc := read_consumes h1 h2 (by decide)
        split_ifs at h
        · cases h; exact ⟨hc, by simp, by simp⟩
        · cases h; exact ⟨hc, by simp, by simp⟩
        · split at h <;> cases h <;> exact ⟨hc, by simp, by simp⟩

/-- A call of `get_programme` reads at least one character, returns 1, 0 or
-1, and leaves the caller's buffer as it was unless it returns 1. -/
theorem get_programme_call {programme : CString} {stdin : Stdin} {r : Outcome CString}
    (h : get_programme programme stdin = some r) :
    r.stdin.length < stdin.length ∧ (r.status = 1 ∨ r.status = 0 ∨ r.status = -1) ∧
      (r.status ≠ 1 → r.value = programme) := by
  unfold get_programme at h
  split at h
  · cases h
  · rename_i buffer stdin1 h1
    split_ifs at h
    · split at h
      · cases h
      · rename_i t stdin2 h2
        cases h
        exact ⟨read_consumes h1 h2 (by decide), by simp, by simp⟩
    · split at h
      · cases h
      · rename_i t stdin2 h2
        have hc := read_consumes h1 h2 (by decide)
        split_ifs at h
        · cases h; exact ⟨hc, by simp, by simp⟩
        · cases h; exact ⟨hc, by simp, by simp⟩
        · split at h <;> cases h <;> exact ⟨hc, by simp, by simp⟩

/-- A call of `get_choice` reads at least one character and returns 1, 0 or
-1. -/
theorem get_choice_call {stdin : Stdin} {r : Outcome Unit} (h : get_choice stdin = some r) :
    r.stdin.length < stdin.length ∧ (r.status = 1 ∨ r.status = 0 ∨ r.status = -1) := by
  obtain ⟨buffer, stdin1, choice_input, stdin2, h1, h2⟩ := get_choice_some h
  have hc := read_consumes h1 h2 (by decide)
  rw [get_choice_of_read h1 h2] at h
  split_ifs at h <;> cases h <;> exact ⟨hc, by simp⟩

/-- A pass that leaves the loop gives its outcome. -/
theorem while_true_done {α ρ : Type} (body : α → Stdin → Option (Step α ρ)) {s : α}
    {stdin : Stdin} {r : ρ} {out : List Notice} {stdin1 : Stdin}
    (hb : body s stdin = some (Step.done r out stdin1)) :
    while_true body s stdin = some ⟨r, out, stdin1⟩ := by
  rw [while_true, while_true_fuel_succ, hb]

/-- After a pass that goes round again the loop carries on from the new
values of its variables and the input left, when every such pass reads at
least one character. -/
theorem while_true_again {α ρ : Type} (body : α → Stdin → Option (Step α ρ))
    (hread : ∀ s stdin s1 out stdin1, body s stdin = some (Step.again s1 out stdin1) →
      stdin1.length < stdin.length) {s : α} {stdin : Stdin} {s1 : α} {out : List Notice}
    {stdin1 : Stdin} (hb : body s stdin = some (Step.again s1 out stdin1)) :
    while_true body s stdin =
      (while_true body s1 stdin1).map (fun ran => ⟨ran.result, out ++ ran.out, ran.stdin⟩) := by
  rw [while_true_unroll body hread, hb]
  simp only
  cases while_true body s1 stdin1 <;> rfl

/-- Two runs of a loop from values of its variables that the body does not
tell apart have the same outcome. -/
theorem while_true_fuel_congr {α ρ : Type} (body : α → Stdin → Option (Step α ρ))
    (E : α → α → Prop)
    (hE : ∀ s t stdin, E s t →
      (body s stdin = none ∧ body t stdin = none) ∨
      (∃ r out sd, body s stdin = some (Step.done r out sd) ∧
        body t stdin = some (Step.done r out sd)) ∨
      (∃ s1 t1 out sd, body s stdin = some (Step.again s1 out sd) ∧
        body t stdin = some (Step.again t1 out sd) ∧ E s1 t1)) :
    ∀ (fuel : Nat) (s t : α) (stdin : Stdin), E s t →
      while_true_fuel body fuel s stdin = while_true_fuel body fuel t stdin := by
  intro fuel
  induction fuel with
  | zero => intro s t stdin _; rfl
  | succ fuel ih =>
    intro s t stdin hst
    rw [while_true_fuel_succ, while_true_fuel_succ]
    rcases hE s t stdin hst with ⟨h1, h2⟩ | ⟨r, out, sd, h1, h2⟩ | ⟨s1, t1, out, sd, h1, h2, h3⟩
    · rw [h1, h2]
    · rw [h1, h2]
    · rw [h1, h2]
      simp only
      rw [ih s1 t1 sd h3]

/-- The value of `*id` before a call of `get_id` shows only in the value
left after a call that did not return 1. -/
theorem get_id_indep (i1 i2 : Int) (stdin : Stdin) :
    (get_id i1 stdin = none ∧ get_id i2 stdin = none) ∨
      ∃ o1 o2, get_id i1 stdin = some o1 ∧ get_id i2 stdin = some o2 ∧
        o1.status = o2.status ∧ o1.diag = o2.diag ∧ o1.stdin = o2.stdin ∧
        (o1.status = 1 → o1.value = o2.value) := by
  unfold get_id
  cases fgets (MAX_ID_LEN + 2) stdin with
  | none => exact Or.inl ⟨rfl, rfl⟩
  | some b =>
    obtain ⟨buffer, stdin1⟩ := b
    simp only
    cases clean_fgets buffer stdin1 with
    | none => exact Or.inl ⟨rfl, rfl⟩
    | some t =>
      obtain ⟨id_input, stdin2⟩ := t
      simp only
      right
      split_ifs <;> exact ⟨_, _, rfl, rfl, rfl, rfl, rfl, by simp⟩

/-! ## The prompt loops: theorems -/

theorem only_errors_nil : only_errors [] := by
  intro n hn; simp at hn

theorem only_errors_diag_out (d : Option Diag) : only_errors (diag_out d) := by
  intro n hn
  cases d with
  | none => simp [diag_out] at hn
  | some m => simp only [diag_out, List.mem_singleton] at hn; exact ⟨m, hn⟩

theorem only_errors_append {a b : List Notice} (ha : only_errors a) (hb : only_errors b) :
    only_errors (a ++ b) := by
  intro n hn
  rcases List.mem_append.mp hn with h | h
  · exact ha n h
  · exact hb n h

/-- A notice that is no validator message and stands in a list that ends a
run of validator messages with one notice is that notice. -/
theorem mem_errors_append_singleton {q : List Notice} {a n : Notice} (hq : only_errors q)
    (hn : ∀ d, n ≠ Notice.error d) (h : n ∈ q ++ [a]) : n = a := by
  rcases List.mem_append.mp h with h | h
  · obtain ⟨d, hd⟩ := hq n h
    exact absurd hd (hn d)
  · simpa using h

/-- The loops of `insert_record` that prompt for one field: the loop reads
input, prints only validator messages, ends with status 1 or with another
status that is not 0, and with status 1 its value is one the validator
accepted. A property `P` of the variable that every call keeps holds of the
value. -/
theorem prompt_loop_spec {α : Type} (get : α → Stdin → Option (Outcome α))
    (hcall : ∀ x s r, get x s = some r → r.stdin.length < s.length)
    (P : α → Prop) (hP : ∀ x s r, get x s = some r → P x → P r.value)
    {x : α} {stdin : Stdin} {ran : Ran (Int × α)}
    (h : while_true (prompt_body get) x stdin = some ran) (hx : P x) :
    ran.stdin.length < stdin.length ∧ only_errors ran.out ∧ P ran.result.2 ∧
      ran.result.1 ≠ 0 ∧ (ran.result.1 = 1 → Accepted get ran.result.2) := by
  refine @while_true_rel α (Int × α) (prompt_body get)
    (fun x stdin ran => P x → ran.stdin.length < stdin.length ∧ only_errors ran.out ∧
      P ran.result.2 ∧ ran.result.1 ≠ 0 ∧ (ran.result.1 = 1 → Accepted get ran.result.2))
    ?_ ?_ x stdin ran h hx
  · intro s stdin r out stdin1 hb hs
    unfold prompt_body at hb
    cases hg : get s stdin with
    | none => rw [hg] at hb; cases hb
    | some o =>
      rw [hg] at hb
      simp only at hb
      have hc := hcall s stdin o hg
      have hp := hP s stdin o hg hs
      split_ifs at hb with c1 c2 <;> cases hb
      · exact ⟨hc, only_errors_diag_out _, hp, by simp, fun _ => ⟨s, stdin, o, hg, c1, rfl⟩⟩
      · exact ⟨hc, only_errors_diag_out _, hp, c2, fun e => absurd e c1⟩
  · intro s stdin s1 out stdin1 ran hb ih hs
    unfold prompt_body at hb
    cases hg : get s stdin with
    | none => rw [hg] at hb; cases hb
    | some o =>
      rw [hg] at hb
      simp only at hb
      have hc := hcall s stdin o hg
      have hp := hP s stdin o hg hs
      split_ifs at hb with c1 c2 <;> cases hb
      obtain ⟨i1, i2, i3, i4, i5⟩ := ih hp
      exact ⟨by simp only; omega, only_errors_append (only_errors_diag_out _) i2, i3, i4, i5⟩

/-- The loops of `update_record` that prompt for one field: as for those of
`insert_record`, with the cancel status -1 tested first. -/
theorem update_prompt_loop_spec {α : Type} (get : α → Stdin → Option (Outcome α))
    (hcall : ∀ x s r, get x s = some r →
      r.stdin.length < s.length ∧ (r.status = 1 ∨ r.status = 0 ∨ r.status = -1))
    (P : α → Prop) (hP : ∀ x s r, get x s = some r → P x → P r.value)
    {x : α} {stdin : Stdin} {ran : Ran (Int × α)}
    (h : while_true (update_prompt_body get) x stdin = some ran) (hx : P x) :
    ran.stdin.length < stdin.length ∧ only_errors ran.out ∧ P ran.result.2 ∧
      (ran.result.1 ≠ -1 → Accepted get ran.result.2) := by
  refine @while_true_rel α (Int × α) (update_prompt_body get)
    (fun x stdin ran => P x → ran.stdin.length < stdin.length ∧ only_errors ran.out ∧
      P ran.result.2 ∧ (ran.result.1 ≠ -1 → Accepted get ran.result.2))
    ?_ ?_ x stdin ran h hx
  · intro s stdin r out stdin1 hb hs
    unfold update_prompt_body at hb
    cases hg : get s stdin with
    | none => rw [hg] at hb; cases hb
    | some o =>
      rw [hg] at hb
      simp only at hb
      obtain ⟨hc, hst⟩ := hcall s stdin o hg
      have hp := hP s stdin o hg hs
      split_ifs at hb with c1 c2 <;> cases hb
      · exact ⟨hc, only_errors_diag_out _, hp, fun e => absurd rfl e⟩
      · have h1 : o.status = 1 := by omega
        exact ⟨hc, only_errors_diag_out _, hp, fun _ => ⟨s, stdin, o, hg, h1, rfl⟩⟩
  · intro s stdin s1 out stdin1 ran hb ih hs
    unfold update_prompt_body at hb
    cases hg : get s stdin with
    | none => rw [hg] at hb; cases hb
    | some o =>
      rw [hg] at hb
      simp only at hb
      obtain ⟨hc, hst⟩ := hcall s stdin o hg
      have hp := hP s stdin o hg hs
      split_ifs at hb with c1 c2 <;> cases hb
      obtain ⟨i1, i2, i3, i4⟩ := ih hp
      exact ⟨by simp only; omega, only_errors_append (only_errors_diag_out _) i2, i3, i4⟩

/-- The confirmation loops: the loop reads input, prints only validator
messages and ends with 1 or 0. -/
theorem confirm_loop_spec {stdin : Stdin} {ran : Ran Int}
    (h : while_true confirm_body () stdin = some ran) :
    ran.stdin.length < stdin.length ∧ only_errors ran.out ∧
      (ran.result = 1 ∨ ran.result = 0) := by
  refine @while_true_rel Unit Int confirm_body
    (fun _ stdin ran => ran.stdin.length < stdin.length ∧ only_errors ran.out ∧
      (ran.result = 1 ∨ ran.result = 0))
    ?_ ?_ () stdin ran h
  · intro s stdin r out stdin1 hb
    unfold confirm_body at hb
    cases hg : get_choice stdin with
    | none => rw [hg] at hb; cases hb
    | some o =>
      rw [hg] at hb
      simp only at hb
      have hc := (get_choice_call hg).1
      split_ifs at hb with c1 c2 <;> cases hb
      · exact ⟨hc, only_errors_diag_out _, Or.inl rfl⟩
      · exact ⟨hc, only_errors_diag_out _, Or.inr rfl⟩
  · intro s stdin s1 out stdin1 ran hb ih
    unfold confirm_body at hb
    cases hg : get_choice stdin with
    | none => rw [hg] at hb; cases hb
    | some o =>
      rw [hg] at hb
      simp only at hb
      have hc := (get_choice_call hg).1
      split_ifs at hb with c1 c2 <;> cases hb
      obtain ⟨i1, i2, i3⟩ := ih
      exact ⟨by simp only; omega, only_errors_append (only_errors_diag_out _) i2, i3⟩

/-- Every pass of a prompt loop of `insert_record` that goes round again has
read input, when the validator does. -/
theorem prompt_body_reads {α : Type} (get : α → Stdin → Option (Outcome α))
    (hcall : ∀ x s r, get x s = some r → r.stdin.length < s.length)
    (s : α) (stdin : Stdin) (s1 : α) (out : List Notice) (stdin1 : Stdin)
    (h : prompt_body get s stdin = some (Step.again s1 out stdin1)) :
    stdin1.length < stdin.length := by
  unfold prompt_body at h
  cases hg : get s stdin with
  | none => rw [hg] at h; cases h
  | some o =>
    rw [hg] at h
    simp only at h
    split_ifs at h <;> cases h
    exact hcall s stdin o hg

/-- Every pass of a prompt loop of `update_record` that goes round again has
read input, when the validator does. -/
theorem update_prompt_body_reads {α : Type} (get : α → Stdin → Option (Outcome α))
    (hcall : ∀ x s r, get x s = some r → r.stdin.length < s.length)
    (s : α) (stdin : Stdin) (s1 : α) (out : List Notice) (stdin1 : Stdin)
    (h : update_prompt_body get s stdin = some (Step.again s1 out stdin1)) :
    stdin1.length < stdin.length := by
  unfold update_prompt_body at h
  cases hg : get s stdin with
  | none => rw [hg] at h; cases h
  | some o =>
    rw [hg] at h
    simp only at h
    split_ifs at h <;> cases h
    exact hcall s stdin o hg

/-- The string `strncpy` leaves in a buffer that held at most `n`
characters, from a source of at most `n` characters, has at most `n`. -/
theorem strncpy_length_le (dest src : CString) (n : Nat) (hd : dest.length ≤ n)
    (hs : src.length ≤ n) : (strncpy dest src n).length ≤ n := by
  unfold strncpy
  split_ifs
  · exact hs
  · simp only [List.length_append, List.length_take, List.length_drop]
    omega

/-- A source of at most `n` characters is what `strncpy` leaves in a
buffer that held at most `n` characters. -/
theorem strncpy_eq_src (dest src : CString) (n : Nat) (hd : dest.length ≤ n)
    (hs : src.length ≤ n) : strncpy dest src n = src := by
  unfold strncpy
  split_ifs
  · rfl
  · rw [List.take_of_length_le hs, List.drop_of_length_le hd, List.append_nil]

/-- A call of `get_name` on a buffer of at most 30 characters leaves at most
30 characters in it. -/
theorem get_name_value_length {name : CString} {stdin : Stdin} {r : Outcome CString}
    (h : get_name name stdin = some r) (hn : name.length ≤ MAX_NAME_LEN) :
    r.value.length ≤ MAX_NAME_LEN := by
  unfold get_name at h
  split at h
  · cases h
  · rename_i buffer stdin1 h1
    split_ifs at h with hlong
    · split at h
      · cases h
      · cases h; exact hn
    · split at h
      · cases h
      · rename_i t stdin2 h2
        split_ifs at h
        · cases h; exact hn
        · cases h; exact hn
        · split at h
          · cases h; exact hn
          · cases h
            have h3 := clean_fgets_text_length h2
            have h4 := (remove_extra_spaces_spec t).2.2.2.2
            simp only [strlen] at hlong
            exact strncpy_length_le _ _ _ hn (by omega)

/-- A call of `get_programme` on a buffer of at most 50 characters leaves at
most 50 characters in it. -/
theorem get_programme_value_length {programme : CString} {stdin : Stdin}
    {r : Outcome CString} (h : get_programme programme stdin = some r)
    (hn : programme.length ≤ MAX_PROGRAMME_LEN) : r.value.length ≤ MAX_PROGRAMME_LEN := by
  unfold get_programme at h
  split at h
  · cases h
  · rename_i buffer stdin1 h1
    split_ifs at h with hlong
    · split at h
      · cases h
      · cases h; exact hn
    · split at h
      · cases h
      · rename_i t stdin2 h2
        split_ifs at h
        · cases h; exact hn
        · cases h; exact hn
        · split at h
          · cases h; exact hn
          · cases h
            have h3 := clean_fgets_text_length h2
            have h4 := (remove_extra_spaces_spec t).2.2.2.2
            simp only [strlen] at hlong
            exact strncpy_length_le _ _ _ hn (by omega)

/-- The scan finds nothing exactly when no record has the id. -/
theorem find_index_eq_none_iff (id : Int) (l : List Record) :
    find_index id l = none ↔ ∀ x ∈ l, x.id ≠ id := by
  induction l with
  | nil => simp [find_index]
  | cons r rest ih =>
    rw [find_index]
    by_cases hr : r.id = id
    · simp [hr]
    · rw [if_neg hr]
      cases hf : find_index id rest with
      | none =>
        simp only [true_iff]
        intro x hx
        rcases List.mem_cons.mp hx with rfl | hx
        · exact hr
        · exact (ih.mp hf) x hx
      | some k =>
        simp only [false_iff, reduceCtorEq]
        intro hall
        have : find_index id rest = none := ih.mpr (fun x hx => hall x (List.mem_cons_of_mem _ hx))
        rw [hf] at this
        cases this

/-- The position the scan stops at: the first record with the id. -/
theorem find_index_spec (id : Int) (l : List Record) (k : Nat) (h : find_index id l = some k) :
    ∃ pre x post, l = pre ++ x :: post ∧ pre.length = k ∧ x.id = id ∧
      (∀ y ∈ pre, y.id ≠ id) ∧ unlink_at k l = pre ++ post ∧
      (∀ f, modify_at f k l = pre ++ f x :: post) ∧ l[k]? = some x := by
  induction l generalizing k with
  | nil => simp [find_index] at h
  | cons r rest ih =>
    rw [find_index] at h
    by_cases hr : r.id = id
    · rw [if_pos hr] at h
      cases h
      exact ⟨[], r, rest, rfl, rfl, hr, by simp, rfl, fun f => rfl, by simp⟩
    · rw [if_neg hr] at h
      cases hf : find_index id rest with
      | none => rw [hf] at h; cases h
      | some j =>
        rw [hf] at h
        cases h
        obtain ⟨pre, x, post, h1, h2, h3, h4, h5, h6, h7⟩ := ih j hf
        refine ⟨r :: pre, x, post, by rw [h1]; rfl, by simp [h2], h3, ?_, ?_, ?_, ?_⟩
        · intro y hy
          rcases List.mem_cons.mp hy with rfl | hy
          · exact hr
          · exact h4 y hy
        · simp only [unlink_at, h5, List.cons_append]
        · intro f
          simp only [modify_at, h6 f, List.cons_append]
        · simpa using h7

theorem only_errors_not_mem {q : List Notice} {n : Notice} (hq : only_errors q)
    (hn : ∀ d, n ≠ Notice.error d) : n ∉ q := by
  intro h
  obtain ⟨d, hd⟩ := hq n h
  exact hn d hd

/-- Every pass of the id loop of `insert_record` that goes round again has
read input. -/
theorem insert_id_body_reads (records : List Record) (s : Int) (stdin : Stdin) (s1 : Int)
    (out : List Notice) (stdin1 : Stdin)
    (h : insert_id_body records s stdin = some (Step.again s1 out stdin1)) :
    stdin1.length < stdin.length := by
  unfold insert_id_body at h
  cases hg : get_id s stdin with
  | none => rw [hg] at h; cases h
  | some o =>
    rw [hg] at h
    simp only at h
    have hc := (get_id_call hg).1
    split_ifs at h
    · split at h <;> cases h
      exact hc
    · cases h; exact hc
    · cases h

/-- The id loop of `insert_record`: the loop reads input, prints validator
messages and duplicate notices, and ends either with status 1 and an id that
`get_id` accepted and no record has, or with another status. -/
theorem insert_id_loop_spec (records : List Record) {id : Int} {stdin : Stdin}
    {a : Ran (Option Int)} (h : while_true (insert_id_body records) id stdin = some a) :
    a.stdin.length < stdin.length ∧
      (∀ n ∈ a.out, (∃ d, n = Notice.error d) ∨ ∃ i, n = Notice.duplicate i) ∧
      (∀ i, a.result = some i → Accepted get_id i ∧ find_index i records = none) := by
  refine @while_true_rel Int (Option Int) (insert_id_body records)
    (fun _ stdin a => a.stdin.length < stdin.length ∧
      (∀ n ∈ a.out, (∃ d, n = Notice.error d) ∨ ∃ i, n = Notice.duplicate i) ∧
      (∀ i, a.result = some i → Accepted get_id i ∧ find_index i records = none))
    ?_ ?_ id stdin a h
  · intro s stdin r out stdin1 hb
    unfold insert_id_body at hb
    cases hg : get_id s stdin with
    | none => rw [hg] at hb; cases hb
    | some o =>
      rw [hg] at hb
      simp only at hb
      have hc := (get_id_call hg).1
      split_ifs at hb with c1 c2
      · cases hf : find_index o.value records with
        | some k => rw [hf] at hb; cases hb
        | none =>
          rw [hf] at hb
          cases hb
          refine ⟨hc, by simp, fun i hi => ?_⟩
          cases hi
          exact ⟨⟨s, stdin, o, hg, c1, rfl⟩, hf⟩
      · cases hb
      · cases hb
        exact ⟨hc, by simp, fun i hi => by cases hi⟩
  · intro s stdin s1 out stdin1 ran hb ih
    have hc := insert_id_body_reads records s stdin s1 out stdin1 hb
    obtain ⟨i1, i2, i3⟩ := ih
    refine ⟨by simp only; omega, ?_, i3⟩
    intro n hn
    rcases List.mem_append.mp hn with hn | hn
    · unfold insert_id_body at hb
      cases hg : get_id s stdin with
      | none => rw [hg] at hb; cases hb
      | some o =>
        rw [hg] at hb
        simp only at hb
        split_ifs at hb with c1 c2
        · split at hb <;> cases hb
          simp only [List.mem_singleton] at hn
          exact Or.inr ⟨_, hn⟩
        · cases hb
          exact Or.inl (only_errors_diag_out _ n hn)
        · cases hb
    · exact i2 n hn

/-- The two ways `insert_record` ends: cancelled, with the store as it was
and no notice of an insertion, or with a new record appended whose fields
are values the validators accepted, whose id no record had, and whose grade
is the one `calculate_grade` gives for its marks. -/
theorem insert_record_cases {st : Store} {stdin : Stdin} {r : Ran Store}
    (h : insert_record st stdin = some r) :
    (r.result = st ∧ Notice.inserted ∉ r.out) ∨
    (∃ i n p m g, Accepted get_id i ∧ Accepted get_name n ∧ Accepted get_programme p ∧
      Accepted get_marks m ∧ calculate_grade m = some g ∧ find_index i st.records = none ∧
      r.result = ⟨st.records ++ [⟨i, n, p, m, g⟩], st.node_count + 1, st.is_file_open, 1⟩ ∧
      Notice.inserted ∈ r.out) := by
  unfold insert_record at h
  cases hA : while_true (insert_id_body st.records) 0 stdin with
  | none => rw [hA] at h; cases h
  | some a =>
  rw [hA] at h
  simp only at h
  obtain ⟨_, a2, a3⟩ := insert_id_loop_spec st.records hA
  have ha : Notice.inserted ∉ a.out := by
    intro hm
    rcases a2 _ hm with ⟨d, hd⟩ | ⟨i, hi⟩ <;> cases ‹_›
  cases ca : a.result with
  | none =>
    rw [ca] at h; cases h
    exact Or.inl ⟨rfl, by simp [ha]⟩
  | some id =>
  rw [ca] at h
  simp only at h
  cases hB : while_true (prompt_body get_name) [] a.stdin with
  | none => rw [hB] at h; cases h
  | some b =>
  rw [hB] at h
  simp only at h
  obtain ⟨_, b2, b3, _, b5⟩ := prompt_loop_spec get_name (fun x s r hg => (get_name_call hg).1)
    (fun x => x.length ≤ MAX_NAME_LEN) (fun x s r hg hx => get_name_value_length hg hx) hB
    (by simp)
  have hb := only_errors_not_mem b2 (n := Notice.inserted) (by simp)
  by_cases cb : b.result.1 = 1
  swap
  · rw [if_pos cb] at h; cases h
    exact Or.inl ⟨rfl, by simp [ha, hb]⟩
  rw [if_neg (not_not.mpr cb)] at h
  cases hC : while_true (prompt_body get_programme) [] b.stdin with
  | none => rw [hC] at h; cases h
  | some c =>
  rw [hC] at h
  simp only at h
  obtain ⟨_, c2, c3, _, c5⟩ := prompt_loop_spec get_programme
    (fun x s r hg => (get_programme_call hg).1)
    (fun x => x.length ≤ MAX_PROGRAMME_LEN)
    (fun x s r hg hx => get_programme_value_length hg hx) hC (by simp)
  have hc := only_errors_not_mem c2 (n := Notice.inserted) (by simp)
  by_cases cc : c.result.1 = 1
  swap
  · rw [if_pos cc] at h; cases h
    exact Or.inl ⟨rfl, by simp [ha, hb, hc]⟩
  rw [if_neg (not_not.mpr cc)] at h
  cases hD : while_true (prompt_body get_marks) 0 c.stdin with
  | none => rw [hD] at h; cases h
  | some d =>
  rw [hD] at h
  simp only at h
  obtain ⟨_, d2, _, _, d5⟩ := prompt_loop_spec get_marks
    (fun x s r hg => (get_marks_call hg).1) (fun _ => True) (fun _ _ _ _ _ => trivial) hD
    trivial
  have hd := only_errors_not_mem d2 (n := Notice.inserted) (by simp)
  by_cases cd : d.result.1 = 1
  swap
  · rw [if_pos cd] at h; cases h
    exact Or.inl ⟨rfl, by simp [ha, hb, hc, hd]⟩
  rw [if_neg (not_not.mpr cd)] at h
  cases hE : while_true confirm_body () d.stdin with
  | none => rw [hE] at h; cases h
  | some e =>
  rw [hE] at h
  simp only at h
  obtain ⟨_, e2, _⟩ := confirm_loop_spec hE
  have he := only_errors_not_mem e2 (n := Notice.inserted) (by simp)
  by_cases ce : e.result = 1
  swap
  · rw [if_pos ce] at h; cases h
    exact Or.inl ⟨rfl, by simp [ha, hb, hc, hd, he]⟩
  rw [if_neg (not_not.mpr ce)] at h
  unfold insert_node at h
  cases hG : calculate_grade d.result.2 with
  | none => rw [hG] at h; cases h
  | some g =>
  rw [hG] at h
  simp only at h
  cases h
  refine Or.inr ⟨id, b.result.2, c.result.2, d.result.2, g, (a3 id ca).1, b5 cb, c5 cc,
    d5 cd, hG, (a3 id ca).2, ?_, by simp⟩
  rw [strncpy_eq_src [] b.result.2 MAX_NAME_LEN (by simp) b3,
    strncpy_eq_src [] c.result.2 MAX_PROGRAMME_LEN (by simp) c3]

/-- The id loop of `insert_record` does not depend on the value `id` has
when it starts. -/
theorem insert_id_loop_indep (records : List Record) (i1 i2 : Int) (stdin : Stdin) :
    while_true (insert_id_body records) i1 stdin
      = while_true (insert_id_body records) i2 stdin := by
  refine while_true_fuel_congr (insert_id_body records) (fun _ _ => True) ?_ _ i1 i2 stdin
    trivial
  intro s t sd _
  unfold insert_id_body
  rcases get_id_indep s t sd with ⟨h1, h2⟩ | ⟨o1, o2, h1, h2, e1, e2, e3, e4⟩
  · rw [h1, h2]; exact Or.inl ⟨rfl, rfl⟩
  · rw [h1, h2]
    simp only
    by_cases c1 : o1.status = 1
    · have c2 : o2.status = 1 := e1 ▸ c1
      rw [if_pos c1, if_pos c2, ← e4 c1, ← e3]
      cases find_index o1.value records with
      | none => exact Or.inr (Or.inl ⟨_, _, _, rfl, rfl⟩)
      | some k => exact Or.inr (Or.inr ⟨_, _, _, _, rfl, rfl, trivial⟩)
    · have c2 : ¬ o2.status = 1 := e1 ▸ c1
      rw [if_neg c1, if_neg c2, ← e1, ← e2, ← e3]
      by_cases c3 : o1.status = 0
      · rw [if_pos c3, if_pos c3]
        exact Or.inr (Or.inr ⟨_, _, _, _, rfl, rfl, trivial⟩)
      · rw [if_neg c3, if_neg c3]
        exact Or.inr (Or.inl ⟨_, _, _, rfl, rfl⟩)

/-- A pass through the id loop of `insert_record` on an id that a record
has prints the duplicate notice and goes round again. -/
theorem insert_id_body_duplicate (records : List Record) (id : Int) (stdin : Stdin)
    (o : Outcome Int) (h : get_id id stdin = some o) (hs : o.status = 1)
    (hdup : ∃ x ∈ records, x.id = o.value) :
    insert_id_body records id stdin
      = some (Step.again o.value [Notice.duplicate o.value] o.stdin) := by
  unfold insert_id_body
  rw [h]
  simp only [hs, if_true]
  cases hf : find_index o.value records with
  | some k => rfl
  | none =>
    obtain ⟨x, hx, hxi⟩ := hdup
    exact absurd hxi ((find_index_eq_none_iff _ _).mp hf x hx)

/-- After an id that a record of the store has, `insert_record` goes on as a
run of it on the same store and the input left does, with the duplicate
notice in front. -/
theorem insert_record_after_duplicate (st : Store) (stdin : Stdin) (o : Outcome Int)
    (h : get_id 0 stdin = some o) (hs : o.status = 1)
    (hdup : ∃ x ∈ st.records, x.id = o.value) :
    insert_record st stdin =
      (insert_record st o.stdin).map
        (fun r => ⟨r.result, [Notice.duplicate o.value] ++ r.out, r.stdin⟩) := by
  have hb := insert_id_body_duplicate st.records 0 stdin o h hs hdup
  have hw := while_true_again _ (insert_id_body_reads st.records) hb
  rw [insert_id_loop_indep st.records o.value 0 o.stdin] at hw
  unfold insert_record
  rw [hw]
  cases while_true (insert_id_body st.records) 0 o.stdin with
  | none => rfl
  | some a =>
    simp only [Option.map_some']
    cases a.result with
    | none => simp
    | some id =>
      simp only
      cases while_true (prompt_body get_name) [] a.stdin with
      | none => rfl
      | some b =>
        simp only
        split_ifs
        · simp
        · cases while_true (prompt_body get_programme) [] b.stdin with
          | none => rfl
          | some c =>
            simp only
            split_ifs
            · simp
            · cases while_true (prompt_body get_marks) 0 c.stdin with
              | none => rfl
              | some d =>
                simp only
                split_ifs
                · simp
                · cases while_true confirm_body () d.stdin with
                  | none => rfl
                  | some e =>
                    simp only
                    split_ifs
                    · simp
                    · cases insert_node st id b.result.2 c.result.2 d.result.2 with
                      | none => rfl
                      | some st1 => simp

/-! ## Delete: theorems -/

/-- Every pass of the loop of `delete_record` that goes round again has
read input. -/
theorem delete_body_reads (st : Store) (s : Int) (stdin : Stdin) (s1 : Int)
    (out : List Notice) (stdin1 : Stdin)
    (h : delete_body st s stdin = some (Step.again s1 out stdin1)) :
    stdin1.length < stdin.length ∧ ∀ i, Notice.deleted i ∉ out := by
  unfold delete_body at h
  cases hg : get_id s stdin with
  | none => rw [hg] at h; cases h
  | some o =>
    rw [hg] at h
    simp only at h
    have hc := (get_id_call hg).1
    split_ifs at h
    · cases h
    · cases h
      exact ⟨hc, fun i => only_errors_not_mem (only_errors_diag_out _) (by simp)⟩
    · cases hf : find_index o.value st.records with
      | none =>
        rw [hf] at h
        cases h
        exact ⟨hc, fun i => by simp⟩
      | some k =>
        rw [hf] at h
        simp only at h
        split at h
        · cases h
        · split_ifs at h <;> cases h

/-- The two ways `delete_record` ends: with the store as it was and no
notice of a deletion, or with the first record that has the id `get_id`
accepted unlinked, and the notice of that deletion only. -/
theorem delete_record_cases {st : Store} {stdin : Stdin} {r : Ran Store}
    (h : delete_record st stdin = some r) :
    (r.result = st ∧ ∀ i, Notice.deleted i ∉ r.out) ∨
    (∃ i k, Accepted get_id i ∧ find_index i st.records = some k ∧
      r.result = delete_node st k ∧ Notice.deleted i ∈ r.out ∧
      ∀ j, Notice.deleted j ∈ r.out → j = i) := by
  unfold delete_record at h
  split_ifs at h with hempty
  · cases h
    exact Or.inl ⟨rfl, fun i => by simp⟩
  refine @while_true_rel Int Store (delete_body st)
    (fun _ _ r => (r.result = st ∧ ∀ i, Notice.deleted i ∉ r.out) ∨
      (∃ i k, Accepted get_id i ∧ find_index i st.records = some k ∧
        r.result = delete_node st k ∧ Notice.deleted i ∈ r.out ∧
        ∀ j, Notice.deleted j ∈ r.out → j = i))
    ?_ ?_ 0 stdin r h
  · intro s stdin res out stdin1 hb
    unfold delete_body at hb
    cases hg : get_id s stdin with
    | none => rw [hg] at hb; cases hb
    | some o =>
      rw [hg] at hb
      simp only at hb
      obtain ⟨_, hst, _⟩ := get_id_call hg
      split_ifs at hb with c1 c2
      · cases hb
        exact Or.inl ⟨rfl, fun i => by simp⟩
      · cases hb
      · have h1 : o.status = 1 := by omega
        cases hf : find_index o.value st.records with
        | none => rw [hf] at hb; cases hb
        | some k =>
          rw [hf] at hb
          simp only at hb
          cases hC : while_true confirm_body () o.stdin with
          | none => rw [hC] at hb; cases hb
          | some c =>
            rw [hC] at hb
            simp only at hb
            obtain ⟨_, e2, _⟩ := confirm_loop_spec hC
            split_ifs at hb with c3
            · cases hb
              refine Or.inr ⟨o.value, k, ⟨s, stdin, o, hg, h1, rfl⟩, hf, rfl, by simp, ?_⟩
              intro j hj
              have := mem_errors_append_singleton e2 (by simp) hj
              simpa using this
            · cases hb
              refine Or.inl ⟨rfl, fun i hi => ?_⟩
              have := mem_errors_append_singleton e2 (by simp) hi
              cases this
  · intro s stdin s1 out stdin1 ran hb ih
    obtain ⟨_, hout⟩ := delete_body_reads st s stdin s1 out stdin1 hb
    rcases ih with ⟨i1, i2⟩ | ⟨i, k, i1, i2, i3, i4, i5⟩
    · refine Or.inl ⟨i1, fun i hi => ?_⟩
      rcases List.mem_append.mp hi with hi | hi
      · exact hout i hi
      · exact i2 i hi
    · refine Or.inr ⟨i, k, i1, i2, i3, List.mem_append_right _ i4, fun j hj => ?_⟩
      rcases List.mem_append.mp hj with hj | hj
      · exact absurd hj (hout j)
      · exact i5 j hj

/-- The loop of `delete_record` does not depend on the value `id` has when
it starts. -/
theorem delete_loop_indep (st : Store) (i1 i2 : Int) (stdin : Stdin) :
    while_true (delete_body st) i1 stdin = while_true (delete_body st) i2 stdin := by
  refine while_true_fuel_congr (delete_body st) (fun _ _ => True) ?_ _ i1 i2 stdin trivial
  intro s t sd _
  unfold delete_body
  rcases get_id_indep s t sd with ⟨h1, h2⟩ | ⟨o1, o2, h1, h2, e1, e2, e3, e4⟩
  · rw [h1, h2]; exact Or.inl ⟨rfl, rfl⟩
  · rw [h1, h2]
    simp only
    obtain ⟨_, hst, _⟩ := get_id_call h1
    rw [← e1, ← e2, ← e3]
    by_cases c1 : o1.status = -1
    · rw [if_pos c1, if_pos c1]
      exact Or.inr (Or.inl ⟨_, _, _, rfl, rfl⟩)
    · rw [if_neg c1, if_neg c1]
      by_cases c2 : o1.status = 0
      · rw [if_pos c2, if_pos c2]
        exact Or.inr (Or.inr ⟨_, _, _, _, rfl, rfl, trivial⟩)
      · rw [if_neg c2, if_neg c2, ← e4 (by omega)]
        cases find_index o1.value st.records with
        | none => exact Or.inr (Or.inr ⟨_, _, _, _, rfl, rfl, trivial⟩)
        | some k =>
          simp only
          cases while_true confirm_body () o1.stdin with
          | none => exact Or.inl ⟨rfl, rfl⟩
          | some c =>
            simp only
            split_ifs
            · exact Or.inr (Or.inl ⟨_, _, _, rfl, rfl⟩)
            · exact Or.inr (Or.inl ⟨_, _, _, rfl, rfl⟩)

/-- A pass through the loop of `delete_record` on an id that no record has
prints the not-found notice and goes round again. -/
theorem delete_body_absent (st : Store) (id : Int) (stdin : Stdin) (o : Outcome Int)
    (h : get_id id stdin = some o) (hs : o.status = 1)
    (habs : ∀ x ∈ st.records, x.id ≠ o.value) :
    delete_body st id stdin
      = some (Step.again o.value [Notice.not_found o.value] o.stdin) := by
  have hf : find_index o.value st.records = none := (find_index_eq_none_iff _ _).mpr habs
  unfold delete_body
  rw [h]
  simp only [hs, hf]
  rfl

/-- After an id that no record of the store has, `delete_record` goes on as
a run of it on the same store and the input left does, with the not-found
notice in front. -/
theorem delete_record_after_absent (st : Store) (stdin : Stdin) (o : Outcome Int)
    (hne : st.records ≠ []) (h : get_id 0 stdin = some o) (hs : o.status = 1)
    (habs : ∀ x ∈ st.records, x.id ≠ o.value) :
    delete_record st stdin =
      (delete_record st o.stdin).map
        (fun r => ⟨r.result, [Notice.not_found o.value] ++ r.out, r.stdin⟩) := by
  have hb := delete_body_absent st 0 stdin o h hs habs
  have hw := while_true_again _
    (fun s sd s1 out sd1 hb => (delete_body_reads st s sd s1 out sd1 hb).1) hb
  rw [delete_loop_indep st o.value 0 o.stdin] at hw
  unfold delete_record
  rw [if_neg hne, if_neg hne, hw]

/-! ## What was entered in a run: theorems -/

/-- A prompt loop of `update_record` that does not end with status -1 ends
with the value entered on its input. -/
theorem update_prompt_loop_prompted {α : Type} (get : α → Stdin → Option (Outcome α))
    (hcall : ∀ x s r, get x s = some r → (r.status = 1 ∨ r.status = 0 ∨ r.status = -1))
    {x : α} {stdin : Stdin} {b : Ran (Int × α)}
    (h : while_true (update_prompt_body get) x stdin = some b) (h1 : b.result.1 ≠ -1) :
    Prompted get Any x stdin b.result.2 b.stdin := by
  refine @while_true_rel α (Int × α) (update_prompt_body get)
    (fun x stdin b => b.result.1 ≠ -1 → Prompted get Any x stdin b.result.2 b.stdin)
    ?_ ?_ x stdin b h h1
  · intro s sd r out sd1 hb hr
    unfold update_prompt_body at hb
    cases hg : get s sd with
    | none => rw [hg] at hb; cases hb
    | some o =>
      rw [hg] at hb
      simp only at hb
      have hst := hcall s sd o hg
      split_ifs at hb with c1 c2 <;> cases hb
      · exact absurd rfl hr
      · exact Prompted.accept s sd o hg (by omega) trivial
  · intro s sd s1 out sd1 ran hb ih hr
    unfold update_prompt_body at hb
    cases hg : get s sd with
    | none => rw [hg] at hb; cases hb
    | some o =>
      rw [hg] at hb
      simp only at hb
      split_ifs at hb with c1 c2 <;> cases hb
      exact Prompted.retry s sd o _ _ hg (Or.inl c2) (ih hr)

/-- A confirmation loop ends with the answer given on its input. -/
theorem confirm_loop_answered {stdin : Stdin} {c : Ran Int}
    (h : while_true confirm_body () stdin = some c) : Answered stdin c.result c.stdin := by
  refine @while_true_rel Unit Int confirm_body
    (fun _ stdin c => Answered stdin c.result c.stdin) ?_ ?_ () stdin c h
  · intro s sd r out sd1 hb
    unfold confirm_body at hb
    cases hg : get_choice sd with
    | none => rw [hg] at hb; cases hb
    | some o =>
      rw [hg] at hb
      simp only at hb
      split_ifs at hb with c1 c2 <;> cases hb
      · have := Answered.answer sd o hg (Or.inl c1)
        rwa [c1] at this
      · have := Answered.answer sd o hg (Or.inr c2)
        rwa [c2] at this
  · intro s sd s1 out sd1 ran hb ih
    unfold confirm_body at hb
    cases hg : get_choice sd with
    | none => rw [hg] at hb; cases hb
    | some o =>
      rw [hg] at hb
      simp only at hb
      split_ifs at hb with c1 c2 <;> cases hb
      exact Answered.retry sd o _ _ hg (by tauto) ih

theorem present_of_find {records : List Record} {i : Int} {k : Nat}
    (h : find_index i records = some k) : Present records i := by
  unfold Present
  rw [h]
  simp

theorem not_present_of_find {records : List Record} {i : Int}
    (h : find_index i records = none) : ¬ Present records i := by
  unfold Present
  rw [h]
  simp

theorem updated_not_error {n : Notice} (h : Updated n) : ∀ d, n ≠ Notice.error d := by
  intro d hd
  rcases h with h | h | h | h <;> (rw [h] at hd; cases hd)

theorem updated_not_cancelled {q : List Notice} {n : Notice} (hq : only_errors q)
    (hn : Updated n) : n ∉ q ++ [Notice.cancelled] := by
  intro hm
  have := mem_errors_append_singleton hq (updated_not_error hn) hm
  rcases hn with h | h | h | h <;> (rw [h] at this; cases this)


/-! ## Insert and delete: the claims -/

/-- Claim C14: when `get_id` accepts, at the id prompt of `insert_record`, an
id that a record of the store has, the pass through the id loop prints the
duplicate notice and goes round again instead of going on to the name
prompt, and the whole run is the run of `insert_record` on the same store
and the input left, with the duplicate notice in front: nothing of the store
has changed. A run of `insert_record` either leaves the store as it was
or appends one record whose id no record of the store has. -/
theorem insert_record_rejects_duplicate (st : Store) (stdin : Stdin) (o : Outcome Int)
    (h : get_id 0 stdin = some o) (hs : o.status = 1)
    (hdup : ∃ x ∈ st.records, x.id = o.value) :
    insert_id_body st.records 0 stdin
        = some (Step.again o.value [Notice.duplicate o.value] o.stdin) ∧
      insert_record st stdin =
        (insert_record st o.stdin).map
          (fun r => ⟨r.result, [Notice.duplicate o.value] ++ r.out, r.stdin⟩) ∧
      ∀ stdin1 r, insert_record st stdin1 = some r →
        r.result = st ∨
          ∃ new, r.result.records = st.records ++ [new] ∧ ∀ x ∈ st.records, x.id ≠ new.id := by
  refine ⟨insert_id_body_duplicate st.records 0 stdin o h hs hdup,
    insert_record_after_duplicate st stdin o h hs hdup, ?_⟩
  intro stdin1 r hr
  rcases insert_record_cases hr with ⟨h1, _⟩ | ⟨i, n, p, m, g, _, _, _, _, _, h6, h7, _⟩
  · exact Or.inl h1
  · refine Or.inr ⟨⟨i, n, p, m, g⟩, by rw [h7], ?_⟩
    exact (find_index_eq_none_iff _ _).mp h6

theorem insert_record_rejects_duplicate_witness :
    insert_id_body sample_store.records 0 "2301235\nq\n".toList
        = some (Step.again 2301235 [Notice.duplicate 2301235] "q\n".toList) ∧
      insert_record sample_store "2301235\nq\n".toList =
        (insert_record sample_store "q\n".toList).map
          (fun r => ⟨r.result, [Notice.duplicate 2301235] ++ r.out, r.stdin⟩) ∧
      ∀ stdin1 r, insert_record sample_store stdin1 = some r →
        r.result = sample_store ∨
          ∃ new, r.result.records = sample_store.records ++ [new] ∧
            ∀ x ∈ sample_store.records, x.id ≠ new.id :=
  insert_record_rejects_duplicate sample_store "2301235\nq\n".toList
    ⟨1, 2301235, none, "q\n".toList⟩ (by decide) rfl ⟨sample_bob, by decide, rfl⟩

/-- Claim C15: a run of `insert_record` that ends without the notice of an
insertion, and a run of `delete_record` that ends without the notice of a
deletion, leave the whole store as it was: the record list, the count and
the dirty flag. These are the runs that end on `Q` at a prompt or on `N` at
the confirmation, the notices being printed only after the confirmation was
affirmed. -/
theorem unconfirmed_run_changes_nothing (st : Store) (stdin : Stdin) (r : Ran Store) :
    (insert_record st stdin = some r → Notice.inserted ∉ r.out → r.result = st) ∧
      (delete_record st stdin = some r → (∀ i, Notice.deleted i ∉ r.out) → r.result = st) := by
  constructor
  · intro h hc
    rcases insert_record_cases h with ⟨h1, _⟩ | ⟨i, n, p, m, g, _, _, _, _, _, _, _, h8⟩
    · exact h1
    · exact absurd h8 hc
  · intro h hc
    rcases delete_record_cases h with ⟨h1, _⟩ | ⟨i, k, _, _, _, h4, _⟩
    · exact h1
    · exact absurd h4 (hc i)

theorem unconfirmed_run_changes_nothing_witness :
    (⟨sample_store, [Notice.cancelled], []⟩ : Ran Store).result = sample_store ∧
      (⟨sample_store, [Notice.error Diag.choice_invalid, Notice.cancelled], []⟩ :
        Ran Store).result = sample_store :=
  ⟨(unconfirmed_run_changes_nothing sample_store "2301236\nCy Lee\nq\n".toList
      ⟨sample_store, [Notice.cancelled], []⟩).1 (by decide!) (by decide),
    (unconfirmed_run_changes_nothing sample_store "2301235\nyes\nn\n".toList
      ⟨sample_store, [Notice.error Diag.choice_invalid, Notice.cancelled], []⟩).2
      (by decide!) (fun i => by simp)⟩

/-- Every pass of the outer loop of `update_record` that goes round again
has read input. -/
theorem update_body_reads (st : Store) (s : Int) (stdin : Stdin) (s1 : Int)
    (out : List Notice) (stdin1 : Stdin)
    (h : update_body st s stdin = some (Step.again s1 out stdin1)) :
    stdin1.length < stdin.length := by
  unfold update_body at h
  cases hg : get_id s stdin with
  | none => rw [hg] at h; cases h
  | some o =>
    rw [hg] at h
    simp only at h
    have hc := (get_id_call hg).1
    split_ifs at h
    · cases h
    · cases h; exact hc
    · cases hf : find_index o.value st.records with
      | none => rw [hf] at h; cases h; exact hc
      | some k =>
        rw [hf] at h
        simp only at h
        split at h <;> cases h

theorem modify_at_append (f : Record → Record) (pre : List Record) (x : Record)
    (post : List Record) : modify_at f pre.length (pre ++ x :: post) = pre ++ f x :: post := by
  induction pre with
  | nil => rfl
  | cons r pre ih =>
    show r :: modify_at f pre.length (pre ++ x :: post) = r :: (pre ++ f x :: post)
    rw [ih]

/-- Option 1 of the update menu either leaves the store as it was, or puts a
name that `get_name` accepted into the record at position `k` and sets the
dirty flag; it goes back to the menu in both cases. -/
theorem update_name_cases {k : Nat} {st : Store} {l : Locals} {stdin : Stdin}
    {step : Step (Store × Locals) Store} (h : update_name k st l stdin = some step) :
    ∃ q, only_errors q ∧ step.input.length < stdin.length ∧
      ((step.store = st ∧ step.notices = q ++ [Notice.cancelled]) ∨
        ∃ n, Accepted get_name n ∧ (l.name.length ≤ MAX_NAME_LEN → n.length ≤ MAX_NAME_LEN) ∧
          step.store = commit_at st k (set_name n) ∧
          step.notices = q ++ [Notice.name_updated]) := by
  unfold update_name at h
  cases hA : while_true (update_prompt_body get_name) l.name stdin with
  | none => rw [hA] at h; cases h
  | some p =>
  rw [hA] at h
  simp only at h
  obtain ⟨p1, p2, p3, p4⟩ := update_prompt_loop_spec get_name
    (fun x s r hg => ⟨(get_name_call hg).1, (get_name_call hg).2.1⟩)
    (fun x => l.name.length ≤ MAX_NAME_LEN → x.length ≤ MAX_NAME_LEN)
    (fun x s r hg hx hl => get_name_value_length hg (hx hl)) hA (fun hl => hl)
  by_cases cp : p.result.1 = -1
  · rw [if_pos cp] at h; cases h
    exact ⟨p.out, p2, p1, Or.inl ⟨rfl, rfl⟩⟩
  rw [if_neg cp] at h
  cases hC : while_true confirm_body () p.stdin with
  | none => rw [hC] at h; cases h
  | some c =>
  rw [hC] at h
  simp only at h
  obtain ⟨c1, c2, _⟩ := confirm_loop_spec hC
  split_ifs at h <;> cases h
  · exact ⟨p.out ++ c.out, only_errors_append p2 c2, by simp only [Step.input]; omega,
      Or.inr ⟨p.result.2, p4 cp, p3, rfl, rfl⟩⟩
  · exact ⟨p.out ++ c.out, only_errors_append p2 c2, by simp only [Step.input]; omega,
      Or.inl ⟨rfl, rfl⟩⟩

/-- Option 2 of the update menu either leaves the store as it was, or puts a
programme that `get_programme` accepted into the record at position `k` and
sets the dirty flag; it goes back to the menu in both cases. -/
theorem update_programme_cases {k : Nat} {st : Store} {l : Locals} {stdin : Stdin}
    {step : Step (Store × Locals) Store} (h : update_programme k st l stdin = some step) :
    ∃ q, only_errors q ∧ step.input.length < stdin.length ∧
      ((step.store = st ∧ step.notices = q ++ [Notice.cancelled]) ∨
        ∃ p, Accepted get_programme p ∧
          (l.programme.length ≤ MAX_PROGRAMME_LEN → p.length ≤ MAX_PROGRAMME_LEN) ∧
          step.store = commit_at st k (set_programme p) ∧
          step.notices = q ++ [Notice.programme_updated]) := by
  unfold update_programme at h
  cases hA : while_true (update_prompt_body get_programme) l.programme stdin with
  | none => rw [hA] at h; cases h
  | some p =>
  rw [hA] at h
  simp only at h
  obtain ⟨p1, p2, p3, p4⟩ := update_prompt_loop_spec get_programme
    (fun x s r hg => ⟨(get_programme_call hg).1, (get_programme_call hg).2.1⟩)
    (fun x => l.programme.length ≤ MAX_PROGRAMME_LEN → x.length ≤ MAX_PROGRAMME_LEN)
    (fun x s r hg hx hl => get_programme_value_length hg (hx hl)) hA (fun hl => hl)
  by_cases cp : p.result.1 = -1
  · rw [if_pos cp] at h; cases h
    exact ⟨p.out, p2, p1, Or.inl ⟨rfl, rfl⟩⟩
  rw [if_neg cp] at h
  cases hC : while_true confirm_body () p.stdin with
  | none => rw [hC] at h; cases h
  | some c =>
  rw [hC] at h
  simp only at h
  obtain ⟨c1, c2, _⟩ := confirm_loop_spec hC
  split_ifs at h <;> cases h
  · exact ⟨p.out ++ c.out, only_errors_append p2 c2, by simp only [Step.input]; omega,
      Or.inr ⟨p.result.2, p4 cp, p3, rfl, rfl⟩⟩
  · exact ⟨p.out ++ c.out, only_errors_append p2 c2, by simp only [Step.input]; omega,
      Or.inl ⟨rfl, rfl⟩⟩

/-- Option 3 of the update menu either leaves the store as it was, or puts
marks that `get_marks` accepted, with their grade, into the record at
position `k` and sets the dirty flag; it goes back to the menu in both
cases. -/
theorem update_marks_cases {k : Nat} {st : Store} {l : Locals} {stdin : Stdin}
    {step : Step (Store × Locals) Store} (h : update_marks k st l stdin = some step) :
    ∃ q, only_errors q ∧ step.input.length < stdin.length ∧
      ((step.store = st ∧ step.notices = q ++ [Notice.cancelled]) ∨
        ∃ m g, Accepted get_marks m ∧ calculate_grade m = some g ∧
          step.store = commit_at st k (set_marks m g) ∧
          step.notices = q ++ [Notice.marks_updated]) := by
  unfold update_marks at h
  cases hA : while_true (update_prompt_body get_marks) l.marks stdin with
  | none => rw [hA] at h; cases h
  | some p =>
  rw [hA] at h
  simp only at h
  obtain ⟨p1, p2, _, p4⟩ := update_prompt_loop_spec get_marks
    (fun x s r hg => ⟨(get_marks_call hg).1, (get_marks_call hg).2.1⟩)
    (fun _ => True) (fun _ _ _ _ _ => trivial) hA trivial
  by_cases cp : p.result.1 = -1
  · rw [if_pos cp] at h; cases h
    exact ⟨p.out, p2, p1, Or.inl ⟨rfl, rfl⟩⟩
  rw [if_neg cp] at h
  cases hC : while_true confirm_body () p.stdin with
  | none => rw [hC] at h; cases h
  | some c =>
  rw [hC] at h
  simp only at h
  obtain ⟨c1, c2, _⟩ := confirm_loop_spec hC
  by_cases cc : c.result = 1
  · rw [if_pos cc] at h
    cases hG : calculate_grade p.result.2 with
    | none => rw [hG] at h; cases h
    | some g =>
      rw [hG] at h
      cases h
      exact ⟨p.out ++ c.out, only_errors_append p2 c2, by simp only [Step.input]; omega,
        Or.inr ⟨p.result.2, g, p4 cp, hG, rfl, rfl⟩⟩
  · rw [if_neg cc] at h
    cases h
    exact ⟨p.out ++ c.out, only_errors_append p2 c2, by simp only [Step.input]; omega,
      Or.inl ⟨rfl, rfl⟩⟩

/-- Option 4 of the update menu either goes back to the menu with the store
as it was, or returns with a name, a programme and marks that the validators
accepted, and the grade of the marks, put into the record at position `k`
and the dirty flag set. -/
theorem update_all_cases {k : Nat} {st : Store} {l : Locals} {stdin : Stdin}
    {step : Step (Store × Locals) Store} (h : update_all k st l stdin = some step) :
    ∃ q, only_errors q ∧ step.input.length < stdin.length ∧
      ((step.store = st ∧ step.notices = q ++ [Notice.cancelled] ∧
          ∃ l1, step = Step.again (st, l1) step.notices step.input) ∨
        ∃ n p m g, Accepted get_name n ∧ Accepted get_programme p ∧ Accepted get_marks m ∧
          calculate_grade m = some g ∧
          (l.name.length ≤ MAX_NAME_LEN → n.length ≤ MAX_NAME_LEN) ∧
          (l.programme.length ≤ MAX_PROGRAMME_LEN → p.length ≤ MAX_PROGRAMME_LEN) ∧
          step.store = commit_at st k
            (fun r => set_marks m g (set_programme p (set_name n r))) ∧
          step.notices = q ++ [Notice.all_updated] ∧
          step = Step.done step.store step.notices step.input) := by
  unfold update_all at h
  cases hA : while_true (update_prompt_body get_name) l.name stdin with
  | none => rw [hA] at h; cases h
  | some a =>
  rw [hA] at h
  simp only at h
  obtain ⟨a1, a2, a3, a4⟩ := update_prompt_loop_spec get_name
    (fun x s r hg => ⟨(get_name_call hg).1, (get_name_call hg).2.1⟩)
    (fun x => l.name.length ≤ MAX_NAME_LEN → x.length ≤ MAX_NAME_LEN)
    (fun x s r hg hx hl => get_name_value_length hg (hx hl)) hA (fun hl => hl)
  by_cases ca : a.result.1 = -1
  · rw [if_pos ca] at h; cases h
    exact ⟨a.out, a2, a1, Or.inl ⟨rfl, rfl, _, rfl⟩⟩
  rw [if_neg ca] at h
  cases hB : while_true (update_prompt_body get_programme) l.programme a.stdin with
  | none => rw [hB] at h; cases h
  | some b =>
  rw [hB] at h
  simp only at h
  obtain ⟨b1, b2, b3, b4⟩ := update_prompt_loop_spec get_programme
    (fun x s r hg => ⟨(get_programme_call hg).1, (get_programme_call hg).2.1⟩)
    (fun x => l.programme.length ≤ MAX_PROGRAMME_LEN → x.length ≤ MAX_PROGRAMME_LEN)
    (fun x s r hg hx hl => get_programme_value_length hg (hx hl)) hB (fun hl => hl)
  by_cases cb : b.result.1 = -1
  · rw [if_pos cb] at h; cases h
    exact ⟨a.out ++ b.out, only_errors_append a2 b2, by simp only [Step.input]; omega,
      Or.inl ⟨rfl, rfl, _, rfl⟩⟩
  rw [if_neg cb] at h
  cases hC : while_true (update_prompt_body get_marks) l.marks b.stdin with
  | none => rw [hC] at h; cases h
  | some c =>
  rw [hC] at h
  simp only at h
  obtain ⟨c1, c2, _, c4⟩ := update_prompt_loop_spec get_marks
    (fun x s r hg => ⟨(get_marks_call hg).1, (get_marks_call hg).2.1⟩)
    (fun _ => True) (fun _ _ _ _ _ => trivial) hC trivial
  by_cases cc : c.result.1 = -1
  · rw [if_pos cc] at h; cases h
    exact ⟨a.out ++ b.out ++ c.out, only_errors_append (only_errors_append a2 b2) c2,
      by simp only [Step.input]; omega, Or.inl ⟨rfl, rfl, _, rfl⟩⟩
  rw [if_neg cc] at h
  cases hE : while_true confirm_body () c.stdin with
  | none => rw [hE] at h; cases h
  | some e =>
  rw [hE] at h
  simp only at h
  obtain ⟨e1, e2, _⟩ := confirm_loop_spec hE
  have hq := only_errors_append (only_errors_append (only_errors_append a2 b2) c2) e2
  by_cases ce : e.result = 1
  · rw [if_pos ce] at h
    cases hG : calculate_grade c.result.2 with
    | none => rw [hG] at h; cases h
    | some g =>
      rw [hG] at h
      cases h
      exact ⟨a.out ++ b.out ++ c.out ++ e.out, hq, by simp only [Step.input]; omega,
        Or.inr ⟨a.result.2, b.result.2, c.result.2, g, a4 ca, b4 cb, c4 cc, hG, a3, b3, rfl,
          rfl, rfl⟩⟩
  · rw [if_neg ce] at h
    cases h
    exact ⟨a.out ++ b.out ++ c.out ++ e.out, hq, by simp only [Step.input]; omega,
      Or.inl ⟨rfl, rfl, _, rfl⟩⟩

/-- The five things a pass through the update menu does to the store:
nothing, or one of the four updates of the record at position `k`, each
with values that the validators accepted and with the dirty flag set. The
notices of the pass end with the one that tells which. -/
theorem update_menu_body_cases {k : Nat} {st : Store} {l : Locals} {stdin : Stdin}
    {step : Step (Store × Locals) Store}
    (h : update_menu_body k (st, l) stdin = some step) :
    ∃ q, only_errors q ∧ step.input.length < stdin.length ∧
      ((step.store = st ∧
          (step.notices = q ++ [Notice.cancelled] ∨
            step.notices = q ++ [Notice.invalid_option])) ∨
        (∃ n, Accepted get_name n ∧
          (l.name.length ≤ MAX_NAME_LEN → n.length ≤ MAX_NAME_LEN) ∧
          step.store = commit_at st k (set_name n) ∧
          step.notices = q ++ [Notice.name_updated]) ∨
        (∃ p, Accepted get_programme p ∧
          (l.programme.length ≤ MAX_PROGRAMME_LEN → p.length ≤ MAX_PROGRAMME_LEN) ∧
          step.store = commit_at st k (set_programme p) ∧
          step.notices = q ++ [Notice.programme_updated]) ∨
        (∃ m g, Accepted get_marks m ∧ calculate_grade m = some g ∧
          step.store = commit_at st k (set_marks m g) ∧
          step.notices = q ++ [Notice.marks_updated]) ∨
        (∃ n p m g, Accepted get_name n ∧ Accepted get_programme p ∧ Accepted get_marks m ∧
          calculate_grade m = some g ∧
          (l.name.length ≤ MAX_NAME_LEN → n.length ≤ MAX_NAME_LEN) ∧
          (l.programme.length ≤ MAX_PROGRAMME_LEN → p.length ≤ MAX_PROGRAMME_LEN) ∧
          step.store = commit_at st k
            (fun r => set_marks m g (set_programme p (set_name n r))) ∧
          step.notices = q ++ [Notice.all_updated] ∧
          step = Step.done step.store step.notices step.input)) := by
  unfold update_menu_body at h
  cases h1 : fgets 3 stdin with
  | none => rw [h1] at h; cases h
  | some b =>
  obtain ⟨buffer, stdin1⟩ := b
  rw [h1] at h
  simp only at h
  cases h2 : clean_fgets buffer stdin1 with
  | none => rw [h2] at h; cases h
  | some t =>
  obtain ⟨option, stdin2⟩ := t
  rw [h2] at h
  simp only at h
  have hread := read_consumes h1 h2 (by decide)
  by_cases o1 : option = ['1']
  · rw [if_pos o1] at h
    obtain ⟨q, hq, hlen, hc⟩ := update_name_cases h
    refine ⟨q, hq, by omega, ?_⟩
    rcases hc with ⟨c1, c2⟩ | hc
    · exact Or.inl ⟨c1, Or.inl c2⟩
    · exact Or.inr (Or.inl hc)
  rw [if_neg o1] at h
  by_cases o2 : option = ['2']
  · rw [if_pos o2] at h
    obtain ⟨q, hq, hlen, hc⟩ := update_programme_cases h
    refine ⟨q, hq, by omega, ?_⟩
    rcases hc with ⟨c1, c2⟩ | hc
    · exact Or.inl ⟨c1, Or.inl c2⟩
    · exact Or.inr (Or.inr (Or.inl hc))
  rw [if_neg o2] at h
  by_cases o3 : option = ['3']
  · rw [if_pos o3] at h
    obtain ⟨q, hq, hlen, hc⟩ := update_marks_cases h
    refine ⟨q, hq, by omega, ?_⟩
    rcases hc with ⟨c1, c2⟩ | hc
    · exact Or.inl ⟨c1, Or.inl c2⟩
    · exact Or.inr (Or.inr (Or.inr (Or.inl hc)))
  rw [if_neg o3] at h
  by_cases o4 : option = ['4']
  · rw [if_pos o4] at h
    obtain ⟨q, hq, hlen, hc⟩ := update_all_cases h
    refine ⟨q, hq, by omega, ?_⟩
    rcases hc with ⟨c1, c2, _⟩ | hc
    · exact Or.inl ⟨c1, Or.inl c2⟩
    · exact Or.inr (Or.inr (Or.inr (Or.inr hc)))
  rw [if_neg o4] at h
  split_ifs at h <;> cases h
  · exact ⟨[], only_errors_nil, hread, Or.inl ⟨rfl, Or.inl rfl⟩⟩
  · exact ⟨[], only_errors_nil, hread, Or.inl ⟨rfl, Or.inr rfl⟩⟩

/-- Every pass through the update menu reads input. -/
theorem update_menu_body_reads (k : Nat) (s : Store × Locals) (stdin : Stdin)
    (s1 : Store × Locals) (out : List Notice) (stdin1 : Stdin)
    (h : update_menu_body k s stdin = some (Step.again s1 out stdin1)) :
    stdin1.length < stdin.length := by
  obtain ⟨q, _, hlen, _⟩ := @update_menu_body_cases k s.1 s.2 stdin _ h
  exact hlen

/-- The outer loop of `update_record` does not depend on the value `id` has
when it starts. -/
theorem update_loop_indep (st : Store) (i1 i2 : Int) (stdin : Stdin) :
    while_true (update_body st) i1 stdin = while_true (update_body st) i2 stdin := by
  refine while_true_fuel_congr (update_body st) (fun _ _ => True) ?_ _ i1 i2 stdin trivial
  intro s t sd _
  unfold update_body
  rcases get_id_indep s t sd with ⟨h1, h2⟩ | ⟨o1, o2, h1, h2, e1, e2, e3, e4⟩
  · rw [h1, h2]; exact Or.inl ⟨rfl, rfl⟩
  · rw [h1, h2]
    simp only
    obtain ⟨_, hst, _⟩ := get_id_call h1
    rw [← e1, ← e2, ← e3]
    by_cases c1 : o1.status = -1
    · rw [if_pos c1, if_pos c1]
      exact Or.inr (Or.inl ⟨_, _, _, rfl, rfl⟩)
    · rw [if_neg c1, if_neg c1]
      by_cases c2 : o1.status = 0
      · rw [if_pos c2, if_pos c2]
        exact Or.inr (Or.inr ⟨_, _, _, _, rfl, rfl, trivial⟩)
      · rw [if_neg c2, if_neg c2, ← e4 (by omega)]
        cases find_index o1.value st.records with
        | none => exact Or.inr (Or.inr ⟨_, _, _, _, rfl, rfl, trivial⟩)
        | some k =>
          simp only
          cases while_true (update_menu_body k) (st, ⟨[], [], 0⟩) o1.stdin with
          | none => exact Or.inl ⟨rfl, rfl⟩
          | some m => exact Or.inr (Or.inl ⟨_, _, _, rfl, rfl⟩)

/-- A pass through the outer loop of `update_record` on an id that no record
has prints the not-found notice and goes round again. -/
theorem update_body_absent (st : Store) (id : Int) (stdin : Stdin) (o : Outcome Int)
    (h : get_id id stdin = some o) (hs : o.status = 1)
    (habs : ∀ x ∈ st.records, x.id ≠ o.value) :
    update_body st id stdin
      = some (Step.again o.value [Notice.not_found o.value] o.stdin) := by
  have hf : find_index o.value st.records = none := (find_index_eq_none_iff _ _).mpr habs
  unfold update_body
  rw [h]
  simp only [hs, hf]
  rfl

/-- After an id that no record of the store has, `update_record` goes on as
a run of it on the same store and the input left does, with the not-found
notice in front. -/
theorem update_record_after_absent (st : Store) (stdin : Stdin) (o : Outcome Int)
    (hne : st.records ≠ []) (h : get_id 0 stdin = some o) (hs : o.status = 1)
    (habs : ∀ x ∈ st.records, x.id ≠ o.value) :
    update_record st stdin =
      (update_record st o.stdin).map
        (fun r => ⟨r.result, [Notice.not_found o.value] ++ r.out, r.stdin⟩) := by
  have hb := update_body_absent st 0 stdin o h hs habs
  have hw := while_true_again _ (update_body_reads st) hb
  rw [update_loop_indep st o.value 0 o.stdin] at hw
  unfold update_record
  rw [if_neg hne, if_neg hne, hw]

/-! ## What was entered in a pass through the update menu: theorems -/

/-- Option 1 of the update menu, when it prints the notice of the update:
the name entered on the input, then the confirmation, affirmed, after which
nothing is read; the name is put into the record at position `k` and the
menu comes again. -/
theorem update_name_run {k : Nat} {st : Store} {l : Locals} {stdin : Stdin}
    {step : Step (Store × Locals) Store} (h : update_name k st l stdin = some step)
    (hc : ∃ n ∈ step.notices, Updated n) :
    ∃ v s1, Prompted get_name Any l.name stdin v s1 ∧ Answered s1 1 step.input ∧
      step = Step.again (commit_at st k (set_name v), { l with name := v })
        step.notices step.input := by
  obtain ⟨n, hn, hu⟩ := hc
  unfold update_name at h
  cases hA : while_true (update_prompt_body get_name) l.name stdin with
  | none => rw [hA] at h; cases h
  | some p =>
  rw [hA] at h
  simp only at h
  obtain ⟨_, p2, _⟩ := update_prompt_loop_spec get_name
    (fun x s r hg => ⟨(get_name_call hg).1, (get_name_call hg).2.1⟩)
    (fun _ => True) (fun _ _ _ _ _ => trivial) hA trivial
  by_cases cp : p.result.1 = -1
  · rw [if_pos cp] at h; cases h
    exact absurd hn (updated_not_cancelled p2 hu)
  rw [if_neg cp] at h
  have hp := update_prompt_loop_prompted get_name (fun x s r hg => (get_name_call hg).2.1)
    hA cp
  cases hC : while_true confirm_body () p.stdin with
  | none => rw [hC] at h; cases h
  | some c =>
  rw [hC] at h
  simp only at h
  obtain ⟨_, c2, _⟩ := confirm_loop_spec hC
  have hans := confirm_loop_answered hC
  split_ifs at h with cc <;> cases h
  · rw [cc] at hans
    exact ⟨p.result.2, p.stdin, hp, hans, rfl⟩
  · exact absurd hn (updated_not_cancelled (only_errors_append p2 c2) hu)

/-- Option 3 of the update menu, when it prints the notice of the update:
the marks entered on the input, then the confirmation, affirmed, after
which nothing is read; the marks and their grade are put into the record at
position `k` and the menu comes again. -/
theorem update_marks_run {k : Nat} {st : Store} {l : Locals} {stdin : Stdin}
    {step : Step (Store × Locals) Store} (h : update_marks k st l stdin = some step)
    (hc : ∃ n ∈ step.notices, Updated n) :
    ∃ v g s1, Prompted get_marks Any l.marks stdin v s1 ∧ Answered s1 1 step.input ∧
      calculate_grade v = some g ∧
      step = Step.again (commit_at st k (set_marks v g), { l with marks := v })
        step.notices step.input := by
  obtain ⟨n, hn, hu⟩ := hc
  unfold update_marks at h
  cases hA : while_true (update_prompt_body get_marks) l.marks stdin with
  | none => rw [hA] at h; cases h
  | some p =>
  rw [hA] at h
  simp only at h
  obtain ⟨_, p2, _⟩ := update_prompt_loop_spec get_marks
    (fun x s r hg => ⟨(get_marks_call hg).1, (get_marks_call hg).2.1⟩)
    (fun _ => True) (fun _ _ _ _ _ => trivial) hA trivial
  by_cases cp : p.result.1 = -1
  · rw [if_pos cp] at h; cases h
    exact absurd hn (updated_not_cancelled p2 hu)
  rw [if_neg cp] at h
  have hp := update_prompt_loop_prompted get_marks (fun x s r hg => (get_marks_call hg).2.1)
    hA cp
  cases hC : while_true confirm_body () p.stdin with
  | none => rw [hC] at h; cases h
  | some c =>
  rw [hC] at h
  simp only at h
  obtain ⟨_, c2, _⟩ := confirm_loop_spec hC
  have hans := confirm_loop_answered hC
  by_cases cc : c.result = 1
  · rw [if_pos cc] at h
    cases hG : calculate_grade p.result.2 with
    | none => rw [hG] at h; cases h
    | some g =>
      rw [hG] at h
      cases h
      rw [cc] at hans
      exact ⟨p.result.2, g, p.stdin, hp, hans, hG, rfl⟩
  · rw [if_neg cc] at h
    cases h
    exact absurd hn (updated_not_cancelled (only_errors_append p2 c2) hu)

/-- Option 4 of the update menu, when it prints the notice of the update:
the name, the programme and the marks entered on the input, one prompt
after the other, then the confirmation, affirmed, after which nothing is
read; the three values and the grade of the marks are put into the record
at position `k` and `update_record` returns. -/
theorem update_all_run {k : Nat} {st : Store} {l : Locals} {stdin : Stdin}
    {step : Step (Store × Locals) Store} (h : update_all k st l stdin = some step)
    (hc : ∃ n ∈ step.notices, Updated n) :
    ∃ v p m g s1 s2 s3, Prompted get_name Any l.name stdin v s1 ∧
      Prompted get_programme Any l.programme s1 p s2 ∧
      Prompted get_marks Any l.marks s2 m s3 ∧ Answered s3 1 step.input ∧
      calculate_grade m = some g ∧
      step = Step.done
        (commit_at st k (fun r => set_marks m g (set_programme p (set_name v r))))
        step.notices step.input := by
  obtain ⟨n, hn, hu⟩ := hc
  unfold update_all at h
  cases hA : while_true (update_prompt_body get_name) l.name stdin with
  | none => rw [hA] at h; cases h
  | some a =>
  rw [hA] at h
  simp only at h
  obtain ⟨_, a2, _⟩ := update_prompt_loop_spec get_name
    (fun x s r hg => ⟨(get_name_call hg).1, (get_name_call hg).2.1⟩)
    (fun _ => True) (fun _ _ _ _ _ => trivial) hA trivial
  by_cases ca : a.result.1 = -1
  · rw [if_pos ca] at h; cases h
    exact absurd hn (updated_not_cancelled a2 hu)
  rw [if_neg ca] at h
  have hpa := update_prompt_loop_prompted get_name (fun x s r hg => (get_name_call hg).2.1)
    hA ca
  cases hB : while_true (update_prompt_body get_programme) l.programme a.stdin with
  | none => rw [hB] at h; cases h
  | some b =>
  rw [hB] at h
  simp only at h
  obtain ⟨_, b2, _⟩ := update_prompt_loop_spec get_programme
    (fun x s r hg => ⟨(get_programme_call hg).1, (get_programme_call hg).2.1⟩)
    (fun _ => True) (fun _ _ _ _ _ => trivial) hB trivial
  by_cases cb : b.result.1 = -1
  · rw [if_pos cb] at h; cases h
    exact absurd hn (updated_not_cancelled (only_errors_append a2 b2) hu)
  rw [if_neg cb] at h
  have hpb := update_prompt_loop_prompted get_programme
    (fun x s r hg => (get_programme_call hg).2.1) hB cb
  cases hC : while_true (update_prompt_body get_marks) l.marks b.stdin with
  | none => rw [hC] at h; cases h
  | some c =>
  rw [hC] at h
  simp only at h
  obtain ⟨_, c2, _⟩ := update_prompt_loop_spec get_marks
    (fun x s r hg => ⟨(get_marks_call hg).1, (get_marks_call hg).2.1⟩)
    (fun _ => True) (fun _ _ _ _ _ => trivial) hC trivial
  by_cases cc : c.result.1 = -1
  · rw [if_pos cc] at h; cases h
    exact absurd hn
      (updated_not_cancelled (only_errors_append (only_errors_append a2 b2) c2) hu)
  rw [if_neg cc] at h
  have hpc := update_prompt_loop_prompted get_marks (fun x s r hg => (get_marks_call hg).2.1)
    hC cc
  cases hE : while_true confirm_body () c.stdin with
  | none => rw [hE] at h; cases h
  | some e =>
  rw [hE] at h
  simp only at h
  obtain ⟨_, e2, _⟩ := confirm_loop_spec hE
  have hans := confirm_loop_answered hE
  have hq := only_errors_append (only_errors_append (only_errors_append a2 b2) c2) e2
  by_cases ce : e.result = 1
  · rw [if_pos ce] at h
    cases hG : calculate_grade c.result.2 with
    | none => rw [hG] at h; cases h
    | some g =>
      rw [hG] at h
      cases h
      rw [ce] at hans
      exact ⟨a.result.2, b.result.2, c.result.2, g, a.stdin, b.stdin, c.stdin, hpa, hpb, hpc,
        hans, hG, rfl⟩
  · rw [if_neg ce] at h
    cases h
    exact absurd hn (updated_not_cancelled hq hu)

/-- A pass through the update menu that prints the notice of an update read
one of the options 1 to 4 on its input and went through that option. -/
theorem update_menu_body_run {k : Nat} {s : Store × Locals} {stdin : Stdin}
    {step : Step (Store × Locals) Store} (h : update_menu_body k s stdin = some step)
    (hc : ∃ n ∈ step.notices, Updated n) :
    ∃ option s0, OptionRead stdin option s0 ∧
      ((option = ['1'] ∧ update_name k s.1 s.2 s0 = some step) ∨
        (option = ['2'] ∧ update_programme k s.1 s.2 s0 = some step) ∨
        (option = ['3'] ∧ update_marks k s.1 s.2 s0 = some step) ∨
        (option = ['4'] ∧ update_all k s.1 s.2 s0 = some step)) := by
  obtain ⟨n, hn, hu⟩ := hc
  unfold update_menu_body at h
  cases h1 : fgets 3 stdin with
  | none => rw [h1] at h; cases h
  | some b =>
  obtain ⟨buffer, stdin1⟩ := b
  rw [h1] at h
  simp only at h
  cases h2 : clean_fgets buffer stdin1 with
  | none => rw [h2] at h; cases h
  | some t =>
  obtain ⟨option, stdin2⟩ := t
  rw [h2] at h
  simp only at h
  refine ⟨option, stdin2, ⟨buffer, stdin1, h1, h2⟩, ?_⟩
  by_cases o1 : option = ['1']
  · rw [if_pos o1] at h
    exact Or.inl ⟨o1, h⟩
  rw [if_neg o1] at h
  by_cases o2 : option = ['2']
  · rw [if_pos o2] at h
    exact Or.inr (Or.inl ⟨o2, h⟩)
  rw [if_neg o2] at h
  by_cases o3 : option = ['3']
  · rw [if_pos o3] at h
    exact Or.inr (Or.inr (Or.inl ⟨o3, h⟩))
  rw [if_neg o3] at h
  by_cases o4 : option = ['4']
  · rw [if_pos o4] at h
    exact Or.inr (Or.inr (Or.inr ⟨o4, h⟩))
  rw [if_neg o4] at h
  split_ifs at h <;> cases h <;>
    (simp only [Step.notices, List.mem_singleton] at hn
     rcases hu with hu | hu | hu | hu <;> (rw [hu] at hn; cases hn))

/-- Claim C17: when `get_id` accepts, at the id prompt of `delete_record` or
of `update_record`, an id that no record of the store has, the pass through
the loop prints the not-found notice and goes round again, and the whole run
is the run of the operation on the same store and the input left, with the
not-found notice in front: nothing of the store has changed. -/
theorem absent_id_not_found (st : Store) (stdin : Stdin) (o : Outcome Int)
    (hne : st.records ≠ []) (h : get_id 0 stdin = some o) (hs : o.status = 1)
    (habs : ∀ x ∈ st.records, x.id ≠ o.value) :
    delete_body st 0 stdin
        = some (Step.again o.value [Notice.not_found o.value] o.stdin) ∧
      update_body st 0 stdin
        = some (Step.again o.value [Notice.not_found o.value] o.stdin) ∧
      delete_record st stdin =
        (delete_record st o.stdin).map
          (fun r => ⟨r.result, [Notice.not_found o.value] ++ r.out, r.stdin⟩) ∧
      update_record st stdin =
        (update_record st o.stdin).map
          (fun r => ⟨r.result, [Notice.not_found o.value] ++ r.out, r.stdin⟩) :=
  ⟨delete_body_absent st 0 stdin o h hs habs, update_body_absent st 0 stdin o h hs habs,
    delete_record_after_absent st stdin o hne h hs habs,
    update_record_after_absent st stdin o hne h hs habs⟩

theorem absent_id_not_found_witness :
    delete_body sample_store 0 "2301239\nq\n".toList
        = some (Step.again 2301239 [Notice.not_found 2301239] "q\n".toList) ∧
      update_body sample_store 0 "2301239\nq\n".toList
        = some (Step.again 2301239 [Notice.not_found 2301239] "q\n".toList) ∧
      delete_record sample_store "2301239\nq\n".toList =
        (delete_record sample_store "q\n".toList).map
          (fun r => ⟨r.result, [Notice.not_found 2301239] ++ r.out, r.stdin⟩) ∧
      update_record sample_store "2301239\nq\n".toList =
        (update_record sample_store "q\n".toList).map
          (fun r => ⟨r.result, [Notice.not_found 2301239] ++ r.out, r.stdin⟩) :=
  absent_id_not_found sample_store "2301239\nq\n".toList ⟨1, 2301239, none, "q\n".toList⟩
    (by decide) (by decide) rfl (by decide)

/-- Claim C18: a pass through the update menu that prints the notice of
updated marks (option 3) or of a full update (option 4), which it does only
after the confirmation was affirmed, went like this: the option was read on
the input of the pass, the marks `m` were entered at the marks prompt (in
option 4 after a name and a programme were entered at theirs), and the
confirmation that followed was answered with yes. The target record then
has the marks `m` and the grade `calculate_grade` gives for them, in its old
place and with its old id, and the dirty flag is set. -/
theorem update_marks_commits (k : Nat) (st : Store) (l : Locals) (stdin : Stdin)
    (step : Step (Store × Locals) Store) (pre : List Record) (old : Record)
    (post : List Record) (h : update_menu_body k (st, l) stdin = some step)
    (hrec : st.records = pre ++ old :: post) (hk : k = pre.length)
    (hc : Notice.marks_updated ∈ step.notices ∨ Notice.all_updated ∈ step.notices) :
    ∃ m g new option s0 s1 s2,
      OptionRead stdin option s0 ∧
      ((option = ['3'] ∧ s1 = s0) ∨
        (option = ['4'] ∧ ∃ n p sa, Prompted get_name Any l.name s0 n sa ∧
          Prompted get_programme Any l.programme sa p s1)) ∧
      Prompted get_marks Any l.marks s1 m s2 ∧ Answered s2 1 step.input ∧
      calculate_grade m = some g ∧
      step.store.records = pre ++ new :: post ∧ new.id = old.id ∧ new.marks = m ∧
      new.grade = g ∧ step.store.is_changes_made = 1 := by
  have hu : ∃ n ∈ step.notices, Updated n := by
    rcases hc with hc | hc
    · exact ⟨_, hc, Or.inr (Or.inr (Or.inl rfl))⟩
    · exact ⟨_, hc, Or.inr (Or.inr (Or.inr rfl))⟩
  obtain ⟨q, hq, _, hcases⟩ := update_menu_body_cases h
  have key : ∀ a : Notice, step.notices = q ++ [a] →
      a = Notice.marks_updated ∨ a = Notice.all_updated := by
    intro a ha
    rw [ha] at hc
    rcases hc with hc | hc
    · exact Or.inl (mem_errors_append_singleton hq (by simp) hc).symm
    · exact Or.inr (mem_errors_append_singleton hq (by simp) hc).symm
  obtain ⟨option, s0, hread, hopt⟩ := update_menu_body_run h hu
  rcases hopt with ⟨o, ho⟩ | ⟨o, ho⟩ | ⟨o, ho⟩ | ⟨o, ho⟩
  · obtain ⟨v, s1, _, _, e⟩ := update_name_run ho hu
    obtain ⟨q1, hq1, _, hc1⟩ := update_name_cases ho
    rcases hc1 with ⟨_, c⟩ | ⟨_, _, _, _, c⟩
    · rw [c] at hu
      obtain ⟨n, hn, hun⟩ := hu
      exact absurd hn (updated_not_cancelled hq1 hun)
    · rw [c] at hc
      rcases hc with hc | hc <;>
        cases mem_errors_append_singleton hq1 (by simp) hc
  · obtain ⟨q1, hq1, _, hc1⟩ := update_programme_cases ho
    rcases hc1 with ⟨_, c⟩ | ⟨_, _, _, _, c⟩
    · rw [c] at hu
      obtain ⟨n, hn, hun⟩ := hu
      exact absurd hn (updated_not_cancelled hq1 hun)
    · rw [c] at hc
      rcases hc with hc | hc <;>
        cases mem_errors_append_singleton hq1 (by simp) hc
  · obtain ⟨m, g, s2, p1, p2, p3, e⟩ := update_marks_run ho hu
    refine ⟨m, g, set_marks m g old, option, s0, s0, s2, hread, Or.inl ⟨o, rfl⟩, p1, p2, p3,
      ?_, rfl, rfl, rfl, by rw [e]; rfl⟩
    rw [e, hk]
    show modify_at _ pre.length st.records = _
    rw [hrec, modify_at_append]
  · obtain ⟨n, p, m, g, s1, s2, s3, p1, p2, p3, p4, p5, e⟩ := update_all_run ho hu
    refine ⟨m, g, set_marks m g (set_programme p (set_name n old)), option, s0, s2, s3, hread,
      Or.inr ⟨o, n, p, s1, p1, p2⟩, p3, p4, p5, ?_, rfl, rfl, rfl, by rw [e]; rfl⟩
    rw [e, hk]
    show modify_at _ pre.length st.records = _
    rw [hrec, modify_at_append]

/-- Claim C19: a pass through the update menu that prints the notice of an
updated name (option 1), which it does only after the confirmation was
affirmed, changes the name of the target record to a name that `get_name`
accepted and sets the dirty flag, and changes nothing else: the id, the
programme, the marks and the grade of the target, the other records, their
order and the count stay. The buffers are taken to hold strings that fit
them. -/
theorem update_name_changes_only_name (k : Nat) (st : Store) (l : Locals) (stdin : Stdin)
    (step : Step (Store × Locals) Store) (pre : List Record) (old : Record)
    (post : List Record) (h : update_menu_body k (st, l) stdin = some step)
    (hrec : st.records = pre ++ old :: post) (hk : k = pre.length)
    (hl : l.name.length ≤ MAX_NAME_LEN) (hold : old.name.length ≤ MAX_NAME_LEN)
    (hc : Notice.name_updated ∈ step.notices) :
    ∃ n, Accepted get_name n ∧
      step.store = ⟨pre ++ ⟨old.id, n, old.programme, old.marks, old.grade⟩ :: post,
        st.node_count, st.is_file_open, 1⟩ := by
  obtain ⟨q, hq, _, hcases⟩ := update_menu_body_cases h
  have key : ∀ a : Notice, step.notices = q ++ [a] → a = Notice.name_updated := by
    intro a ha
    rw [ha] at hc
    exact (mem_errors_append_singleton hq (by simp) hc).symm
  rcases hcases with ⟨_, c | c⟩ | ⟨n, c1, c2, c3, _⟩ | ⟨p, _, _, _, c⟩ | ⟨m, g, _, _, _, c⟩ |
      ⟨n, p, m, g, _, _, _, _, _, _, _, c, _⟩
  · cases key _ c
  · cases key _ c
  · refine ⟨n, c1, ?_⟩
    rw [c3, hk]
    unfold commit_at
    rw [hrec, modify_at_append]
    simp only [set_name, strncpy_eq_src old.name n MAX_NAME_LEN hold (c2 hl)]
  · cases key _ c
  · cases key _ c
  · cases key _ c

theorem update_marks_commits_witness :
    ∃ m g new option s0 s1 s2,
      OptionRead "3\n90\ny\n".toList option s0 ∧
      ((option = ['3'] ∧ s1 = s0) ∨
        (option = ['4'] ∧ ∃ n p sa, Prompted get_name Any (⟨[], [], 0⟩ : Locals).name s0 n sa ∧
          Prompted get_programme Any (⟨[], [], 0⟩ : Locals).programme sa p s1)) ∧
      Prompted get_marks Any (⟨[], [], 0⟩ : Locals).marks s1 m s2 ∧
      Answered s2 1 (Step.again
          ((⟨[sample_ada, ⟨2301235, "Bob Tan".toList, "Data Science".toList, 90, "A+".toList⟩],
            2, 1, 1⟩ : Store), (⟨[], [], 90⟩ : Locals))
          [Notice.marks_updated] [] : Step (Store × Locals) Store).input ∧
      calculate_grade m = some g ∧
      (Step.again
          ((⟨[sample_ada, ⟨2301235, "Bob Tan".toList, "Data Science".toList, 90, "A+".toList⟩],
            2, 1, 1⟩ : Store), (⟨[], [], 90⟩ : Locals))
          [Notice.marks_updated] [] : Step (Store × Locals) Store).store.records
        = [sample_ada] ++ new :: [] ∧
      new.id = sample_bob.id ∧ new.marks = m ∧ new.grade = g ∧
      (Step.again
          ((⟨[sample_ada, ⟨2301235, "Bob Tan".toList, "Data Science".toList, 90, "A+".toList⟩],
            2, 1, 1⟩ : Store), (⟨[], [], 90⟩ : Locals))
          [Notice.marks_updated] [] : Step (Store × Locals) Store).store.is_changes_made = 1 :=
  update_marks_commits 1 sample_store ⟨[], [], 0⟩ "3\n90\ny\n".toList
    (Step.again
      (⟨[sample_ada, ⟨2301235, "Bob Tan".toList, "Data Science".toList, 90, "A+".toList⟩],
        2, 1, 1⟩, ⟨[], [], 90⟩) [Notice.marks_updated] [])
    [sample_ada] sample_bob [] (by decide!) rfl rfl (Or.inl (by decide))

theorem update_name_changes_only_name_witness :
    ∃ n, Accepted get_name n ∧
      (Step.again
          ((⟨[sample_ada, ⟨2301235, "Rob Tan".toList, "Data Science".toList, 40, "D".toList⟩],
            2, 1, 1⟩ : Store), (⟨"Rob Tan".toList, [], 0⟩ : Locals))
          [Notice.name_updated] [] : Step (Store × Locals) Store).store
        = ⟨[sample_ada] ++
            ⟨sample_bob.id, n, sample_bob.programme, sample_bob.marks, sample_bob.grade⟩ :: [],
          sample_store.node_count, sample_store.is_file_open, 1⟩ :=
  update_name_changes_only_name 1 sample_store ⟨[], [], 0⟩ "1\nRob  Tan\ny\n".toList
    (Step.again
      (⟨[sample_ada, ⟨2301235, "Rob Tan".toList, "Data Science".toList, 40, "D".toList⟩],
        2, 1, 1⟩, ⟨"Rob Tan".toList, [], 0⟩) [Notice.name_updated] [])
    [sample_ada] sample_bob [] (by decide!) rfl rfl (by decide) (by decide) (by decide)

/-- The test `strstr(haystack, needle) != NULL` holds exactly when `needle`
is a run of consecutive characters of `haystack`. -/
theorem strstr_iff (haystack needle : CString) :
    strstr haystack needle = true ↔ needle <:+: haystack := by
  induction haystack with
  | nil =>
    simp only [strstr, List.isEmpty_iff]
    constructor
    · intro h; rw [h]
    · intro h; exact List.eq_nil_of_infix_nil h
  | cons c rest ih =>
    rw [strstr, Bool.or_eq_true, ih, List.isPrefixOf_iff_prefix, List.infix_cons_iff]

/-- The test `strcasecmp(a, b) == 0` holds exactly when the two strings are
equal once their letters are lowered. -/
theorem strcasecmp_eq_zero_iff (a b : CString) :
    strcasecmp a b = 0 ↔ a.map tolower = b.map tolower := by
  induction a generalizing b with
  | nil =>
    cases b with
    | nil => simp [strcasecmp]
    | cons d t => simp [strcasecmp]
  | cons c s ih =>
    cases b with
    | nil => simp [strcasecmp]
    | cons d t =>
      rw [strcasecmp]
      by_cases hcd : tolower c = tolower d
      · rw [if_pos hcd, ih t]
        simp [hcd]
      · rw [if_neg hcd]
        simp only [List.map_cons, List.cons.injEq, hcd, false_and, iff_false]
        intro h
        have h2 : (tolower c).toNat = (tolower d).toNat := by omega
        apply hcd
        rw [← Char.ofNat_toNat (tolower c), ← Char.ofNat_toNat (tolower d), h2]

/-- What `query_report` prints: the table of the matching records when
there is one, and nothing of the kind otherwise. -/
theorem query_report_eq (matching : List Record) (stdin : Stdin) :
    query_report matching stdin =
      if matching = [] then some (Step.again () [Notice.no_match] stdin)
      else (display_press_enter stdin).map (fun s => Step.done () [Notice.found matching] s) := by
  unfold query_report
  split_ifs
  · rfl
  · cases display_press_enter stdin <;> rfl

/-- The test of the grade query in terms of the lowered strings. -/
theorem grade_query_match_eq (grade current : CString) :
    grade_query_match grade current =
      (decide (current.map tolower = grade.map tolower) ||
      ((decide (grade.map tolower = ['a']) &&
          (decide (current.map tolower = ['a', '+']) ||
            decide (current.map tolower = ['a', '-']) ||
            decide (current.map tolower = ['a']))) ||
        (decide (grade.map tolower = ['b']) &&
          (decide (current.map tolower = ['b', '+']) ||
            decide (current.map tolower = ['b', '-']) ||
            decide (current.map tolower = ['b']))) ||
        (decide (grade.map tolower = ['c']) &&
          (decide (current.map tolower = ['c', '+']) ||
            decide (current.map tolower = ['c']))) ||
        (decide (grade.map tolower = ['d']) &&
          (decide (current.map tolower = ['d', '+']) ||
            decide (current.map tolower = ['d']))) ||
        (decide (grade.map tolower = ['f']) && decide (current.map tolower = ['f'])))) := by
  unfold grade_query_match
  simp only [strcasecmp_eq_zero_iff]
  rfl

/-- The grade query on a record with one of the eleven labels, for a term
that is one of the labels up to the case of its letter: the record matches
exactly when its grade is the term up to case, or the term is a single
letter and the grade starts with it. -/
theorem grade_query_match_spec (grade current label : CString) (hl : label ∈ grade_labels)
    (hg : grade.map tolower = label.map tolower) (hc : current ∈ grade_labels) :
    grade_query_match grade current = true ↔
      (current.map tolower = grade.map tolower ∨
        (grade.length = 1 ∧ current.head?.map tolower = grade.head?.map tolower)) := by
  have hlen : grade.length = label.length := by
    have := congrArg List.length hg
    simpa using this
  have hhead : grade.head?.map tolower = (label.map tolower).head? := by
    rw [← hg, List.head?_map]
  rw [grade_query_match_eq, hg, hlen, hhead]
  simp only [grade_labels, List.map_cons, List.map_nil, List.mem_cons, List.mem_singleton,
    List.not_mem_nil, or_false] at hl hc
  rcases hl with h | h | h | h | h | h | h | h | h | h | h <;> subst h <;>
    rcases hc with h | h | h | h | h | h | h | h | h | h | h <;> subst h <;> decide

/-! ## Queries: the claims -/

/-- What the id query does once the cleaned text `term` is known. -/
theorem query_id_body_of_read (records : List Record) (stdin stdin1 stdin2 : Stdin)
    (buffer term : CString) (h1 : fgets 10 stdin = some (buffer, stdin1))
    (h2 : clean_fgets buffer stdin1 = some (term, stdin2)) :
    query_id_body records () stdin =
      if term = ['Q'] ∨ term = ['q'] then some (Step.done () [Notice.cancelled] stdin2)
      else if term = [] then some (Step.again () [Notice.query_empty] stdin2)
      else if term.length > 7 ∨ ¬ (∀ c ∈ term, isdigit c = true) then
        some (Step.again () [Notice.query_invalid] stdin2)
      else if records.filter (fun r => decide (term <:+: decimal_text r.id)) = [] then
        some (Step.again () [Notice.no_match] stdin2)
      else
        (display_press_enter stdin2).map (fun s => Step.done ()
          [Notice.found (records.filter (fun r => decide (term <:+: decimal_text r.id)))]
          s) := by
  have hfilter : records.filter (fun r => strstr (decimal_text r.id) term)
      = records.filter (fun r => decide (term <:+: decimal_text r.id)) := by
    apply List.filter_congr
    intro r _
    rw [Bool.eq_iff_iff, strstr_iff, decide_eq_true_iff]
  unfold query_id_body
  rw [h1]
  simp only [h2, strcasecmp_q, strlen, List.length_eq_zero, List.all_eq_true]
  rw [hfilter, query_report_eq]

/-- Claim C23, counterexample: the line ` 1234` holds a space and the line
`1234     zzzz` has 13 characters, four of them letters, yet the id query
accepts both and answers them as it answers `1234`, with the record whose
id is 2301234. The term is the line cut to the nine characters the buffer
holds, without its leading and trailing white space. -/
theorem query_id_accepts_other_lines :
    query_id_body sample_store.records () (feed " 1234".toList "\n".toList)
      = some (Step.done () [Notice.found [sample_ada]] []) ∧
    query_id_body sample_store.records () (feed "1234     zzzz".toList "\n".toList)
      = some (Step.done () [Notice.found [sample_ada]] []) ∧
    query_id_body sample_store.records () (feed "1234".toList "\n".toList)
      = some (Step.done () [Notice.found [sample_ada]] []) ∧
    isdigit ' ' = false ∧ isdigit 'z' = false ∧ "1234     zzzz".toList.length = 13 := by
  decide!

/-- Claim C23, amended: for a line of at most nine characters the id query
decides on the text of the line without its leading and trailing white
space. The text `Q` or `q` leaves the query. Any other text is accepted
exactly when it is not empty, has at most 7 characters and is made of
decimal digits; a blank line is answered with the notice that the term is
empty, any other rejected text with the notice that the term is invalid,
and the prompt comes again. For an accepted text the records in the table
are, in the order of the store, exactly those whose id, written in decimal,
has the text as a run of consecutive characters; when there is none the
table is replaced by a notice and the prompt comes again. -/
theorem query_id_decides_on_line (records : List Record) (line : CString) (rest : Stdin)
    (hnl : '\n' ∉ line) (hnul : NUL ∉ line) (hlen : line.length ≤ 9) :
    (strip line = ['Q'] ∨ strip line = ['q'] →
      query_id_body records () (feed line rest)
        = some (Step.done () [Notice.cancelled] rest)) ∧
    (strip line = [] →
      query_id_body records () (feed line rest)
        = some (Step.again () [Notice.query_empty]
            (if line.length = 9 then '\n' :: rest else rest))) ∧
    (¬(strip line = ['Q'] ∨ strip line = ['q']) → strip line ≠ [] →
      ¬((strip line).length ≤ 7 ∧ ∀ c ∈ strip line, isdigit c = true) →
      query_id_body records () (feed line rest)
        = some (Step.again () [Notice.query_invalid] rest)) ∧
    (strip line ≠ [] ∧ (strip line).length ≤ 7 ∧ (∀ c ∈ strip line, isdigit c = true) →
      query_id_body records () (feed line rest) =
        if records.filter (fun r => decide (strip line <:+: decimal_text r.id)) = [] then
          some (Step.again () [Notice.no_match] rest)
        else
          (display_press_enter rest).map (fun s => Step.done ()
            [Notice.found (records.filter
              (fun r => decide (strip line <:+: decimal_text r.id)))] s)) := by
  obtain ⟨buffer, stdin1, h1, h2⟩ := read_line_fits_rest 10 line rest hnl hnul (by omega)
  have hb := query_id_body_of_read records _ _ _ _ _ h1 h2
  by_cases he : strip line = []
  · have hq : ¬(strip line = ['Q'] ∨ strip line = ['q']) := by
      rw [he]; simp
    have hcond : (strip line = [] ∧ line.length + 1 = 10) ↔ line.length = 9 := by
      constructor
      · rintro ⟨-, h⟩; omega
      · intro h; exact ⟨he, by omega⟩
    refine ⟨fun h => absurd h hq, fun _ => ?_, fun _ h => absurd he h, fun h => absurd he h.1⟩
    rw [hb, if_neg hq, if_pos he]
    simp only [hcond]
  · have hs2 : (if strip line = [] ∧ line.length + 1 = 10 then '\n' :: rest else rest) = rest :=
      if_neg (fun h => he h.1)
    rw [hs2] at hb
    refine ⟨fun hq => ?_, fun h => absurd h he, fun hq _ hacc => ?_, fun hacc => ?_⟩
    · rw [hb, if_pos hq]
    · rw [hb, if_neg hq, if_neg he, if_pos]
      by_contra hcon
      push_neg at hcon
      exact hacc ⟨by omega, hcon.2⟩
    · have hq : ¬(strip line = ['Q'] ∨ strip line = ['q']) := by
        rintro (h | h)
        · exact absurd (hacc.2.2 'Q' (by rw [h]; exact List.mem_singleton_self _)) (by decide)
        · exact absurd (hacc.2.2 'q' (by rw [h]; exact List.mem_singleton_self _)) (by decide)
      have hv : ¬((strip line).length > 7 ∨ ¬ (∀ c ∈ strip line, isdigit c = true)) := by
        push_neg
        exact ⟨hacc.2.1, hacc.2.2⟩
      rw [hb, if_neg hq, if_neg he, if_neg hv]

/-- Witness for C23, amended: the line `2301` finds the record of
`sample_store` whose id is 2301234. -/
theorem query_id_decides_on_line_witness :
    query_id_body sample_store.records () (feed "2301".toList "\n".toList) =
      if sample_store.records.filter
          (fun r => decide (strip "2301".toList <:+: decimal_text r.id)) = [] then
        some (Step.again () [Notice.no_match] "\n".toList)
      else
        (display_press_enter "\n".toList).map (fun s => Step.done ()
          [Notice.found (sample_store.records.filter
            (fun r => decide (strip "2301".toList <:+: decimal_text r.id)))] s) :=
  (query_id_decides_on_line sample_store.records "2301".toList "\n".toList (by decide)
    (by decide) (by decide)).2.2.2 (by decide)

/-- Claim C21, counterexample: `open_db` loads a record with the grade `C-`
from a file that has one, and the grade query for `C` does not print it,
although its grade has the base letter `C`. -/
theorem query_grade_misses_other_grade :
    open_db (some ("h\nh\nh\nh\nh\n2301234,Ada Lim,Computer Science,52.0,C-\n".toList))
        initial_store
      = some (⟨[⟨2301234, "Ada Lim".toList, "Computer Science".toList, 52, "C-".toList⟩],
          1, 1, 0⟩, [Notice.opened]) ∧
      query_grade_body
          [⟨2301234, "Ada Lim".toList, "Computer Science".toList, 52, "C-".toList⟩] ()
          "C\n".toList
        = some (Step.again () [Notice.no_match] []) := by
  constructor
  · decide!
  · decide!

/-- Claim C21, amended: the grade query decides on the cleaned text of the
line. For a store whose records all carry one of the eleven grade labels
and a term that is one of the labels up to the case of its letter, the
records in the table are, in the order of the store, exactly those whose
grade is the term up to case, or, when the term is a single letter, those
whose grade starts with that letter; so the term `B` gives exactly the
records graded `B+`, `B` or `B-`, and the term `B+` exactly those graded
`B+`. When there is no such record the table is replaced by a notice and
the prompt comes again. -/
theorem query_grade_reports (records : List Record) (stdin stdin1 stdin2 : Stdin)
    (buffer term label : CString) (h1 : fgets 5 stdin = some (buffer, stdin1))
    (h2 : clean_fgets buffer stdin1 = some (term, stdin2)) (hl : label ∈ grade_labels)
    (hg : term.map tolower = label.map tolower)
    (hstore : ∀ r ∈ records, r.grade ∈ grade_labels) :
    (query_grade_body records () stdin =
      if records.filter (fun r => decide (r.grade.map tolower = term.map tolower ∨
          (term.length = 1 ∧ r.grade.head?.map tolower = term.head?.map tolower))) = [] then
        some (Step.again () [Notice.no_match] stdin2)
      else
        (display_press_enter stdin2).map (fun s => Step.done ()
          [Notice.found (records.filter (fun r =>
            decide (r.grade.map tolower = term.map tolower ∨
              (term.length = 1 ∧ r.grade.head?.map tolower = term.head?.map tolower))))] s)) ∧
    (term = ['B'] →
      records.filter (fun r => decide (r.grade.map tolower = term.map tolower ∨
          (term.length = 1 ∧ r.grade.head?.map tolower = term.head?.map tolower)))
        = records.filter (fun r => decide (r.grade = ['B', '+'] ∨ r.grade = ['B'] ∨
            r.grade = ['B', '-']))) ∧
    (term = ['B', '+'] →
      records.filter (fun r => decide (r.grade.map tolower = term.map tolower ∨
          (term.length = 1 ∧ r.grade.head?.map tolower = term.head?.map tolower)))
        = records.filter (fun r => decide (r.grade = ['B', '+']))) := by
  have hlabels : ∀ x ∈ grade_labels, x = ['A', '+'] ∨ x = ['A'] ∨ x = ['A', '-'] ∨
      x = ['B', '+'] ∨ x = ['B'] ∨ x = ['B', '-'] ∨ x = ['C', '+'] ∨ x = ['C'] ∨
      x = ['D', '+'] ∨ x = ['D'] ∨ x = ['F'] := by
    intro x hx
    simpa [grade_labels] using hx
  refine ⟨?_, ?_, ?_⟩
  · have hfilter : records.filter (fun r => grade_query_match term r.grade)
        = records.filter (fun r => decide (r.grade.map tolower = term.map tolower ∨
            (term.length = 1 ∧ r.grade.head?.map tolower = term.head?.map tolower))) := by
      apply List.filter_congr
      intro r hr
      rw [Bool.eq_iff_iff, grade_query_match_spec term r.grade label hl hg (hstore r hr),
        decide_eq_true_iff]
    have hq : ¬(term = ['Q'] ∨ term = ['q']) := by
      intro hq
      have hq2 : label.map tolower = ['q'] := by
        rcases hq with h | h <;> (rw [h] at hg; rw [← hg]; rfl)
      rcases hlabels label hl with h | h | h | h | h | h | h | h | h | h | h <;>
        (rw [h] at hq2; revert hq2; decide)
    have hne : term ≠ [] := by
      intro he
      rw [he] at hg
      rcases hlabels label hl with h | h | h | h | h | h | h | h | h | h | h <;>
        (rw [h] at hg; revert hg; decide)
    have hv : ¬ ¬ (grade_labels.any (fun l => decide (strcasecmp term l = 0)) = true) := by
      rw [not_not, List.any_eq_true]
      exact ⟨label, hl, by rw [decide_eq_true_iff, strcasecmp_eq_zero_iff, hg]⟩
    unfold query_grade_body
    rw [h1]
    simp only [h2, strcasecmp_q, strlen, List.length_eq_zero]
    rw [if_neg hq, if_neg hne, if_neg hv, hfilter, query_report_eq]
  · intro ht
    apply List.filter_congr
    intro r hr
    rw [ht]
    rcases hlabels r.grade (hstore r hr) with h | h | h | h | h | h | h | h | h | h | h <;>
      (rw [h]; decide)
  · intro ht
    apply List.filter_congr
    intro r hr
    rw [ht]
    rcases hlabels r.grade (hstore r hr) with h | h | h | h | h | h | h | h | h | h | h <;>
      (rw [h]; decide)

theorem query_grade_reports_witness :
    (query_grade_body
        [⟨2301236, "Anna".toList, "Law".toList, 70, "B+".toList⟩, sample_bob,
          ⟨2301237, "Susan".toList, "Law".toList, 61, "B-".toList⟩] () "b\n\n".toList =
      if [⟨2301236, "Anna".toList, "Law".toList, 70, "B+".toList⟩, sample_bob,
          ⟨2301237, "Susan".toList, "Law".toList, 61, "B-".toList⟩].filter
          (fun r => decide (r.grade.map tolower = ['b'].map tolower ∨
            (['b'].length = 1 ∧ r.grade.head?.map tolower = ['b'].head?.map tolower))) = [] then
        some (Step.again () [Notice.no_match] "\n".toList)
      else
        (display_press_enter "\n".toList).map (fun s => Step.done ()
          [Notice.found ([⟨2301236, "Anna".toList, "Law".toList, 70, "B+".toList⟩, sample_bob,
            ⟨2301237, "Susan".toList, "Law".toList, 61, "B-".toList⟩].filter (fun r =>
            decide (r.grade.map tolower = ['b'].map tolower ∨
              (['b'].length = 1 ∧ r.grade.head?.map tolower = ['b'].head?.map tolower))))]
          s)) ∧
    (['b'] = ['B'] →
      [⟨2301236, "Anna".toList, "Law".toList, 70, "B+".toList⟩, sample_bob,
          ⟨2301237, "Susan".toList, "Law".toList, 61, "B-".toList⟩].filter
          (fun r => decide (r.grade.map tolower = ['b'].map tolower ∨
            (['b'].length = 1 ∧ r.grade.head?.map tolower = ['b'].head?.map tolower)))
        = [⟨2301236, "Anna".toList, "Law".toList, 70, "B+".toList⟩, sample_bob,
          ⟨2301237, "Susan".toList, "Law".toList, 61, "B-".toList⟩].filter
          (fun r => decide (r.grade = ['B', '+'] ∨ r.grade = ['B'] ∨
            r.grade = ['B', '-']))) ∧
    (['b'] = ['B', '+'] →
      [⟨2301236, "Anna".toList, "Law".toList, 70, "B+".toList⟩, sample_bob,
          ⟨2301237, "Susan".toList, "Law".toList, 61, "B-".toList⟩].filter
          (fun r => decide (r.grade.map tolower = ['b'].map tolower ∨
            (['b'].length = 1 ∧ r.grade.head?.map tolower = ['b'].head?.map tolower)))
        = [⟨2301236, "Anna".toList, "Law".toList, 70, "B+".toList⟩, sample_bob,
          ⟨2301237, "Susan".toList, "Law".toList, 61, "B-".toList⟩].filter
          (fun r => decide (r.grade = ['B', '+']))) :=
  query_grade_reports _ "b\n\n".toList "\n".toList "\n".toList "b\n".toList ['b'] ['B']
    (by decide) (by decide) (by decide) (by decide) (by decide)

/-- Claim C24: `query_record` leaves the store it was given, whatever the
input: the record list, the count, the dirty flag and the open flag are
those from before the call. -/
theorem query_record_keeps_store (st : Store) (stdin : Stdin) (r : Ran Store)
    (h : query_record st stdin = some r) :
    r.result = st ∧ r.result.records = st.records ∧ r.result.node_count = st.node_count ∧
      r.result.is_changes_made = st.is_changes_made ∧
      r.result.is_file_open = st.is_file_open := by
  have hst : r.result = st := by
    unfold query_record at h
    split_ifs at h
    · cases h; rfl
    · cases hw : while_true (query_menu_body st.records) () stdin with
      | none => rw [hw] at h; cases h
      | some ran => rw [hw] at h; cases h; rfl
  rw [hst]
  exact ⟨rfl, rfl, rfl, rfl, rfl⟩

theorem query_record_keeps_store_witness :
    (⟨sample_store, [Notice.found [sample_bob], Notice.query_left], []⟩ : Ran Store).result
        = sample_store ∧
      (⟨sample_store, [Notice.found [sample_bob], Notice.query_left], []⟩ :
        Ran Store).result.records = sample_store.records ∧
      (⟨sample_store, [Notice.found [sample_bob], Notice.query_left], []⟩ :
        Ran Store).result.node_count = sample_store.node_count ∧
      (⟨sample_store, [Notice.found [sample_bob], Notice.query_left], []⟩ :
        Ran Store).result.is_changes_made = sample_store.is_changes_made ∧
      (⟨sample_store, [Notice.found [sample_bob], Notice.query_left], []⟩ :
        Ran Store).result.is_file_open = sample_store.is_file_open :=
  query_record_keeps_store sample_store "2\nbob\n\nq\n".toList
    ⟨sample_store, [Notice.found [sample_bob], Notice.query_left], []⟩ (by decide!)

/-! ## Whole runs of the operations: theorems -/

theorem mem_modify_at (f : Record → Record) (k : Nat) (l : List Record) (y : Record)
    (h : y ∈ modify_at f k l) : y ∈ l ∨ ∃ x ∈ l, y = f x := by
  induction l generalizing k with
  | nil => simp [modify_at] at h
  | cons r rest ih =>
    cases k with
    | zero =>
      simp only [modify_at, List.mem_cons] at h
      rcases h with h | h
      · exact Or.inr ⟨r, List.mem_cons_self _ _, h⟩
      · exact Or.inl (List.mem_cons_of_mem _ h)
    | succ k =>
      simp only [modify_at, List.mem_cons] at h
      rcases h with h | h
      · exact Or.inl (h ▸ List.mem_cons_self _ _)
      · rcases ih k h with h | ⟨x, hx, hy⟩
        · exact Or.inl (List.mem_cons_of_mem _ h)
        · exact Or.inr ⟨x, List.mem_cons_of_mem _ hx, hy⟩

theorem length_modify_at (f : Record → Record) (k : Nat) (l : List Record) :
    (modify_at f k l).length = l.length := by
  induction l generalizing k with
  | nil => simp [modify_at]
  | cons r rest ih =>
    cases k with
    | zero => simp [modify_at]
    | succ k => simp [modify_at, ih]

/-- A relation between stores that holds between a store and itself, that
passes along chains, and that each of the four updates of a record
establishes, holds between the store a pass through the update menu starts
with and the one it leaves. -/
theorem update_menu_body_rel (Q : Store → Store → Prop) (hrefl : ∀ s, Q s s)
    (hname : ∀ s k n, Q s (commit_at s k (set_name n)))
    (hprog : ∀ s k p, Q s (commit_at s k (set_programme p)))
    (hmarks : ∀ s k m g, calculate_grade m = some g → Q s (commit_at s k (set_marks m g)))
    (hall : ∀ s k n p m g, calculate_grade m = some g →
      Q s (commit_at s k (fun r => set_marks m g (set_programme p (set_name n r)))))
    {k : Nat} {st : Store} {l : Locals} {stdin : Stdin} {step : Step (Store × Locals) Store}
    (h : update_menu_body k (st, l) stdin = some step) : Q st step.store := by
  obtain ⟨q, _, _, hc⟩ := update_menu_body_cases h
  rcases hc with ⟨c, _⟩ | ⟨n, _, _, c, _⟩ | ⟨p, _, _, c, _⟩ | ⟨m, g, _, c2, c, _⟩ |
      ⟨n, p, m, g, _, _, _, c2, _, _, c, _, _⟩
  · rw [c]; exact hrefl st
  · rw [c]; exact hname st k n
  · rw [c]; exact hprog st k p
  · rw [c]; exact hmarks st k m g c2
  · rw [c]; exact hall st k n p m g c2

/-- The same relation holds between the store `update_record` is called on
and the one it leaves. -/
theorem update_record_rel (Q : Store → Store → Prop) (hrefl : ∀ s, Q s s)
    (htrans : ∀ a b c, Q a b → Q b c → Q a c)
    (hname : ∀ s k n, Q s (commit_at s k (set_name n)))
    (hprog : ∀ s k p, Q s (commit_at s k (set_programme p)))
    (hmarks : ∀ s k m g, calculate_grade m = some g → Q s (commit_at s k (set_marks m g)))
    (hall : ∀ s k n p m g, calculate_grade m = some g →
      Q s (commit_at s k (fun r => set_marks m g (set_programme p (set_name n r)))))
    {st : Store} {stdin : Stdin} {r : Ran Store} (h : update_record st stdin = some r) :
    Q st r.result := by
  have hmenu : ∀ (k : Nat) (s : Store × Locals) (sd : Stdin) (m : Ran Store),
      while_true (update_menu_body k) s sd = some m → Q s.1 m.result := by
    intro k s sd m hm
    refine @while_true_rel (Store × Locals) Store (update_menu_body k)
      (fun s _ ran => Q s.1 ran.result) ?_ ?_ s sd m hm
    · intro s sd res out sd1 hb
      exact @update_menu_body_rel Q hrefl hname hprog hmarks hall k s.1 s.2 sd _ hb
    · intro s sd s1 out sd1 ran hb ih
      have := @update_menu_body_rel Q hrefl hname hprog hmarks hall k s.1 s.2 sd _ hb
      exact htrans _ _ _ this ih
  unfold update_record at h
  split_ifs at h
  · cases h; exact hrefl st
  · refine @while_true_rel Int Store (update_body st) (fun _ _ ran => Q st ran.result)
      ?_ ?_ 0 stdin r h
    · intro s sd res out sd1 hb
      unfold update_body at hb
      cases hg : get_id s sd with
      | none => rw [hg] at hb; cases hb
      | some o =>
        rw [hg] at hb
        simp only at hb
        split_ifs at hb
        · cases hb; exact hrefl st
        · cases hb
        · cases hf : find_index o.value st.records with
          | none => rw [hf] at hb; cases hb
          | some k =>
            rw [hf] at hb
            simp only at hb
            cases hm : while_true (update_menu_body k) (st, ⟨[], [], 0⟩) o.stdin with
            | none => rw [hm] at hb; cases hb
            | some m =>
              rw [hm] at hb
              cases hb
              exact hmenu k _ _ m hm
    · intro s sd s1 out sd1 ran hb ih
      exact ih

/-- What `open_db` does to the store: records are appended, the count
grows by their number, the open flag is set when the file could be opened,
and the dirty flag stays. -/
theorem open_db_appends {file : Option File} {st : Store} {r : Store × List Notice}
    (h : open_db file st = some r) :
    ∃ loaded, r.1.records = st.records ++ loaded ∧
      r.1.node_count = st.node_count + loaded.length ∧
      r.1.is_changes_made = st.is_changes_made ∧
      (file = none → r.1 = st) ∧ (file ≠ none → r.1.is_file_open = 1) := by
  unfold open_db at h
  cases file with
  | none =>
    cases h
    exact ⟨[], by simp, by simp, rfl, fun _ => rfl, fun hn => absurd rfl hn⟩
  | some content =>
    simp only at h
    cases hw : while_true open_body st (skip_header_lines 5 content) with
    | none => rw [hw] at h; cases h
    | some ran =>
      rw [hw] at h
      cases h
      have key := @while_true_rel Store Store open_body
        (fun s _ ran => ∃ loaded, ran.result.records = s.records ++ loaded ∧
          ran.result.node_count = s.node_count + loaded.length ∧
          ran.result.is_changes_made = s.is_changes_made) ?_ ?_ st _ ran hw
      · obtain ⟨loaded, k1, k2, k3⟩ := key
        exact ⟨loaded, k1, k2, k3, fun hn => (by cases hn), fun _ => rfl⟩
      · intro s sd res out sd1 hb
        unfold open_body at hb
        cases hs : scan_record sd with
        | none => rw [hs] at hb; cases hb
        | some sc =>
          rw [hs] at hb
          cases sc with
          | eof => cases hb; exact ⟨[], by simp, by simp, rfl⟩
          | malformed rest => cases hb
          | record x rest => cases hb
      · intro s sd s1 out sd1 ran hb ih
        obtain ⟨loaded, k1, k2, k3⟩ := ih
        unfold open_body at hb
        cases hs : scan_record sd with
        | none => rw [hs] at hb; cases hb
        | some sc =>
          rw [hs] at hb
          cases sc with
          | eof => cases hb
          | malformed rest => cases hb; exact ⟨loaded, k1, k2, k3⟩
          | record x rest =>
            cases hb
            refine ⟨x :: loaded, by simp [k1], ?_, k3⟩
            simp only at k2
            rw [k2]
            simp only [List.length_cons]
            push_cast
            ring

/-- The count is the length of the list in every store the program can
come to. -/
theorem reachable_node_count {st : Store} (h : Reachable st) :
    st.node_count = st.records.length := by
  induction h with
  | initial => rfl
  | open_db st file r _ ho ih =>
    obtain ⟨loaded, k1, k2, _⟩ := open_db_appends ho
    rw [k1, k2, ih]
    simp
  | insert_record st stdin r _ ho ih =>
    rcases insert_record_cases ho with ⟨h1, _⟩ | ⟨i, n, p, m, g, _, _, _, _, _, _, h7, _⟩
    · rw [h1]; exact ih
    · rw [h7]
      simp [ih]
  | query_record st stdin r _ ho ih =>
    have : r.result = st := by
      unfold query_record at ho
      split_ifs at ho
      · cases ho; rfl
      · cases hw : while_true (query_menu_body st.records) () stdin with
        | none => rw [hw] at ho; cases ho
        | some ran => rw [hw] at ho; cases ho; rfl
    rw [this]; exact ih
  | update_record st stdin r _ ho ih =>
    have := update_record_rel
      (fun a b => a.node_count = b.node_count ∧ a.records.length = b.records.length)
      (fun s => ⟨rfl, rfl⟩) (fun a b c h1 h2 => ⟨h1.1.trans h2.1, h1.2.trans h2.2⟩)
      (fun s k n => ⟨rfl, (length_modify_at _ _ _).symm⟩)
      (fun s k p => ⟨rfl, (length_modify_at _ _ _).symm⟩)
      (fun s k m g _ => ⟨rfl, (length_modify_at _ _ _).symm⟩)
      (fun s k n p m g _ => ⟨rfl, (length_modify_at _ _ _).symm⟩) ho
    rw [← this.1, ← this.2]; exact ih
  | delete_record st stdin r _ ho ih =>
    rcases delete_record_cases ho with ⟨h1, _⟩ | ⟨i, k, _, h2, h3, _, _⟩
    · rw [h1]; exact ih
    · obtain ⟨pre, x, post, e1, _, _, _, e5, _, _⟩ := find_index_spec i st.records k h2
      rw [h3]
      show st.node_count - 1 = ((unlink_at k st.records).length : Int)
      rw [e5, ih, e1]
      simp only [List.length_append, List.length_cons]
      push_cast
      ring
  | save_db st writable _ ih =>
    unfold save_db
    split_ifs
    · exact ih
    · exact ih
  | close_db st stdin r _ ho ih =>
    have hclose : (close_store st).node_count = ((close_store st).records.length : Int) := by
      unfold close_store reset_list
      by_cases he : st.records = []
      · simp [he, ih]
      · simp [he]
    unfold close_db at ho
    split_ifs at ho
    · cases hc : while_true confirm_body () stdin with
      | none => rw [hc] at ho; cases ho
      | some c =>
        rw [hc] at ho
        simp only at ho
        split_ifs at ho
        · cases ho; exact hclose
        · cases ho; exact ih
    · cases ho; exact hclose

/-- The store `close_db` leaves when it closes, for a store the program can
come to: the one the program starts with. -/
theorem close_store_reachable {st : Store} (h : Reachable st) :
    close_store st = initial_store := by
  have hn := reachable_node_count h
  unfold close_store reset_list initial_store
  by_cases he : st.records = []
  · rw [he] at hn
    simp [he, hn]
  · simp [he]

/-- The two ways `close_db` ends: closed, with the notice of it, or, only
from a dirty store, with the store as it was and no such notice. -/
theorem close_db_cases {st : Store} {stdin : Stdin} {r : Ran Store}
    (h : close_db st stdin = some r) :
    (r.result = close_store st ∧ Notice.closed ∈ r.out) ∨
      (st.is_changes_made = 1 ∧ r.result = st ∧ Notice.closed ∉ r.out) := by
  unfold close_db at h
  split_ifs at h with hd
  · cases hc : while_true confirm_body () stdin with
    | none => rw [hc] at h; cases h
    | some c =>
      rw [hc] at h
      simp only at h
      obtain ⟨_, c2, _⟩ := confirm_loop_spec hc
      split_ifs at h <;> cases h
      · exact Or.inl ⟨rfl, by simp⟩
      · refine Or.inr ⟨hd, rfl, fun hm => ?_⟩
        cases mem_errors_append_singleton c2 (by simp) hm
  · cases h
    exact Or.inl ⟨rfl, by simp⟩

theorem mem_unlink_at (k : Nat) (l : List Record) (y : Record) (h : y ∈ unlink_at k l) :
    y ∈ l := by
  induction l generalizing k with
  | nil => simp [unlink_at] at h
  | cons r rest ih =>
    cases k with
    | zero =>
      simp only [unlink_at] at h
      exact List.mem_cons_of_mem _ h
    | succ k =>
      simp only [unlink_at, List.mem_cons] at h
      rcases h with h | h
      · exact h ▸ List.mem_cons_self _ _
      · exact List.mem_cons_of_mem _ (ih k h)

/-! ## The loops of the queries and of `open_db` read their input -/

/-- When no pass of a loop gives input back, the loop gives none back. -/
theorem while_true_input_le {α ρ : Type} (body : α → Stdin → Option (Step α ρ))
    (hstep : ∀ s stdin step, body s stdin = some step → step.input.length ≤ stdin.length)
    {s : α} {stdin : Stdin} {ran : Ran ρ} (h : while_true body s stdin = some ran) :
    ran.stdin.length ≤ stdin.length := by
  refine @while_true_rel α ρ body (fun _ sd ran => ran.stdin.length ≤ sd.length) ?_ ?_
    s stdin ran h
  · intro s sd r out sd1 hb
    exact hstep s sd _ hb
  · intro s sd s1 out sd1 ran hb ih
    exact le_trans ih (hstep s sd _ hb)

theorem query_report_input {matching : List Record} {stdin : Stdin} {step : Step Unit Unit}
    (h : query_report matching stdin = some step) : step.input.length ≤ stdin.length := by
  unfold query_report at h
  split_ifs at h
  · cases h; exact le_refl _
  · unfold display_press_enter at h
    cases hd : discard_line stdin with
    | none => rw [hd] at h; cases h
    | some s1 =>
      rw [hd] at h
      cases h
      exact discard_line_length hd

/-- Every pass of the loop of the id query reads input. -/
theorem query_id_body_reads (records : List Record) (s : Unit) (stdin : Stdin)
    (step : Step Unit Unit) (h : query_id_body records s stdin = some step) :
    step.input.length < stdin.length := by
  unfold query_id_body at h
  cases h1 : fgets 10 stdin with
  | none => rw [h1] at h; cases h
  | some b =>
    obtain ⟨buffer, stdin1⟩ := b
    rw [h1] at h
    simp only at h
    cases h2 : clean_fgets buffer stdin1 with
    | none => rw [h2] at h; cases h
    | some t =>
      obtain ⟨term, stdin2⟩ := t
      rw [h2] at h
      simp only at h
      have hc := read_consumes h1 h2 (by decide)
      split_ifs at h <;>
        first
        | exact lt_of_le_of_lt (query_report_input h) hc
        | (cases h; exact hc)

/-- Every pass of the loops of the name and programme queries reads
input. -/
theorem query_text_body_reads (limit : Nat) (field : Record → CString)
    (records : List Record) (s : Unit) (stdin : Stdin) (step : Step Unit Unit)
    (h : query_text_body limit field records s stdin = some step) :
    step.input.length < stdin.length := by
  unfold query_text_body at h
  cases h1 : fgets 100 stdin with
  | none => rw [h1] at h; cases h
  | some b =>
    obtain ⟨buffer, stdin1⟩ := b
    rw [h1] at h
    simp only at h
    cases h2 : clean_fgets buffer stdin1 with
    | none => rw [h2] at h; cases h
    | some t =>
      obtain ⟨term, stdin2⟩ := t
      rw [h2] at h
      simp only at h
      have hc := read_consumes h1 h2 (by decide)
      split_ifs at h <;>
        first
        | exact lt_of_le_of_lt (query_report_input h) hc
        | (cases h; exact hc)

/-- Every pass of the loop of the grade query reads input. -/
theorem query_grade_body_reads (records : List Record) (s : Unit) (stdin : Stdin)
    (step : Step Unit Unit) (h : query_grade_body records s stdin = some step) :
    step.input.length < stdin.length := by
  unfold query_grade_body at h
  cases h1 : fgets 5 stdin with
  | none => rw [h1] at h; cases h
  | some b =>
    obtain ⟨buffer, stdin1⟩ := b
    rw [h1] at h
    simp only at h
    cases h2 : clean_fgets buffer stdin1 with
    | none => rw [h2] at h; cases h
    | some t =>
      obtain ⟨term, stdin2⟩ := t
      rw [h2] at h
      simp only at h
      have hc := read_consumes h1 h2 (by decide)
      split_ifs at h <;>
        first
        | exact lt_of_le_of_lt (query_report_input h) hc
        | (cases h; exact hc)

theorem query_option_input (body : Unit → Stdin → Option (Step Unit Unit))
    (hbody : ∀ s stdin step, body s stdin = some step → step.input.length < stdin.length)
    {stdin : Stdin} {step : Step Unit Unit} (h : query_option body stdin = some step) :
    step.input.length ≤ stdin.length := by
  unfold query_option at h
  cases hw : while_true body () stdin with
  | none => rw [hw] at h; cases h
  | some ran =>
    rw [hw] at h
    cases h
    exact while_true_input_le body (fun s sd st hs => le_of_lt (hbody s sd st hs)) hw

/-- Every pass through the menu of `query_record` reads input. -/
theorem query_menu_body_reads (records : List Record) (s : Unit) (stdin : Stdin)
    (step : Step Unit Unit) (h : query_menu_body records s stdin = some step) :
    step.input.length < stdin.length := by
  unfold query_menu_body at h
  cases h1 : fgets 3 stdin with
  | none => rw [h1] at h; cases h
  | some b =>
    obtain ⟨buffer, stdin1⟩ := b
    rw [h1] at h
    simp only at h
    cases h2 : clean_fgets buffer stdin1 with
    | none => rw [h2] at h; cases h
    | some t =>
      obtain ⟨option, stdin2⟩ := t
      rw [h2] at h
      simp only at h
      have hc := read_consumes h1 h2 (by decide)
      split_ifs at h
      · exact lt_of_le_of_lt (query_option_input _ (query_id_body_reads records) h) hc
      · exact lt_of_le_of_lt (query_option_input _ (query_text_body_reads _ _ records) h) hc
      · exact lt_of_le_of_lt (query_option_input _ (query_text_body_reads _ _ records) h) hc
      · exact lt_of_le_of_lt (query_option_input _ (query_grade_body_reads records) h) hc
      · cases h; exact hc
      · cases h; exact hc

theorem fgets_read_consumes (k : Nat) (stdin : Stdin) (hk : 0 < k) (hne : stdin ≠ []) :
    (fgets_read k stdin).2.length < stdin.length := by
  obtain ⟨j, rfl⟩ : ∃ j, k = j + 1 := ⟨k - 1, by omega⟩
  cases stdin with
  | nil => exact absurd rfl hne
  | cons c rest =>
    rw [fgets_read]
    split_ifs
    · simp
    · have := fgets_read_length j rest
      simp only [List.length_cons]
      omega

theorem scan_int_rest (file : File) :
    (∀ v rest, scan_int file = Scan.ok v rest → rest.length < file.length) ∧
      (∀ rest, scan_int file = Scan.fail rest → rest.length ≤ file.length) := by
  have key : ∀ (n : Nat) (t : File), (t.take n).takeWhile isdigit ≠ [] →
      (t.drop ((t.take n).takeWhile isdigit).length).length < t.length := by
    intro n t hne
    have hpos : 0 < ((t.take n).takeWhile isdigit).length := List.length_pos.mpr hne
    have hle : ((t.take n).takeWhile isdigit).length ≤ t.length :=
      le_trans (List.takeWhile_sublist _).length_le (List.take_sublist _ _).length_le
    rw [List.length_drop]
    omega
  unfold scan_int
  constructor
  · intro v rest h
    split at h
    · split_ifs at h with hd
      cases h
      have := key 6 _ hd
      simp only [List.length_cons]
      omega
    · split_ifs at h with hd
      cases h
      have := key 6 _ hd
      simp only [List.length_cons]
      omega
    · split_ifs at h with hd
      cases h
      exact key 7 _ hd
  · intro rest h
    split at h
    · split_ifs at h
      cases h
      simp
    · split_ifs at h
      cases h
      simp
    · split_ifs at h
      cases h
      exact le_refl _

theorem scan_set_rest (n : Nat) (file : File) :
    (∀ v rest, scan_set n file = Scan.ok v rest → rest.length < file.length) ∧
      (∀ rest, scan_set n file = Scan.fail rest → rest.length ≤ file.length) := by
  unfold scan_set
  constructor
  · intro v rest h
    split_ifs at h with hd
    cases h
    have hpos : 0 < ((file.take n).takeWhile (fun c => c != ',')).length :=
      List.length_pos.mpr hd
    have hle : ((file.take n).takeWhile (fun c => c != ',')).length ≤ file.length :=
      le_trans (List.takeWhile_sublist _).length_le (List.take_sublist _ _).length_le
    rw [List.length_drop]
    omega
  · intro rest h
    split_ifs at h
    cases h
    exact le_refl _

theorem skip_sign_length (file : File) : (skip_sign file).length ≤ file.length := by
  unfold skip_sign
  split <;> simp

theorem skip_fraction_length (file : File) : (skip_fraction file).length ≤ file.length := by
  unfold skip_fraction
  split
  · simp only [List.length_drop, List.length_cons]
    omega
  · exact le_refl _

theorem scan_float_rest (file : File) (sc : Scan ℚ) (h : scan_float file = some sc) :
    (∀ v rest, sc = Scan.ok v rest → rest.length ≤ file.length) ∧
      (∀ rest, sc = Scan.fail rest → rest.length ≤ file.length) := by
  have hle : (skip_fraction ((skip_sign (file.dropWhile isspace)).drop
      ((skip_sign (file.dropWhile isspace)).takeWhile isdigit).length)).length
      ≤ file.length := by
    refine le_trans (skip_fraction_length _) ?_
    rw [List.length_drop]
    have h1 := skip_sign_length (file.dropWhile isspace)
    have h2 : (file.dropWhile isspace).length ≤ file.length :=
      (List.dropWhile_sublist _).length_le
    omega
  unfold scan_float at h
  simp only at h
  split_ifs at h <;> cases h <;>
    first
    | exact ⟨fun v rest e => (by cases e), fun rest e => (by cases e; exact hle)⟩
    | exact ⟨fun v rest e => (by cases e; exact hle), fun rest e => (by cases e)⟩

theorem scan_word_rest (file : File) (sc : Scan CString) (h : scan_word file = some sc) :
    (∀ v rest, sc = Scan.ok v rest → rest.length ≤ file.length) ∧
      (∀ rest, sc = Scan.fail rest → rest.length ≤ file.length) := by
  have h2 : (file.dropWhile isspace).length ≤ file.length :=
    (List.dropWhile_sublist _).length_le
  unfold scan_word at h
  simp only at h
  split_ifs at h <;> cases h
  · exact ⟨fun v rest e => (by cases e), fun rest e => (by cases e; exact h2)⟩
  · refine ⟨fun v rest e => ?_, fun rest e => (by cases e)⟩
    cases e
    rw [List.length_drop]
    omega

theorem scan_record_rest (file : File) (sc : Scanned) (h : scan_record file = some sc) :
    (∀ r rest, sc = Scanned.record r rest → rest.length < file.length) ∧
      (∀ rest, sc = Scanned.malformed rest → rest.length ≤ file.length ∧ file ≠ []) := by
  have h0 : (file.dropWhile isspace).length ≤ file.length :=
    (List.dropWhile_sublist _).length_le
  have hmal : ∀ rest : File, rest.length ≤ (file.dropWhile isspace).length →
      file.dropWhile isspace ≠ [] →
      (∀ r rest1, Scanned.malformed rest = Scanned.record r rest1 →
        rest1.length < file.length) ∧
      (∀ rest1, Scanned.malformed rest = Scanned.malformed rest1 →
        rest1.length ≤ file.length ∧ file ≠ []) := by
    intro rest hle hne
    refine ⟨fun r rest1 e => (by cases e), fun rest1 e => ?_⟩
    cases e
    refine ⟨le_trans hle h0, ?_⟩
    rintro rfl
    exact hne rfl
  unfold scan_record at h
  split at h
  · cases h
    exact ⟨fun r rest e => (by cases e), fun rest e => (by cases e)⟩
  · rename_i c t hstart
    have hne : file.dropWhile isspace ≠ [] := by rw [hstart]; exact List.cons_ne_nil _ _
    rw [hstart] at hmal
    have hne1 : c :: t ≠ [] := List.cons_ne_nil _ _
    split at h
    · rename_i rest1 e1
      cases h
      exact hmal _ ((scan_int_rest _).2 _ e1) hne1
    · rename_i id f2 e1
      have l1 := (scan_int_rest _).1 _ _ e1
      simp only [List.length_cons] at l1
      split at h
      · rename_i rest2 e2
        cases h
        exact hmal _ (by have := (scan_set_rest _ _).2 _ e2; simp only [List.length_cons]; omega) hne1
      · rename_i name f4 e2
        have l2 := (scan_set_rest _ _).1 _ _ e2
        simp only [List.length_cons] at l2
        split at h
        · rename_i rest3 e3
          cases h
          exact hmal _ (by have := (scan_set_rest _ _).2 _ e3; simp only [List.length_cons]; omega) hne1
        · rename_i programme f6 e3
          have l3 := (scan_set_rest _ _).1 _ _ e3
          simp only [List.length_cons] at l3
          split at h
          · cases h
          · rename_i rest4 e4
            cases h
            exact hmal _ (by have := (scan_float_rest _ _ e4).2 _ rfl; simp only [List.length_cons]; omega) hne1
          · rename_i marks f8 e4
            have l4 := (scan_float_rest _ _ e4).1 _ _ rfl
            simp only [List.length_cons] at l4
            split at h
            · cases h
            · rename_i rest5 e5
              cases h
              exact hmal _ (by have := (scan_word_rest _ _ e5).2 _ rfl; simp only [List.length_cons]; omega) hne1
            · rename_i grade rest5 e5
              have l5 := (scan_word_rest _ _ e5).1 _ _ rfl
              cases h
              refine ⟨fun r rest e => ?_, fun rest e => (by cases e)⟩
              cases e
              rw [hstart] at h0
              simp only [List.length_cons] at h0
              omega
          · rename_i v rest4 hnot e4
            cases h
            exact hmal _ (by have := (scan_float_rest _ _ e4).1 _ _ rfl; simp only [List.length_cons]; omega) hne1
        · rename_i v rest3 hnot e3
          cases h
          exact hmal _ (by have := (scan_set_rest _ _).1 _ _ e3; simp only [List.length_cons]; omega) hne1
      · rename_i v rest2 hnot e2
        cases h
        exact hmal _ (by have := (scan_set_rest _ _).1 _ _ e2; simp only [List.length_cons]; omega) hne1
    · rename_i v rest1 hnot e1
      cases h
      exact hmal _ (le_of_lt ((scan_int_rest _).1 _ _ e1)) hne1

theorem open_body_reads (st : Store) (file : File) (s1 : Store) (out : List Notice)
    (file1 : File) (h : open_body st file = some (Step.again s1 out file1)) :
    file1.length < file.length := by
  unfold open_body at h
  split at h
  · cases h
  · cases h
  · rename_i rest e
    cases h
    have hr := (scan_record_rest _ _ e).2 _ rfl
    by_cases hne : rest = []
    · subst hne
      have hpos : 0 < file.length := List.length_pos.mpr hr.2
      simpa [fgets_read] using hpos
    · exact lt_of_lt_of_le (fgets_read_consumes 255 rest (by decide) hne) hr.1
  · rename_i r rest e
    cases h
    exact (scan_record_rest _ _ e).1 _ _ rfl

/-! ## Invariants and the life cycle of the store: the claims -/

/-- Claim C25, the failing run: from the store the program starts with,
`open_db` on a file with two data lines of the same id leaves a store, one
the program can come to, with two records of that id. `insert_record` scans
for the id before it appends; `open_db` appends what it reads. -/
theorem open_db_loads_duplicate_ids :
    open_db (some sample_file) initial_store
      = some (⟨[sample_ada, ⟨2301234, "Bob Tan".toList, "Data Science".toList, 40,
          "D".toList⟩], 2, 1, 0⟩, [Notice.opened]) ∧
      Reachable ⟨[sample_ada, ⟨2301234, "Bob Tan".toList, "Data Science".toList, 40,
          "D".toList⟩], 2, 1, 0⟩ ∧
      ¬ ([sample_ada, ⟨2301234, "Bob Tan".toList, "Data Science".toList, 40,
          "D".toList⟩].map (fun r => r.id)).Nodup := by
  have h : open_db (some sample_file) initial_store
      = some (⟨[sample_ada, ⟨2301234, "Bob Tan".toList, "Data Science".toList, 40,
          "D".toList⟩], 2, 1, 0⟩, [Notice.opened]) := by decide!
  exact ⟨h, Reachable.open_db initial_store (some sample_file) _ Reachable.initial h,
    by decide⟩

/-- Claim C26: when every record of the store has the grade that
`calculate_grade` gives for its marks, every record of the store a run of
`insert_record`, of `update_record` or of `delete_record` leaves has it
too, whatever the input. -/
theorem grade_consistency_preserved (st : Store) (h : ∀ x ∈ st.records, Consistent x) :
    (∀ stdin r, insert_record st stdin = some r → ∀ x ∈ r.result.records, Consistent x) ∧
      (∀ stdin r, update_record st stdin = some r → ∀ x ∈ r.result.records, Consistent x) ∧
      (∀ stdin r, delete_record st stdin = some r → ∀ x ∈ r.result.records, Consistent x) := by
  have hmod : ∀ (s : Store) (k : Nat) (f : Record → Record),
      (∀ x, Consistent x → Consistent (f x)) → (∀ x ∈ s.records, Consistent x) →
      ∀ x ∈ (commit_at s k f).records, Consistent x := by
    intro s k f hf hs x hx
    rcases mem_modify_at f k s.records x hx with hx | ⟨y, hy, rfl⟩
    · exact hs x hx
    · exact hf y (hs y hy)
  refine ⟨?_, ?_, ?_⟩
  · intro stdin r ho
    rcases insert_record_cases ho with ⟨h1, _⟩ | ⟨i, n, p, m, g, _, _, _, _, h5, _, h7, _⟩
    · rw [h1]; exact h
    · rw [h7]
      intro x hx
      rcases List.mem_append.mp hx with hx | hx
      · exact h x hx
      · rw [List.mem_singleton] at hx
        rw [hx]
        exact h5
  · intro stdin r ho
    exact update_record_rel
      (fun a b => (∀ x ∈ a.records, Consistent x) → ∀ x ∈ b.records, Consistent x)
      (fun s hs => hs) (fun a b c h1 h2 ha => h2 (h1 ha))
      (fun s k n => hmod s k _ (fun x hx => hx))
      (fun s k p => hmod s k _ (fun x hx => hx))
      (fun s k m g hg => hmod s k _ (fun x _ => hg))
      (fun s k n p m g hg => hmod s k _ (fun x _ => hg)) ho h
  · intro stdin r ho
    rcases delete_record_cases ho with ⟨h1, _⟩ | ⟨i, k, _, _, h3, _, _⟩
    · rw [h1]; exact h
    · rw [h3]
      intro x hx
      exact h x (mem_unlink_at k st.records x hx)

theorem grade_consistency_preserved_witness :
    (∀ stdin r, insert_record sample_store stdin = some r →
        ∀ x ∈ r.result.records, Consistent x) ∧
      (∀ stdin r, update_record sample_store stdin = some r →
        ∀ x ∈ r.result.records, Consistent x) ∧
      (∀ stdin r, delete_record sample_store stdin = some r →
        ∀ x ∈ r.result.records, Consistent x) :=
  grade_consistency_preserved sample_store
    (by
      intro x hx
      simp only [sample_store, List.mem_cons, List.mem_singleton, List.not_mem_nil,
        or_false] at hx
      rcases hx with h | h <;> (rw [h]; unfold Consistent; decide!))

/-- Claim C27: in every store the program can come to from its first one
by calls of `open_db`, `insert_record`, `query_record`, `update_record`,
`delete_record`, `save_db` and `close_db`, the count `node_count` is the
number of records of the list, 0 for the empty list. -/
theorem node_count_is_length (st : Store) (h : Reachable st) :
    st.node_count = st.records.length ∧ (st.records = [] → st.node_count = 0) := by
  have hn := reachable_node_count h
  refine ⟨hn, fun he => ?_⟩
  rw [hn, he]
  rfl

theorem node_count_is_length_witness :
    (⟨[sample_ada, ⟨2301234, "Bob Tan".toList, "Data Science".toList, 40, "D".toList⟩],
        2, 1, 0⟩ : Store).node_count
      = ([sample_ada, ⟨2301234, "Bob Tan".toList, "Data Science".toList, 40,
          "D".toList⟩] : List Record).length ∧
      (([sample_ada, ⟨2301234, "Bob Tan".toList, "Data Science".toList, 40,
          "D".toList⟩] : List Record) = [] →
        (⟨[sample_ada, ⟨2301234, "Bob Tan".toList, "Data Science".toList, 40, "D".toList⟩],
          2, 1, 0⟩ : Store).node_count = 0) :=
  node_count_is_length
    ⟨[sample_ada, ⟨2301234, "Bob Tan".toList, "Data Science".toList, 40, "D".toList⟩], 2, 1, 0⟩
    (Reachable.open_db initial_store (some sample_file)
      (⟨[sample_ada, ⟨2301234, "Bob Tan".toList, "Data Science".toList, 40, "D".toList⟩],
        2, 1, 0⟩, [Notice.opened]) Reachable.initial (by decide!))

/-- Claim C28, counterexample: `close_db` on a dirty store, answered with
`y`, leaves the dirty flag 0 although nothing was saved. -/
theorem close_db_clears_dirty_flag :
    close_db ⟨[sample_ada, sample_bob], 2, 1, 1⟩ "y\n".toList
      = some ⟨⟨[], 0, 0, 0⟩, [Notice.closed], []⟩ := by
  decide!

/-- Claim C28, amended: the dirty flag `is_changes_made` is 1 after every
run of `insert_record` and of `delete_record` that prints its notice of
success and after every pass through the update menu that prints a notice
of an update; runs and passes without such a notice leave the store as it
was, and `update_record`, `query_record` and `open_db` leave a flag that is
1 at 1. The flag is set to 0 by `save_db` when the file can be opened, and
by `close_db` when it closes, and by nothing else: `save_db` on a file that
cannot be opened and `close_db` when it is declined leave the store as it
was. -/
theorem dirty_flag_changes (st : Store) :
    (∀ stdin r, insert_record st stdin = some r →
      (Notice.inserted ∈ r.out → r.result.is_changes_made = 1) ∧
        (Notice.inserted ∉ r.out → r.result = st)) ∧
    (∀ stdin r, delete_record st stdin = some r →
      ((∃ i, Notice.deleted i ∈ r.out) → r.result.is_changes_made = 1) ∧
        ((∀ i, Notice.deleted i ∉ r.out) → r.result = st)) ∧
    (∀ k l stdin step, update_menu_body k (st, l) stdin = some step →
      ((Notice.name_updated ∈ step.notices ∨ Notice.programme_updated ∈ step.notices ∨
          Notice.marks_updated ∈ step.notices ∨ Notice.all_updated ∈ step.notices) →
        step.store.is_changes_made = 1) ∧
      (¬(Notice.name_updated ∈ step.notices ∨ Notice.programme_updated ∈ step.notices ∨
          Notice.marks_updated ∈ step.notices ∨ Notice.all_updated ∈ step.notices) →
        step.store = st)) ∧
    (∀ stdin r, update_record st stdin = some r → st.is_changes_made = 1 →
      r.result.is_changes_made = 1) ∧
    (∀ stdin r, query_record st stdin = some r → r.result = st) ∧
    (∀ file r, open_db file st = some r → r.1.is_changes_made = st.is_changes_made) ∧
    (save_db true st).1.is_changes_made = 0 ∧
    (save_db false st).1 = st ∧
    (∀ stdin r, close_db st stdin = some r →
      (Notice.closed ∈ r.out → r.result.is_changes_made = 0) ∧
        (Notice.closed ∉ r.out → r.result = st)) := by
  refine ⟨?_, ?_, ?_, ?_, ?_, ?_, rfl, rfl, ?_⟩
  · intro stdin r ho
    rcases insert_record_cases ho with ⟨h1, h2⟩ | ⟨i, n, p, m, g, _, _, _, _, _, _, h7, h8⟩
    · exact ⟨fun hc => absurd hc h2, fun _ => h1⟩
    · exact ⟨fun _ => by rw [h7], fun hc => absurd h8 hc⟩
  · intro stdin r ho
    rcases delete_record_cases ho with ⟨h1, h2⟩ | ⟨i, k, _, _, h3, h4, _⟩
    · exact ⟨fun ⟨i, hc⟩ => absurd hc (h2 i), fun _ => h1⟩
    · exact ⟨fun _ => by rw [h3]; rfl, fun hc => absurd h4 (hc i)⟩
  · intro k l stdin step ho
    obtain ⟨q, hq, _, hc⟩ := update_menu_body_cases ho
    have hno : ∀ a : Notice, (∀ d, a ≠ Notice.error d) → a ≠ Notice.name_updated →
        a ≠ Notice.programme_updated → a ≠ Notice.marks_updated → a ≠ Notice.all_updated →
        step.notices = q ++ [a] →
        ¬(Notice.name_updated ∈ step.notices ∨ Notice.programme_updated ∈ step.notices ∨
          Notice.marks_updated ∈ step.notices ∨ Notice.all_updated ∈ step.notices) := by
      intro a _ a1 a2 a3 a4 ha
      rw [ha]
      rintro (hm | hm | hm | hm)
      · exact a1 (mem_errors_append_singleton hq (by simp) hm).symm
      · exact a2 (mem_errors_append_singleton hq (by simp) hm).symm
      · exact a3 (mem_errors_append_singleton hq (by simp) hm).symm
      · exact a4 (mem_errors_append_singleton hq (by simp) hm).symm
    rcases hc with ⟨c1, c | c⟩ | ⟨n, _, _, c1, c⟩ | ⟨p, _, _, c1, c⟩ | ⟨m, g, _, _, c1, c⟩ |
        ⟨n, p, m, g, _, _, _, _, _, _, c1, c, _⟩
    · have := hno _ (by simp) (by simp) (by simp) (by simp) (by simp) c
      exact ⟨fun hc => absurd hc this, fun _ => c1⟩
    · have := hno _ (by simp) (by simp) (by simp) (by simp) (by simp) c
      exact ⟨fun hc => absurd hc this, fun _ => c1⟩
    · exact ⟨fun _ => by rw [c1]; rfl, fun hc => absurd (Or.inl (by rw [c]; simp)) hc⟩
    · exact ⟨fun _ => by rw [c1]; rfl,
        fun hc => absurd (Or.inr (Or.inl (by rw [c]; simp))) hc⟩
    · exact ⟨fun _ => by rw [c1]; rfl,
        fun hc => absurd (Or.inr (Or.inr (Or.inl (by rw [c]; simp)))) hc⟩
    · exact ⟨fun _ => by rw [c1]; rfl,
        fun hc => absurd (Or.inr (Or.inr (Or.inr (by rw [c]; simp)))) hc⟩
  · intro stdin r ho
    exact update_record_rel (fun a b => a.is_changes_made = 1 → b.is_changes_made = 1)
      (fun s hs => hs) (fun a b c h1 h2 ha => h2 (h1 ha))
      (fun s k n _ => rfl) (fun s k p _ => rfl) (fun s k m g _ _ => rfl)
      (fun s k n p m g _ _ => rfl) ho
  · intro stdin r ho
    unfold query_record at ho
    split_ifs at ho
    · cases ho; rfl
    · cases hw : while_true (query_menu_body st.records) () stdin with
      | none => rw [hw] at ho; cases ho
      | some ran => rw [hw] at ho; cases ho; rfl
  · intro file r ho
    obtain ⟨loaded, _, _, k3, _⟩ := open_db_appends ho
    exact k3
  · intro stdin r ho
    rcases close_db_cases ho with ⟨h1, h2⟩ | ⟨_, h2, h3⟩
    · exact ⟨fun _ => by rw [h1]; rfl, fun hc => absurd h2 hc⟩
    · exact ⟨fun hc => absurd hc h3, fun _ => h2⟩

theorem dirty_flag_changes_witness :
    (save_db true sample_store).1.is_changes_made = 0 ∧ (save_db false sample_store).1
      = sample_store :=
  ⟨(dirty_flag_changes sample_store).2.2.2.2.2.2.1,
    (dirty_flag_changes sample_store).2.2.2.2.2.2.2.1⟩

/-- Claim C30: for a store the program can come to, whenever `close_db`
closes, which it does when the store is not dirty and when it prints the
notice of the close, the store it leaves has no records, the count 0, and
both flags 0. -/
theorem close_db_completes (st : Store) (stdin : Stdin) (r : Ran Store) (hr : Reachable st)
    (h : close_db st stdin = some r)
    (hc : st.is_changes_made ≠ 1 ∨ Notice.closed ∈ r.out) :
    r.result = initial_store ∧ r.result.records = [] ∧ r.result.node_count = 0 ∧
      r.result.is_file_open = 0 ∧ r.result.is_changes_made = 0 := by
  have hres : r.result = initial_store := by
    rcases close_db_cases h with ⟨h1, _⟩ | ⟨h1, _, h3⟩
    · rw [h1]; exact close_store_reachable hr
    · rcases hc with hc | hc
      · exact absurd h1 hc
      · exact absurd hc h3
  rw [hres]
  exact ⟨rfl, rfl, rfl, rfl, rfl⟩

theorem close_db_completes_witness :
    (⟨initial_store, [Notice.closed], "rest".toList⟩ : Ran Store).result = initial_store ∧
      (⟨initial_store, [Notice.closed], "rest".toList⟩ : Ran Store).result.records = [] ∧
      (⟨initial_store, [Notice.closed], "rest".toList⟩ : Ran Store).result.node_count = 0 ∧
      (⟨initial_store, [Notice.closed], "rest".toList⟩ : Ran Store).result.is_file_open = 0 ∧
      (⟨initial_store, [Notice.closed], "rest".toList⟩ : Ran Store).result.is_changes_made
        = 0 :=
  close_db_completes
    ⟨[sample_ada, ⟨2301234, "Bob Tan".toList, "Data Science".toList, 40, "D".toList⟩], 2, 1, 0⟩
    "rest".toList ⟨initial_store, [Notice.closed], "rest".toList⟩
    (Reachable.open_db initial_store (some sample_file)
      (⟨[sample_ada, ⟨2301234, "Bob Tan".toList, "Data Science".toList, 40, "D".toList⟩],
        2, 1, 0⟩, [Notice.opened]) Reachable.initial (by decide!))
    (by decide) (Or.inl (by decide))

/-! ## How the guided operations end: theorems -/

/-- A text that passes the character loop of `get_marks` has a decimal
digit, unless it is the point alone. -/
theorem marks_scan_digit_or_point {t : CString} (hne : t ≠ [])
    (h : marks_scan t 0 = none) : (∃ c ∈ t, isdigit c = true) ∨ t = ['.'] := by
  cases t with
  | nil => exact absurd rfl hne
  | cons c s =>
    by_cases hc : isdigit c = true
    · exact Or.inl ⟨c, List.mem_cons_self _ _, hc⟩
    · rw [marks_scan, if_neg hc] at h
      split_ifs at h with hp
      · cases s with
        | nil => rw [hp]; exact Or.inr rfl
        | cons d s1 =>
          by_cases hd : isdigit d = true
          · exact Or.inl ⟨d, by simp, hd⟩
          · rw [marks_scan, if_neg hd] at h
            split_ifs at h with h1 h2
            exact absurd rfl h2

/-! ## What `update_record` leaves alone: theorems -/

theorem modify_at_id (k : Nat) (l : List Record) : modify_at (fun x => x) k l = l := by
  induction l generalizing k with
  | nil => simp [modify_at]
  | cons r rest ih =>
    cases k with
    | zero => rfl
    | succ k =>
      show r :: modify_at (fun x => x) k rest = r :: rest
      rw [ih]

theorem modify_at_modify_at (f g : Record → Record) (k : Nat) (l : List Record) :
    modify_at g k (modify_at f k l) = modify_at (fun x => g (f x)) k l := by
  induction l generalizing k with
  | nil => simp [modify_at]
  | cons r rest ih =>
    cases k with
    | zero => rfl
    | succ k =>
      show r :: modify_at g k (modify_at f k rest) = r :: modify_at (fun x => g (f x)) k rest
      rw [ih]

theorem modify_at_map_id (f : Record → Record) (hf : ∀ x, (f x).id = x.id) (k : Nat)
    (l : List Record) : (modify_at f k l).map (fun x => x.id) = l.map (fun x => x.id) := by
  induction l generalizing k with
  | nil => simp [modify_at]
  | cons r rest ih =>
    cases k with
    | zero => simp [modify_at, hf]
    | succ k => simp [modify_at, ih]

theorem modify_at_getElem? (f : Record → Record) (k j : Nat) (l : List Record) (h : j ≠ k) :
    (modify_at f k l)[j]? = l[j]? := by
  induction l generalizing k j with
  | nil => simp [modify_at]
  | cons r rest ih =>
    cases k with
    | zero =>
      cases j with
      | zero => exact absurd rfl h
      | succ j => simp [modify_at]
    | succ k =>
      cases j with
      | zero => simp [modify_at]
      | succ j =>
        simp only [modify_at, List.getElem?_cons_succ]
        exact ih k j (fun e => h (by rw [e]))

/-- The menu loop of `update_record` for the record at position `k` leaves
a store that differs from the one it started with at most in the record at
position `k`, whose id it keeps. -/
theorem update_menu_loop_at {k : Nat} {s : Store × Locals} {stdin : Stdin} {m : Ran Store}
    (h : while_true (update_menu_body k) s stdin = some m) :
    ∃ f : Record → Record, (∀ x, (f x).id = x.id) ∧
      m.result.records = modify_at f k s.1.records ∧
      m.result.node_count = s.1.node_count ∧ m.result.is_file_open = s.1.is_file_open := by
  have hbody : ∀ (s : Store × Locals) (sd : Stdin) (step : Step (Store × Locals) Store),
      update_menu_body k s sd = some step →
      ∃ f : Record → Record, (∀ x, (f x).id = x.id) ∧
        step.store.records = modify_at f k s.1.records ∧
        step.store.node_count = s.1.node_count ∧
        step.store.is_file_open = s.1.is_file_open := by
    intro s sd step hb
    obtain ⟨q, _, _, hc⟩ := @update_menu_body_cases k s.1 s.2 sd step hb
    rcases hc with ⟨c, _⟩ | ⟨n, _, _, c, _⟩ | ⟨p, _, _, c, _⟩ | ⟨m, g, _, _, c, _⟩ |
        ⟨n, p, m, g, _, _, _, _, _, _, c, _, _⟩
    · exact ⟨fun x => x, fun _ => rfl, by rw [c, modify_at_id], by rw [c], by rw [c]⟩
    · exact ⟨set_name n, fun _ => rfl, by rw [c]; rfl, by rw [c]; rfl, by rw [c]; rfl⟩
    · exact ⟨set_programme p, fun _ => rfl, by rw [c]; rfl, by rw [c]; rfl, by rw [c]; rfl⟩
    · exact ⟨set_marks m g, fun _ => rfl, by rw [c]; rfl, by rw [c]; rfl, by rw [c]; rfl⟩
    · exact ⟨fun r => set_marks m g (set_programme p (set_name n r)), fun _ => rfl,
        by rw [c]; rfl, by rw [c]; rfl, by rw [c]; rfl⟩
  refine @while_true_rel (Store × Locals) Store (update_menu_body k)
    (fun s _ m => ∃ f : Record → Record, (∀ x, (f x).id = x.id) ∧
      m.result.records = modify_at f k s.1.records ∧
      m.result.node_count = s.1.node_count ∧ m.result.is_file_open = s.1.is_file_open)
    ?_ ?_ s stdin m h
  · intro s sd r out sd1 hb
    exact hbody s sd _ hb
  · intro s sd s1 out sd1 ran hb ih
    obtain ⟨f, f1, f2, f3, f4⟩ := hbody s sd _ hb
    obtain ⟨g, g1, g2, g3, g4⟩ := ih
    simp only [Step.store] at f2 f3 f4
    refine ⟨fun x => g (f x), fun x => by rw [g1, f1], ?_, ?_, ?_⟩
    · simp only
      rw [g2, f2, modify_at_modify_at]
    · simp only
      rw [g3, f3]
    · simp only
      rw [g4, f4]

/-- A run of `update_record` leaves the store as it was, or differs from it
at most in the first record with the id entered on its input, the first
accepted id that a record has, whose id it keeps. -/
theorem update_record_at {st : Store} {stdin : Stdin} {r : Ran Store}
    (h : update_record st stdin = some r) :
    r.result = st ∨
      ∃ i k s1, Prompted get_id (Present st.records) 0 stdin i s1 ∧
        find_index i st.records = some k ∧
        ∃ f : Record → Record, (∀ x, (f x).id = x.id) ∧
          r.result.records = modify_at f k st.records ∧
          r.result.node_count = st.node_count ∧ r.result.is_file_open = st.is_file_open := by
  unfold update_record at h
  split_ifs at h
  · cases h; exact Or.inl rfl
  · refine @while_true_rel Int Store (update_body st)
      (fun x stdin r => r.result = st ∨
        ∃ i k s1, Prompted get_id (Present st.records) x stdin i s1 ∧
          find_index i st.records = some k ∧
          ∃ f : Record → Record, (∀ x, (f x).id = x.id) ∧
            r.result.records = modify_at f k st.records ∧
            r.result.node_count = st.node_count ∧ r.result.is_file_open = st.is_file_open)
      ?_ ?_ 0 stdin r h
    · intro s sd res out sd1 hb
      unfold update_body at hb
      cases hg : get_id s sd with
      | none => rw [hg] at hb; cases hb
      | some o =>
        rw [hg] at hb
        simp only at hb
        obtain ⟨_, hst, _⟩ := get_id_call hg
        split_ifs at hb with c1 c2
        · cases hb; exact Or.inl rfl
        · cases hb
        · have h1 : o.status = 1 := by omega
          cases hf : find_index o.value st.records with
          | none => rw [hf] at hb; cases hb
          | some k =>
            rw [hf] at hb
            simp only at hb
            cases hm : while_true (update_menu_body k) (st, ⟨[], [], 0⟩) o.stdin with
            | none => rw [hm] at hb; cases hb
            | some m =>
              rw [hm] at hb
              cases hb
              exact Or.inr ⟨o.value, k, o.stdin,
                Prompted.accept s sd o hg h1 (present_of_find hf), hf, update_menu_loop_at hm⟩
    · intro s sd s1 out sd1 ran hb ih
      rcases ih with ih | ⟨i, k, s2, p1, p2, p3⟩
      · exact Or.inl ih
      · refine Or.inr ⟨i, k, s2, ?_, p2, p3⟩
        unfold update_body at hb
        cases hg : get_id s sd with
        | none => rw [hg] at hb; cases hb
        | some o =>
          rw [hg] at hb
          simp only at hb
          obtain ⟨_, hst, _⟩ := get_id_call hg
          split_ifs at hb with c1 c2
          · cases hb
          · cases hb
            exact Prompted.retry s sd o _ _ hg (Or.inl c2) p1
          · have h1 : o.status = 1 := by omega
            cases hf : find_index o.value st.records with
            | none =>
              rw [hf] at hb
              cases hb
              exact Prompted.retry s sd o _ _ hg (Or.inr ⟨h1, not_present_of_find hf⟩) p1
            | some k =>
              rw [hf] at hb
              simp only at hb
              split at hb <;> cases hb

/-! ## Reading back what was written: theorems -/

theorem digitChar_isdigit {m : Nat} (h : m < 10) :
    isdigit (Nat.digitChar m) = true ∧ digit_value (Nat.digitChar m) = m := by
  interval_cases m <;> exact ⟨by decide, by decide⟩

/-- The digits `Nat.toDigitsCore` puts before `ds`: a run of decimal
digits, not empty, with the value `n`. -/
theorem toDigitsCore_spec (fuel n : Nat) (ds : List Char) (h : n < fuel) :
    ∃ l, Nat.toDigitsCore 10 fuel n ds = l ++ ds ∧ l ≠ [] ∧ (∀ c ∈ l, isdigit c = true) ∧
      Nat.ofDigits 10 (l.map digit_value).reverse = n := by
  induction fuel generalizing n ds with
  | zero => omega
  | succ fuel ih =>
    rw [Nat.toDigitsCore]
    have hd := digitChar_isdigit (Nat.mod_lt n (by norm_num : 10 > 0))
    by_cases h0 : n / 10 = 0
    · rw [if_pos h0]
      refine ⟨[Nat.digitChar (n % 10)], rfl, by simp, ?_, ?_⟩
      · intro c hc
        rw [List.mem_singleton] at hc
        rw [hc]; exact hd.1
      · simp only [List.map_cons, List.map_nil, List.reverse_singleton, hd.2,
          Nat.ofDigits_singleton]
        omega
    · rw [if_neg h0]
      obtain ⟨l, e1, e2, e3, e4⟩ := ih (n / 10) (Nat.digitChar (n % 10) :: ds) (by omega)
      refine ⟨l ++ [Nat.digitChar (n % 10)], by rw [e1]; simp, by simp, ?_, ?_⟩
      · intro c hc
        rcases List.mem_append.mp hc with hc | hc
        · exact e3 c hc
        · rw [List.mem_singleton] at hc
          rw [hc]; exact hd.1
      · simp only [List.map_append, List.map_cons, List.map_nil, List.reverse_append,
          List.reverse_singleton, List.singleton_append, Nat.ofDigits_cons, hd.2, e4]
        omega

/-- The decimal numeral of `n`: a run of decimal digits, not empty, that
`read_digits` reads back as `n`. -/
theorem toDigits_spec (n : Nat) :
    Nat.toDigits 10 n ≠ [] ∧ (∀ c ∈ Nat.toDigits 10 n, isdigit c = true) ∧
      ∀ acc, read_digits (Nat.toDigits 10 n) acc
        = acc * 10 ^ (Nat.toDigits 10 n).length + n := by
  obtain ⟨l, e1, e2, e3, e4⟩ := toDigitsCore_spec (n + 1) n [] (by omega)
  rw [List.append_nil] at e1
  unfold Nat.toDigits
  rw [e1]
  refine ⟨e2, e3, fun acc => ?_⟩
  rw [read_digits_all l acc e3, e4]

theorem toDigits_length_le (n e : Nat) (h : n < 10 ^ e) (he : 0 < e) :
    (Nat.toDigits 10 n).length ≤ e :=
  Nat.toDigitsCore_length 10 (by norm_num) (n + 1) n e h he

theorem toDigits_digit {d : Nat} (h : d < 10) : Nat.toDigits 10 d = [Nat.digitChar d] := by
  interval_cases d <;> rfl

theorem takeWhile_append_stop {p : Char → Bool} (l : List Char) (c : Char) (r : List Char)
    (hl : ∀ x ∈ l, p x = true) (hc : p c = false) : (l ++ c :: r).takeWhile p = l := by
  induction l with
  | nil => simp [List.takeWhile, hc]
  | cons a l ih =>
    have ha : p a = true := hl a (List.mem_cons_self _ _)
    rw [List.cons_append, List.takeWhile_cons, ha]
    simp only [if_true]
    rw [ih (fun x hx => hl x (List.mem_cons_of_mem _ hx))]

theorem takeWhile_take_append_stop {p : Char → Bool} (n : Nat) (l : List Char) (c : Char)
    (r : List Char) (hl : ∀ x ∈ l, p x = true) (hc : p c = false) (hn : l.length ≤ n) :
    ((l ++ c :: r).take n).takeWhile p = l := by
  rw [List.take_append_eq_append_take, List.take_of_length_le hn]
  cases hk : n - l.length with
  | zero =>
    rw [List.take_zero, List.append_nil]
    exact takeWhile_eq_self_of_all hl
  | succ k =>
    rw [List.take_succ_cons]
    exact takeWhile_append_stop l c _ hl hc

theorem dropWhile_space_append {ws : List Char} (c : Char) (r : List Char)
    (hws : ∀ x ∈ ws, isspace x = true) (hc : isspace c = false) :
    (ws ++ c :: r).dropWhile isspace = c :: r := by
  induction ws with
  | nil => simp [List.dropWhile, hc]
  | cons a ws ih =>
    have ha : isspace a = true := hws a (List.mem_cons_self _ _)
    rw [List.cons_append, List.dropWhile_cons, ha]
    simp only [if_true]
    exact ih (fun x hx => hws x (List.mem_cons_of_mem _ hx))

theorem isdigit_ne_of {c d : Char} (hc : isdigit c = true) (hd : isdigit d = false) : c ≠ d := by
  intro e
  rw [e, hd] at hc
  cases hc

/-- The conversion `%7d` reads back an id that was written with `%d` in at
most seven characters, and stops at the comma. -/
theorem scan_int_decimal_text (id : Int) (rest : File) (h1 : -999999 ≤ id)
    (h2 : id ≤ 9999999) :
    scan_int (decimal_text id ++ ',' :: rest) = Scan.ok id (',' :: rest) := by
  have hcomma : isdigit ',' = false := by decide
  unfold decimal_text
  by_cases hneg : id < 0
  · rw [if_pos hneg]
    obtain ⟨d1, d2, d3⟩ := toDigits_spec id.natAbs
    have hlen : (Nat.toDigits 10 id.natAbs).length ≤ 6 :=
      toDigits_length_le _ 6 (by omega) (by norm_num)
    have htw := takeWhile_take_append_stop 6 (Nat.toDigits 10 id.natAbs) ',' rest d2 hcomma hlen
    show scan_int ('-' :: (Nat.toDigits 10 id.natAbs ++ ',' :: rest)) = _
    rw [scan_int, htw, if_neg d1, d3 0, List.drop_left]
    congr 1
    simp only [zero_mul, zero_add]
    omega
  · rw [if_neg hneg]
    obtain ⟨d1, d2, d3⟩ := toDigits_spec id.toNat
    have hlen : (Nat.toDigits 10 id.toNat).length ≤ 7 :=
      toDigits_length_le _ 7 (by omega) (by norm_num)
    have htw := takeWhile_take_append_stop 7 (Nat.toDigits 10 id.toNat) ',' rest d2 hcomma hlen
    obtain ⟨c, t, hct⟩ : ∃ c t, Nat.toDigits 10 id.toNat = c :: t :=
      List.exists_cons_of_ne_nil d1
    have hc : isdigit c = true := d2 c (by rw [hct]; exact List.mem_cons_self _ _)
    have hm : c ≠ '-' := isdigit_ne_of hc (by decide)
    have hp : c ≠ '+' := isdigit_ne_of hc (by decide)
    have key : scan_int (c :: (t ++ ',' :: rest)) =
        if ((c :: (t ++ ',' :: rest)).take 7).takeWhile isdigit = [] then
          Scan.fail (c :: (t ++ ',' :: rest))
        else Scan.ok
          ((read_digits (((c :: (t ++ ',' :: rest)).take 7).takeWhile isdigit) 0 : Nat) : Int)
          ((c :: (t ++ ',' :: rest)).drop
            (((c :: (t ++ ',' :: rest)).take 7).takeWhile isdigit).length) := by
      unfold scan_int
      split
      · rename_i heq
        exact absurd (List.cons.inj heq).1 hm
      · rename_i heq
        exact absurd (List.cons.inj heq).1 hp
      · rfl
    rw [← List.cons_append, ← hct] at key
    rw [key, htw, if_neg d1, d3 0, List.drop_left]
    congr 1
    simp only [zero_mul, zero_add]
    omega

/-- The conversions `%30[^,]` and `%50[^,]` read back a field that fits
and stop at the comma. -/
theorem scan_set_field (n : Nat) (field : CString) (rest : File) (hne : field ≠ [])
    (hlen : field.length ≤ n) (hcomma : ',' ∉ field) (hnul : NUL ∉ field) :
    scan_set n (field ++ ',' :: rest) = Scan.ok field (',' :: rest) := by
  have htw := takeWhile_take_append_stop (p := fun c => c != ',') n field ',' rest
    (fun x hx => by
      simp only [bne_iff_ne, ne_eq]
      rintro rfl
      exact hcomma hx) (by simp) hlen
  unfold scan_set
  rw [htw, if_neg hne, List.drop_left]
  congr 1
  apply takeWhile_eq_self_of_all
  intro x hx
  simp only [bne_iff_ne, ne_eq]
  rintro rfl
  exact hnul hx

/-- The conversion `%s` reads back a grade of one or two characters and
stops at the newline. -/
theorem scan_word_grade (grade : CString) (rest : File) (hne : grade ≠ [])
    (hlen : grade.length ≤ 2) (hnul : NUL ∉ grade) (hsp : ∀ c ∈ grade, isspace c = false) :
    scan_word (grade ++ '\n' :: rest) = some (Scan.ok grade ('\n' :: rest)) := by
  obtain ⟨c, t, hct⟩ := List.exists_cons_of_ne_nil hne
  have hstart : (grade ++ '\n' :: rest).dropWhile isspace = grade ++ '\n' :: rest := by
    rw [hct, List.cons_append, List.dropWhile_cons,
      hsp c (by rw [hct]; exact List.mem_cons_self _ _)]
    simp
  have hword : (grade ++ '\n' :: rest).takeWhile (fun c => !isspace c) = grade :=
    takeWhile_append_stop grade '\n' rest (fun x hx => by simp [hsp x hx]) (by decide)
  unfold scan_word
  simp only [hstart, hword]
  rw [if_neg hne, if_neg (by omega), List.drop_left]
  congr 2
  apply takeWhile_eq_self_of_all
  intro x hx
  simp only [bne_iff_ne, ne_eq]
  rintro rfl
  exact hnul hx

/-- The `float` nearest to a number of tenths up to 100.0 prints, with one
decimal digit, as that number of tenths. -/
theorem round_even_stored_tenths (k : Nat) (hk : k ≤ 1000) :
    round_even (|to_float ((k : ℚ) / 10)| * 10) = (k : ℤ) := by
  have hq : (0 : ℚ) ≤ (k : ℚ) / 10 := by positivity
  have hk' : (k : ℚ) ≤ 1000 := by exact_mod_cast hk
  have hx : 0 ≤ to_float ((k : ℚ) / 10) := to_float_nonneg hq
  rw [abs_of_nonneg hx]
  have e24 : (2 : ℚ) ^ (-((24 : ℕ) : ℤ)) = 1 / 16777216 := by norm_num [zpow_neg]
  have e := round_to_bits_error 24 ((k : ℚ) / 10) hq
  rw [e24, abs_le] at e
  change _ ∧ to_float ((k : ℚ) / 10) - (k : ℚ) / 10 ≤ _ at e
  obtain ⟨e1, e2⟩ := e
  have e1' : -((k : ℚ) / 10 * (1 / 16777216)) ≤ to_float ((k : ℚ) / 10) - (k : ℚ) / 10 := e1
  have r := round_even_error (to_float ((k : ℚ) / 10) * 10)
  rw [abs_le] at r
  obtain ⟨r1, r2⟩ := r
  have b1 : ((round_even (to_float ((k : ℚ) / 10) * 10) : ℤ) : ℚ) < ((k : ℤ) : ℚ) + 1 := by
    push_cast; linarith
  have b2 : ((k : ℤ) : ℚ) - 1 < ((round_even (to_float ((k : ℚ) / 10) * 10) : ℤ) : ℚ) := by
    push_cast; linarith
  have c1 : round_even (to_float ((k : ℚ) / 10) * 10) < (k : ℤ) + 1 := by exact_mod_cast b1
  have c2 : (k : ℤ) - 1 < round_even (to_float ((k : ℚ) / 10) * 10) := by exact_mod_cast b2
  omega

theorem print_tenths_stored (k : Nat) (hk : k ≤ 1000) :
    print_tenths (to_float ((k : ℚ) / 10)) = tenths_text k := by
  have hx : ¬ to_float ((k : ℚ) / 10) < 0 := not_lt.mpr (to_float_nonneg (by positivity))
  unfold print_tenths tenths_text
  rw [if_neg hx, round_even_stored_tenths k hk]
  simp

/-- The conversion `%f` reads marks written with one decimal digit as the
`float` nearest to them, and stops at the comma. -/
theorem scan_float_tenths (k : Nat) (rest : File) :
    scan_float (tenths_text k ++ ',' :: rest)
      = some (Scan.ok (to_float ((k : ℚ) / 10)) (',' :: rest)) := by
  obtain ⟨w1, w2, w3⟩ := toDigits_spec (k / 10)
  have hmod : k % 10 < 10 := Nat.mod_lt k (by norm_num)
  have hF : Nat.toDigits 10 (k % 10) = [Nat.digitChar (k % 10)] := toDigits_digit hmod
  have hFd := digitChar_isdigit hmod
  obtain ⟨c, t, hct⟩ := List.exists_cons_of_ne_nil w1
  have hc : isdigit c = true := w2 c (by rw [hct]; exact List.mem_cons_self _ _)
  have htext : tenths_text k ++ ',' :: rest
      = Nat.toDigits 10 (k / 10) ++ '.' :: Nat.digitChar (k % 10) :: ',' :: rest := by
    unfold tenths_text
    rw [hF]
    simp
  have hstart : (tenths_text k ++ ',' :: rest).dropWhile isspace
      = Nat.toDigits 10 (k / 10) ++ '.' :: Nat.digitChar (k % 10) :: ',' :: rest := by
    rw [htext, hct, List.cons_append, List.dropWhile_cons, isdigit_not_isspace hc]
    simp
  have hsign : skip_sign
      (Nat.toDigits 10 (k / 10) ++ '.' :: Nat.digitChar (k % 10) :: ',' :: rest)
      = Nat.toDigits 10 (k / 10) ++ '.' :: Nat.digitChar (k % 10) :: ',' :: rest := by
    rw [hct, List.cons_append]
    unfold skip_sign
    split
    · rename_i heq
      exact absurd (List.cons.inj heq).1 (isdigit_ne_of hc (by decide))
    · rename_i heq
      exact absurd (List.cons.inj heq).1 (isdigit_ne_of hc (by decide))
    · rfl
  have hneg : ((Nat.toDigits 10 (k / 10) ++ '.' :: Nat.digitChar (k % 10) :: ',' :: rest).head?
      == some '-') = false := by
    rw [hct, List.cons_append, List.head?_cons]
    simp only [beq_eq_false_iff_ne, ne_eq, Option.some.injEq]
    exact isdigit_ne_of hc (by decide)
  have hwhole : (Nat.toDigits 10 (k / 10) ++ '.' :: Nat.digitChar (k % 10) :: ',' :: rest).takeWhile
      isdigit = Nat.toDigits 10 (k / 10) :=
    takeWhile_append_stop _ '.' _ w2 (by decide)
  have hfrac : fraction_digits ('.' :: Nat.digitChar (k % 10) :: ',' :: rest)
      = [Nat.digitChar (k % 10)] := by
    show (Nat.digitChar (k % 10) :: ',' :: rest).takeWhile isdigit = _
    exact takeWhile_append_stop [Nat.digitChar (k % 10)] ',' rest
      (fun x hx => by rw [List.mem_singleton] at hx; rw [hx]; exact hFd.1) (by decide)
  have hskip : skip_fraction ('.' :: Nat.digitChar (k % 10) :: ',' :: rest) = ',' :: rest := by
    show (Nat.digitChar (k % 10) :: ',' :: rest).drop
      ((Nat.digitChar (k % 10) :: ',' :: rest).takeWhile isdigit).length = _
    have := takeWhile_append_stop [Nat.digitChar (k % 10)] ',' rest
      (fun x hx => by rw [List.mem_singleton] at hx; rw [hx]; exact hFd.1)
      (by decide : isdigit ',' = false)
    rw [List.singleton_append] at this
    rw [this]
    rfl
  have hval : ((read_digits (Nat.toDigits 10 (k / 10)) 0 : Nat) : ℚ)
      + ((read_digits [Nat.digitChar (k % 10)] 0 : Nat) : ℚ) / (10 : ℚ) ^ 1 = (k : ℚ) / 10 := by
    rw [w3 0]
    have hr : read_digits [Nat.digitChar (k % 10)] 0 = k % 10 := by
      simp [read_digits, hFd.1, hFd.2]
    rw [hr]
    have hdm : (k : ℚ) = 10 * ((k / 10 : Nat) : ℚ) + ((k % 10 : Nat) : ℚ) := by
      exact_mod_cast (Nat.div_add_mod k 10).symm
    simp only [zero_mul, zero_add, pow_one]
    rw [hdm]
    field_simp
    ring
  unfold scan_float
  simp only [hstart, hsign, hneg, hwhole, List.drop_left, hfrac, hskip, List.length_singleton,
    hval]
  rw [if_neg (fun h => w1 h.1)]
  simp

theorem decimal_text_head (id : Int) :
    ∃ c t, decimal_text id = c :: t ∧ isspace c = false := by
  unfold decimal_text
  by_cases hneg : id < 0
  · rw [if_pos hneg]
    exact ⟨'-', _, rfl, by decide⟩
  · rw [if_neg hneg]
    obtain ⟨d1, d2, _⟩ := toDigits_spec id.toNat
    obtain ⟨c, t, hct⟩ := List.exists_cons_of_ne_nil d1
    exact ⟨c, t, hct, isdigit_not_isspace (d2 c (by rw [hct]; exact List.mem_cons_self _ _))⟩

/-- The data line of a row that fits, followed by more of the file. -/
theorem row_line_append (w : Row) (rest : File) :
    w.line ++ rest = decimal_text w.id ++ ',' :: (w.name ++ ',' :: (w.programme ++
      ',' :: (tenths_text w.tenths ++ ',' :: (w.grade ++ '\n' :: rest)))) := by
  unfold Row.line
  simp only [List.append_assoc, List.cons_append, List.nil_append]

/-- A call of `fscanf` in `open_db` on white space followed by the data
line of a row that fits gives the record of the row and stops before the
newline of the line. -/
theorem scan_record_row (w : Row) (hw : w.Fits) (ws : List Char) (rest : File)
    (hws : ∀ x ∈ ws, isspace x = true) :
    scan_record (ws ++ (w.line ++ rest)) = some (Scanned.record w.record ('\n' :: rest)) := by
  obtain ⟨⟨i1, i2⟩, ⟨n1, n2, n3, n4⟩, ⟨p1, p2, p3, p4⟩, hk, ⟨g1, g2, g3, g4⟩⟩ := hw
  obtain ⟨c, t, hct, hc⟩ := decimal_text_head w.id
  have hint := scan_int_decimal_text w.id (w.name ++ ',' :: (w.programme ++
      ',' :: (tenths_text w.tenths ++ ',' :: (w.grade ++ '\n' :: rest)))) i1 i2
  have hname := scan_set_field MAX_NAME_LEN w.name (w.programme ++
      ',' :: (tenths_text w.tenths ++ ',' :: (w.grade ++ '\n' :: rest))) n1 n2 n3 n4
  have hprog := scan_set_field MAX_PROGRAMME_LEN w.programme
      (tenths_text w.tenths ++ ',' :: (w.grade ++ '\n' :: rest)) p1 p2 p3 p4
  have hmarks := scan_float_tenths w.tenths (w.grade ++ '\n' :: rest)
  have hgrade := scan_word_grade w.grade rest g1 g2 g3 g4
  have hdrop : (ws ++ (w.line ++ rest)).dropWhile isspace
      = c :: (t ++ ',' :: (w.name ++ ',' :: (w.programme ++
        ',' :: (tenths_text w.tenths ++ ',' :: (w.grade ++ '\n' :: rest))))) := by
    rw [row_line_append, hct, List.cons_append]
    exact dropWhile_space_append c _ hws hc
  rw [hct, List.cons_append] at hint
  unfold scan_record
  rw [hdrop]
  simp only [hint, hname, hprog, hmarks, hgrade]
  rfl

/-- The loop of `open_db` on the data lines of rows that fit, after white
space: every row is appended as its record, nothing is reported, and the
loop ends at the end of the file. -/
theorem open_loop_rows (rows : List Row) (hrows : ∀ w ∈ rows, w.Fits) :
    ∀ (st : Store) (ws : List Char), (∀ x ∈ ws, isspace x = true) →
      ∃ left, while_true open_body st (ws ++ (rows.map Row.line).flatten)
        = some ⟨⟨st.records ++ rows.map Row.record, st.node_count + rows.length,
            st.is_file_open, st.is_changes_made⟩, [], left⟩ := by
  induction rows with
  | nil =>
    intro st ws hws
    refine ⟨ws, ?_⟩
    have hb : open_body st ws = some (Step.done st [] ws) := by
      unfold open_body scan_record
      simp only [dropWhile_eq_nil_of_all hws]
    rw [List.map_nil, List.flatten_nil, List.append_nil, while_true_done open_body hb]
    simp
  | cons w rows ih =>
    intro st ws hws
    have hw : w.Fits := hrows w (List.mem_cons_self _ _)
    have hrest : ∀ v ∈ rows, v.Fits := fun v hv => hrows v (List.mem_cons_of_mem _ hv)
    obtain ⟨left, hleft⟩ := ih hrest
      ⟨st.records ++ [w.record], st.node_count + 1, st.is_file_open, st.is_changes_made⟩
      ['\n'] (fun x hx => by rw [List.mem_singleton] at hx; rw [hx]; decide)
    refine ⟨left, ?_⟩
    have hb : open_body st (ws ++ ((w :: rows).map Row.line).flatten)
        = some (Step.again ⟨st.records ++ [w.record], st.node_count + 1, st.is_file_open,
            st.is_changes_made⟩ [] (['\n'] ++ (rows.map Row.line).flatten)) := by
      unfold open_body
      rw [List.map_cons, List.flatten_cons, scan_record_row w hw ws _ hws]
      rfl
    rw [while_true_again open_body open_body_reads hb, hleft]
    simp only [Option.map_some', List.nil_append, List.append_assoc, List.singleton_append,
      List.map_cons, List.length_cons, Nat.cast_add, Nat.cast_one]
    congr 3
    ring

/-- The function `skip_header_lines` passes over as many header lines as
it is asked to, when each of them fits its buffer. -/
theorem skip_header_lines_lines (header : List CString) (hh : ∀ l ∈ header, HeaderLine l)
    (data : File) :
    skip_header_lines header.length ((header.map (fun l => l ++ ['\n'])).flatten ++ data)
      = data := by
  induction header with
  | nil => simp [skip_header_lines]
  | cons l header ih =>
    obtain ⟨h1, h2⟩ := hh l (List.mem_cons_self _ _)
    have hfeed : ((l :: header).map (fun l => l ++ ['\n'])).flatten ++ data
        = feed l ((header.map (fun l => l ++ ['\n'])).flatten ++ data) := by
      simp [feed]
    rw [hfeed]
    obtain ⟨c, t, hct⟩ : ∃ c t, feed l ((header.map (fun l => l ++ ['\n'])).flatten ++ data)
        = c :: t := List.exists_cons_of_ne_nil (by simp [feed])
    have hread := fgets_read_feed 127 l ((header.map (fun l => l ++ ['\n'])).flatten ++ data) h2
    rw [if_pos (by omega)] at hread
    rw [List.length_cons, hct, skip_header_lines, ← hct, hread]
    exact ih (fun x hx => hh x (List.mem_cons_of_mem _ hx))

theorem record_line_row (w : Row) (hw : w.Fits) : record_line w.record = w.line := by
  obtain ⟨_, _, _, hk, _⟩ := hw
  unfold record_line Row.line Row.record
  simp only
  rw [print_tenths_stored w.tenths hk]

/-- What `open_db` makes of a file of five header lines that fit the
buffer of `skip_header_lines` and the data lines of rows that fit. -/
theorem open_db_rows (st : Store) (header : List CString) (rows : List Row)
    (hlen : header.length = 5) (hh : ∀ l ∈ header, HeaderLine l)
    (hrows : ∀ w ∈ rows, w.Fits) :
    open_db (some ((header.map (fun l => l ++ ['\n'])).flatten
        ++ (rows.map Row.line).flatten)) st
      = some (⟨st.records ++ rows.map Row.record, st.node_count + rows.length, 1,
          st.is_changes_made⟩, [Notice.opened]) := by
  have hskip := skip_header_lines_lines header hh (rows.map Row.line).flatten
  rw [hlen] at hskip
  obtain ⟨left, hleft⟩ := open_loop_rows rows hrows st [] (by simp)
  rw [List.nil_append] at hleft
  unfold open_db
  simp only [hskip, hleft]
  rfl

/-! ## Commands, saving and the flow of input: the claims -/

/-- Claim C31: on a store that is not open, a command other than `1` and
`OPEN` (in any letter case) leaves the record list, the count and both
flags as they were. The program ends on `2` and `EXIT`, shows the help on
`3` and `HELP`, and answers every other text, `SHOW ALL`, `INSERT`,
`QUERY`, `UPDATE`, `DELETE`, `SAVE` and `CLOSE` among them, with the
message for an invalid command. -/
theorem closed_store_commands (st : Store) (cmd : CString) (file : Option File)
    (writable : Bool) (stdin : Stdin) (hclosed : st.is_file_open = 0)
    (hcmd : ¬(cmd = ['1'] ∨ cmd.map tolower = "open".toList)) :
    run_command cmd st file writable stdin =
      (if cmd = ['2'] ∨ cmd.map tolower = "exit".toList then
        some ⟨Flow.stop st, [Notice.goodbye], stdin⟩
      else if cmd = ['3'] ∨ cmd.map tolower = "help".toList then
        (display_press_enter stdin).map (fun s => ⟨Flow.next st, [Notice.help], s⟩)
      else some ⟨Flow.next st, [Notice.invalid_command], stdin⟩) ∧
    (∀ r, run_command cmd st file writable stdin = some r → r.result.store = st) ∧
    (cmd.map tolower ∈ ["show all", "insert", "query", "update", "delete", "save",
        "close"].map String.toList →
      run_command cmd st file writable stdin
        = some ⟨Flow.next st, [Notice.invalid_command], stdin⟩) := by
  have hopen : "OPEN".toList.map tolower = "open".toList := by decide
  have hexit : "EXIT".toList.map tolower = "exit".toList := by decide
  have hhelp : "HELP".toList.map tolower = "help".toList := by decide
  have hrun : run_command cmd st file writable stdin =
      (if cmd = ['2'] ∨ cmd.map tolower = "exit".toList then
        some ⟨Flow.stop st, [Notice.goodbye], stdin⟩
      else if cmd = ['3'] ∨ cmd.map tolower = "help".toList then
        (display_press_enter stdin).map (fun s => ⟨Flow.next st, [Notice.help], s⟩)
      else some ⟨Flow.next st, [Notice.invalid_command], stdin⟩) := by
    unfold run_command
    rw [if_neg (not_not.mpr hclosed)]
    simp only [strcasecmp_eq_zero_iff, hopen, hexit, hhelp]
    rw [if_neg hcmd]
  refine ⟨hrun, ?_, ?_⟩
  · intro r hr
    rw [hrun] at hr
    split_ifs at hr
    · cases hr; rfl
    · cases hd : display_press_enter stdin with
      | none => rw [hd] at hr; cases hr
      | some s => rw [hd] at hr; cases hr; rfl
    · cases hr; rfl
  · intro hm
    rw [hrun]
    simp only [List.map_cons, List.map_nil, List.mem_cons, List.mem_singleton,
      List.not_mem_nil, or_false] at hm
    have h2 : ¬(cmd = ['2'] ∨ cmd.map tolower = "exit".toList) := by
      rintro (h | h)
      · rw [h] at hm; revert hm; decide
      · rw [h] at hm; revert hm; decide
    have h3 : ¬(cmd = ['3'] ∨ cmd.map tolower = "help".toList) := by
      rintro (h | h)
      · rw [h] at hm; revert hm; decide
      · rw [h] at hm; revert hm; decide
    rw [if_neg h2, if_neg h3]

theorem closed_store_commands_witness :
    run_command "Insert".toList initial_store (some sample_file) true "2301236\n".toList =
      (if "Insert".toList = ['2'] ∨ "Insert".toList.map tolower = "exit".toList then
        some ⟨Flow.stop initial_store, [Notice.goodbye], "2301236\n".toList⟩
      else if "Insert".toList = ['3'] ∨ "Insert".toList.map tolower = "help".toList then
        (display_press_enter "2301236\n".toList).map
          (fun s => ⟨Flow.next initial_store, [Notice.help], s⟩)
      else some ⟨Flow.next initial_store, [Notice.invalid_command], "2301236\n".toList⟩) ∧
    (∀ r, run_command "Insert".toList initial_store (some sample_file) true
        "2301236\n".toList = some r → r.result.store = initial_store) ∧
    ("Insert".toList.map tolower ∈ ["show all", "insert", "query", "update", "delete",
        "save", "close"].map String.toList →
      run_command "Insert".toList initial_store (some sample_file) true "2301236\n".toList
        = some ⟨Flow.next initial_store, [Notice.invalid_command], "2301236\n".toList⟩) :=
  closed_store_commands initial_store "Insert".toList (some sample_file) true
    "2301236\n".toList rfl (by decide)

/-- Claim C32: `save_db` leaves the records, the count and the open flag as
they were, whether the file can be opened or not. When the file can be
opened for writing the dirty flag is 0 afterwards and the file holds the
header and a line for each record; when it cannot, the store, the dirty
flag with it, and the file are as before and the error is reported. -/
theorem save_db_frame (st : Store) (writable : Bool) (disk : Option File) :
    (save_db writable st).1.records = st.records ∧
      (save_db writable st).1.node_count = st.node_count ∧
      (save_db writable st).1.is_file_open = st.is_file_open ∧
      (save_db true st).1.is_changes_made = 0 ∧
      saved_file true st disk = some (save_text st.records) ∧
      save_db false st = (st, [Notice.file_not_found]) ∧
      saved_file false st disk = disk := by
  refine ⟨?_, ?_, ?_, rfl, rfl, rfl, rfl⟩ <;> cases writable <;> rfl

/-- Claim C38, the failing input: `get_marks` accepts the line that
consists of the single character `.`, which has no digit, and stores the
marks 0. -/
theorem get_marks_accepts_lone_point :
    get_marks 50 ".\n".toList = some ⟨1, 0, none, []⟩ ∧
      ∀ c ∈ ".".toList, isdigit c = false := by
  constructor
  · decide!
  · decide

/-- Claim C39, the failing input: a call of `get_choice` on the line of two
spaces and `y` takes the two spaces and leaves `y` and the newline in the
input, and a call of `get_id` on a line of eight spaces and an id leaves the
id: `clean_fgets` returns before it clears the rest of the line when the
buffer holds white space only. The next call reads what was left. -/
theorem validator_leaves_rest_of_line :
    get_choice "  y\nn\n".toList
        = some ⟨-1, (), some Diag.choice_invalid, "y\nn\n".toList⟩ ∧
      get_id 0 "        2301299\n".toList
        = some ⟨0, 0, some Diag.id_empty, "2301299\n".toList⟩ ∧
      while_true confirm_body () "  y\nn\n".toList
        = some ⟨1, [Notice.error Diag.choice_invalid], "n\n".toList⟩ := by
  refine ⟨?_, ?_, ?_⟩
  · decide!
  · decide!
  · decide!

/-- Claim C35, the failing input: at the confirmation of `insert_record`
the line of two spaces and `y` is rejected, and the prompt that follows
reads the `y` that was left of it, so that the record is inserted; without
that line the answer is the `n` of the next line and nothing is
inserted. -/
theorem insert_record_rejected_line_counts :
    insert_record sample_store "2301236\nCy Ng\nLaw\n70\n  y\nn\n".toList
        = some ⟨⟨[sample_ada, sample_bob,
            ⟨2301236, "Cy Ng".toList, "Law".toList, 70, "B+".toList⟩], 3, 1, 1⟩,
          [Notice.error Diag.choice_invalid, Notice.inserted], "n\n".toList⟩ ∧
      insert_record sample_store "2301236\nCy Ng\nLaw\n70\nn\n".toList
        = some ⟨sample_store, [Notice.cancelled], []⟩ := by
  constructor
  · decide!
  · decide!

/-! ## The end of the guided operations: the claims -/

/-- Claim C36: whenever `update_record` returns, the ids of the records, in
their order, the number of records and the count are those from before the
call, and either the list is as it was, or it differs at most at one
position: that of the first record with the id entered on the input of the
call, the first id `get_id` accepted there that a record has. -/
theorem update_record_frame (st : Store) (stdin : Stdin) (r : Ran Store)
    (h : update_record st stdin = some r) :
    r.result.records.map (fun x => x.id) = st.records.map (fun x => x.id) ∧
      r.result.records.length = st.records.length ∧
      r.result.node_count = st.node_count ∧
      (r.result.records = st.records ∨
        ∃ i k s1, Prompted get_id (Present st.records) 0 stdin i s1 ∧
          find_index i st.records = some k ∧
          (∀ x, st.records[k]? = some x → x.id = i) ∧
          ∀ j, j ≠ k → r.result.records[j]? = st.records[j]?) := by
  rcases update_record_at h with h1 | ⟨i, k, s1, hi, hk, f, f1, f2, f3, _⟩
  · rw [h1]
    exact ⟨rfl, rfl, rfl, Or.inl rfl⟩
  · refine ⟨by rw [f2, modify_at_map_id f f1], by rw [f2, length_modify_at], f3,
      Or.inr ⟨i, k, s1, hi, hk, ?_, fun j hj => by rw [f2, modify_at_getElem? f k j _ hj]⟩⟩
    intro x hx
    obtain ⟨pre, y, post, e1, e2, e3, _⟩ := find_index_spec i st.records k hk
    rw [e1, ← e2] at hx
    simp only [List.getElem?_append_right (le_refl _), Nat.sub_self, List.getElem?_cons_zero,
      Option.some.injEq] at hx
    rw [← hx]
    exact e3

theorem update_record_frame_witness :
    (⟨⟨[sample_ada, ⟨2301235, "Rob".toList, "Data Science".toList, 55, "C+".toList⟩],
        2, 1, 1⟩, [Notice.name_updated, Notice.marks_updated, Notice.cancelled], []⟩ :
        Ran Store).result.records.map (fun x => x.id)
      = sample_store.records.map (fun x => x.id) ∧
      (⟨⟨[sample_ada, ⟨2301235, "Rob".toList, "Data Science".toList, 55, "C+".toList⟩],
        2, 1, 1⟩, [Notice.name_updated, Notice.marks_updated, Notice.cancelled], []⟩ :
        Ran Store).result.records.length = sample_store.records.length ∧
      (⟨⟨[sample_ada, ⟨2301235, "Rob".toList, "Data Science".toList, 55, "C+".toList⟩],
        2, 1, 1⟩, [Notice.name_updated, Notice.marks_updated, Notice.cancelled], []⟩ :
        Ran Store).result.node_count = sample_store.node_count ∧
      ((⟨⟨[sample_ada, ⟨2301235, "Rob".toList, "Data Science".toList, 55, "C+".toList⟩],
        2, 1, 1⟩, [Notice.name_updated, Notice.marks_updated, Notice.cancelled], []⟩ :
        Ran Store).result.records = sample_store.records ∨
        ∃ i k s1, Prompted get_id (Present sample_store.records) 0
            "2301235\n1\nRob\ny\n3\n55\ny\nq\n".toList i s1 ∧
          find_index i sample_store.records = some k ∧
          (∀ x, sample_store.records[k]? = some x → x.id = i) ∧
          ∀ j, j ≠ k →
            (⟨⟨[sample_ada, ⟨2301235, "Rob".toList, "Data Science".toList, 55,
              "C+".toList⟩], 2, 1, 1⟩,
              [Notice.name_updated, Notice.marks_updated, Notice.cancelled], []⟩ :
              Ran Store).result.records[j]? = sample_store.records[j]?) :=
  update_record_frame sample_store "2301235\n1\nRob\ny\n3\n55\ny\nq\n".toList
    ⟨⟨[sample_ada, ⟨2301235, "Rob".toList, "Data Science".toList, 55, "C+".toList⟩], 2, 1, 1⟩,
      [Notice.name_updated, Notice.marks_updated, Notice.cancelled], []⟩ (by decide!)

/-! ## Open, then save: the claim -/

/-- Claim C33, counterexample: a file of five header lines and three data
lines with one decimal digit in the marks and no comma inside a field. The
id `0012345` is written back as `12345`, the line whose name has 31
characters is reported as malformed and not loaded, and the marks
`16777217.0`, which no `float` holds, are written back as `16777216.0`. -/
theorem open_then_save_changes_lines :
    open_db (some (file_header ++
        ("0012345,Ada Lim,Computer Science,85.0,A+\n" ++
          "2301235,Maximilian Alexander Rodriguezz,Data Science,40.0,D\n" ++
          "2301236,Cy Ng,Law,16777217.0,A+\n").toList)) initial_store
      = some (⟨[⟨12345, "Ada Lim".toList, "Computer Science".toList, 85, "A+".toList⟩,
            ⟨2301236, "Cy Ng".toList, "Law".toList, 16777216, "A+".toList⟩], 2, 1, 0⟩,
          [Notice.malformed_line, Notice.opened]) ∧
      save_text [⟨12345, "Ada Lim".toList, "Computer Science".toList, 85, "A+".toList⟩,
          ⟨2301236, "Cy Ng".toList, "Law".toList, 16777216, "A+".toList⟩]
        = file_header ++ ("12345,Ada Lim,Computer Science,85.0,A+\n" ++
            "2301236,Cy Ng,Law,16777216.0,A+\n").toList := by
  constructor
  · decide!
  · decide!

/-- Claim C33, amended: for a file of five header lines of at most 126
characters each, followed by the data lines of rows that fit (an id of at
most seven characters as `%d` writes it, a name of 1 to 30 and a programme
of 1 to 50 characters, marks from 0.0 to 100.0 written as digits, a point
and one digit, a grade of one or two characters without white space, and no
comma or NUL inside a field), `open_db` on a store without records loads
the rows in their order and reports nothing, and `save_db` right after it
writes its header and the same data lines, in the same order and with the
same content. -/
theorem open_then_save_round_trip (st : Store) (header : List CString) (rows : List Row)
    (hst : st.records = []) (hlen : header.length = 5) (hh : ∀ l ∈ header, HeaderLine l)
    (hrows : ∀ w ∈ rows, w.Fits) :
    ∃ st1, open_db (some ((header.map (fun l => l ++ ['\n'])).flatten
          ++ (rows.map Row.line).flatten)) st = some (st1, [Notice.opened]) ∧
      st1.records = rows.map Row.record ∧
      saved_file true st1 (some ((header.map (fun l => l ++ ['\n'])).flatten
          ++ (rows.map Row.line).flatten))
        = some (file_header ++ (rows.map Row.line).flatten) ∧
      skip_header_lines 5 (file_header ++ (rows.map Row.line).flatten)
        = (rows.map Row.line).flatten := by
  refine ⟨_, open_db_rows st header rows hlen hh hrows, ?_, ?_, ?_⟩
  · simp only [hst, List.nil_append]
  · unfold saved_file save_text
    simp only [hst, List.nil_append, if_true, List.map_map]
    congr 3
    apply List.map_congr_left
    intro w hw
    exact record_line_row w (hrows w hw)
  · have hhead : file_header
        = ((["==============================", "File Name: P14_8-CMS.txt",
            "Database Name: StudentRecords", "==============================",
            "[ID],[Name],[Programme],[Marks],[Grade]"].map String.toList).map
              (fun l => l ++ ['\n'])).flatten := by decide
    have hlines : ∀ l ∈ ["==============================", "File Name: P14_8-CMS.txt",
        "Database Name: StudentRecords", "==============================",
        "[ID],[Name],[Programme],[Marks],[Grade]"].map String.toList, HeaderLine l := by
      intro l hl
      simp only [List.map_cons, List.map_nil, List.mem_cons, List.not_mem_nil,
        or_false] at hl
      rcases hl with h | h | h | h | h <;> (rw [h]; unfold HeaderLine; decide)
    rw [hhead]
    exact skip_header_lines_lines _ hlines _

theorem open_then_save_round_trip_witness :
    ∃ st1, open_db (some (((["==============================", "File Name: P14_8-CMS.txt",
            "Database Name: StudentRecords", "==============================",
            "[ID],[Name],[Programme],[Marks],[Grade]"].map String.toList).map
              (fun l => l ++ ['\n'])).flatten
          ++ (([⟨2301234, "Ada Lim".toList, "Computer Science".toList, 853, "A+".toList⟩,
            ⟨2301235, "Bob Tan".toList, "Data Science".toList, 400, "D".toList⟩] :
              List Row).map Row.line).flatten)) initial_store = some (st1, [Notice.opened]) ∧
      st1.records
        = ([⟨2301234, "Ada Lim".toList, "Computer Science".toList, 853, "A+".toList⟩,
            ⟨2301235, "Bob Tan".toList, "Data Science".toList, 400, "D".toList⟩] :
              List Row).map Row.record ∧
      saved_file true st1 (some (((["==============================",
            "File Name: P14_8-CMS.txt", "Database Name: StudentRecords",
            "==============================",
            "[ID],[Name],[Programme],[Marks],[Grade]"].map String.toList).map
              (fun l => l ++ ['\n'])).flatten
          ++ (([⟨2301234, "Ada Lim".toList, "Computer Science".toList, 853, "A+".toList⟩,
            ⟨2301235, "Bob Tan".toList, "Data Science".toList, 400, "D".toList⟩] :
              List Row).map Row.line).flatten))
        = some (file_header
          ++ (([⟨2301234, "Ada Lim".toList, "Computer Science".toList, 853, "A+".toList⟩,
            ⟨2301235, "Bob Tan".toList, "Data Science".toList, 400, "D".toList⟩] :
              List Row).map Row.line).flatten) ∧
      skip_header_lines 5 (file_header
          ++ (([⟨2301234, "Ada Lim".toList, "Computer Science".toList, 853, "A+".toList⟩,
            ⟨2301235, "Bob Tan".toList, "Data Science".toList, 400, "D".toList⟩] :
              List Row).map Row.line).flatten)
        = (([⟨2301234, "Ada Lim".toList, "Computer Science".toList, 853, "A+".toList⟩,
            ⟨2301235, "Bob Tan".toList, "Data Science".toList, 400, "D".toList⟩] :
              List Row).map Row.line).flatten :=
  open_then_save_round_trip initial_store
    (["==============================", "File Name: P14_8-CMS.txt",
      "Database Name: StudentRecords", "==============================",
      "[ID],[Name],[Programme],[Marks],[Grade]"].map String.toList)
    [⟨2301234, "Ada Lim".toList, "Computer Science".toList, 853, "A+".toList⟩,
      ⟨2301235, "Bob Tan".toList, "Data Science".toList, 400, "D".toList⟩]
    rfl rfl
    (by
      intro l hl
      simp only [List.map_cons, List.map_nil, List.mem_cons, List.not_mem_nil,
        or_false] at hl
      rcases hl with h | h | h | h | h <;> (rw [h]; unfold HeaderLine; decide))
    (by
      intro w hw
      simp only [List.mem_cons, List.not_mem_nil, or_false] at hw
      rcases hw with h | h <;> (rw [h]; unfold Row.Fits; decide))

end CMS
